import Mathlib

/-!
# The persistent vector of `immutable/array.cc` and its transient

A shallow embedding of the trie engine (`ArrayImp::detail`, `ArrayImp`) and of
the typed surface of `immutable/array.h` (`Array<T>`, `TransientArray<T>`).

* Trie nodes live in an explicit heap (a list of nodes, an address is an
  index). Persistent operations only allocate; transient operations overwrite
  nodes in place, exactly where the source assigns through a pointer.
* `uint32` arithmetic is `Nat` arithmetic modulo `2 ^ 32` (`add32`, `sub32`).
* Every operation returns an `Option`: `none` stands for undefined behaviour of
  the source (a null or mistyped pointer is dereferenced, a slot outside the
  allocated storage is touched, a shift count is 32 or more) or for a level
  recursion that does not come back within its fuel.
* Reference counts are not modelled and nothing is ever freed, with one
  exception: where `splice` hands out a header that its local `ref<A>` has
  already released and freed, the result is `none`.
* A fresh node is built as a value and then allocated, so the addresses of
  fresh nodes are handed out in an order that may differ from the source;
  addresses carry no meaning beyond identity.
-/

namespace immutable

/-! ## Machine words and constants -/

/-- The modulus of `uint32` arithmetic. -/
def U32 : Nat := 4294967296

/-- Addition of two `uint32` values. -/
def add32 (a b : Nat) : Nat := (a + b) % U32

/-- Subtraction of two `uint32` values; the result wraps below zero. -/
def sub32 (a b : Nat) : Nat := (a + (U32 - b % U32)) % U32

/-- The constant `ArrayImp::BITS`. -/
def BITS : Nat := 5

/-- The constant `ArrayImp::BRANCHES = 1 << BITS`. -/
def BRANCHES : Nat := 1 <<< BITS

/-- The constant `ArrayImp::MASK = BRANCHES - 1`. -/
def MASK : Nat := BRANCHES - 1

/-- The sentinel `END = 0xffffffff` of `array.h`. -/
def END : Nat := 4294967295

/-- The edit token `NO_EDIT`: the default `std::thread::id`, which no running
thread has. Edit tokens are natural numbers; a thread id is any token other
than `NO_EDIT`. -/
def NO_EDIT : Nat := 0

/-! ## Objects, nodes, heap -/

/-- What a `ref<Object>` can hold: nothing, a trie node `N` (by address), or a
value cell `Value<T>` (by payload). -/
inductive Obj (α : Type) where
  | null : Obj α
  | node (p : Nat) : Obj α
  | value (v : α) : Obj α
deriving DecidableEq, Repr

/-- A nullable `N*`. -/
abbrev Ptr := Option Nat

/-- A pointer stored into a `ref<Object>`. -/
def Obj.ofN {α : Type} : Ptr → Obj α
  | none => Obj.null
  | some p => Obj.node p

/-- The cast `static_cast<N*>(obj.ptr())`; a value cell is not a node. -/
def Obj.toN {α : Type} : Obj α → Option Ptr
  | Obj.null => some none
  | Obj.node p => some (some p)
  | Obj.value _ => none

/-- The test `!obj` on a `ref<Object>`. -/
def Obj.isNull {α : Type} : Obj α → Bool
  | Obj.null => true
  | _ => false

/-- The struct `ArrayImp::N`: the edit token, the length and the slot storage
`_v` (as many slots as were allocated: `BRANCHES` for a node made by
`N::create`, none for `EMPTY_NODE`). -/
structure N (α : Type) where
  edit : Nat
  length : Nat
  _v : List (Obj α)
deriving DecidableEq, Repr

/-- The heap of trie nodes. -/
abbrev Heap (α : Type) := List (N α)

/-- Dereference a nullable node pointer. -/
def deref {α : Type} (h : Heap α) (p : Ptr) : Option (N α) :=
  match p with
  | none => none
  | some a => h[a]?

/-- Put a fresh node on the heap; the second component is its address. -/
def alloc {α : Type} (h : Heap α) (n : N α) : Heap α × Nat :=
  (h ++ [n], h.length)

namespace N

variable {α : Type}

/-- The node made by `N::create(len, edit)`: `calloc` gives `BRANCHES` empty slots. -/
def create (len edit : Nat) : N α :=
  ⟨edit, len, List.replicate BRANCHES Obj.null⟩

/-- Read access `slot(i)`; outside the storage there is nothing to read. -/
def slot (n : N α) (i : Nat) : Option (Obj α) :=
  n._v[i]?

/-- The assignment `slot(i) = obj`. -/
def setSlot (n : N α) (i : Nat) (obj : Obj α) : Option (N α) :=
  if i < n._v.length then some ⟨n.edit, n.length, n._v.set i obj⟩ else none

/-- The node made by `N::copy(len, edit_)`: a fresh node of length `len` with the
first `min(len, length)` slots copied. -/
def copy (n : N α) (len edit_ : Nat) : N α :=
  ⟨edit_, len,
    (List.range BRANCHES).map fun i =>
      if i < min len n.length then n._v.getD i Obj.null else Obj.null⟩

/-- The node made by `N::copyAssign(index, obj, edit_)`: a fresh node of the same
length whose slots below `length` are copied, except that slot `index` holds
`obj`. -/
def copyAssign (n : N α) (index : Nat) (obj : Obj α) (edit_ : Nat) : N α :=
  ⟨edit_, n.length,
    (List.range BRANCHES).map fun i =>
      if i < n.length then (if i = index then obj else n._v.getD i Obj.null)
      else Obj.null⟩

end N

/-- The header `Array<T>` (`ArrayImp::A`). -/
structure A where
  _start : Nat
  _end : Nat
  _shift : Nat
  _root : Ptr
  _tail : Ptr
deriving DecidableEq, Repr

/-- The header `TransientArray<T>` (`ArrayImp::TA`): the same fields, and the
source casts between the two layouts. -/
abbrev TA := A

/-- The method `Array<T>::size` (and `TransientArray<T>::size`). -/
def A.size (a : A) : Nat := sub32 a._end a._start

/-- The struct `Array<T>::Iterator`. The cached `_slots` pointer is the address
of the node whose slot storage it points into. -/
structure Iterator where
  _a : Option A
  _i : Nat
  _end : Nat
  _base : Nat
  _slots : Ptr
  _slotlen : Nat
deriving DecidableEq, Repr

/-- The static `ArrayImp::END_ITERATOR` (zero-initialised static storage). -/
def END_ITERATOR : Iterator := ⟨none, 0, 0, 0, none, 0⟩

/-- Address of the static node `EMPTY_ROOT`. -/
def EMPTY_ROOT : Nat := 0

/-- Address of the static node `ArrayImp::EMPTY_NODE`. -/
def EMPTY_NODE : Nat := 1

/-- The heap at program start: `EMPTY_ROOT` has `BRANCHES` empty slots and
length `BRANCHES`, `EMPTY_NODE` has length 0 and no slot storage. -/
def heap0 {α : Type} : Heap α :=
  [⟨NO_EDIT, BRANCHES, List.replicate BRANCHES Obj.null⟩, ⟨NO_EDIT, 0, []⟩]

/-- The static header `ArrayImp::EMPTY`. -/
def EMPTY : A := ⟨0, 0, BITS, some EMPTY_ROOT, some EMPTY_NODE⟩

/-- What a transient operation leaves behind: the heap, the header of the
transient, and whether the returned pointer is the transient itself (`true`)
or `nullptr` (`false`). -/
structure TRes (α : Type) where
  heap : Heap α
  hdr : TA
  self : Bool
deriving DecidableEq, Repr

namespace ArrayImp

variable {α : Type}

/-- The function `detail::tailoff`. -/
def tailoff (a : A) : Nat :=
  if a._end < BRANCHES then 0 else ((sub32 a._end 1) >>> BITS) <<< BITS

/-- The accessor `detail::root`: the node `a->_root` points to. -/
def root (h : Heap α) (a : A) : Option (N α) := deref h a._root

/-- The accessor `detail::tail`: the node `a->_tail` points to. -/
def tail (h : Heap α) (a : A) : Option (N α) := deref h a._tail

/-- The recursion of `detail::newPath`, with fuel. -/
def newPathF (edit : Nat) (node : Nat) : Nat → Heap α → Nat → Option (Heap α × Nat)
  | 0, _, _ => none
  | fuel + 1, h, level =>
    if level = 0 then some (h, node)
    else do
      let (h1, c) ← newPathF edit node fuel h (sub32 level BITS)
      let ret ← (N.create BRANCHES edit).setSlot 0 (Obj.node c)
      some (alloc h1 ret)

/-- The function `detail::newPath(edit, level, node)`. -/
def newPath (h : Heap α) (edit level node : Nat) : Option (Heap α × Nat) :=
  newPathF edit node (level + 1) h level

/-- The recursion of `detail::pushTail`, with fuel. -/
def pushTailF (a : A) (tailNode : Nat) : Nat → Heap α → Nat → N α → Option (Heap α × Nat)
  | 0, _, _, _ => none
  | fuel + 1, h, level, parentNode =>
    if 32 ≤ level then none
    else
      let subidx := ((sub32 a._end 1) >>> level) &&& MASK
      if level = BITS then
        some (alloc h (parentNode.copyAssign subidx (Obj.node tailNode) parentNode.edit))
      else do
        let child ← parentNode.slot subidx
        match child with
        | Obj.value _ => none
        | Obj.node c => do
          let cn ← h[c]?
          let (h1, p) ← pushTailF a tailNode fuel h (sub32 level BITS) cn
          some (alloc h1 (parentNode.copyAssign subidx (Obj.node p) parentNode.edit))
        | Obj.null => do
          let r ← root h a
          let (h1, p) ← newPath h r.edit (sub32 level BITS) tailNode
          some (alloc h1 (parentNode.copyAssign subidx (Obj.node p) parentNode.edit))

/-- The function `detail::pushTail(a, level, parentNode, tailNode)`. -/
def pushTail (h : Heap α) (a : A) (level : Nat) (parentNode : N α) (tailNode : Nat) :
    Option (Heap α × Nat) :=
  pushTailF a tailNode (level + 1) h level parentNode

/-- The function `detail::push` (persistent push). `1 << a->_shift` is an `int`
shift: counts of 31 and more are outside its range. -/
def push (h : Heap α) (a : A) (obj : Obj α) : Option (Heap α × A) :=
  if sub32 a._end (tailoff a) < BRANCHES then do
    let t ← tail h a
    let newTail ← (t.copy (add32 t.length 1) t.edit).setSlot t.length obj
    let (h1, p) := alloc h newTail
    some (h1, ⟨0, add32 a._end 1, a._shift, a._root, some p⟩)
  else do
    let t ← tail h a
    let r ← root h a
    let (h1, tailNode) := alloc h (t.copy t.length r.edit)
    if 31 ≤ a._shift then none
    else if (a._end >>> BITS) > (1 <<< a._shift) then do
      let (h2, np) ← newPath h1 r.edit a._shift tailNode
      let nr0 ← (N.create BRANCHES r.edit).setSlot 0 (Obj.ofN a._root)
      let nr ← nr0.setSlot 1 (Obj.node np)
      let (h3, newRoot) := alloc h2 nr
      let newTail ← (N.create 1 t.edit).setSlot 0 obj
      let (h4, p) := alloc h3 newTail
      some (h4, ⟨0, add32 a._end 1, add32 a._shift BITS, some newRoot, some p⟩)
    else do
      let (h2, newRoot) ← pushTail h1 a a._shift r tailNode
      let newTail ← (N.create 1 t.edit).setSlot 0 obj
      let (h3, p) := alloc h2 newTail
      some (h3, ⟨0, add32 a._end 1, a._shift, some newRoot, some p⟩)

/-- The recursion of `detail::doAssoc`, with fuel. -/
def doAssocF (i : Nat) (obj : Obj α) : Nat → Heap α → Nat → N α → Option (Heap α × Nat)
  | 0, _, _, _ => none
  | fuel + 1, h, level, node =>
    if level = 0 then
      some (alloc h (node.copyAssign (i &&& MASK) obj node.edit))
    else if 32 ≤ level then none
    else do
      let subidx := (i >>> level) &&& MASK
      let s ← node.slot subidx
      let sp ← s.toN
      let subNode ← deref h sp
      let (h1, c) ← doAssocF i obj fuel h (sub32 level BITS) subNode
      some (alloc h1 (node.copyAssign subidx (Obj.node c) node.edit))

/-- The function `detail::doAssoc(a, level, node, i, obj)`. -/
def doAssoc (h : Heap α) (level : Nat) (node : N α) (i : Nat) (obj : Obj α) :
    Option (Heap α × Nat) :=
  doAssocF i obj (level + 1) h level node

/-- The function `detail::set` (persistent set); `i` is absolute and assumed
below `a->_end`. -/
def set (h : Heap α) (a : A) (i : Nat) (obj : Obj α) : Option (Heap α × A) :=
  if tailoff a ≤ i then do
    let _ ← root h a
    let t ← tail h a
    let (h1, p) := alloc h (t.copyAssign (i &&& MASK) obj t.edit)
    some (h1, ⟨0, a._end, a._shift, a._root, some p⟩)
  else do
    let r ← root h a
    let (h1, p) ← doAssoc h a._shift r i obj
    let _ ← tail h1 a
    some (h1, ⟨0, a._end, a._shift, some p, a._tail⟩)

/-- The loop of `detail::checkedSlotsFor`, with fuel; `node` is never null here. -/
def checkedSlotsForF (i : Nat) : Nat → Heap α → Nat → Nat → Option Ptr
  | 0, _, _, _ => none
  | fuel + 1, h, level, node =>
    if level = 0 then some (some node)
    else if 32 ≤ level then none
    else do
      let n ← h[node]?
      let k := (i >>> level) &&& MASK
      if k < n.length then do
        let obj ← n.slot k
        match obj with
        | Obj.null => some none
        | Obj.node c => checkedSlotsForF i fuel h (sub32 level BITS) c
        | Obj.value _ => none
      else some none

/-- The function `detail::checkedSlotsFor(a, i)`. -/
def checkedSlotsFor (h : Heap α) (a : A) (i : Nat) : Option Ptr :=
  if tailoff a ≤ i then do
    let _ ← tail h a
    some a._tail
  else do
    let _ ← root h a
    let r ← a._root
    checkedSlotsForF i (a._shift + 1) h a._shift r

/-- The loop of `detail::uncheckedSlotsFor`, with fuel. -/
def uncheckedSlotsForF (i : Nat) : Nat → Heap α → Nat → Ptr → Option Ptr
  | 0, _, _, _ => none
  | fuel + 1, h, level, node =>
    if level = 0 then some node
    else if 32 ≤ level then none
    else do
      let n ← deref h node
      let s ← n.slot ((i >>> level) &&& MASK)
      let c ← s.toN
      uncheckedSlotsForF i fuel h (sub32 level BITS) c

/-- The function `detail::uncheckedSlotsFor(a, i)`. -/
def uncheckedSlotsFor (h : Heap α) (a : A) (i : Nat) : Option Ptr :=
  if tailoff a ≤ i then do
    let _ ← tail h a
    some a._tail
  else do
    let _ ← root h a
    uncheckedSlotsForF i (a._shift + 1) h a._shift a._root

/-- The function `ArrayImp::findValue` (checked lookup at an absolute index). -/
def findValue (h : Heap α) (a : A) (i : Nat) : Option (Obj α) := do
  let n ← checkedSlotsFor h a i
  match n with
  | none => some Obj.null
  | some p => do
    let nd ← h[p]?
    if (i &&& MASK) < nd.length then nd.slot (i &&& MASK) else some Obj.null

/-- The function `ArrayImp::getValue` (unchecked lookup at an absolute index). -/
def getValue (h : Heap α) (a : A) (i : Nat) : Option (Obj α) := do
  let p ← uncheckedSlotsFor h a i
  let n ← deref h p
  n.slot (i &&& MASK)

/-- The recursion of `detail::popTail`, with fuel; `none` in the result is the
null node. -/
def popTailF (a : A) : Nat → Heap α → Nat → N α → Option (Heap α × Ptr)
  | 0, _, _, _ => none
  | fuel + 1, h, level, node =>
    if 32 ≤ level then none
    else
      let subidx := ((sub32 a._end 2) >>> level) &&& MASK
      if BITS < level then do
        let s ← node.slot subidx
        let cp ← s.toN
        let cn ← deref h cp
        let (h1, newChild) ← popTailF a fuel h (sub32 level BITS) cn
        if newChild ≠ none ∨ subidx ≠ 0 then do
          let r ← root h1 a
          let (h2, p) := alloc h1 (node.copyAssign subidx (Obj.ofN newChild) r.edit)
          some (h2, some p)
        else some (h1, none)
      else if subidx ≠ 0 then do
        let r ← root h a
        let (h1, p) := alloc h (node.copyAssign subidx Obj.null r.edit)
        some (h1, some p)
      else some (h, none)

/-- The function `detail::popTail(a, level, node)`. -/
def popTail (h : Heap α) (a : A) (level : Nat) (node : N α) : Option (Heap α × Ptr) :=
  popTailF a (level + 1) h level node

/-- The function `detail::pop` (persistent pop); `a` is assumed not empty. -/
def pop (h : Heap α) (a : A) : Option (Heap α × A) :=
  if a._end = 1 then some (h, EMPTY)
  else if 1 < sub32 a._end (tailoff a) then do
    let t ← tail h a
    let _ ← root h a
    let (h1, p) := alloc h (t.copy (sub32 t.length 1) t.edit)
    some (h1, ⟨0, sub32 a._end 1, a._shift, a._root, some p⟩)
  else do
    let newTail ← uncheckedSlotsFor h a (sub32 a._end 2)
    let r ← root h a
    let (h1, popped) ← popTail h a a._shift r
    let newRoot : Nat := match popped with
      | none => EMPTY_NODE
      | some p => p
    if BITS < a._shift then do
      let nr ← h1[newRoot]?
      let s1 ← nr.slot 1
      if s1.isNull then do
        let s0 ← nr.slot 0
        let p0 ← s0.toN
        some (h1, ⟨0, sub32 a._end 1, sub32 a._shift BITS, p0, newTail⟩)
      else some (h1, ⟨0, sub32 a._end 1, a._shift, some newRoot, newTail⟩)
    else some (h1, ⟨0, sub32 a._end 1, a._shift, some newRoot, newTail⟩)

/-- The test `detail::isEditable`. -/
def isEditable (h : Heap α) (a : TA) : Option Bool := do
  let r ← root h a
  some (r.edit != NO_EDIT)

/-- The function `detail::ensureEditable(a, node)`: the node itself when its edit
token is the one of the root of `a`, a copy stamped with that token otherwise. -/
def ensureEditable (h : Heap α) (a : TA) (node : Ptr) : Option (Heap α × Nat) := do
  let p ← node
  let n ← h[p]?
  let r ← root h a
  if n.edit != r.edit then some (alloc h (n.copy n.length r.edit)) else some (h, p)

/-- The assignment `node->slot(i) = obj` through a pointer: the node is
overwritten in place. -/
def writeSlot (h : Heap α) (p : Nat) (i : Nat) (obj : Obj α) : Option (Heap α) := do
  let n ← h[p]?
  let n1 ← n.setSlot i obj
  some (h.set p n1)

/-- The recursion of `detail::tpushTail`, with fuel. -/
def tpushTailF (a : TA) (tailNode : Nat) : Nat → Heap α → Nat → Ptr → Option (Heap α × Nat)
  | 0, _, _, _ => none
  | fuel + 1, h, level, parentNode => do
    let (h1, pn) ← ensureEditable h a parentNode
    if 32 ≤ level then none
    else
      let subidx := ((sub32 a._end 1) >>> level) &&& MASK
      if level = BITS then do
        let h2 ← writeSlot h1 pn subidx (Obj.node tailNode)
        some (h2, pn)
      else do
        let p ← h1[pn]?
        let s ← p.slot subidx
        match s with
        | Obj.value _ => none
        | Obj.node c => do
          let (h2, q) ← tpushTailF a tailNode fuel h1 (sub32 level BITS) (some c)
          let h3 ← writeSlot h2 pn subidx (Obj.node q)
          some (h3, pn)
        | Obj.null => do
          let r ← root h1 a
          let (h2, q) ← newPath h1 r.edit (sub32 level BITS) tailNode
          let h3 ← writeSlot h2 pn subidx (Obj.node q)
          some (h3, pn)

/-- The function `detail::tpushTail(a, level, parentNode, tailNode)`. -/
def tpushTail (h : Heap α) (a : TA) (level : Nat) (parentNode : Ptr) (tailNode : Nat) :
    Option (Heap α × Nat) :=
  tpushTailF a tailNode (level + 1) h level parentNode

/-- The function `detail::tpush` (transient push). -/
def tpush (h : Heap α) (a : TA) (val : Obj α) : Option (TRes α) := do
  let ed ← isEditable h a
  if !ed then some ⟨h, a, false⟩
  else
    let i := a._end
    if sub32 i (tailoff a) < BRANCHES then do
      let _ ← tail h a
      let tp ← a._tail
      let h1 ← writeSlot h tp (i &&& MASK) val
      some ⟨h1, ⟨a._start, add32 a._end 1, a._shift, a._root, a._tail⟩, true⟩
    else do
      let _ ← tail h a
      let tailNode ← a._tail
      let r ← root h a
      let nt ← (N.create BRANCHES r.edit).setSlot 0 val
      let (h1, newTail) := alloc h nt
      let a1 : TA := ⟨a._start, a._end, a._shift, a._root, some newTail⟩
      if 31 ≤ a._shift then none
      else if (a._end >>> BITS) > (1 <<< a._shift) then do
        let (h2, np) ← newPath h1 r.edit a._shift tailNode
        let nr0 ← (N.create BRANCHES r.edit).setSlot 0 (Obj.ofN a._root)
        let nr ← nr0.setSlot 1 (Obj.node np)
        let (h3, newRoot) := alloc h2 nr
        some ⟨h3, ⟨a._start, add32 a._end 1, add32 a._shift BITS, some newRoot, some newTail⟩,
          true⟩
      else do
        let (h2, newRoot) ← tpushTail h1 a1 a._shift a._root tailNode
        some ⟨h2, ⟨a._start, add32 a._end 1, a._shift, some newRoot, some newTail⟩, true⟩

/-- The recursion of `detail::tdoAssoc`, with fuel. -/
def tdoAssocF (a : TA) (i : Nat) (val : Obj α) : Nat → Heap α → Nat → Ptr → Option (Heap α × Nat)
  | 0, _, _, _ => none
  | fuel + 1, h, level, node => do
    let (h1, pn) ← ensureEditable h a node
    if level = 0 then do
      let h2 ← writeSlot h1 pn (i &&& MASK) val
      some (h2, pn)
    else if 32 ≤ level then none
    else do
      let subidx := (i >>> level) &&& MASK
      let n ← h1[pn]?
      let s ← n.slot subidx
      let subNode ← s.toN
      let (h2, q) ← tdoAssocF a i val fuel h1 (sub32 level BITS) subNode
      let h3 ← writeSlot h2 pn subidx (Obj.node q)
      some (h3, pn)

/-- The function `detail::tdoAssoc(a, level, node, i, val)`. -/
def tdoAssoc (h : Heap α) (a : TA) (level : Nat) (node : Ptr) (i : Nat) (val : Obj α) :
    Option (Heap α × Nat) :=
  tdoAssocF a i val (level + 1) h level node

/-- The function `detail::tset` (transient set); `i` is absolute and assumed
below `a->_end`. -/
def tset (h : Heap α) (a : TA) (i : Nat) (val : Obj α) : Option (TRes α) := do
  let ed ← isEditable h a
  if !ed then some ⟨h, a, false⟩
  else if tailoff a ≤ i then do
    let _ ← tail h a
    let tp ← a._tail
    let h1 ← writeSlot h tp (i &&& MASK) val
    some ⟨h1, a, true⟩
  else do
    let (h1, p) ← tdoAssoc h a a._shift a._root i val
    some ⟨h1, ⟨a._start, a._end, a._shift, some p, a._tail⟩, true⟩

/-- The loop of `detail::editableSlotsFor`, with fuel. The copies that
`ensureEditable` makes on the way are not linked into their parents. -/
def editableSlotsForF (a : TA) (i : Nat) : Nat → Heap α → Nat → Nat → Option (Heap α × Nat)
  | 0, _, _, _ => none
  | fuel + 1, h, level, node =>
    if level = 0 then some (h, node)
    else if 32 ≤ level then none
    else do
      let n ← h[node]?
      let s ← n.slot ((i >>> level) &&& MASK)
      let c ← s.toN
      let (h1, q) ← ensureEditable h a c
      editableSlotsForF a i fuel h1 (sub32 level BITS) q

/-- The function `detail::editableSlotsFor(a, i)`. -/
def editableSlotsFor (h : Heap α) (a : TA) (i : Nat) : Option (Heap α × Nat) :=
  if tailoff a ≤ i then do
    let _ ← tail h a
    let tp ← a._tail
    some (h, tp)
  else do
    let _ ← root h a
    let r ← a._root
    editableSlotsForF a i (a._shift + 1) h a._shift r

/-- The recursion of `detail::tpopTail`, with fuel; `none` in the result is the
null node. -/
def tpopTailF (a : TA) : Nat → Heap α → Nat → Ptr → Option (Heap α × Ptr)
  | 0, _, _, _ => none
  | fuel + 1, h, level, node => do
    let (h1, pn) ← ensureEditable h a node
    if 32 ≤ level then none
    else
      let subidx := ((sub32 a._end 2) >>> level) &&& MASK
      if BITS < level then do
        let n ← h1[pn]?
        let s ← n.slot subidx
        let c ← s.toN
        let (h2, newChild) ← tpopTailF a fuel h1 (sub32 level BITS) c
        if newChild ≠ none ∨ subidx ≠ 0 then do
          let h3 ← writeSlot h2 pn subidx (Obj.ofN newChild)
          some (h3, some pn)
        else some (h2, none)
      else if subidx ≠ 0 then do
        let h2 ← writeSlot h1 pn subidx Obj.null
        some (h2, some pn)
      else some (h1, none)

/-- The function `detail::tpopTail(a, level, node)`. -/
def tpopTail (h : Heap α) (a : TA) (level : Nat) (node : Ptr) : Option (Heap α × Ptr) :=
  tpopTailF a (level + 1) h level node

/-- The function `detail::tpop` (transient pop); `a` is assumed not empty. The
source does not test `isEditable` here. -/
def tpop (h : Heap α) (a : TA) : Option (TRes α) :=
  if a._end = 1 then some ⟨h, ⟨a._start, 0, a._shift, a._root, a._tail⟩, true⟩
  else
    let i := sub32 a._end 1
    if 0 < (i &&& MASK) then
      some ⟨h, ⟨a._start, sub32 a._end 1, a._shift, a._root, a._tail⟩, true⟩
    else do
      let (h1, newTail) ← editableSlotsFor h a (sub32 a._end 2)
      let (h2, popped) ← tpopTail h1 a a._shift a._root
      let r ← root h2 a
      let (h3, newRoot) := match popped with
        | none => alloc h2 (N.create BRANCHES r.edit)
        | some p => (h2, p)
      if BITS < a._shift then do
        let nr ← h3[newRoot]?
        let s1 ← nr.slot 1
        if s1.isNull then do
          let s0 ← nr.slot 0
          let p0 ← s0.toN
          let (h4, q) ← ensureEditable h3 a p0
          some ⟨h4, ⟨a._start, sub32 a._end 1, sub32 a._shift BITS, some q, some newTail⟩,
            true⟩
        else
          some ⟨h3, ⟨a._start, sub32 a._end 1, a._shift, some newRoot, some newTail⟩, true⟩
      else
        some ⟨h3, ⟨a._start, sub32 a._end 1, a._shift, some newRoot, some newTail⟩, true⟩

/-- The function `ArrayImp::createTransient`; `tid` is `std::this_thread::get_id()`,
the id of the calling thread. -/
def createTransient (tid : Nat) (h : Heap α) (a : A) : Option (Heap α × TA) := do
  let r ← root h a
  let (h1, editableRoot) := alloc h (r.copy r.length tid)
  let t ← tail h1 a
  let (h2, editableTail) := alloc h1 (t.copy BRANCHES tid)
  some (h2, ⟨a._start, a._end, a._shift, some editableRoot, some editableTail⟩)

/-- The function `ArrayImp::createPersistent`: `none` in the second component
is the null result for a transient that is not editable. -/
def createPersistent (h : Heap α) (t : TA) : Option (Heap α × Option A) := do
  let ed ← isEditable h t
  if !ed then some (h, none)
  else do
    let rp ← t._root
    let r ← h[rp]?
    let h1 := h.set rp ⟨NO_EDIT, r.length, r._v⟩
    let tl ← tail h1 t
    let (h2, trimmedTail) := alloc h1 (tl.copy (sub32 t._end (tailoff t)) NO_EDIT)
    some (h2, some ⟨t._start, t._end, t._shift, t._root, some trimmedTail⟩)

/-- The function `ArrayImp::slotsFor(a, i, length)`: the leaf that holds index
`i` and its length. -/
def slotsFor (h : Heap α) (a : A) (i : Nat) : Option (Nat × Nat) := do
  let p ← uncheckedSlotsFor h a i
  let q ← p
  let n ← h[q]?
  some (q, n.length)

end ArrayImp

namespace Iterator

variable {α : Type}

/-- The constructor `Iterator(a, absstart, absend)`. -/
def create (h : Heap α) (a : A) (start end_ : Nat) : Option Iterator :=
  let base := sub32 start (start % BRANCHES)
  if start < end_ then do
    let (p, len) ← ArrayImp.slotsFor h a start
    some ⟨some a, start, end_, base, some p, len⟩
  else some ⟨some a, start, end_, base, none, 0⟩

/-- The comparison `Iterator::operator==`. -/
def eq (x y : Iterator) : Bool :=
  if x._slots != y._slots then false
  else if x._slots.isNone then true
  else x._i == y._i

/-- The accessor `Iterator::value`: the object in slot `_i & MASK` of the cached leaf. -/
def value (h : Heap α) (x : Iterator) : Option (Obj α) := do
  let n ← deref h x._slots
  n.slot (x._i &&& MASK)

/-- The increment `Iterator::operator++`. -/
def next (h : Heap α) (x : Iterator) : Option Iterator :=
  let i := add32 x._i 1
  if i < x._end then
    if sub32 i x._base = BRANCHES then do
      let a ← x._a
      let (p, len) ← ArrayImp.slotsFor h a i
      some ⟨x._a, i, x._end, add32 x._base BRANCHES, some p, len⟩
    else some ⟨x._a, i, x._end, x._base, x._slots, x._slotlen⟩
  else some ⟨x._a, i, x._end, x._base, none, x._slotlen⟩

end Iterator

namespace ArrayImp

variable {α : Type}

/-- The loop of `detail::tpushAll`, with fuel: push what the iterator yields
until it equals `END_ITERATOR`. -/
def tpushAllF : Nat → Heap α → TA → Iterator → Option (Heap α × TA)
  | 0, _, _, _ => none
  | fuel + 1, h, dst, it =>
    if it.eq END_ITERATOR then some (h, dst)
    else do
      let v ← it.value h
      let r ← tpush h dst v
      let it1 ← it.next r.heap
      tpushAllF fuel r.heap r.hdr it1

/-- The function `detail::tpushAll(dst, src, start, end)`. -/
def tpushAll (h : Heap α) (dst : TA) (src : A) (start end_ : Nat) : Option (Heap α × TA) := do
  let it ← Iterator.create h src start end_
  tpushAllF (sub32 end_ start + 1) h dst it

/-- The test `detail::isOutOfBounds`, which despite its name holds for a range
that is within bounds. -/
def isOutOfBounds (a : A) (start end_ : Nat) : Bool :=
  decide (end_ ≤ a._end) && decide (start ≤ end_)

/-- The function `ArrayImp::slice(a, start, end)` on absolute indices; `tid` is
the id of the calling thread. `none` in the second component is the null
result. -/
def slice (tid : Nat) (h : Heap α) (a : A) (start end_ : Nat) : Option (Heap α × Option A) :=
  if !isOutOfBounds a start end_ then some (h, none)
  else if start = end_ then some (h, some EMPTY)
  else if start = a._start ∧ end_ = a._end then some (h, some a)
  else if end_ = a._end ∧ a.size / 2 ≤ sub32 end_ start then
    some (h, some ⟨start, end_, a._shift, a._root, a._tail⟩)
  else do
    let (h1, t) ← createTransient tid h EMPTY
    let (h2, t2) ← tpushAll h1 t a start end_
    createPersistent h2 t2

end ArrayImp

/-! ## The typed surface: `Array<T>` -/

namespace A

variable {α : Type}

/-- The method `Array<T>::empty`. -/
def empty : A := EMPTY

/-- The method `Array<T>::push(value)`. -/
def push (h : Heap α) (a : A) (v : α) : Option (Heap α × A) :=
  ArrayImp.push h a (Obj.value v)

/-- The method `Array<T>::set(i, value)`; `none` in the second component is the
null result for an index out of bounds. -/
def set (h : Heap α) (a : A) (i : Nat) (v : α) : Option (Heap α × Option A) :=
  let j := add32 i a._start
  if a._end ≤ j then some (h, none)
  else (ArrayImp.set h a j (Obj.value v)).map fun r => (r.1, some r.2)

/-- The method `Array<T>::findValue(i)`; `Obj.null` is the null result. -/
def findValue (h : Heap α) (a : A) (i : Nat) : Option (Obj α) :=
  let j := add32 i a._start
  if a._end ≤ j then some Obj.null else ArrayImp.findValue h a j

/-- The method `Array<T>::getValue(i)` (unchecked). -/
def getValue (h : Heap α) (a : A) (i : Nat) : Option (Obj α) :=
  ArrayImp.getValue h a (add32 i a._start)

/-- The method `Array<T>::get(i)`: the payload of the value cell at `i`. -/
def get (h : Heap α) (a : A) (i : Nat) : Option α :=
  match getValue h a i with
  | some (Obj.value v) => some v
  | _ => none

/-- The method `Array<T>::pop`. -/
def pop (h : Heap α) (a : A) : Option (Heap α × A) :=
  if a.size ≠ 0 then ArrayImp.pop h a else some (h, a)

/-- The method `Array<T>::slice(start, end)`. -/
def slice (tid : Nat) (h : Heap α) (a : A) (start : Nat) (end_ : Nat) :
    Option (Heap α × Option A) :=
  ArrayImp.slice tid h a (add32 start a._start)
    (if end_ = END then a._end else add32 end_ a._start)

/-- The method `Array<T>::asTransient`. -/
def asTransient (tid : Nat) (h : Heap α) (a : A) : Option (Heap α × TA) :=
  ArrayImp.createTransient tid h a

end A

/-! ## The typed surface: `TransientArray<T>` -/

namespace TA

variable {α : Type}

/-- The method `TransientArray<T>::makePersistent`. -/
def makePersistent (h : Heap α) (t : TA) : Option (Heap α × Option A) :=
  ArrayImp.createPersistent h t

/-- The method `TransientArray<T>::push(value)`. -/
def push (h : Heap α) (t : TA) (v : α) : Option (TRes α) :=
  ArrayImp.tpush h t (Obj.value v)

/-- The method `TransientArray<T>::set(i, value)`. -/
def set (h : Heap α) (t : TA) (i : Nat) (v : α) : Option (TRes α) :=
  let j := add32 i t._start
  if t._end ≤ j then some ⟨h, t, false⟩ else ArrayImp.tset h t j (Obj.value v)

/-- The method `TransientArray<T>::findValue(i)`. -/
def findValue (h : Heap α) (t : TA) (i : Nat) : Option (Obj α) :=
  let j := add32 i t._start
  if t._end ≤ j then some Obj.null else ArrayImp.findValue h t j

/-- The method `TransientArray<T>::getValue(i)` (unchecked). -/
def getValue (h : Heap α) (t : TA) (i : Nat) : Option (Obj α) :=
  ArrayImp.getValue h t (add32 i t._start)

/-- The method `TransientArray<T>::get(i)`. -/
def get (h : Heap α) (t : TA) (i : Nat) : Option α :=
  match getValue h t i with
  | some (Obj.value v) => some v
  | _ => none

/-- The method `TransientArray<T>::pop`. -/
def pop (h : Heap α) (t : TA) : Option (TRes α) :=
  if A.size t ≠ 0 then ArrayImp.tpop h t else some ⟨h, t, true⟩

end TA

open ArrayImp

variable {α : Type}

/-- Successive calls of `Array<T>::push`, each on the result of the one before. -/
def A.pushAll {α : Type} : Heap α → A → List α → Option (Heap α × A)
  | h, a, [] => some (h, a)
  | h, a, x :: xs => do
    let (h1, a1) ← A.push h a x
    A.pushAll h1 a1 xs

/-- Successive calls of `TransientArray<T>::push`, each on the pointer the call
before returned; going on after a null result dereferences a null pointer. -/
def TA.pushAll {α : Type} : Heap α → TA → List α → Option (Heap α × TA)
  | h, t, [] => some (h, t)
  | h, t, x :: xs => do
    let r ← TA.push h t x
    if r.self then TA.pushAll r.heap r.hdr xs else none

/-- The function `Array<T>::create(iterable)`: a transient of the empty array,
one push per value, `makePersistent`. -/
def A.create {α : Type} (tid : Nat) (h : Heap α) (vals : List α) : Option (Heap α × Option A) := do
  let (h1, t) ← A.asTransient tid h A.empty
  let (h2, t2) ← TA.pushAll h1 t vals
  TA.makePersistent h2 t2

/-- Successive calls of `Array<T>::pop`, each on the result of the one before. -/
def A.popN {α : Type} : Nat → Heap α → A → Option (Heap α × A)
  | 0, h, a => some (h, a)
  | n + 1, h, a => do
    let (h1, a1) ← A.pop h a
    A.popN n h1 a1

/-! ## Representation invariants -/

/-- `Sub h xs m k p b S`: in heap `h` the node at address `p` is the root of a
subtree of height `k` (a leaf has height 0) that covers the indices from `b` on
and holds the elements of `xs` at those of its indices that are below `m`, the
number of elements stored in the trie. All nodes have length `BRANCHES` and
`BRANCHES` slots, a child is present exactly when its first index is below `m`,
and `S` is the set of addresses of the subtree, every address occurring once. -/
def Sub (h : Heap α) (xs : List α) (m : Nat) : Nat → Nat → Nat → Set Nat → Prop
  | 0, p, b, S =>
    S = {p} ∧ b + BRANCHES ≤ m ∧
    ∃ n, h[p]? = some n ∧ n.length = BRANCHES ∧ n._v.length = BRANCHES ∧
      ∀ j, j < BRANCHES → n._v[j]? = (xs[b + j]?).map Obj.value
  | k + 1, p, b, S =>
    ∃ n, h[p]? = some n ∧ n.length = BRANCHES ∧ n._v.length = BRANCHES ∧
    ∃ Ss : Nat → Set Nat,
      (∀ x, x ∈ S ↔ x = p ∨ ∃ j, j < BRANCHES ∧ x ∈ Ss j) ∧
      (∀ j, j < BRANCHES → p ∉ Ss j) ∧
      (∀ i j, i < BRANCHES → j < BRANCHES → i ≠ j → ∀ x, x ∈ Ss i → x ∉ Ss j) ∧
      ∀ j, j < BRANCHES →
        (b + j * 32 ^ (k + 1) < m →
          ∃ q, n._v[j]? = some (Obj.node q) ∧ Sub h xs m k q (b + j * 32 ^ (k + 1)) (Ss j)) ∧
        (m ≤ b + j * 32 ^ (k + 1) → n._v[j]? = some Obj.null ∧ Ss j = ∅)

/-- `Rep h a xs k rp tp tn S`: in heap `h` the header `a` holds the underlying
data `xs`: `_end` is the length of `xs`; the root `rp` is a trie of height
`k + 1` (so `_shift = BITS * (k + 1)`) with footprint `S` that holds the first
`tailoff` elements, is not over capacity and is not taller than needed; the
tail node `tn` at `tp` holds the remaining elements in its first slots. -/
structure Rep (h : Heap α) (a : A) (xs : List α) (k rp tp : Nat) (tn : N α) (S : Set Nat) :
    Prop where
  hend : a._end = xs.length
  hlt : xs.length < U32
  hshift : a._shift = BITS * (k + 1)
  hroot : a._root = some rp
  htail : a._tail = some tp
  hsub : Sub h xs (tailoff a) (k + 1) rp 0 S
  hcap : tailoff a ≤ 32 ^ (k + 1 + 1)
  hmin : 0 < k → 32 ^ (k + 1) < tailoff a
  htn : h[tp]? = some tn
  htlen : xs.length - tailoff a ≤ tn.length
  hvals : ∀ j, tailoff a + j < xs.length → tn._v[j]? = (xs[tailoff a + j]?).map Obj.value

/-- A persistent vector holding `xs`: the tail node has exactly the length of the
part of `xs` it holds. -/
def PRep (h : Heap α) (a : A) (xs : List α) : Prop :=
  ∃ k rp tp tn S, Rep h a xs k rp tp tn S ∧ tn.length = xs.length - tailoff a

/-- An editable transient holding `xs`: the tail node has full length and full
storage and is not a node of the trie, and the root carries an edit token. -/
def TRep (h : Heap α) (t : TA) (xs : List α) : Prop :=
  ∃ k rp tp tn S, Rep h t xs k rp tp tn S ∧ tn.length = BRANCHES ∧ tn._v.length = BRANCHES ∧
    tp ∉ S ∧ ∃ rn, h[rp]? = some rn ∧ rn.edit ≠ NO_EDIT

/-- `Frame h h' M`: going from heap `h` to heap `h'` nothing was freed, and the
nodes of `h` outside `M` are unchanged. -/
def Frame (h h' : Heap α) (M : Set Nat) : Prop :=
  h.length ≤ h'.length ∧ ∀ x, x < h.length → x ∉ M → h'[x]? = h[x]?

/-- The tail offset as a function of `_end`. -/
def toff (e : Nat) : Nat := if e < 32 then 0 else (e - 1) / 32 * 32

/-- `Keeps h h'`: every node of `h` is still there in `h'` and has the edit
token it had. -/
def Keeps (h h' : Heap α) : Prop :=
  ∀ (x : Nat) (n : N α), h[x]? = some n → ∃ n' : N α, h'[x]? = some n' ∧ n'.edit = n.edit

/-- An example input: the vector of the forty pushes 0, 1, ..., 39 onto the empty
vector, together with its heap. -/
def forty : Heap Nat × A :=
  (A.pushAll heap0 A.empty (List.range 40)).getD (heap0, A.empty)

/-- The loop of `detail::pushAllFn` and of `splicefn`: one `tpush` per value the
iterator function yields; the result of `tpush` is not looked at. -/
def ArrayImp.tpushList : Heap α → TA → List (Obj α) → Option (Heap α × TA)
  | h, t, [] => some (h, t)
  | h, t, v :: vs => do
    let r ← tpush h t v
    ArrayImp.tpushList r.heap r.hdr vs

/-- The function `detail::pushAllFn(a, next)`; the iterator function yields the
values of `vals` and then null. -/
def ArrayImp.pushAllFn (tid : Nat) (h : Heap α) (a : A) (vals : List (Obj α)) :
    Option (Heap α × Option A) :=
  match vals with
  | [] => some (h, some a)
  | _ :: _ => do
    let (h1, t) ← createTransient tid h a
    let (h2, t2) ← ArrayImp.tpushList h1 t vals
    createPersistent h2 t2

/-- The function `ArrayImp::without(a, start, end)` on absolute indices. -/
def ArrayImp.without (tid : Nat) (h : Heap α) (a : A) (start end_ : Nat) :
    Option (Heap α × Option A) :=
  if !isOutOfBounds a start end_ then some (h, none)
  else if start = end_ then some (h, some a)
  else if start = a._start then
    if end_ = a._end then some (h, some EMPTY)
    else slice tid h a end_ a._end
  else if end_ = a._end then slice tid h a a._start start
  else do
    let (h1, oleft) ← slice tid h a a._start start
    let left ← oleft
    let (h2, t) ← createTransient tid h1 left
    let (h3, t2) ← tpushAll h2 t a end_ a._end
    createPersistent h3 t2

/-- The function `ArrayImp::cons(a, val)`. -/
def ArrayImp.cons (tid : Nat) (h : Heap α) (a : A) (val : Obj α) :
    Option (Heap α × Option A) := do
  let (h1, t) ← createTransient tid h EMPTY
  let r ← tpush h1 t val
  let (h2, t2) ← tpushAll r.heap r.hdr a a._start a._end
  createPersistent h2 t2

/-- Whether the header that `ArrayImp::slice(a, start, end)` returns was made by
that call (`new A`, reference count 0): it was, unless the range is out of bounds
(null result), empty (the static `EMPTY`) or the whole of `a` (`a` itself). -/
def ArrayImp.sliceIsNew (a : A) (start end_ : Nat) : Bool :=
  isOutOfBounds a start end_ && !decide (start = end_) &&
    !(decide (start = a._start) && decide (end_ = a._end))

/-- The end of the scope of the local `ref<A> b` of `splice` and `splicefn`, which
holds the header that `slice` returned. When `slice` made that header (`isNew`),
`b` holds its only reference: `~ref` releases it and the header is freed. When
moreover nothing was pushed, the result `r` of `pushAllFn(b, next)` or
`pushAllIt(b, it)` is `b.ptr()` itself: the caller receives the pointer to the
freed header and retains it, a use after free (`none`). -/
def ArrayImp.releaseLocal {β : Type} (isNew pushed : Bool) (r : β) : Option β :=
  if isNew && !pushed then none else some r

/-- The function `ArrayImp::splicefn(a, start, end, next)` on absolute indices;
the iterator function yields the values of `vals` and then null. -/
def ArrayImp.splicefn (tid : Nat) (h : Heap α) (a : A) (start end_ : Nat)
    (vals : List (Obj α)) : Option (Heap α × Option A) :=
  if !isOutOfBounds a start end_ then some (h, none)
  else if start = a._start then
    if end_ = a._end then ArrayImp.pushAllFn tid h EMPTY vals
    else do
      let (h1, ob) ← slice tid h a end_ a._end
      let b ← ob
      let r ← ArrayImp.pushAllFn tid h1 b vals
      ArrayImp.releaseLocal (ArrayImp.sliceIsNew a end_ a._end) (!vals.isEmpty) r
  else if end_ = a._end then
    if start = end_ then ArrayImp.pushAllFn tid h a vals
    else do
      let (h1, ob) ← slice tid h a a._start start
      let b ← ob
      let r ← ArrayImp.pushAllFn tid h1 b vals
      ArrayImp.releaseLocal (ArrayImp.sliceIsNew a a._start start) (!vals.isEmpty) r
  else do
    let (h1, t) ← createTransient tid h EMPTY
    let (h2, t2) ← tpushAll h1 t a a._start start
    let (h3, t3) ← ArrayImp.tpushList h2 t2 vals
    let (h4, t4) ← tpushAll h3 t3 a end_ a._end
    createPersistent h4 t4

/-- The method `Array<T>::without(start, end)`. -/
def A.without (tid : Nat) (h : Heap α) (a : A) (start : Nat) (end_ : Nat) :
    Option (Heap α × Option A) :=
  ArrayImp.without tid h a (add32 start a._start)
    (if end_ = END then a._end else add32 end_ a._start)

/-- The method `Array<T>::cons(value)`. -/
def A.cons (tid : Nat) (h : Heap α) (a : A) (v : α) : Option (Heap α × Option A) :=
  ArrayImp.cons tid h a (Obj.value v)

/-- The method `Array<T>::splice(start, end, it, endit)` for an iterator pair
that yields the values `vals`. -/
def A.splice (tid : Nat) (h : Heap α) (a : A) (start : Nat) (end_ : Nat) (vals : List α) :
    Option (Heap α × Option A) :=
  ArrayImp.splicefn tid h a (add32 start a._start)
    (if end_ = END then a._end else add32 end_ a._start) (vals.map Obj.value)

/-- The elements of a vector, read with `get` at the indices below `size()`. -/
def A.toList (h : Heap α) (a : A) : List (Option α) :=
  (List.range a.size).map fun i => A.get h a i

/-- An editable transient holding `xs` all of whose nodes, trie and tail, are at
addresses from `L` on: `TRep` with a lower bound on the footprint. -/
def TAbove (L : Nat) (h : Heap α) (t : TA) (xs : List α) : Prop :=
  ∃ k rp tp tn S, Rep h t xs k rp tp tn S ∧ tn.length = BRANCHES ∧ tn._v.length = BRANCHES ∧
    tp ∉ S ∧ (∃ rn, h[rp]? = some rn ∧ rn.edit ≠ NO_EDIT) ∧ L ≤ tp ∧ ∀ x, x ∈ S → L ≤ x

/-- `Readable h a xs`: the header `a` has `_end = |xs|`, a shift that is a
multiple of `BITS`, and the unchecked walk finds, for every absolute index below
`_end`, a node whose slot `i mod 32` holds the element `xs[i]`. -/
def Readable (h : Heap α) (a : A) (xs : List α) : Prop :=
  a._end = xs.length ∧ xs.length < U32 ∧ (∃ k, a._shift = BITS * (k + 1)) ∧
    ∀ i, i < xs.length → ∃ p n, uncheckedSlotsFor h a i = some (some p) ∧ h[p]? = some n ∧
      n._v[i % 32]? = (xs[i]?).map Obj.value

/-- A vector of at most 32 elements that are all in the tail, whatever node the
root is: the representation `pop` leaves behind when it takes the last leaf out
of the trie and the root becomes `EMPTY_NODE`. -/
def SRep (h : Heap α) (a : A) (xs : List α) : Prop :=
  a._end = xs.length ∧ xs.length ≤ 32 ∧ a._shift = BITS ∧ (∃ r, root h a = some r) ∧
    ∃ tp tn, a._tail = some tp ∧ h[tp]? = some tn ∧ tn.length = xs.length ∧
      ∀ j, j < xs.length → tn._v[j]? = (xs[j]?).map Obj.value

/-! ## Iterators of the typed surface, bulk push, splice by iterator, compare -/

/-- The method `Array<T>::begin(start, end)`: an iterator from `_start + start` to
`_end`, or to `min(_start + end, _end)` when `end` is not `END`; the sums are
taken in `uint32`. -/
def A.begin (h : Heap α) (a : A) (start : Nat) (end_ : Nat) : Option Iterator :=
  Iterator.create h a (add32 a._start start)
    (if end_ = END then a._end else min (add32 a._start end_) a._end)

/-- The method `Array<T>::end()`: the static `END_ITERATOR`. -/
def A.end_ : Iterator := END_ITERATOR

/-- The method `Array<T>::find(i)`. -/
def A.find (h : Heap α) (a : A) (i : Nat) : Option Iterator :=
  Iterator.create h a (add32 a._start i) a._end

/-- The method `Iterator::valid`. -/
def Iterator.valid (x : Iterator) : Bool :=
  x._slots.isSome && decide (x._i < x._end)

/-- The method `Iterator::distanceTo(other)`; the differences are taken in
`uint32`. -/
def Iterator.distanceTo (x other : Iterator) : Nat :=
  if x._slots.isNone then sub32 other._end other._i
  else if other._slots.isNone then sub32 x._end x._i
  else if other._i < x._i then sub32 x._i other._i else sub32 other._i x._i

/-- An iterator after `k` applications of `operator++`. -/
def Iterator.advance (h : Heap α) : Nat → Iterator → Option Iterator
  | 0, it => some it
  | k + 1, it => do
    let it1 ← it.next h
    Iterator.advance h k it1

/-- A traversal `for (; I != end(); ++I) visit(I.value())`, with fuel: the objects
visited, in order. -/
def Iterator.visitF : Nat → Heap α → Iterator → Option (List (Obj α))
  | 0, _, _ => none
  | fuel + 1, h, it =>
    if it.eq END_ITERATOR then some []
    else do
      let v ← it.value h
      let it1 ← it.next h
      let vs ← Iterator.visitF fuel h it1
      some (v :: vs)

/-- The traversal of an iterator until it equals `end()`; the fuel is one more than
the distance of the iterator to its end. -/
def Iterator.visit (h : Heap α) (it : Iterator) : Option (List (Obj α)) :=
  Iterator.visitF (sub32 it._end it._i + 1) h it

/-- The loop `do { tpush(t, it.value()); } while (++it != END_ITERATOR)` of
`detail::pushAllIt`, with fuel. -/
def ArrayImp.pushAllItF : Nat → Heap α → TA → Iterator → Option (Heap α × TA)
  | 0, _, _, _ => none
  | fuel + 1, h, t, it => do
    let v ← it.value h
    let r ← tpush h t v
    let it1 ← it.next r.heap
    if it1.eq END_ITERATOR then some (r.heap, r.hdr)
    else ArrayImp.pushAllItF fuel r.heap r.hdr it1

/-- The function `detail::pushAllIt(a, it)`. -/
def ArrayImp.pushAllIt (tid : Nat) (h : Heap α) (a : A) (it : Iterator) :
    Option (Heap α × Option A) :=
  if !it.eq END_ITERATOR then do
    let (h1, t) ← createTransient tid h a
    let (h2, t2) ← ArrayImp.pushAllItF (sub32 it._end it._i + 1) h1 t it
    createPersistent h2 t2
  else some (h, some a)

/-- The function `ArrayImp::splice(a, start, end, it)` on absolute indices. The
loop `while (it != END_ITERATOR) { tpush(t, it.value()); ++it; }` of its last
case is the loop of `detail::tpushAll`. -/
def ArrayImp.splice (tid : Nat) (h : Heap α) (a : A) (start end_ : Nat) (it : Iterator) :
    Option (Heap α × Option A) :=
  if !isOutOfBounds a start end_ then some (h, none)
  else if start = a._start then
    if end_ = a._end then ArrayImp.pushAllIt tid h EMPTY it
    else do
      let (h1, ob) ← slice tid h a end_ a._end
      let b ← ob
      let r ← ArrayImp.pushAllIt tid h1 b it
      ArrayImp.releaseLocal (ArrayImp.sliceIsNew a end_ a._end) (!it.eq END_ITERATOR) r
  else if end_ = a._end then
    if start = end_ then ArrayImp.pushAllIt tid h a it
    else do
      let (h1, ob) ← slice tid h a a._start start
      let b ← ob
      let r ← ArrayImp.pushAllIt tid h1 b it
      ArrayImp.releaseLocal (ArrayImp.sliceIsNew a a._start start) (!it.eq END_ITERATOR) r
  else do
    let (h1, t) ← createTransient tid h EMPTY
    let (h2, t2) ← tpushAll h1 t a a._start start
    let (h3, t3) ← tpushAllF (sub32 it._end it._i + 1) h2 t2 it
    let (h4, t4) ← tpushAll h3 t3 a end_ a._end
    createPersistent h4 t4

/-- The method `Array<T>::splice(start, end, Iterator& it)`. -/
def A.spliceIt (tid : Nat) (h : Heap α) (a : A) (start : Nat) (end_ : Nat) (it : Iterator) :
    Option (Heap α × Option A) :=
  ArrayImp.splice tid h a (add32 start a._start)
    (if end_ = END then a._end else add32 end_ a._start) it

/-- The method `Array<T>::splice(start, end, ref<Array> q)`, which is
`splice(start, end, q->begin())`. -/
def A.spliceArray (tid : Nat) (h : Heap α) (a : A) (start : Nat) (end_ : Nat) (q : A) :
    Option (Heap α × Option A) := do
  let it ← A.begin h q 0 END
  A.spliceIt tid h a start end_ it

/-- The loop `for (; I != E; ++I) t->push(I.value())` of
`Array<T>::push(Iterator, Iterator)`, with fuel. -/
def A.pushItF (E : Iterator) : Nat → Heap α → TA → Iterator → Option (Heap α × TA)
  | 0, _, _, _ => none
  | fuel + 1, h, t, it =>
    if it.eq E then some (h, t)
    else do
      let v ← it.value h
      let r ← tpush h t v
      let it1 ← it.next r.heap
      A.pushItF E fuel r.heap r.hdr it1

/-- The method `Array<T>::push(Iterator I, Iterator E)`, through
`Array<T>::modify`: a transient of the vector, the loop, `makePersistent`. -/
def A.pushRange (tid : Nat) (h : Heap α) (a : A) (I E : Iterator) :
    Option (Heap α × Option A) := do
  let (h1, t) ← A.asTransient tid h a
  let (h2, t2) ← A.pushItF E (sub32 I._end I._i + 1) h1 t I
  TA.makePersistent h2 t2

/-- The method `Array<T>::concat(other)`, which is
`push(other->begin(), other->end())`. -/
def A.concat (tid : Nat) (h : Heap α) (a other : A) : Option (Heap α × Option A) := do
  let I ← A.begin h other 0 END
  A.pushRange tid h a I A.end_

/-- The loop of `Array<T>::compare`, with fuel. The test `a != b` of the source
compares the addresses of the two value cells; `cellEq x y` says that the cells
holding `x` and `y` are one cell. -/
def A.compareF [LinearOrder α] (cellEq : α → α → Bool) :
    Nat → Heap α → Iterator → Iterator → Option Int
  | 0, _, _, _ => none
  | fuel + 1, h, ai, bi =>
    if ai.eq A.end_ then some 0
    else do
      let a ← ai.value h
      let b ← bi.value h
      match a, b with
      | Obj.value x, Obj.value y =>
        if !cellEq x y && decide (x < y) then some (-1)
        else if !cellEq x y && decide (x > y) then some 1
        else do
          let ai1 ← ai.next h
          let bi1 ← bi.next h
          A.compareF cellEq fuel h ai1 bi1
      | _, _ => none

/-- The method `Array<T>::compare(other)`; `same` is the outcome of
`operator==`, which compares the addresses of the two headers. -/
def A.compare [LinearOrder α] (cellEq : α → α → Bool) (same : Bool) (h : Heap α) (a other : A) :
    Option Int :=
  if same then some 0
  else if a.size < other.size then some (-1)
  else if a.size > other.size then some 1
  else do
    let ai ← A.begin h a 0 END
    let bi ← A.begin h other 0 END
    A.compareF cellEq (a.size + 1) h ai bi

/-- An iterator over `src` that stands at the absolute index `i` with end `e`: past
the end it caches no node, before it the node of `i` that the walk in `h` finds. -/
def ItAt (h : Heap α) (src : A) (e i : Nat) (it : Iterator) : Prop :=
  it._a = some src ∧ it._i = i ∧ it._end = e ∧ (e ≤ i → it._slots = none) ∧
    (i < e → it._base = i - i % 32 ∧
      ∃ p, it._slots = some p ∧ uncheckedSlotsFor h src i = some (some p))

/-- The sign of the first difference of two lists read side by side: -1 if the
element of the first list is the smaller one, 1 if it is the larger one, and 0
if no position differs before one of the lists ends. -/
def lexSign [LinearOrder α] : List α → List α → Int
  | x :: xs, y :: ys => if x < y then -1 else if y < x then 1 else lexSign xs ys
  | _, _ => 0

/-! ## The comparison operators of `Value<T>` -/

/-- The struct `Value<T>` of `base.h`: an object that holds a `T`. -/
structure Value (α : Type) where
  value : α

namespace Value

variable [LinearOrder α]

/-- The operator `Value<T>::operator<`: `std::less<T>` on the payloads. -/
def lt (a rhs : Value α) : Bool := decide (a.value < rhs.value)

/-- The operator `Value<T>::operator>`: `std::greater<T>` on the payloads. -/
def gt (a rhs : Value α) : Bool := decide (a.value > rhs.value)

/-- The operator `Value<T>::operator<=`: the source applies
`std::greater_equal<T>` to the payloads. -/
def le (a rhs : Value α) : Bool := decide (a.value ≥ rhs.value)

/-- The operator `Value<T>::operator>=`: the source applies
`std::less_equal<T>` to the payloads. -/
def ge (a rhs : Value α) : Bool := decide (a.value ≤ rhs.value)

/-- The operator `Value<T>::operator==`: `std::equal_to<T>` on the payloads. -/
def eq (a rhs : Value α) : Bool := decide (a.value = rhs.value)

/-- The operator `Value<T>::operator!=`: `std::not_equal_to<T>` on the payloads. -/
def ne (a rhs : Value α) : Bool := decide (a.value ≠ rhs.value)

end Value

/-- An example input: the vector of the 1056 pushes 0, 1, ..., 1055 onto the empty
vector, together with its heap. Its tail is full and so is its trie of height 2. -/
def full1056 : Heap Nat × A :=
  (A.pushAll heap0 A.empty (List.range 1056)).getD (heap0, A.empty)

/-! ## The shift invariant -/

/-- The shift invariant of a header: `_shift` is a positive multiple of `BITS`
and is below 31, so that `1 << _shift` is defined, and `_end` is a `uint32`. -/
def ShiftOk (a : A) : Prop := (∃ k, a._shift = BITS * (k + 1)) ∧ a._shift < 31 ∧ a._end < U32

/-- The headers that the public operations of `Array<T>` and `TransientArray<T>`
hand out: the static `EMPTY`, and every header that an operation returns when it
is called, in any heap and with any arguments, on a header handed out before. -/
inductive Reachable (α : Type) : A → Prop
  | empty : Reachable α EMPTY
  | push (h h' : Heap α) (a a' : A) (v : α) :
      Reachable α a → A.push h a v = some (h', a') → Reachable α a'
  | pop (h h' : Heap α) (a a' : A) :
      Reachable α a → A.pop h a = some (h', a') → Reachable α a'
  | set (h h' : Heap α) (a a' : A) (i : Nat) (v : α) :
      Reachable α a → A.set h a i v = some (h', some a') → Reachable α a'
  | slice (tid : Nat) (h h' : Heap α) (a a' : A) (s e : Nat) :
      Reachable α a → A.slice tid h a s e = some (h', some a') → Reachable α a'
  | without (tid : Nat) (h h' : Heap α) (a a' : A) (s e : Nat) :
      Reachable α a → A.without tid h a s e = some (h', some a') → Reachable α a'
  | cons (tid : Nat) (h h' : Heap α) (a a' : A) (v : α) :
      Reachable α a → A.cons tid h a v = some (h', some a') → Reachable α a'
  | splice (tid : Nat) (h h' : Heap α) (a a' : A) (s e : Nat) (vals : List α) :
      Reachable α a → A.splice tid h a s e vals = some (h', some a') → Reachable α a'
  | spliceIt (tid : Nat) (h h' : Heap α) (a a' : A) (s e : Nat) (it : Iterator) :
      Reachable α a → A.spliceIt tid h a s e it = some (h', some a') → Reachable α a'
  | spliceArray (tid : Nat) (h h' : Heap α) (a a' q : A) (s e : Nat) :
      Reachable α a → A.spliceArray tid h a s e q = some (h', some a') → Reachable α a'
  | pushRange (tid : Nat) (h h' : Heap α) (a a' : A) (I E : Iterator) :
      Reachable α a → A.pushRange tid h a I E = some (h', some a') → Reachable α a'
  | concat (tid : Nat) (h h' : Heap α) (a a' other : A) :
      Reachable α a → A.concat tid h a other = some (h', some a') → Reachable α a'
  | create (tid : Nat) (h h' : Heap α) (a' : A) (vals : List α) :
      A.create tid h vals = some (h', some a') → Reachable α a'
  | asTransient (tid : Nat) (h h' : Heap α) (a t : A) :
      Reachable α a → A.asTransient tid h a = some (h', t) → Reachable α t
  | tpush (h : Heap α) (t : TA) (v : α) (r : TRes α) :
      Reachable α t → TA.push h t v = some r → Reachable α r.hdr
  | tset (h : Heap α) (t : TA) (i : Nat) (v : α) (r : TRes α) :
      Reachable α t → TA.set h t i v = some r → Reachable α r.hdr
  | tpop (h : Heap α) (t : TA) (r : TRes α) :
      Reachable α t → TA.pop h t = some r → Reachable α r.hdr
  | makePersistent (h h' : Heap α) (t a' : A) :
      Reachable α t → TA.makePersistent h t = some (h', some a') → Reachable α a'

/-! ## The height of the trie under `push` and `pop` -/

/-- `Spine h m k p`: what `pop` relies on when it decides whether to drop a level.
For `k = 0` (a root of the level `BITS`) nothing. For `k + 1`: `p` points to a node
of length `BRANCHES` with `BRANCHES` slots, the root of a trie of height `k + 2`
that holds `m` elements; its slot `j`, for `j` from 1 on, is nil exactly when
the first index of that slot, `j * 32 ^ (k + 2)`, is not below `m`; its slot 0
holds a node pointer (or nil), for which `Spine h m k` holds in turn. -/
def Spine (h : Heap α) (m : Nat) : Nat → Ptr → Prop
  | 0, _ => True
  | k + 1, p => ∃ q n, p = some q ∧ h[q]? = some n ∧ n.length = BRANCHES ∧
      n._v.length = BRANCHES ∧
      (∀ j, 1 ≤ j → j < BRANCHES → (n._v[j]? = some Obj.null ↔ m ≤ j * 32 ^ (k + 1 + 1))) ∧
      ∃ s0 c, n._v[0]? = some s0 ∧ s0.toN = some c ∧ Spine h m k c

/-- `Minimal h a`: the header `a` starts at 0, its `_end` is a `uint32`, and its
shift is the least one whose trie has room for the `tailoff` elements below the
tail: `_shift = BITS * (k + 1)` with `tailoff <= 32 ^ (k + 2)`, and
`32 ^ (k + 1) < tailoff` unless `k = 0`; and the root satisfies `Spine`. -/
def Minimal (h : Heap α) (a : A) : Prop :=
  a._start = 0 ∧ a._end < U32 ∧ ∃ k, a._shift = BITS * (k + 1) ∧
    toff a._end ≤ 32 ^ (k + 1 + 1) ∧ (0 < k → 32 ^ (k + 1) < toff a._end) ∧
    Spine h (toff a._end) k a._root

/-- The vectors reachable from the empty vector through persistent `push` and
`pop`, each with a heap it lives in: the heap may grow in between (other
persistent operations only allocate), and `push` is applied only to vectors of
fewer than `2 ^ 32 - 1` elements. -/
inductive PushPop (α : Type) : Heap α → A → Prop
  | empty : PushPop α heap0 EMPTY
  | later (h h' : Heap α) (a : A) : PushPop α h a → Frame h h' ∅ → PushPop α h' a
  | push (h h' : Heap α) (a a' : A) (v : α) :
      PushPop α h a → a._end + 1 < U32 → A.push h a v = some (h', a') → PushPop α h' a'
  | pop (h h' : Heap α) (a a' : A) :
      PushPop α h a → A.pop h a = some (h', a') → PushPop α h' a'

/-! ## The level recursions, with the ways of not returning kept apart -/

/-- The outcome of a level recursion that is run with fuel: a result, undefined
behaviour of the source, or no result yet when the fuel was used up. -/
inductive Res (β : Type) where
  | ok (b : β) : Res β
  | ub : Res β
  | outOfFuel : Res β

namespace Res

/-- Sequencing: the first outcome that is not a result is the outcome. -/
def bind {β γ : Type} : Res β → (β → Res γ) → Res γ
  | ok b, f => f b
  | ub, _ => ub
  | outOfFuel, _ => outOfFuel

instance : Monad Res where
  pure := ok
  bind := bind

/-- A step of the model that cannot recurse: `none` is undefined behaviour. -/
def ofOption {β : Type} : Option β → Res β
  | some b => ok b
  | none => ub

/-- The outcome in the model of the operations, which does not tell undefined
behaviour from a recursion that has not come back. -/
def toOption {β : Type} : Res β → Option β
  | ok b => some b
  | ub => none
  | outOfFuel => none

end Res

namespace ArrayImp

/-- The recursion of `detail::newPath`, run with fuel. -/
def newPathR (edit : Nat) (node : Nat) : Nat → Heap α → Nat → Res (Heap α × Nat)
  | 0, _, _ => Res.outOfFuel
  | fuel + 1, h, level =>
    if level = 0 then Res.ok (h, node)
    else do
      let (h1, c) ← newPathR edit node fuel h (sub32 level BITS)
      let ret ← Res.ofOption ((N.create BRANCHES edit).setSlot 0 (Obj.node c))
      Res.ok (alloc h1 ret)

/-- The recursion of `detail::pushTail`, run with fuel. -/
def pushTailR (a : A) (tailNode : Nat) : Nat → Heap α → Nat → N α → Res (Heap α × Nat)
  | 0, _, _, _ => Res.outOfFuel
  | fuel + 1, h, level, parentNode =>
    if 32 ≤ level then Res.ub
    else
      let subidx := ((sub32 a._end 1) >>> level) &&& MASK
      if level = BITS then
        Res.ok (alloc h (parentNode.copyAssign subidx (Obj.node tailNode) parentNode.edit))
      else do
        let child ← Res.ofOption (parentNode.slot subidx)
        match child with
        | Obj.value _ => Res.ub
        | Obj.node c => do
          let cn ← Res.ofOption h[c]?
          let (h1, p) ← pushTailR a tailNode fuel h (sub32 level BITS) cn
          Res.ok (alloc h1 (parentNode.copyAssign subidx (Obj.node p) parentNode.edit))
        | Obj.null => do
          let r ← Res.ofOption (root h a)
          let (h1, p) ← newPathR r.edit tailNode (sub32 level BITS + 1) h (sub32 level BITS)
          Res.ok (alloc h1 (parentNode.copyAssign subidx (Obj.node p) parentNode.edit))

/-- The recursion of `detail::doAssoc`, run with fuel. -/
def doAssocR (i : Nat) (obj : Obj α) : Nat → Heap α → Nat → N α → Res (Heap α × Nat)
  | 0, _, _, _ => Res.outOfFuel
  | fuel + 1, h, level, node =>
    if level = 0 then
      Res.ok (alloc h (node.copyAssign (i &&& MASK) obj node.edit))
    else if 32 ≤ level then Res.ub
    else do
      let subidx := (i >>> level) &&& MASK
      let s ← Res.ofOption (node.slot subidx)
      let sp ← Res.ofOption s.toN
      let subNode ← Res.ofOption (deref h sp)
      let (h1, c) ← doAssocR i obj fuel h (sub32 level BITS) subNode
      Res.ok (alloc h1 (node.copyAssign subidx (Obj.node c) node.edit))

/-- The loop of `detail::checkedSlotsFor`, run with fuel. -/
def checkedSlotsForR (i : Nat) : Nat → Heap α → Nat → Nat → Res Ptr
  | 0, _, _, _ => Res.outOfFuel
  | fuel + 1, h, level, node =>
    if level = 0 then Res.ok (some node)
    else if 32 ≤ level then Res.ub
    else do
      let n ← Res.ofOption h[node]?
      let k := (i >>> level) &&& MASK
      if k < n.length then do
        let obj ← Res.ofOption (n.slot k)
        match obj with
        | Obj.null => Res.ok none
        | Obj.node c => checkedSlotsForR i fuel h (sub32 level BITS) c
        | Obj.value _ => Res.ub
      else Res.ok none

/-- The loop of `detail::uncheckedSlotsFor`, run with fuel. -/
def uncheckedSlotsForR (i : Nat) : Nat → Heap α → Nat → Ptr → Res Ptr
  | 0, _, _, _ => Res.outOfFuel
  | fuel + 1, h, level, node =>
    if level = 0 then Res.ok node
    else if 32 ≤ level then Res.ub
    else do
      let n ← Res.ofOption (deref h node)
      let s ← Res.ofOption (n.slot ((i >>> level) &&& MASK))
      let c ← Res.ofOption s.toN
      uncheckedSlotsForR i fuel h (sub32 level BITS) c

/-- The recursion of `detail::popTail`, run with fuel. -/
def popTailR (a : A) : Nat → Heap α → Nat → N α → Res (Heap α × Ptr)
  | 0, _, _, _ => Res.outOfFuel
  | fuel + 1, h, level, node =>
    if 32 ≤ level then Res.ub
    else
      let subidx := ((sub32 a._end 2) >>> level) &&& MASK
      if BITS < level then do
        let s ← Res.ofOption (node.slot subidx)
        let cp ← Res.ofOption s.toN
        let cn ← Res.ofOption (deref h cp)
        let (h1, newChild) ← popTailR a fuel h (sub32 level BITS) cn
        if newChild ≠ none ∨ subidx ≠ 0 then do
          let r ← Res.ofOption (root h1 a)
          let (h2, p) := alloc h1 (node.copyAssign subidx (Obj.ofN newChild) r.edit)
          Res.ok (h2, some p)
        else Res.ok (h1, none)
      else if subidx ≠ 0 then do
        let r ← Res.ofOption (root h a)
        let (h1, p) := alloc h (node.copyAssign subidx Obj.null r.edit)
        Res.ok (h1, some p)
      else Res.ok (h, none)

/-- The recursion of `detail::tpushTail`, run with fuel. -/
def tpushTailR (a : TA) (tailNode : Nat) : Nat → Heap α → Nat → Ptr → Res (Heap α × Nat)
  | 0, _, _, _ => Res.outOfFuel
  | fuel + 1, h, level, parentNode => do
    let (h1, pn) ← Res.ofOption (ensureEditable h a parentNode)
    if 32 ≤ level then Res.ub
    else
      let subidx := ((sub32 a._end 1) >>> level) &&& MASK
      if level = BITS then do
        let h2 ← Res.ofOption (writeSlot h1 pn subidx (Obj.node tailNode))
        Res.ok (h2, pn)
      else do
        let p ← Res.ofOption h1[pn]?
        let s ← Res.ofOption (p.slot subidx)
        match s with
        | Obj.value _ => Res.ub
        | Obj.node c => do
          let (h2, q) ← tpushTailR a tailNode fuel h1 (sub32 level BITS) (some c)
          let h3 ← Res.ofOption (writeSlot h2 pn subidx (Obj.node q))
          Res.ok (h3, pn)
        | Obj.null => do
          let r ← Res.ofOption (root h1 a)
          let (h2, q) ← newPathR r.edit tailNode (sub32 level BITS + 1) h1 (sub32 level BITS)
          let h3 ← Res.ofOption (writeSlot h2 pn subidx (Obj.node q))
          Res.ok (h3, pn)

/-- The recursion of `detail::tdoAssoc`, run with fuel. -/
def tdoAssocR (a : TA) (i : Nat) (val : Obj α) : Nat → Heap α → Nat → Ptr → Res (Heap α × Nat)
  | 0, _, _, _ => Res.outOfFuel
  | fuel + 1, h, level, node => do
    let (h1, pn) ← Res.ofOption (ensureEditable h a node)
    if level = 0 then do
      let h2 ← Res.ofOption (writeSlot h1 pn (i &&& MASK) val)
      Res.ok (h2, pn)
    else if 32 ≤ level then Res.ub
    else do
      let subidx := (i >>> level) &&& MASK
      let n ← Res.ofOption h1[pn]?
      let s ← Res.ofOption (n.slot subidx)
      let subNode ← Res.ofOption s.toN
      let (h2, q) ← tdoAssocR a i val fuel h1 (sub32 level BITS) subNode
      let h3 ← Res.ofOption (writeSlot h2 pn subidx (Obj.node q))
      Res.ok (h3, pn)

/-- The loop of `detail::editableSlotsFor`, run with fuel. -/
def editableSlotsForR (a : TA) (i : Nat) : Nat → Heap α → Nat → Nat → Res (Heap α × Nat)
  | 0, _, _, _ => Res.outOfFuel
  | fuel + 1, h, level, node =>
    if level = 0 then Res.ok (h, node)
    else if 32 ≤ level then Res.ub
    else do
      let n ← Res.ofOption h[node]?
      let s ← Res.ofOption (n.slot ((i >>> level) &&& MASK))
      let c ← Res.ofOption s.toN
      let (h1, q) ← Res.ofOption (ensureEditable h a c)
      editableSlotsForR a i fuel h1 (sub32 level BITS) q

/-- The recursion of `detail::tpopTail`, run with fuel. -/
def tpopTailR (a : TA) : Nat → Heap α → Nat → Ptr → Res (Heap α × Ptr)
  | 0, _, _, _ => Res.outOfFuel
  | fuel + 1, h, level, node => do
    let (h1, pn) ← Res.ofOption (ensureEditable h a node)
    if 32 ≤ level then Res.ub
    else
      let subidx := ((sub32 a._end 2) >>> level) &&& MASK
      if BITS < level then do
        let n ← Res.ofOption h1[pn]?
        let s ← Res.ofOption (n.slot subidx)
        let c ← Res.ofOption s.toN
        let (h2, newChild) ← tpopTailR a fuel h1 (sub32 level BITS) c
        if newChild ≠ none ∨ subidx ≠ 0 then do
          let h3 ← Res.ofOption (writeSlot h2 pn subidx (Obj.ofN newChild))
          Res.ok (h3, some pn)
        else Res.ok (h2, none)
      else if subidx ≠ 0 then do
        let h2 ← Res.ofOption (writeSlot h1 pn subidx Obj.null)
        Res.ok (h2, some pn)
      else Res.ok (h1, none)

end ArrayImp

/-- An example input: the vector of the 1057 pushes 0, 1, ..., 1056 onto the
empty vector, together with its heap. Its trie has two levels, and one `pop`
leaves a trie of one level. -/
def big1057 : Heap Nat × A :=
  (A.pushAll heap0 A.empty (List.range 1057)).getD (heap0, A.empty)

/-! ## What the transient push relies on -/

/-- `Trie h k p S`: in heap `h` the node at address `p` is the root of a tree of
height `k` (a leaf has height 0) whose nodes are the addresses in `S`, each
occurring once. An inner node has `BRANCHES` slots, and each slot is nil or
points to the root of a tree of height `k - 1`. Nothing is said about which
slots are nil, about the field `length` of the nodes, or about what the leaves
hold. -/
def Trie (h : Heap α) : Nat → Nat → Set Nat → Prop
  | 0, p, S => S = {p} ∧ ∃ n, h[p]? = some n
  | k + 1, p, S =>
    ∃ n, h[p]? = some n ∧ n._v.length = BRANCHES ∧
    ∃ Ss : Nat → Set Nat,
      (∀ x, x ∈ S ↔ x = p ∨ ∃ j, j < BRANCHES ∧ x ∈ Ss j) ∧
      (∀ j, j < BRANCHES → p ∉ Ss j) ∧
      (∀ i j, i < BRANCHES → j < BRANCHES → i ≠ j → ∀ x, x ∈ Ss i → x ∉ Ss j) ∧
      ∀ j, j < BRANCHES →
        (n._v[j]? = some Obj.null ∧ Ss j = ∅) ∨
        ∃ q, n._v[j]? = some (Obj.node q) ∧ Trie h k q (Ss j)

/-- `PathOk h E e k p`: the path on which `tpushTail` goes down from the node `p`
of height `k` to put the leaf that ends at index `e - 1` (the slots given by
the digits of `e - 1`). A node on the path that does not carry the edit token
`E` is copied by `ensureEditable` with `N::copy(length)`: its `length` is
`BRANCHES`. Where the path meets a nil slot, `newPath` hangs the leaf below
slot 0 of every node it makes: the leaf is the first one of the subtree that is
missing. -/
def PathOk (h : Heap α) (E e : Nat) : Nat → Nat → Prop
  | 0, _ => True
  | k + 1, p =>
    ∃ n, h[p]? = some n ∧ (n.edit ≠ E → n.length = BRANCHES) ∧
      (n._v[(e - 1) / 32 ^ (k + 1) % 32]? = some Obj.null → (e - 1) / 32 % 32 ^ k = 0) ∧
      ∀ q, n._v[(e - 1) / 32 ^ (k + 1) % 32]? = some (Obj.node q) → PathOk h E e k q

/-- `Pushable h t`: the transient `t` is editable and in the shape that
`tpush` relies on. Its header has `_start <= _end` and a shift
`BITS * (k + 1)` below 31; its root carries an edit token and is the root of a
tree of height `k + 1`; its tail is a node with `BRANCHES` slots that is not a
node of that tree; the tree is not over capacity (`tailoff <= 32 ^ (k + 2)`);
and when the tail is full, the path to the place of the tail in the tree
satisfies `PathOk`. -/
def Pushable (h : Heap α) (t : TA) : Prop :=
  t._start ≤ t._end ∧ t._shift < 31 ∧
  ∃ k rp tp rn tn S, t._shift = BITS * (k + 1) ∧ t._root = some rp ∧ t._tail = some tp ∧
    h[rp]? = some rn ∧ rn.edit ≠ NO_EDIT ∧ h[tp]? = some tn ∧ tn._v.length = BRANCHES ∧
    Trie h (k + 1) rp S ∧ tp ∉ S ∧ toff t._end ≤ 32 ^ (k + 1 + 1) ∧
    (32 ≤ t._end - toff t._end → PathOk h rn.edit t._end (k + 1) rp)

/-- What `getValue` reads at index `i` through the unchecked walk that starts
at the node `p` on the level `level`. -/
def readFrom (h : Heap α) (i fuel level : Nat) (p : Ptr) : Option (Obj α) :=
  (uncheckedSlotsForF i fuel h level p).bind fun c =>
    (deref h c).bind fun n => n.slot (i &&& MASK)

/-- An example input: the transient, made by thread 7, of the vector that `pop`
returns on the vector of the 33 pushes 0, 1, ..., 32, together with its heap.
Its root is a copy of `EMPTY_NODE`, of length 0, and its tail is full. -/
def popT : Heap Nat × TA :=
  (do
    let (h1, v) ← A.pushAll heap0 A.empty (List.range 33)
    let (h2, p) ← A.pop h1 v
    A.asTransient 7 h2 p).getD (heap0, A.empty)

/-! ## Arithmetic -/

theorem BITS_eq : BITS = 5 := rfl

theorem BRANCHES_eq : BRANCHES = 32 := rfl

theorem MASK_eq : MASK = 31 := rfl

theorem sub32_eq {a b : Nat} (hb : b ≤ a) (ha : a < U32) : sub32 a b = a - b := by
  unfold sub32 U32 at *
  omega

theorem add32_eq {a b : Nat} (h : a + b < U32) : add32 a b = a + b := by
  unfold add32 U32 at *
  omega

theorem and_MASK (i : Nat) : i &&& MASK = i % 32 := by
  have := Nat.and_pow_two_sub_one_eq_mod i 5
  simpa [MASK_eq] using this

theorem shr_level (i k : Nat) : i >>> (BITS * k) = i / 32 ^ k := by
  rw [Nat.shiftRight_eq_div_pow, BITS_eq, pow_mul]
  norm_num

theorem digit_eq (i k : Nat) : (i >>> (BITS * k)) &&& MASK = i / 32 ^ k % 32 := by
  rw [and_MASK, shr_level]

/-- The digit of `i` at height `k` picks the child whose range contains `i`. -/
theorem digit_spec (k b i : Nat) (hb : 32 ^ (k + 1) ∣ b) (h1 : b ≤ i) (h2 : i < b + 32 ^ (k + 1)) :
    i / 32 ^ k % 32 < 32 ∧ b + (i / 32 ^ k % 32) * 32 ^ k ≤ i ∧
      i < b + (i / 32 ^ k % 32 + 1) * 32 ^ k := by
  obtain ⟨c, rfl⟩ := hb
  have hC : 0 < 32 ^ k := by positivity
  obtain ⟨r, rfl⟩ : ∃ r, i = 32 ^ (k + 1) * c + r := ⟨i - 32 ^ (k + 1) * c, by omega⟩
  have hr : r < 32 ^ (k + 1) := by omega
  have e1 : (32 ^ (k + 1) * c + r) / 32 ^ k = 32 * c + r / 32 ^ k := by
    rw [pow_succ, mul_assoc, Nat.mul_add_div hC]
  have hr2 : r / 32 ^ k < 32 := by
    rw [Nat.div_lt_iff_lt_mul hC, mul_comm]
    simpa [pow_succ] using hr
  have e2 : (32 * c + r / 32 ^ k) % 32 = r / 32 ^ k := by
    rw [Nat.mul_add_mod]
    exact Nat.mod_eq_of_lt hr2
  rw [e1, e2]
  refine ⟨hr2, ?_, ?_⟩
  · have := Nat.div_mul_le_self r (32 ^ k)
    omega
  · have := Nat.lt_div_mul_add hC (a := r)
    rw [add_mul, one_mul]
    omega

/-! ## Heap lemmas -/

theorem alloc_fst (h : Heap α) (n : N α) : (alloc h n).1 = h ++ [n] := rfl

theorem alloc_snd (h : Heap α) (n : N α) : (alloc h n).2 = h.length := rfl

theorem get_append_old (h : Heap α) (l : List (N α)) {x : Nat} (hx : x < h.length) :
    (h ++ l)[x]? = h[x]? :=
  List.getElem?_append_left hx

theorem get_append_new (h : Heap α) (n : N α) : (h ++ [n])[h.length]? = some n := by
  simp

/-! ## The subtree invariant -/

theorem Sub.root_mem {h : Heap α} {xs : List α} {m : Nat} :
    ∀ {k p b : Nat} {S : Set Nat}, Sub h xs m k p b S → p ∈ S
  | 0, p, b, S, hs => by
    obtain ⟨rfl, -⟩ := hs
    simp
  | k + 1, p, b, S, hs => by
    obtain ⟨n, -, -, -, Ss, hS, -⟩ := hs
    exact (hS p).2 (Or.inl rfl)

theorem Sub.valid {h : Heap α} {xs : List α} {m : Nat} :
    ∀ {k p b : Nat} {S : Set Nat}, Sub h xs m k p b S → ∀ x, x ∈ S → x < h.length
  | 0, p, b, S, hs, x, hx => by
    obtain ⟨rfl, -, n, hn, -⟩ := hs
    have : x = p := by simpa using hx
    subst this
    by_contra hlt
    rw [List.getElem?_eq_none (by omega)] at hn
    exact absurd hn (by simp)
  | k + 1, p, b, S, hs, x, hx => by
    obtain ⟨n, hn, -, -, Ss, hS, -, -, hch⟩ := hs
    rcases (hS x).1 hx with rfl | ⟨j, hj, hxj⟩
    · by_contra hlt
      rw [List.getElem?_eq_none (by omega)] at hn
      exact absurd hn (by simp)
    · by_cases hlt : b + j * 32 ^ (k + 1) < m
      · obtain ⟨q, -, hq⟩ := (hch j hj).1 hlt
        exact Sub.valid hq x hxj
      · have := ((hch j hj).2 (by omega)).2
        rw [this] at hxj
        exact absurd hxj (by simp)

theorem Sub.frame {h h' : Heap α} {xs : List α} {m : Nat} :
    ∀ {k p b : Nat} {S : Set Nat}, Sub h xs m k p b S → (∀ x, x ∈ S → h'[x]? = h[x]?) →
      Sub h' xs m k p b S
  | 0, p, b, S, hs, hf => by
    obtain ⟨rfl, hb, n, hn, hrest⟩ := hs
    exact ⟨rfl, hb, n, by rw [hf p (by simp)]; exact hn, hrest⟩
  | k + 1, p, b, S, hs, hf => by
    obtain ⟨n, hn, hl, hv, Ss, hS, hp, hd, hch⟩ := hs
    refine ⟨n, by rw [hf p ((hS p).2 (Or.inl rfl))]; exact hn, hl, hv, Ss, hS, hp, hd, ?_⟩
    intro j hj
    refine ⟨fun hlt => ?_, (hch j hj).2⟩
    obtain ⟨q, hq, hsub⟩ := (hch j hj).1 hlt
    exact ⟨q, hq, Sub.frame hsub (fun x hx => hf x ((hS x).2 (Or.inr ⟨j, hj, hx⟩)))⟩

/-- The invariant of a subtree only depends on the elements in its range and on
which indices of its range are below the number of stored elements. -/
theorem Sub.congr {h : Heap α} {xs xs' : List α} {m m' : Nat} :
    ∀ {k p b : Nat} {S : Set Nat}, Sub h xs m k p b S →
      (∀ i, b ≤ i → i < b + 32 ^ (k + 1) → i < m → xs'[i]? = xs[i]?) →
      (∀ c, b ≤ c → c < b + 32 ^ (k + 1) → (c < m ↔ c < m')) →
      Sub h xs' m' k p b S
  | 0, p, b, S, hs, hx, hm => by
    obtain ⟨rfl, hb, n, hn, hl, hv, hval⟩ := hs
    simp only [BRANCHES_eq] at *
    refine ⟨rfl, ?_, n, hn, hl, hv, ?_⟩
    · have := (hm (b + 31) (by omega) (by norm_num)).1 (by omega)
      simp only [BRANCHES_eq]
      omega
    · intro j hj
      simp only [BRANCHES_eq] at hj
      rw [hval j hj, hx (b + j) (by omega) (by norm_num; omega) (by omega)]
  | k + 1, p, b, S, hs, hx, hm => by
    obtain ⟨n, hn, hl, hv, Ss, hS, hp, hd, hch⟩ := hs
    refine ⟨n, hn, hl, hv, Ss, hS, hp, hd, ?_⟩
    intro j hj
    have hj32 : j < 32 := hj
    have hC : 0 < 32 ^ (k + 1) := by positivity
    have hrange : b + j * 32 ^ (k + 1) + 32 ^ (k + 1) ≤ b + 32 ^ (k + 1 + 1) := by
      have : (j + 1) * 32 ^ (k + 1) ≤ 32 * 32 ^ (k + 1) := Nat.mul_le_mul_right _ (by omega)
      rw [pow_succ _ (k + 1)]
      linarith
    have hiff := hm (b + j * 32 ^ (k + 1)) (Nat.le_add_right _ _) (by omega)
    refine ⟨fun hlt => ?_, fun hge => (hch j hj).2 (by
      by_contra hcon
      exact absurd (hiff.1 (by omega)) (by omega))⟩
    obtain ⟨q, hq, hsub⟩ := (hch j hj).1 (hiff.2 hlt)
    refine ⟨q, hq, Sub.congr hsub (fun i h1 h2 h3 => hx i (by omega) (by omega) h3)
      (fun c h1 h2 => hm c (by omega) (by omega))⟩

theorem level_lt {k : Nat} (hk : BITS * (k + 1) < 32) : BITS * (k + 1) < U32 := by
  unfold U32; omega

theorem sub32_level {k : Nat} (hk : BITS * (k + 1) < 32) : sub32 (BITS * (k + 1)) BITS = BITS * k := by
  rw [sub32_eq (by simp [BITS_eq]) (level_lt hk)]
  simp only [BITS_eq]; omega

theorem level_ne_zero (k : Nat) : BITS * (k + 1) ≠ 0 := by
  simp [BITS_eq]

/-- Walking down from the root of a subtree along the digits of an index that
the subtree holds ends at the leaf of that index; the checked and the unchecked
walk agree. -/
theorem Sub.walk {h : Heap α} {xs : List α} {m : Nat} (i : Nat) :
    ∀ {k p b : Nat} {S : Set Nat} (fuel : Nat), Sub h xs m k p b S → 32 ^ (k + 1) ∣ b →
      b ≤ i → i < b + 32 ^ (k + 1) → i < m → k < fuel → BITS * k < 32 →
      ∃ q n, uncheckedSlotsForF i fuel h (BITS * k) (some p) = some (some q) ∧
        checkedSlotsForF i fuel h (BITS * k) p = some (some q) ∧ q ∈ S ∧
        h[q]? = some n ∧ n.length = BRANCHES ∧ n._v.length = BRANCHES ∧
        n._v[i % 32]? = (xs[i]?).map Obj.value
  | 0, p, b, S, fuel, hs, hb, h1, h2, h3, hf, hl => by
    obtain ⟨f, rfl⟩ : ∃ f, fuel = f + 1 := ⟨fuel - 1, by omega⟩
    obtain ⟨rfl, hbm, n, hn, hlen, hv, hval⟩ := hs
    refine ⟨p, n, by simp [uncheckedSlotsForF], by simp [checkedSlotsForF], by simp, hn, hlen, hv, ?_⟩
    obtain ⟨c, rfl⟩ := hb
    have := hval (i - 32 ^ (0 + 1) * c) (by simp only [BRANCHES_eq]; omega)
    have e : i % 32 = i - 32 ^ (0 + 1) * c := by
      norm_num at *
      omega
    rw [e, this]
    congr 2
    try omega
  | k + 1, p, b, S, fuel, hs, hb, h1, h2, h3, hf, hl => by
    obtain ⟨f, rfl⟩ : ∃ f, fuel = f + 1 := ⟨fuel - 1, by omega⟩
    obtain ⟨n, hn, hlen, hv, Ss, hS, hp, hd, hch⟩ := hs
    obtain ⟨hj, hlo, hhi⟩ := digit_spec (k + 1) b i hb h1 h2
    generalize hjdef : i / 32 ^ (k + 1) % 32 = j at hj hlo hhi
    obtain ⟨q, hq, hsub⟩ := (hch j hj).1 (by omega)
    have hb' : 32 ^ (k + 1) ∣ b + j * 32 ^ (k + 1) :=
      Dvd.dvd.add (dvd_trans (pow_dvd_pow 32 (Nat.le_succ _)) hb) (dvd_mul_left _ _)
    obtain ⟨q', n', e1, e2, hmem, hrest⟩ :=
      Sub.walk i f hsub hb' hlo (by rw [add_mul, one_mul] at hhi; omega) h3 (by omega)
        (by simp only [BITS_eq] at *; omega)
    refine ⟨q', n', ?_, ?_, (hS q').2 (Or.inr ⟨j, hj, hmem⟩), hrest⟩
    · rw [uncheckedSlotsForF]
      simp only [level_ne_zero, if_false, Nat.not_le.2 hl, deref, hn, N.slot, digit_eq,
        hjdef, hq, Obj.toN, sub32_level hl, Option.bind_eq_bind, Option.some_bind]
      exact e1
    · rw [checkedSlotsForF]
      simp only [level_ne_zero, if_false, Nat.not_le.2 hl, hn, N.slot, digit_eq,
        hjdef, hq, sub32_level hl, Option.bind_eq_bind, Option.some_bind, hlen]
      rw [if_pos (by rw [BRANCHES_eq]; exact hj)]
      exact e2

theorem tailoff_eq (a : A) (h : a._end < U32) :
    tailoff a = if a._end < 32 then 0 else (a._end - 1) / 32 * 32 := by
  unfold tailoff
  simp only [BRANCHES_eq]
  split
  · rfl
  · rw [sub32_eq (by omega) h, Nat.shiftRight_eq_div_pow, Nat.shiftLeft_eq, BITS_eq]

theorem tailoff_spec (a : A) (h : a._end < U32) :
    tailoff a % 32 = 0 ∧ tailoff a ≤ a._end ∧ a._end - tailoff a ≤ 32 ∧
      (0 < a._end → tailoff a < a._end) := by
  rw [tailoff_eq a h]
  split <;> omega

theorem Rep.height_le {h : Heap α} {a : A} {xs : List α} {k rp tp : Nat} {tn : N α}
    {S : Set Nat} (r : Rep h a xs k rp tp tn S) : k ≤ 5 := by
  by_contra hk
  have h1 := r.hmin (by omega)
  have h2 := (tailoff_spec a (r.hend ▸ r.hlt)).2.1
  have h3 : 32 ^ 7 ≤ 32 ^ (k + 1) := Nat.pow_le_pow_right (by norm_num) (by omega)
  have h4 := r.hlt
  rw [← r.hend] at h4
  unfold U32 at h4
  norm_num at h3
  omega

theorem Rep.shift_lt {h : Heap α} {a : A} {xs : List α} {k rp tp : Nat} {tn : N α}
    {S : Set Nat} (r : Rep h a xs k rp tp tn S) : BITS * (k + 1) < 31 := by
  have := r.height_le
  simp only [BITS_eq]
  omega

/-- Lookup in a represented vector: both the unchecked and the checked engine
lookup return the element at an absolute index below `_end`. -/
theorem Rep.lookup {h : Heap α} {a : A} {xs : List α} {k rp tp : Nat} {tn : N α}
    {S : Set Nat} (r : Rep h a xs k rp tp tn S) (i : Nat) (hi : i < xs.length) :
    ArrayImp.getValue h a i = (xs[i]?).map Obj.value ∧
      ArrayImp.findValue h a i = (xs[i]?).map Obj.value := by
  have hU : a._end < U32 := r.hend ▸ r.hlt
  obtain ⟨t1, t2, t3, -⟩ := tailoff_spec a hU
  have hx : xs[i]? = some xs[i] := List.getElem?_eq_getElem hi
  by_cases hm : tailoff a ≤ i
  · have hv := r.hvals (i - tailoff a) (by omega)
    have e : i % 32 = i - tailoff a := by rw [r.hend] at t2 t3; omega
    have e2 : tailoff a + (i - tailoff a) = i := by omega
    rw [e2, ← e] at hv
    have hl : i % 32 < tn.length := by have := r.htlen; rw [r.hend] at t2 t3; omega
    constructor
    · simp only [ArrayImp.getValue, uncheckedSlotsFor, hm, if_true, ArrayImp.tail, r.htail,
        deref, r.htn, N.slot, and_MASK, hv, Option.bind_eq_bind, Option.some_bind]
    · simp only [ArrayImp.findValue, checkedSlotsFor, hm, if_true, ArrayImp.tail, r.htail,
        deref, r.htn, N.slot, and_MASK, hv, Option.bind_eq_bind, Option.some_bind, hl]
  · have hsub := r.hsub
    have hs := r.shift_lt
    obtain ⟨q, n, e1, e2, -, hq, hlen, -, hval⟩ :=
      Sub.walk i (a._shift + 1) hsub (dvd_zero _) (Nat.zero_le _)
        (by rw [zero_add]; exact lt_of_lt_of_le (Nat.lt_of_not_le hm) r.hcap) (by omega)
        (by rw [r.hshift]; simp only [BITS_eq]; omega) (by omega)
    obtain ⟨rn, hrn, -⟩ := hsub
    rw [← r.hshift] at e1 e2
    have hl : i % 32 < n.length := by rw [hlen, BRANCHES_eq]; exact Nat.mod_lt _ (by norm_num)
    constructor
    · simp only [ArrayImp.getValue, uncheckedSlotsFor, hm, if_false, ArrayImp.root, r.hroot,
        deref, hrn, e1, hq, N.slot, and_MASK, hval, Option.bind_eq_bind, Option.some_bind]
    · simp only [ArrayImp.findValue, checkedSlotsFor, hm, if_false, ArrayImp.root, r.hroot,
        deref, hrn, e2, hq, N.slot, and_MASK, hval, Option.bind_eq_bind, Option.some_bind, hl,
        if_true]

theorem Frame.refl (h : Heap α) (M : Set Nat) : Frame h h M :=
  ⟨le_refl _, fun _ _ _ => rfl⟩

theorem Frame.trans {h h1 h2 : Heap α} {M1 M2 M : Set Nat} (f1 : Frame h h1 M1)
    (f2 : Frame h1 h2 M2) (hM1 : ∀ x, x ∈ M1 → x ∈ M)
    (hM2 : ∀ x, x ∈ M2 → x < h.length → x ∈ M) : Frame h h2 M :=
  ⟨le_trans f1.1 f2.1, fun x hx hxM => by
    rw [f2.2 x (lt_of_lt_of_le hx f1.1) (fun hc => hxM (hM2 x hc hx)),
      f1.2 x hx (fun hc => hxM (hM1 x hc))]⟩

theorem Frame.alloc (h : Heap α) (n : N α) (M : Set Nat) : Frame h (h ++ [n]) M :=
  ⟨by simp, fun x hx _ => get_append_old h [n] hx⟩

theorem Frame.mono {h h' : Heap α} {M M' : Set Nat} (f : Frame h h' M)
    (hM : ∀ x, x ∈ M → x ∈ M') : Frame h h' M' :=
  ⟨f.1, fun x hx hxM => f.2 x hx (fun hc => hxM (hM x hc))⟩

theorem Sub.of_frame {h h' : Heap α} {xs : List α} {m k p b : Nat} {S M : Set Nat}
    (hs : Sub h xs m k p b S) (f : Frame h h' M) (hd : ∀ x, x ∈ S → x ∉ M) :
    Sub h' xs m k p b S :=
  hs.frame (fun x hx => f.2 x (hs.valid x hx) (hd x hx))

/-! ## Nodes -/

theorem getD_eq {l : List (Obj α)} {j : Nat} {o : Obj α} (h : l[j]? = some o) :
    l.getD j Obj.null = o := by
  simp [List.getD_eq_getElem?_getD, h]

theorem getD_null {l : List (Obj α)} {j : Nat} (hj : j < l.length) :
    some (l.getD j Obj.null) = l[j]? := by
  simp [List.getD_eq_getElem?_getD, List.getElem?_eq_getElem hj]

theorem N.copyAssign_length (n : N α) (idx : Nat) (obj : Obj α) (e : Nat) :
    (n.copyAssign idx obj e).length = n.length := rfl

theorem N.copyAssign_v_length (n : N α) (idx : Nat) (obj : Obj α) (e : Nat) :
    (n.copyAssign idx obj e)._v.length = BRANCHES := by
  simp [N.copyAssign]

theorem N.copyAssign_get (n : N α) (idx : Nat) (obj : Obj α) (e : Nat) {j : Nat}
    (hl : n.length = BRANCHES) (hv : n._v.length = BRANCHES) (hj : j < BRANCHES) :
    (n.copyAssign idx obj e)._v[j]? = if j = idx then some obj else n._v[j]? := by
  simp only [N.copyAssign, List.getElem?_map, List.getElem?_range hj, Option.map_some', hl,
    if_pos hj]
  split
  · rfl
  · exact getD_null (by omega)

theorem N.copy_length (n : N α) (len e : Nat) : (n.copy len e).length = len := rfl

theorem N.copy_v_length (n : N α) (len e : Nat) : (n.copy len e)._v.length = BRANCHES := by
  simp [N.copy]

theorem N.copy_get (n : N α) (len e : Nat) {j : Nat} (hj : j < BRANCHES) :
    (n.copy len e)._v[j]? =
      some (if j < min len n.length then n._v.getD j Obj.null else Obj.null) := by
  simp only [N.copy, List.getElem?_map, List.getElem?_range hj, Option.map_some']

theorem N.setSlot_eq (n : N α) (i : Nat) (obj : Obj α) (hi : i < n._v.length) :
    n.setSlot i obj = some ⟨n.edit, n.length, n._v.set i obj⟩ := by
  simp [N.setSlot, hi]

theorem N.create_v_length (len e : Nat) : (N.create len e : N α)._v.length = BRANCHES := by
  simp [N.create]

/-! ## `newPath` -/

/-- `newPath` at level `BITS * k` wraps the leaf `tl`, which holds the elements
from index `m` on, into a chain of `k` fresh nodes: a subtree of height `k` over
the indices from `m` on. -/
theorem newPathF_spec (edit tl : Nat) (xs : List α) (m : Nat) :
    ∀ (k fuel : Nat) (h : Heap α), k < fuel → BITS * k < 32 → Sub h xs (m + 32) 0 tl m {tl} →
      ∃ h' q S, newPathF edit tl fuel h (BITS * k) = some (h', q) ∧ Frame h h' ∅ ∧
        Sub h' xs (m + 32) k q m S ∧ (∀ x, x ∈ S → x = tl ∨ h.length ≤ x)
  | 0, fuel, h, hf, _, hl => by
    obtain ⟨f, rfl⟩ : ∃ f, fuel = f + 1 := ⟨fuel - 1, by omega⟩
    exact ⟨h, tl, {tl}, by simp [newPathF], Frame.refl _ _, hl, fun x hx => Or.inl (by simpa using hx)⟩
  | k + 1, fuel, h, hf, hk, hl => by
    obtain ⟨f, rfl⟩ : ∃ f, fuel = f + 1 := ⟨fuel - 1, by omega⟩
    obtain ⟨h1, c, S1, e1, f1, hs1, hS1⟩ :=
      newPathF_spec edit tl xs m k f h (by omega) (by simp only [BITS_eq] at *; omega) hl
    have hset : (N.create BRANCHES edit : N α).setSlot 0 (Obj.node c) =
        some ⟨edit, BRANCHES, (List.replicate BRANCHES Obj.null).set 0 (Obj.node c)⟩ := by
      rw [N.setSlot_eq _ _ _ (by simp [N.create, BRANCHES_eq])]
      rfl
    refine ⟨h1 ++ [⟨edit, BRANCHES, (List.replicate BRANCHES Obj.null).set 0 (Obj.node c)⟩],
      h1.length, fun x => x = h1.length ∨ x ∈ S1, ?_, ?_, ?_, ?_⟩
    · rw [newPathF]
      simp only [level_ne_zero, if_false, sub32_level hk, e1, hset, Option.bind_eq_bind,
        Option.some_bind, alloc]
    · exact Frame.trans f1 (Frame.alloc h1 _ ∅) (fun x hx => hx) (fun x hx _ => hx)
    · have hC : 0 < 32 ^ (k + 1) := by positivity
      refine ⟨_, get_append_new h1 _, rfl, by simp, fun j => if j = 0 then S1 else ∅, ?_, ?_, ?_, ?_⟩
      · intro x
        constructor
        · rintro (hx | hx)
          · exact Or.inl hx
          · exact Or.inr ⟨0, by simp [BRANCHES_eq], by simpa using hx⟩
        · rintro (hx | ⟨j, hj, hx⟩)
          · exact Or.inl hx
          · by_cases hj0 : j = 0
            · subst hj0
              exact Or.inr (by simpa using hx)
            · simp [hj0] at hx
      · intro j _
        by_cases hj0 : j = 0
        · simp only [hj0, if_true]
          intro hc
          have := hs1.valid _ hc
          omega
        · simp [hj0]
      · intro i j _ _ hij x hx
        by_cases hi0 : i = 0
        · have : j ≠ 0 := by omega
          simp [this]
        · simp [hi0] at hx
      · intro j hj
        by_cases hj0 : j = 0
        · subst hj0
          refine ⟨fun _ => ⟨c, by simp [BRANCHES_eq], ?_⟩, fun hc => by omega⟩
          simp only [zero_mul, add_zero, if_true]
          exact hs1.of_frame (Frame.alloc h1 _ ∅) (fun x _ => by simp)
        · have hge : 32 ^ (k + 1) ≤ j * 32 ^ (k + 1) := Nat.le_mul_of_pos_left _ (by omega)
          have h32 : 32 ≤ 32 ^ (k + 1) := by
            calc 32 = 32 ^ 1 := by norm_num
              _ ≤ 32 ^ (k + 1) := Nat.pow_le_pow_right (by norm_num) (by omega)
          refine ⟨fun hc => by omega, fun _ => ⟨?_, by simp [hj0]⟩⟩
          rw [List.getElem?_set_ne (by omega), List.getElem?_replicate, if_pos hj]
    · rintro x (hx | hx)
      · exact Or.inr (by rw [hx]; exact f1.1)
      · exact hS1 x hx

/-- Where the leaf that starts at index `m` hangs below a node of height `k + 1`
that covers the indices from `b` on: the digit of `m + 31`. -/
theorem digit_push (k b m : Nat) (hb : 32 ^ (k + 1 + 1) ∣ b) (hm : 32 ∣ m) (h1 : b ≤ m)
    (h2 : m < b + 32 ^ (k + 1 + 1)) :
    (m + 31) / 32 ^ (k + 1) % 32 < 32 ∧ b + ((m + 31) / 32 ^ (k + 1) % 32) * 32 ^ (k + 1) ≤ m ∧
      m + 32 ≤ b + ((m + 31) / 32 ^ (k + 1) % 32 + 1) * 32 ^ (k + 1) := by
  have hb32 : 32 ∣ b := dvd_trans (dvd_pow_self 32 (by omega)) hb
  have hC32 : 32 ∣ 32 ^ (k + 1 + 1) := dvd_pow_self 32 (by omega)
  have hD32 : 32 ∣ 32 ^ (k + 1) := dvd_pow_self 32 (by omega)
  have h3 : m + 31 < b + 32 ^ (k + 1 + 1) := by
    obtain ⟨b', rfl⟩ := hb32
    obtain ⟨m', rfl⟩ := hm
    obtain ⟨c', hc'⟩ := hC32
    omega
  obtain ⟨g1, g2, g3⟩ := digit_spec (k + 1) b (m + 31) hb (by omega) h3
  refine ⟨g1, ?_, ?_⟩
  · have : 32 ∣ (m + 31) / 32 ^ (k + 1) % 32 * 32 ^ (k + 1) := Dvd.dvd.mul_left hD32 _
    obtain ⟨b', rfl⟩ := hb32
    obtain ⟨m', rfl⟩ := hm
    obtain ⟨c', hc'⟩ := this
    omega
  · have : 32 ∣ ((m + 31) / 32 ^ (k + 1) % 32 + 1) * 32 ^ (k + 1) := Dvd.dvd.mul_left hD32 _
    obtain ⟨b', rfl⟩ := hb32
    obtain ⟨m', rfl⟩ := hm
    obtain ⟨c', hc'⟩ := this
    omega

/-- Rebuilding a node after the leaf that starts at index `m` went below its
child `j`: the new node `n'` at `p'` has the slots of the old node `n` except
that slot `j` points to the new child `q'`. -/
theorem Sub.rebuild {h h' : Heap α} {xs xs' : List α} {m k b j q' : Nat} {n : N α}
    {Ss : Nat → Set Nat} {Sq : Set Nat} (p' : Nat) (n' : N α)
    (hd : ∀ i i', i < BRANCHES → i' < BRANCHES → i ≠ i' → ∀ x, x ∈ Ss i → x ∉ Ss i')
    (hch : ∀ i, i < BRANCHES →
      (b + i * 32 ^ (k + 1) < m →
        ∃ q, n._v[i]? = some (Obj.node q) ∧ Sub h xs m k q (b + i * 32 ^ (k + 1)) (Ss i)) ∧
      (m ≤ b + i * 32 ^ (k + 1) → n._v[i]? = some Obj.null ∧ Ss i = ∅))
    (hj : j < BRANCHES) (hlo : b + j * 32 ^ (k + 1) ≤ m)
    (hhi : m + 32 ≤ b + (j + 1) * 32 ^ (k + 1))
    (hxs : ∀ i, i < m → xs'[i]? = xs[i]?)
    (hn' : h'[p']? = some n') (hl' : n'.length = BRANCHES) (hv' : n'._v.length = BRANCHES)
    (hslots : ∀ i, i < BRANCHES → i ≠ j → n'._v[i]? = n._v[i]?)
    (hslotj : n'._v[j]? = some (Obj.node q'))
    (hq' : Sub h' xs' (m + 32) k q' (b + j * 32 ^ (k + 1)) Sq)
    (hfr : ∀ i, i < BRANCHES → i ≠ j → ∀ x, x ∈ Ss i → h'[x]? = h[x]?)
    (hp' : ∀ i, i < BRANCHES → i ≠ j → p' ∉ Ss i) (hp'q : p' ∉ Sq)
    (hdq : ∀ i, i < BRANCHES → i ≠ j → ∀ x, x ∈ Sq → x ∉ Ss i) :
    Sub h' xs' (m + 32) (k + 1) p' b
      (fun x => x = p' ∨ x ∈ Sq ∨ ∃ i, i < BRANCHES ∧ i ≠ j ∧ x ∈ Ss i) := by
  have hC : 0 < 32 ^ (k + 1) := by positivity
  refine ⟨n', hn', hl', hv', fun i => if i = j then Sq else Ss i, ?_, ?_, ?_, ?_⟩
  · intro x
    constructor
    · rintro (hx | hx | ⟨i, hi, hij, hx⟩)
      · exact Or.inl hx
      · exact Or.inr ⟨j, hj, by simpa using hx⟩
      · exact Or.inr ⟨i, hi, by simpa [hij] using hx⟩
    · rintro (hx | ⟨i, hi, hx⟩)
      · exact Or.inl hx
      · by_cases hij : i = j
        · subst hij
          exact Or.inr (Or.inl (by simpa using hx))
        · exact Or.inr (Or.inr ⟨i, hi, hij, by simpa [hij] using hx⟩)
  · intro i hi
    by_cases hij : i = j
    · simpa [hij] using hp'q
    · simpa [hij] using hp' i hi hij
  · intro i i' hi hi' hii x hx
    by_cases hij : i = j
    · have hi'j : i' ≠ j := fun hc => hii (hij.trans hc.symm)
      simp only [hij, if_true] at hx
      simpa [hi'j] using hdq i' hi' hi'j x hx
    · simp only [hij, if_false] at hx
      by_cases hi'j : i' = j
      · simp only [hi'j, if_true]
        exact fun hc => hdq i hi hij x hc hx
      · simpa [hi'j] using hd i i' hi hi' hii x hx
  · intro i hi
    by_cases hij : i = j
    · subst hij
      simp only [if_true]
      exact ⟨fun _ => ⟨q', hslotj, hq'⟩, fun hc => by omega⟩
    · simp only [hij, if_false]
      rw [hslots i hi hij]
      rcases Nat.lt_or_gt_of_ne hij with hlt | hgt
      · have h1 : (i + 1) * 32 ^ (k + 1) ≤ j * 32 ^ (k + 1) := Nat.mul_le_mul_right _ hlt
        rw [add_mul, one_mul] at h1
        refine ⟨fun _ => ?_, fun hc => by omega⟩
        obtain ⟨q, hq, hsub⟩ := (hch i hi).1 (by omega)
        refine ⟨q, hq, Sub.congr (hsub.frame (hfr i hi hij)) (fun c _ _ h3 => hxs c h3)
          (fun c _ hc2 => ⟨fun _ => by omega, fun _ => by omega⟩)⟩
      · have h1 : (j + 1) * 32 ^ (k + 1) ≤ i * 32 ^ (k + 1) := Nat.mul_le_mul_right _ hgt
        exact ⟨fun hc => by omega, fun _ => (hch i hi).2 (by omega)⟩

/-- The persistent way to rebuild a node: a fresh copy with slot `j` replaced is
put on the heap. -/
theorem Sub.rebuild_alloc {h h1 : Heap α} {xs xs' : List α} {m k p b j q1 : Nat} {n : N α}
    {S S1 : Set Nat} {Ss : Nat → Set Nat} (tl e : Nat)
    (hvalid : ∀ x, x ∈ S → x < h.length)
    (hS : ∀ x, x ∈ S ↔ x = p ∨ ∃ i, i < BRANCHES ∧ x ∈ Ss i)
    (hl : n.length = BRANCHES) (hv : n._v.length = BRANCHES)
    (hd : ∀ i i', i < BRANCHES → i' < BRANCHES → i ≠ i' → ∀ x, x ∈ Ss i → x ∉ Ss i')
    (hch : ∀ i, i < BRANCHES →
      (b + i * 32 ^ (k + 1) < m →
        ∃ q, n._v[i]? = some (Obj.node q) ∧ Sub h xs m k q (b + i * 32 ^ (k + 1)) (Ss i)) ∧
      (m ≤ b + i * 32 ^ (k + 1) → n._v[i]? = some Obj.null ∧ Ss i = ∅))
    (hj : j < BRANCHES) (hlo : b + j * 32 ^ (k + 1) ≤ m)
    (hhi : m + 32 ≤ b + (j + 1) * 32 ^ (k + 1))
    (hxs : ∀ i, i < m → xs'[i]? = xs[i]?)
    (f1 : Frame h h1 ∅)
    (hs1 : Sub h1 xs' (m + 32) k q1 (b + j * 32 ^ (k + 1)) S1)
    (hS1 : ∀ x, x ∈ S1 → x ∈ Ss j ∨ x = tl ∨ h.length ≤ x)
    (htl : tl ∉ S) :
    ∃ S', Sub (h1 ++ [n.copyAssign j (Obj.node q1) e]) xs' (m + 32) (k + 1) h1.length b S' ∧
      ∀ x, x ∈ S' → x ∈ S ∨ x = tl ∨ h.length ≤ x := by
  have hSs : ∀ i, i < BRANCHES → ∀ x, x ∈ Ss i → x ∈ S :=
    fun i hi x hx => (hS x).2 (Or.inr ⟨i, hi, hx⟩)
  have hfa := Frame.alloc h1 (n.copyAssign j (Obj.node q1) e) ∅
  refine ⟨_, Sub.rebuild h1.length (n.copyAssign j (Obj.node q1) e) hd hch hj hlo
    hhi hxs (get_append_new h1 _) (by rw [N.copyAssign_length, hl]) (N.copyAssign_v_length _ _ _ _)
    ?_ ?_ (hs1.of_frame hfa (fun x _ => by simp)) ?_ ?_ ?_ ?_, ?_⟩
  · intro i hi hij
    rw [N.copyAssign_get n j _ e hl hv hi, if_neg hij]
  · rw [N.copyAssign_get n j _ e hl hv hj, if_pos rfl]
  · intro i hi _ x hx
    have hx1 := hvalid x (hSs i hi x hx)
    rw [get_append_old h1 _ (lt_of_lt_of_le hx1 f1.1)]
    exact f1.2 x hx1 (by simp)
  · intro i hi _ hc
    have := hvalid _ (hSs i hi _ hc)
    have := f1.1
    omega
  · intro hc
    have := hs1.valid _ hc
    omega
  · intro i hi hij x hx hc
    have hxS := hvalid x (hSs i hi x hc)
    rcases hS1 x hx with h1' | h1' | h1'
    · exact hd j i hj hi (Ne.symm hij) x h1' hc
    · exact htl (h1' ▸ hSs i hi x hc)
    · omega
  · rintro x (hx | hx | ⟨i, hi, _, hx⟩)
    · exact Or.inr (Or.inr (by rw [hx]; exact f1.1))
    · rcases hS1 x hx with h1' | h1' | h1'
      · exact Or.inl (hSs j hj x h1')
      · exact Or.inr (Or.inl h1')
      · exact Or.inr (Or.inr h1')
    · exact Or.inl (hSs i hi x hx)

/-- `pushTail` on a subtree of height `k + 1` that is not full puts the leaf `tl`
(the elements from index `m` on) at its place and copies the nodes on the way;
nothing that exists is changed. -/
theorem pushTailF_spec (a : A) (tl : Nat) (xs xs' : List α) (m : Nat) (r : N α)
    (hend : sub32 a._end 1 = m + 31) (hm : 32 ∣ m) (hxs : ∀ i, i < m → xs'[i]? = xs[i]?) :
    ∀ (k fuel : Nat) (h : Heap α) (p b : Nat) (S : Set Nat) (n : N α),
      Sub h xs m (k + 1) p b S → h[p]? = some n → 32 ^ (k + 1 + 1) ∣ b → b ≤ m →
      m < b + 32 ^ (k + 1 + 1) → Sub h xs' (m + 32) 0 tl m {tl} → tl ∉ S → root h a = some r →
      k + 1 < fuel → BITS * (k + 1) < 32 →
      ∃ h' q S', pushTailF a tl fuel h (BITS * (k + 1)) n = some (h', q) ∧ Frame h h' ∅ ∧
        Sub h' xs' (m + 32) (k + 1) q b S' ∧ (∀ x, x ∈ S' → x ∈ S ∨ x = tl ∨ h.length ≤ x)
  | 0, fuel, h, p, b, S, n, hs, hn, hb, hbm, hmb, hl, htl, hr, hf, hk => by
    obtain ⟨f, rfl⟩ : ∃ f, fuel = f + 1 := ⟨fuel - 1, by omega⟩
    have hvalid := hs.valid
    obtain ⟨n0, hn0, hlen, hv, Ss, hS, hp, hd, hch⟩ := hs
    obtain rfl : n0 = n := by rw [hn] at hn0; exact (Option.some.inj hn0).symm
    obtain ⟨hj, hlo, hhi⟩ := digit_push 0 b m hb hm hbm hmb
    generalize hjdef : (m + 31) / 32 ^ (0 + 1) % 32 = j at hj hlo hhi
    have hbase : b + j * 32 ^ (0 + 1) = m := by omega
    have hl' : Sub h xs' (m + 32) 0 tl (b + j * 32 ^ (0 + 1)) {tl} := by rw [hbase]; exact hl
    obtain ⟨S', hs', hS'⟩ := Sub.rebuild_alloc tl n0.edit hvalid hS hlen hv hd hch hj hlo hhi
      hxs (Frame.refl h ∅) hl' (fun x hx => Or.inr (Or.inl (by simpa using hx))) htl
    refine ⟨_, _, S', ?_, Frame.alloc h _ ∅, hs', hS'⟩
    rw [pushTailF]
    rw [if_neg (Nat.not_le.2 hk), if_pos (by simp)]
    simp only [hend, digit_eq, hjdef, alloc]
  | k + 1, fuel, h, p, b, S, n, hs, hn, hb, hbm, hmb, hl, htl, hr, hf, hk => by
    obtain ⟨f, rfl⟩ : ∃ f, fuel = f + 1 := ⟨fuel - 1, by omega⟩
    have hvalid := hs.valid
    obtain ⟨n0, hn0, hlen, hv, Ss, hS, hp, hd, hch⟩ := hs
    obtain rfl : n0 = n := by rw [hn] at hn0; exact (Option.some.inj hn0).symm
    obtain ⟨hj, hlo, hhi⟩ := digit_push (k + 1) b m hb hm hbm hmb
    generalize hjdef : (m + 31) / 32 ^ (k + 1 + 1) % 32 = j at hj hlo hhi
    have hSs : ∀ x, x ∈ Ss j → x ∈ S := fun x hx => (hS x).2 (Or.inr ⟨j, hj, hx⟩)
    have hne : BITS * (k + 1 + 1) ≠ BITS := by simp only [BITS_eq]; omega
    have hb' : 32 ^ (k + 1 + 1) ∣ b + j * 32 ^ (k + 1 + 1) :=
      Dvd.dvd.add (dvd_trans (pow_dvd_pow 32 (Nat.le_succ _)) hb) (dvd_mul_left _ _)
    by_cases hlt : b + j * 32 ^ (k + 1 + 1) < m
    · obtain ⟨c, hc, hsub⟩ := (hch j hj).1 hlt
      have hsub' := hsub
      obtain ⟨cn, hcn, -⟩ := hsub'
      obtain ⟨h1, q1, S1, e1, f1, hs1, hS1⟩ :=
        pushTailF_spec a tl xs xs' m r hend hm hxs k f h c (b + j * 32 ^ (k + 1 + 1)) (Ss j) cn
          hsub hcn hb' hlo (by rw [add_mul, one_mul] at hhi; omega) hl (fun hc => htl (hSs _ hc))
          hr (by omega) (by simp only [BITS_eq] at *; omega)
      obtain ⟨S', hs', hS'⟩ := Sub.rebuild_alloc tl n0.edit hvalid hS hlen hv hd hch hj
        hlo hhi hxs f1 hs1 hS1 htl
      refine ⟨_, _, S', ?_, Frame.trans f1 (Frame.alloc h1 _ ∅) (fun x hx => hx)
        (fun x hx _ => hx), hs', hS'⟩
      rw [pushTailF]
      simp only [Nat.not_le.2 hk, if_false, hend, digit_eq, hjdef, hne, N.slot, hc, hcn,
        sub32_level hk, e1, Option.bind_eq_bind, Option.some_bind, alloc]
    · have hc := ((hch j hj).2 (by omega)).1
      have hbase : m = b + j * 32 ^ (k + 1 + 1) := by omega
      obtain ⟨h1, q1, S1, e1, f1, hs1, hS1⟩ :=
        newPathF_spec r.edit tl xs' m (k + 1) (BITS * (k + 1) + 1) h
          (by simp only [BITS_eq]; omega) (by simp only [BITS_eq] at *; omega) hl
      have hs1' : Sub h1 xs' (m + 32) (k + 1) q1 (b + j * 32 ^ (k + 1 + 1)) S1 := by
        rw [← hbase]; exact hs1
      obtain ⟨S', hs', hS'⟩ := Sub.rebuild_alloc tl n0.edit hvalid hS hlen hv hd hch hj
        hlo hhi hxs f1 hs1' (fun x hx => Or.inr (hS1 x hx)) htl
      refine ⟨_, _, S', ?_, Frame.trans f1 (Frame.alloc h1 _ ∅) (fun x hx => hx)
        (fun x hx _ => hx), hs', hS'⟩
      rw [pushTailF, if_neg (Nat.not_le.2 hk)]
      simp only [hend, digit_eq, hjdef]
      rw [if_neg hne]
      simp only [N.slot, hc, Option.bind_eq_bind, Option.some_bind]
      rw [hr, Option.some_bind]
      unfold newPath
      rw [sub32_level hk, e1, Option.some_bind]
      rfl

theorem shl_level (k : Nat) : 1 <<< (BITS * k) = 32 ^ k := by
  rw [Nat.shiftLeft_eq, one_mul, BITS_eq, pow_mul]
  norm_num

theorem append_get_lt (xs : List α) (x : α) {i : Nat} (hi : i < xs.length) :
    (xs ++ [x])[i]? = xs[i]? :=
  List.getElem?_append_left hi

theorem tailoff_toff (a : A) (h : a._end < U32) : tailoff a = toff a._end :=
  tailoff_eq a h

theorem toff_spec (e : Nat) : 32 ∣ toff e ∧ toff e ≤ e ∧ e - toff e ≤ 32 := by
  unfold toff
  split_ifs <;> omega

theorem toff_room {e : Nat} (h : e - toff e < 32) : toff (e + 1) = toff e := by
  unfold toff at *
  split_ifs at * <;> omega

theorem toff_full {e : Nat} (h : ¬ e - toff e < 32) : toff (e + 1) = e ∧ toff e + 32 = e := by
  unfold toff at *
  split_ifs at * <;> omega

/-- Persistent push when the tail has room: only the tail is copied. -/
theorem push_room {h : Heap α} {a : A} {xs : List α} {k rp tp : Nat} {tn : N α} {S : Set Nat}
    (x : α) (r : Rep h a xs k rp tp tn S) (htn : tn.length = xs.length - tailoff a)
    (hlen : xs.length + 1 < U32) (hroom : xs.length - tailoff a < 32) :
    ∃ tn', ArrayImp.push h a (Obj.value x) =
        some (h ++ [tn'], ⟨0, xs.length + 1, a._shift, a._root, some h.length⟩) ∧
      Rep (h ++ [tn']) ⟨0, xs.length + 1, a._shift, a._root, some h.length⟩ (xs ++ [x]) k rp
        h.length tn' S ∧
      tn'.length = (xs ++ [x]).length - tailoff ⟨0, xs.length + 1, a._shift, a._root, some h.length⟩ := by
  have hU : a._end < U32 := by rw [r.hend]; exact r.hlt
  have ht := tailoff_toff a hU
  have ht' := tailoff_toff ⟨0, xs.length + 1, a._shift, a._root, some h.length⟩
    (by simpa using hlen)
  simp only [r.hend] at ht ht'
  have hmm : tailoff ⟨0, xs.length + 1, a._shift, a._root, some h.length⟩ = tailoff a := by
    rw [ht, ht']
    exact toff_room (ht ▸ hroom)
  have hle : tailoff a ≤ xs.length := by rw [ht]; exact (toff_spec _).2.1
  have hset := N.setSlot_eq (tn.copy (tn.length + 1) tn.edit) tn.length (Obj.value x)
    (by rw [N.copy_v_length, BRANCHES_eq]; omega)
  refine ⟨⟨tn.edit, tn.length + 1, (tn.copy (tn.length + 1) tn.edit)._v.set tn.length (Obj.value x)⟩,
    ?_, ?_, ?_⟩
  · unfold ArrayImp.push
    rw [if_pos (by rw [r.hend, sub32_eq hle r.hlt, BRANCHES_eq]; exact hroom)]
    simp only [ArrayImp.tail, r.htail, deref, r.htn, Option.bind_eq_bind, Option.some_bind]
    rw [add32_eq (by rw [htn]; unfold U32 at *; omega), hset, Option.some_bind,
      r.hend, add32_eq hlen]
    rfl
  · refine ⟨by simp, by simpa using hlen, r.hshift, r.hroot, rfl, ?_, ?_, ?_, get_append_new h _, ?_, ?_⟩
    · rw [hmm]
      exact Sub.congr (r.hsub.of_frame (Frame.alloc h _ ∅) (fun _ _ => by simp))
        (fun i _ _ h3 => append_get_lt xs x (by omega)) (fun c _ _ => Iff.rfl)
    · rw [hmm]; exact r.hcap
    · rw [hmm]; exact r.hmin
    · rw [hmm]
      simp only [List.length_append, List.length_singleton, N.copy_length]
      omega
    · intro j hj
      rw [hmm] at hj ⊢
      simp only [List.length_append, List.length_singleton] at hj
      have hj32 : j < BRANCHES := by rw [BRANCHES_eq]; omega
      by_cases hjt : j = tn.length
      · rw [hjt, List.getElem?_set_self (by rw [N.copy_v_length, BRANCHES_eq]; omega)]
        have : tailoff a + tn.length = xs.length := by omega
        rw [this]
        simp
      · have hjlt : j < tn.length := by omega
        rw [List.getElem?_set_ne (Ne.symm hjt), N.copy_get _ _ _ hj32,
          if_pos (by simp; omega), append_get_lt xs x (by omega)]
        have := r.hvals j (by omega)
        rw [← this]
        exact getD_null (by
          by_contra hc
          rw [List.getElem?_eq_none (by omega)] at this
          rw [List.getElem?_eq_getElem (by omega : tailoff a + j < xs.length)] at this
          simp at this)
  · rw [hmm]
    simp only [List.length_append, List.length_singleton, N.copy_length]
    omega

/-- A node with full length and storage whose slots hold the elements from index
`m` on is a leaf of the trie. -/
theorem Sub.leaf {h : Heap α} {xs : List α} {m tl : Nat} {n : N α} (hn : h[tl]? = some n)
    (hl : n.length = BRANCHES) (hv : n._v.length = BRANCHES)
    (hvals : ∀ j, j < BRANCHES → n._v[j]? = (xs[m + j]?).map Obj.value) :
    Sub h xs (m + 32) 0 tl m {tl} :=
  ⟨rfl, by rw [BRANCHES_eq], n, hn, hl, hv, hvals⟩

/-- The copy of a full tail that persistent push hangs into the trie. -/
theorem Sub.leaf_copy {h : Heap α} {a : A} {xs : List α} {k rp tp : Nat} {tn : N α}
    {S : Set Nat} (x : α) (e : Nat) (r : Rep h a xs k rp tp tn S)
    (htn : tn.length = xs.length - tailoff a) (hfull : tailoff a + 32 = xs.length) :
    Sub (h ++ [tn.copy tn.length e]) (xs ++ [x]) (tailoff a + 32) 0 h.length (tailoff a)
      {h.length} := by
  have htl : tn.length = BRANCHES := by rw [htn, BRANCHES_eq]; omega
  refine Sub.leaf (get_append_new h _) (by rw [N.copy_length, htl]) (N.copy_v_length _ _ _) ?_
  intro j hj
  have hj' : j < 32 := hj
  have hv := r.hvals j (by omega)
  rw [N.copy_get _ _ _ hj, if_pos (by rw [htl, BRANCHES_eq]; simpa using hj'),
    append_get_lt xs x (by omega), ← hv]
  exact getD_null (by
    by_contra hc
    rw [List.getElem?_eq_none (by omega),
      List.getElem?_eq_getElem (by omega : tailoff a + j < xs.length)] at hv
    simp at hv)

/-- The one-element tail that a push into a full tail starts. -/
theorem new_tail_vals (x : α) (xs : List α) (e len : Nat) (j : Nat) (hj : xs.length + j < (xs ++ [x]).length) :
    (⟨e, len, (List.replicate BRANCHES Obj.null).set 0 (Obj.value x)⟩ : N α)._v[j]? =
      ((xs ++ [x])[xs.length + j]?).map Obj.value := by
  simp only [List.length_append, List.length_singleton] at hj
  obtain rfl : j = 0 := by omega
  simp [BRANCHES_eq]

theorem overflow_iff {len m k : Nat} (hfull : m + 32 = len) (hm : 32 ∣ m)
    (hcap : m ≤ 32 ^ (k + 1 + 1)) :
    (len >>> BITS > 1 <<< (BITS * (k + 1))) ↔ m = 32 ^ (k + 1 + 1) := by
  rw [shl_level, Nat.shiftRight_eq_div_pow, BITS_eq]
  obtain ⟨c, rfl⟩ := hm
  rw [pow_succ 32 (k + 1)] at *
  subst hfull
  constructor
  · intro hgt
    have : (32 * c + 32) / 2 ^ 5 = c + 1 := by norm_num
    rw [this] at hgt
    omega
  · intro he
    have : (32 * c + 32) / 2 ^ 5 = c + 1 := by norm_num
    rw [this]
    omega

/-- Raising the trie by one level: the new root has the old root in slot 0 and
the path to the new leaf in slot 1. -/
theorem Sub.grow {h : Heap α} {xs : List α} {m k rp np : Nat} {S S1 : Set Nat} {nr : N α}
    (p' : Nat)
    (hm : m = 32 ^ (k + 1 + 1))
    (hs : Sub h xs (m + 32) (k + 1) rp 0 S) (hs1 : Sub h xs (m + 32) (k + 1) np m S1)
    (hnr : h[p']? = some nr) (hl : nr.length = BRANCHES) (hv : nr._v.length = BRANCHES)
    (h0 : nr._v[0]? = some (Obj.node rp)) (h1 : nr._v[1]? = some (Obj.node np))
    (hrest : ∀ j, 2 ≤ j → j < BRANCHES → nr._v[j]? = some Obj.null)
    (hp'S : p' ∉ S) (hp'S1 : p' ∉ S1) (hdisj : ∀ x, x ∈ S → x ∉ S1) :
    Sub h xs (m + 32) (k + 1 + 1) p' 0 (fun x => x = p' ∨ x ∈ S ∨ x ∈ S1) := by
  have hC : 32 ≤ 32 ^ (k + 1 + 1) := by
    calc 32 = 32 ^ 1 := by norm_num
      _ ≤ 32 ^ (k + 1 + 1) := Nat.pow_le_pow_right (by norm_num) (by omega)
  refine ⟨nr, hnr, hl, hv, fun j => if j = 0 then S else if j = 1 then S1 else ∅, ?_, ?_, ?_, ?_⟩
  · intro x
    constructor
    · rintro (hx | hx | hx)
      · exact Or.inl hx
      · exact Or.inr ⟨0, by simp [BRANCHES_eq], by simpa using hx⟩
      · exact Or.inr ⟨1, by simp [BRANCHES_eq], by simpa using hx⟩
    · rintro (hx | ⟨j, -, hx⟩)
      · exact Or.inl hx
      · by_cases hj0 : j = 0
        · exact Or.inr (Or.inl (by simpa [hj0] using hx))
        · by_cases hj1 : j = 1
          · exact Or.inr (Or.inr (by simpa [hj1] using hx))
          · simp [hj0, hj1] at hx
  · intro j _
    by_cases hj0 : j = 0
    · simpa [hj0] using hp'S
    · by_cases hj1 : j = 1
      · simpa [hj1] using hp'S1
      · simp [hj0, hj1]
  · intro i j _ _ hij x hx
    by_cases hi0 : i = 0
    · simp only [hi0, if_true] at hx
      have hj0 : j ≠ 0 := by omega
      by_cases hj1 : j = 1
      · simpa [hj1] using hdisj x hx
      · simp [hj0, hj1]
    · by_cases hi1 : i = 1
      · simp only [hi1, if_true, one_ne_zero, if_false] at hx
        by_cases hj0 : j = 0
        · simp only [hj0, if_true]
          exact fun hc => hdisj x hc hx
        · have hj1 : j ≠ 1 := by omega
          simp [hj0, hj1]
      · simp [hi0, hi1] at hx
  · intro j hj
    by_cases hj0 : j = 0
    · subst hj0
      refine ⟨fun _ => ⟨rp, h0, ?_⟩, fun hc => by omega⟩
      simpa using hs
    · by_cases hj1 : j = 1
      · subst hj1
        refine ⟨fun _ => ⟨np, h1, ?_⟩, fun hc => by omega⟩
        simp only [one_mul, zero_add, one_ne_zero, if_false, if_true]
        rw [← hm]
        exact hs1
      · have h2 : 2 * 32 ^ (k + 1 + 1) ≤ j * 32 ^ (k + 1 + 1) :=
          Nat.mul_le_mul_right _ (by omega)
        exact ⟨fun hc => by omega, fun _ => ⟨hrest j (by omega) hj, by simp [hj0, hj1]⟩⟩

theorem set_set_get (c d : Obj α) :
    (((List.replicate BRANCHES Obj.null).set 0 c).set 1 d)[0]? = some c ∧
    (((List.replicate BRANCHES Obj.null).set 0 c).set 1 d)[1]? = some d ∧
    (((List.replicate BRANCHES Obj.null).set 0 c).set 1 d).length = BRANCHES ∧
    ∀ j, 2 ≤ j → j < BRANCHES →
      (((List.replicate BRANCHES Obj.null).set 0 c).set 1 d)[j]? = some Obj.null := by
  refine ⟨by simp [BRANCHES_eq], by simp [BRANCHES_eq], by simp, ?_⟩
  intro j h2 hj
  rw [List.getElem?_set_ne (by omega), List.getElem?_set_ne (by omega), List.getElem?_replicate,
    if_pos hj]

theorem pow_ge_32 (k : Nat) : 32 ≤ 32 ^ (k + 1) := by
  calc 32 = 32 ^ 1 := by norm_num
    _ ≤ 32 ^ (k + 1) := Nat.pow_le_pow_right (by norm_num) (by omega)

theorem add32_level {k : Nat} (hk : BITS * (k + 1) < 31) :
    add32 (BITS * (k + 1)) BITS = BITS * (k + 1 + 1) := by
  rw [add32_eq (by unfold U32; simp only [BITS_eq] at *; omega)]
  simp only [BITS_eq]
  omega

theorem get_append_two (h : Heap α) (n1 n2 : N α) :
    (h ++ [n1] ++ [n2])[h.length]? = some n1 ∧ (h ++ [n1] ++ [n2])[h.length + 1]? = some n2 := by
  constructor
  · rw [get_append_old _ _ (by simp)]
    exact get_append_new h _
  · have : h.length + 1 = (h ++ [n1]).length := by simp
    rw [this]
    exact get_append_new _ _

theorem pow_dvd_32 (k : Nat) : 32 ∣ 32 ^ (k + 1) := dvd_pow_self 32 (by omega)

/-- Persistent push when the tail is full: a copy of the tail goes into the
trie (which grows by a level when it is full) and a one-element tail starts. -/
theorem push_full {h : Heap α} {a : A} {xs : List α} {k rp tp : Nat} {tn : N α} {S : Set Nat}
    (x : α) (r : Rep h a xs k rp tp tn S) (htn : tn.length = xs.length - tailoff a)
    (hlen : xs.length + 1 < U32) (hfull : ¬ xs.length - tailoff a < 32) :
    ∃ h' a', ArrayImp.push h a (Obj.value x) = some (h', a') ∧ PRep h' a' (xs ++ [x]) ∧
      Frame h h' ∅ ∧ a'._start = 0 := by
  have hU : a._end < U32 := by rw [r.hend]; exact r.hlt
  have ht := tailoff_toff a hU
  rw [r.hend] at ht
  obtain ⟨hto, hfl⟩ := toff_full (e := xs.length) (by rw [← ht]; exact hfull)
  rw [← ht] at hfl
  have hm32 : 32 ∣ tailoff a := by rw [ht]; exact (toff_spec _).1
  have hsub := r.hsub
  obtain ⟨rn, hrn, -⟩ := hsub
  have hleaf := Sub.leaf_copy x rn.edit r htn hfl
  have htl : tn.length = BRANCHES := by rw [htn, BRANCHES_eq]; omega
  have hsl := r.shift_lt
  have hxs : ∀ i, i < tailoff a → (xs ++ [x])[i]? = xs[i]? :=
    fun i hi => append_get_lt xs x (by omega)
  have hvalid := r.hsub.valid
  have htlS : h.length ∉ S := fun hc => by have := hvalid _ hc; omega
  have hfa := Frame.alloc h (tn.copy tn.length rn.edit) ∅
  have hnt := N.setSlot_eq (N.create 1 tn.edit) 0 (Obj.value x) (by simp [N.create, BRANCHES_eq])
  have hend1 : add32 a._end 1 = xs.length + 1 := by rw [r.hend, add32_eq hlen]
  have hcond : ¬ sub32 a._end (tailoff a) < BRANCHES := by
    rw [r.hend, sub32_eq (by omega) r.hlt, BRANCHES_eq]; exact hfull
  have hguard : ¬ 31 ≤ a._shift := by rw [r.hshift]; omega
  have hovf := overflow_iff hfl hm32 r.hcap
  have ht' : ∀ sh rt tlp, tailoff ⟨0, xs.length + 1, sh, rt, tlp⟩ = xs.length := by
    intro sh rt tlp
    rw [tailoff_toff _ (by simpa using hlen)]
    exact hto
  by_cases hov : tailoff a = 32 ^ (k + 1 + 1)
  · -- the trie is full: a new root
    obtain ⟨h2, np, S1, e1, f1, hs1, hS1⟩ :=
      newPathF_spec rn.edit h.length (xs ++ [x]) (tailoff a) (k + 1) (BITS * (k + 1) + 1)
        (h ++ [tn.copy tn.length rn.edit]) (by simp only [BITS_eq]; omega)
        (by omega) hleaf
    obtain ⟨g0, g1, gl, grest⟩ := set_set_get (α := α) (Obj.node rp) (Obj.node np)
    have hroot0 := N.setSlot_eq (N.create BRANCHES rn.edit : N α) 0 (Obj.node rp)
      (by simp [N.create, BRANCHES_eq])
    have hroot1 := N.setSlot_eq
      (⟨rn.edit, BRANCHES, (List.replicate BRANCHES Obj.null).set 0 (Obj.node rp)⟩ : N α) 1
      (Obj.node np) (by simp [BRANCHES_eq])
    have f2 : Frame h h2 ∅ := Frame.trans hfa f1 (fun x hx => hx) (fun x hx _ => hx)
    have f3 := Frame.alloc h2
      (⟨rn.edit, BRANCHES, ((List.replicate BRANCHES Obj.null).set 0 (Obj.node rp)).set 1
        (Obj.node np)⟩ : N α) ∅
    have f4 := Frame.alloc
      (h2 ++ [(⟨rn.edit, BRANCHES, ((List.replicate BRANCHES Obj.null).set 0 (Obj.node rp)).set 1
        (Obj.node np)⟩ : N α)])
      (⟨tn.edit, 1, (List.replicate BRANCHES Obj.null).set 0 (Obj.value x)⟩ : N α) ∅
    have f34 : Frame h2 _ ∅ := Frame.trans f3 f4 (fun x hx => hx) (fun x hx _ => hx)
    have f04 : Frame h _ ∅ := Frame.trans f2 f34 (fun x hx => hx) (fun x hx _ => hx)
    have hsold : Sub h2 (xs ++ [x]) (tailoff a + 32) (k + 1) rp 0 S :=
      Sub.congr (r.hsub.of_frame f2 (fun _ _ => by simp)) (fun i _ _ h3 => hxs i h3)
        (fun c _ hc => ⟨fun _ => by omega, fun _ => by rw [hov]; omega⟩)
    have hgrow := Sub.grow h2.length hov (hsold.of_frame f34 (fun _ _ => by simp))
      (hs1.of_frame f34 (fun _ _ => by simp))
      (get_append_two h2 _ _).1
      rfl gl g0 g1 grest
      (fun hc => by have := hvalid _ hc; have := f2.1; omega)
      (fun hc => by have := hs1.valid _ hc; omega)
      (fun y hy hc => by
        have := hvalid _ hy
        rcases hS1 y hc with h1' | h1'
        · omega
        · simp at h1'; omega)
    refine ⟨h2 ++ [(⟨rn.edit, BRANCHES, ((List.replicate BRANCHES Obj.null).set 0
        (Obj.node rp)).set 1 (Obj.node np)⟩ : N α)] ++
        [(⟨tn.edit, 1, (List.replicate BRANCHES Obj.null).set 0 (Obj.value x)⟩ : N α)],
      ⟨0, xs.length + 1, BITS * (k + 1 + 1), some h2.length, some (h2.length + 1)⟩, ?_,
      ⟨k + 1, h2.length, h2.length + 1,
        (⟨tn.edit, 1, (List.replicate BRANCHES Obj.null).set 0 (Obj.value x)⟩ : N α),
        (fun y => y = h2.length ∨ y ∈ S ∨ y ∈ S1),
        ⟨by simp, by simpa using hlen, rfl, rfl, rfl, ?_, ?_, ?_, ?_, ?_, ?_⟩, ?_⟩, f04, rfl⟩
    · unfold ArrayImp.push
      rw [if_neg hcond]
      simp only [ArrayImp.tail, ArrayImp.root, r.htail, r.hroot, deref, r.htn, hrn,
        Option.bind_eq_bind, Option.some_bind, alloc]
      rw [if_neg hguard, r.hend, r.hshift, if_pos (hovf.2 hov)]
      unfold newPath
      rw [e1]
      simp only [Option.some_bind, Obj.ofN, hroot0, hroot1, hnt, hend1]
      rw [add32_level hsl]
      simp [N.create, hroot1, add32_eq hlen]
    · rw [ht', ← hfl]; exact hgrow
    · rw [ht', ← hfl, hov]
      have := pow_ge_32 (k + 1 + 1)
      rw [pow_succ 32 (k + 1 + 1)]
      omega
    · intro _
      rw [ht', ← hfl, hov]
      omega
    · exact (get_append_two h2 _ _).2
    · rw [ht']; simp
    · intro j hj
      rw [ht'] at hj ⊢
      exact new_tail_vals x xs _ _ j hj
    · rw [ht']; simp
  · -- the trie has room: path copy
    have hcaplt : tailoff a < 0 + 32 ^ (k + 1 + 1) := by
      have := r.hcap
      omega
    obtain ⟨h2, q, S', e1, f1, hs', hS'⟩ :=
      pushTailF_spec a h.length xs (xs ++ [x]) (tailoff a) rn
        (by rw [r.hend, sub32_eq (by omega) r.hlt]; omega) hm32 hxs k (BITS * (k + 1) + 1)
        (h ++ [tn.copy tn.length rn.edit]) rp 0 S rn
        (r.hsub.of_frame hfa (fun _ _ => by simp))
        (by rw [get_append_old h _ (hvalid rp r.hsub.root_mem)]; exact hrn)
        (dvd_zero _) (Nat.zero_le _) hcaplt hleaf htlS
        (by simp only [ArrayImp.root, r.hroot, deref]
            rw [get_append_old h _ (hvalid rp r.hsub.root_mem)]; exact hrn)
        (by simp only [BITS_eq]; omega) (by omega)
    have f2 : Frame h h2 ∅ := Frame.trans hfa f1 (fun x hx => hx) (fun x hx _ => hx)
    have f3 := Frame.alloc h2
      (⟨tn.edit, 1, (List.replicate BRANCHES Obj.null).set 0 (Obj.value x)⟩ : N α) ∅
    refine ⟨h2 ++ [(⟨tn.edit, 1, (List.replicate BRANCHES Obj.null).set 0 (Obj.value x)⟩ : N α)],
      ⟨0, xs.length + 1, a._shift, some q, some h2.length⟩, ?_,
      ⟨k, q, h2.length,
        (⟨tn.edit, 1, (List.replicate BRANCHES Obj.null).set 0 (Obj.value x)⟩ : N α), S', ⟨by simp, by simpa using hlen, r.hshift, rfl, rfl, ?_, ?_,
        ?_, get_append_new h2 _, ?_, ?_⟩, ?_⟩,
      Frame.trans f2 f3 (fun x hx => hx) (fun x hx _ => hx), rfl⟩
    · unfold ArrayImp.push
      rw [if_neg hcond]
      simp only [ArrayImp.tail, ArrayImp.root, r.htail, r.hroot, deref, r.htn, hrn,
        Option.bind_eq_bind, Option.some_bind, alloc]
      rw [if_neg hguard, r.hend, r.hshift, if_neg (fun hc => hov (hovf.1 hc))]
      unfold pushTail
      rw [e1]
      simp only [Option.some_bind, hnt, ← r.hend, hend1]
      rfl
    · rw [ht', ← hfl]; exact hs'.of_frame f3 (fun _ _ => by simp)
    · rw [ht', ← hfl]
      have := r.hcap
      obtain ⟨c, hc⟩ := hm32
      obtain ⟨d, hd⟩ := pow_dvd_32 (k + 1)
      omega
    · intro hk
      rw [ht', ← hfl]
      have := r.hmin hk
      omega
    · rw [ht']; simp
    · intro j hj
      rw [ht'] at hj ⊢
      exact new_tail_vals x xs _ _ j hj
    · rw [ht']; simp

/-- Persistent push on a represented vector appends to the underlying data. -/
theorem PRep.push {h : Heap α} {a : A} {xs : List α} (x : α) (hp : PRep h a xs)
    (hlen : xs.length + 1 < U32) :
    ∃ h' a', A.push h a x = some (h', a') ∧ PRep h' a' (xs ++ [x]) ∧ Frame h h' ∅ ∧
      a'._start = 0 := by
  obtain ⟨k, rp, tp, tn, S, r, htn⟩ := hp
  by_cases hroom : xs.length - tailoff a < 32
  · obtain ⟨tn', e, r', htn'⟩ := push_room x r htn hlen hroom
    exact ⟨_, _, e, ⟨k, rp, _, tn', S, r', htn'⟩, Frame.alloc h tn' ∅, rfl⟩
  · exact push_full x r htn hlen hroom

/-- The empty vector represents the empty sequence. -/
theorem PRep.empty : PRep (heap0 : Heap α) A.empty [] := by
  have ht : tailoff A.empty = 0 := rfl
  refine ⟨0, 0, 1, ⟨NO_EDIT, 0, []⟩, fun x => x = 0, ⟨rfl, by simp [U32], rfl, rfl, rfl, ?_, ?_,
    fun hc => absurd hc (by omega), rfl, by simp, fun j hj => by simp at hj⟩, by simp⟩
  · rw [ht]
    refine ⟨⟨NO_EDIT, BRANCHES, List.replicate BRANCHES Obj.null⟩, rfl, rfl, by simp,
      fun _ => ∅, fun x => by simp; rfl, fun _ _ => by simp, fun _ _ _ _ _ _ hx => by simp at hx, ?_⟩
    intro j hj
    refine ⟨fun hc => by omega, fun _ => ⟨?_, rfl⟩⟩
    rw [List.getElem?_replicate, if_pos hj]
  · rw [ht]; positivity

/-- Lookup through the typed surface of a vector that starts at 0. -/
theorem PRep.get {h : Heap α} {a : A} {xs : List α} (hp : PRep h a xs) (hs : a._start = 0)
    (i : Nat) (hi : i < xs.length) :
    A.get h a i = xs[i]? ∧ A.getValue h a i = (xs[i]?).map Obj.value ∧
      A.findValue h a i = (xs[i]?).map Obj.value := by
  obtain ⟨k, rp, tp, tn, S, r, -⟩ := hp
  have hlt := r.hlt
  have e : add32 i a._start = i := by rw [hs, add32_eq (by omega)]; rfl
  obtain ⟨g1, g2⟩ := r.lookup i hi
  have hx : xs[i]? = some xs[i] := List.getElem?_eq_getElem hi
  refine ⟨?_, ?_, ?_⟩
  · simp only [A.get, A.getValue, e, g1, hx, Option.map_some']
  · simp only [A.getValue, e, g1]
  · simp only [A.findValue, e, g2]
    rw [if_neg (by rw [r.hend]; omega)]

theorem PRep.size {h : Heap α} {a : A} {xs : List α} (hp : PRep h a xs) (hs : a._start = 0) :
    a.size = xs.length := by
  obtain ⟨k, rp, tp, tn, S, r, -⟩ := hp
  rw [A.size, hs, r.hend, sub32_eq (Nat.zero_le _) r.hlt]
  rfl

theorem PRep.find_end {h : Heap α} {a : A} {xs : List α} (hp : PRep h a xs) (hs : a._start = 0) :
    A.findValue h a xs.length = some Obj.null := by
  obtain ⟨k, rp, tp, tn, S, r, -⟩ := hp
  have hlt := r.hlt
  simp only [A.findValue, hs, add32_eq (show xs.length + 0 < U32 from hlt), r.hend]
  simp

/-- Successive pushes on a represented vector append to the underlying data. -/
theorem PRep.pushAll (xs : List α) : ∀ (ys : List α) {h : Heap α} {a : A}, PRep h a xs →
    a._start = 0 → (xs ++ ys).length < U32 →
    ∃ h' a', A.pushAll h a ys = some (h', a') ∧ PRep h' a' (xs ++ ys) ∧ Frame h h' ∅ ∧
      a'._start = 0 := by
  intro ys
  induction ys generalizing xs with
  | nil =>
    intro h a hp hs _
    exact ⟨h, a, rfl, by simpa using hp, Frame.refl _ _, hs⟩
  | cons y ys ih =>
    intro h a hp hs hlen
    simp only [List.length_append, List.length_cons] at hlen
    obtain ⟨h1, a1, e1, hp1, f1, hs1⟩ := hp.push y (by omega)
    obtain ⟨h2, a2, e2, hp2, f2, hs2⟩ := ih (xs ++ [y]) hp1 hs1 (by simp; omega)
    refine ⟨h2, a2, ?_, by simpa using hp2, Frame.trans f1 f2 (fun x hx => hx) (fun x hx _ => hx),
      hs2⟩
    simp only [A.pushAll, e1, Option.bind_eq_bind, Option.some_bind, e2]

theorem A.pushAll_append : ∀ (xs : List α) (h : Heap α) (a : A) (x : α),
    A.pushAll h a (xs ++ [x]) = (A.pushAll h a xs).bind fun r => A.push r.1 r.2 x
  | [], h, a, x => by
    simp only [List.nil_append, A.pushAll, Option.bind_eq_bind, Option.some_bind]
    cases A.push h a x <;> rfl
  | y :: ys, h, a, x => by
    simp only [List.cons_append, A.pushAll, Option.bind_eq_bind]
    cases hx : A.push h a y with
    | none => rfl
    | some r =>
      simp only [Option.some_bind]
      exact A.pushAll_append ys r.1 r.2 x

/-- A push onto a vector of `2 ^ 32 - 1` elements wraps `_end` around to 0. -/
theorem PRep.push_wrap {h : Heap α} {a : A} {xs : List α} (x : α) (hp : PRep h a xs)
    (hlen : xs.length = 4294967295) :
    ∃ h' a', A.push h a x = some (h', a') ∧ a'._end = 0 ∧ a'._start = 0 := by
  obtain ⟨k, rp, tp, tn, S, r, htn⟩ := hp
  have hU : a._end < U32 := by rw [r.hend]; exact r.hlt
  have ht := tailoff_toff a hU
  rw [r.hend, hlen] at ht
  have ht2 : tailoff a = 4294967264 := by rw [ht]; rfl
  have htl : tn.length = 31 := by rw [htn, ht2, hlen]
  have hset := N.setSlot_eq (tn.copy 32 tn.edit) 31 (Obj.value x)
    (by rw [N.copy_v_length, BRANCHES_eq]; omega)
  refine ⟨h ++ [⟨tn.edit, 32, (tn.copy 32 tn.edit)._v.set 31 (Obj.value x)⟩],
    ⟨0, 0, a._shift, a._root, some h.length⟩, ?_, rfl, rfl⟩
  unfold A.push ArrayImp.push
  rw [if_pos (by rw [r.hend, ht2, hlen, BRANCHES_eq]; decide)]
  simp only [ArrayImp.tail, r.htail, deref, r.htn, Option.bind_eq_bind, Option.some_bind, htl]
  rw [show add32 31 1 = 32 from rfl, hset, Option.some_bind, r.hend, hlen,
    show add32 4294967295 1 = 0 from rfl]
  rfl

/-! ## In-place updates -/

theorem Keeps.same (h : Heap α) : Keeps h h := fun _ n hn => ⟨n, hn, rfl⟩

theorem Keeps.comp {h h1 h2 : Heap α} (k1 : Keeps h h1) (k2 : Keeps h1 h2) : Keeps h h2 :=
  fun x n hn => by
    obtain ⟨n1, hn1, e1⟩ := k1 x n hn
    obtain ⟨n2, hn2, e2⟩ := k2 x n1 hn1
    exact ⟨n2, hn2, e2.trans e1⟩

theorem get_lt {h : Heap α} {x : Nat} {n : N α} (hn : h[x]? = some n) : x < h.length := by
  by_contra hc
  rw [List.getElem?_eq_none (by omega)] at hn
  exact absurd hn (by simp)

theorem Keeps.of_alloc (h : Heap α) (n : N α) : Keeps h (h ++ [n]) :=
  fun x n' hn => ⟨n', by rw [get_append_old h _ (get_lt hn)]; exact hn, rfl⟩

theorem set_get_self {h : Heap α} {p : Nat} {n : N α} (n' : N α) (hn : h[p]? = some n) :
    (h.set p n')[p]? = some n' := by
  rw [List.getElem?_set_self (get_lt hn)]

theorem set_get_ne (h : Heap α) {p x : Nat} (n' : N α) (hx : x ≠ p) :
    (h.set p n')[x]? = h[x]? :=
  List.getElem?_set_ne (Ne.symm hx)

theorem Keeps.of_write {h : Heap α} {p : Nat} {n n' : N α} (hn : h[p]? = some n)
    (he : n'.edit = n.edit) : Keeps h (h.set p n') := by
  intro x m hm
  by_cases hx : x = p
  · subst hx
    rw [hn] at hm
    exact ⟨n', set_get_self n' hn, by rw [he, Option.some.inj hm]⟩
  · exact ⟨m, by rw [set_get_ne h n' hx]; exact hm, rfl⟩

theorem Frame.write_at (h : Heap α) (p : Nat) (n' : N α) {M : Set Nat} (hp : p ∈ M) :
    Frame h (h.set p n') M :=
  ⟨by simp, fun x _ hx => set_get_ne h n' (fun hc => hx (hc ▸ hp))⟩

/-- The in-place slot assignment, spelled out. -/
theorem writeSlot_eq {h : Heap α} {p i : Nat} {n : N α} (obj : Obj α) (hn : h[p]? = some n)
    (hi : i < n._v.length) :
    writeSlot h p i obj = some (h.set p ⟨n.edit, n.length, n._v.set i obj⟩) := by
  simp only [writeSlot, hn, Option.bind_eq_bind, Option.some_bind, N.setSlot_eq n i obj hi]

/-- What `ensureEditable` returns: the node itself or a fresh copy; either way a
node with the edit token of the root and the slots of the given node. -/
theorem ensureEditable_spec {h : Heap α} {a : TA} {p : Nat} {n r : N α} (hn : h[p]? = some n)
    (hr : root h a = some r) (hl : n.length = BRANCHES) (hv : n._v.length = BRANCHES) :
    ∃ h1 pn n1, ensureEditable h a (some p) = some (h1, pn) ∧ Frame h h1 ∅ ∧ Keeps h h1 ∧
      (pn = p ∨ pn = h.length) ∧ h.length ≤ h1.length ∧ pn < h1.length ∧
      (∀ x, h.length ≤ x → x < h1.length → x = pn) ∧
      h1[pn]? = some n1 ∧ n1.edit = r.edit ∧ n1.length = BRANCHES ∧
      n1._v.length = BRANCHES ∧ ∀ j, j < BRANCHES → n1._v[j]? = n._v[j]? := by
  by_cases he : n.edit = r.edit
  · refine ⟨h, p, n, ?_, Frame.refl _ _, Keeps.same _, Or.inl rfl, le_refl _, get_lt hn,
      fun x h1 h2 => by omega, hn, he, hl, hv, fun _ _ => rfl⟩
    simp only [ensureEditable, hn, hr, Option.bind_eq_bind, Option.some_bind, he, bne_self_eq_false,
      Bool.false_eq_true, if_false]
  · refine ⟨h ++ [n.copy n.length r.edit], h.length, n.copy n.length r.edit, ?_, Frame.alloc _ _ _,
      Keeps.of_alloc _ _, Or.inr rfl, by simp, by simp, fun x h1 h2 => by simp at h2; omega,
      get_append_new h _, rfl, by rw [N.copy_length, hl], N.copy_v_length _ _ _, ?_⟩
    · simp only [ensureEditable, hn, hr, Option.bind_eq_bind, Option.some_bind, alloc]
      rw [if_pos (by simpa using he)]
    · intro j hj
      rw [N.copy_get _ _ _ hj, if_pos (by rw [hl]; simpa using hj)]
      exact getD_null (by omega)

theorem root_keeps {h h' : Heap α} {a : TA} {E : Nat} (kp : Keeps h h')
    (hr : ∃ r, root h a = some r ∧ r.edit = E) : ∃ r, root h' a = some r ∧ r.edit = E := by
  obtain ⟨r, hr, he⟩ := hr
  unfold root deref at *
  cases hp : a._root with
  | none => rw [hp] at hr; exact absurd hr (by simp)
  | some rp =>
    rw [hp] at hr
    obtain ⟨r', hr', he'⟩ := kp rp r hr
    exact ⟨r', hr', he'.trans he⟩

/-- The transient way to rebuild a node: slot `j` of the editable node `pn` (the
old node itself or its fresh copy) is overwritten in place. -/
theorem Sub.rebuild_write {h h2 : Heap α} {xs xs' : List α} {m k p b j q1 pn : Nat}
    {n n2 : N α} {S S1 : Set Nat} {Ss : Nat → Set Nat} (tl : Nat)
    (hvalid : ∀ x, x ∈ S → x < h.length)
    (hS : ∀ x, x ∈ S ↔ x = p ∨ ∃ i, i < BRANCHES ∧ x ∈ Ss i)
    (hp : ∀ i, i < BRANCHES → p ∉ Ss i)
    (hd : ∀ i i', i < BRANCHES → i' < BRANCHES → i ≠ i' → ∀ x, x ∈ Ss i → x ∉ Ss i')
    (hch : ∀ i, i < BRANCHES →
      (b + i * 32 ^ (k + 1) < m →
        ∃ q, n._v[i]? = some (Obj.node q) ∧ Sub h xs m k q (b + i * 32 ^ (k + 1)) (Ss i)) ∧
      (m ≤ b + i * 32 ^ (k + 1) → n._v[i]? = some Obj.null ∧ Ss i = ∅))
    (hj : j < BRANCHES) (hlo : b + j * 32 ^ (k + 1) ≤ m)
    (hhi : m + 32 ≤ b + (j + 1) * 32 ^ (k + 1))
    (hxs : ∀ i, i < m → xs'[i]? = xs[i]?)
    (hpn : pn = p ∨ h.length ≤ pn)
    (hn2 : h2[pn]? = some n2) (hl2 : n2.length = BRANCHES) (hv2 : n2._v.length = BRANCHES)
    (hslots : ∀ i, i < BRANCHES → n2._v[i]? = n._v[i]?)
    (hsib : ∀ i, i < BRANCHES → i ≠ j → ∀ x, x ∈ Ss i → h2[x]? = h[x]?)
    (hs1 : Sub h2 xs' (m + 32) k q1 (b + j * 32 ^ (k + 1)) S1)
    (hS1 : ∀ x, x ∈ S1 → x ∈ Ss j ∨ x = tl ∨ h.length ≤ x)
    (hpnS1 : pn ∉ S1) (htl : tl ∉ S) :
    ∃ S', Sub (h2.set pn ⟨n2.edit, n2.length, n2._v.set j (Obj.node q1)⟩) xs' (m + 32) (k + 1)
        pn b S' ∧
      ∀ x, x ∈ S' → x ∈ S ∨ x = tl ∨ h.length ≤ x := by
  have hSs : ∀ i, i < BRANCHES → ∀ x, x ∈ Ss i → x ∈ S :=
    fun i hi x hx => (hS x).2 (Or.inr ⟨i, hi, hx⟩)
  have hpnSs : ∀ i, i < BRANCHES → pn ∉ Ss i := by
    intro i hi hc
    rcases hpn with h1 | h1
    · exact hp i hi (h1 ▸ hc)
    · have := hvalid _ (hSs i hi _ hc)
      omega
  have hne : ∀ x, x ∈ S1 → x ≠ pn := fun x hx hc => hpnS1 (by rw [← hc]; exact hx)
  have hne2 : ∀ i, i < BRANCHES → ∀ x, x ∈ Ss i → x ≠ pn :=
    fun i hi x hx hc => hpnSs i hi (by rw [← hc]; exact hx)
  refine ⟨_, Sub.rebuild pn (N.mk n2.edit n2.length (n2._v.set j (Obj.node q1))) hd hch hj hlo
    hhi hxs (set_get_self _ hn2) hl2 (by simpa using hv2) ?_ ?_
    (hs1.frame (fun x hx => set_get_ne h2 _ (hne x hx))) ?_ ?_ hpnS1 ?_, ?_⟩
  · intro i hi hij
    show (n2._v.set j (Obj.node q1))[i]? = _
    rw [List.getElem?_set_ne (Ne.symm hij)]
    exact hslots i hi
  · show (n2._v.set j (Obj.node q1))[j]? = _
    rw [List.getElem?_set_self (by rw [hv2]; exact hj)]
  · intro i hi hij x hx
    rw [set_get_ne h2 _ (hne2 i hi x hx)]
    exact hsib i hi hij x hx
  · intro i hi _
    exact hpnSs i hi
  · intro i hi hij x hx hc
    have hxS := hvalid x (hSs i hi x hc)
    rcases hS1 x hx with h1' | h1' | h1'
    · exact hd j i hj hi (Ne.symm hij) x h1' hc
    · exact htl (h1' ▸ hSs i hi x hc)
    · omega
  · rintro x (hx | hx | ⟨i, hi, _, hx⟩)
    · rcases hpn with h1 | h1
      · exact Or.inl ((hS x).2 (Or.inl (hx.trans h1)))
      · exact Or.inr (Or.inr (by omega))
    · rcases hS1 x hx with h1' | h1' | h1'
      · exact Or.inl (hSs j hj x h1')
      · exact Or.inr (Or.inl h1')
      · exact Or.inr (Or.inr h1')
    · exact Or.inl (hSs i hi x hx)

/-- `tpushTail` on a subtree of height `k + 1` that is not full puts the leaf `tl`
at its place; the nodes on the way are made editable and overwritten in place.
Only nodes of the subtree are changed. -/
theorem tpushTailF_spec (a : TA) (tl : Nat) (xs xs' : List α) (m E : Nat)
    (hend : sub32 a._end 1 = m + 31) (hm : 32 ∣ m) (hxs : ∀ i, i < m → xs'[i]? = xs[i]?) :
    ∀ (k fuel : Nat) (h : Heap α) (p b : Nat) (S : Set Nat),
      Sub h xs m (k + 1) p b S → 32 ^ (k + 1 + 1) ∣ b → b ≤ m → m < b + 32 ^ (k + 1 + 1) →
      Sub h xs' (m + 32) 0 tl m {tl} → tl ∉ S → (∃ r, root h a = some r ∧ r.edit = E) →
      k + 1 < fuel → BITS * (k + 1) < 32 →
      ∃ h' q S', tpushTailF a tl fuel h (BITS * (k + 1)) (some p) = some (h', q) ∧
        Frame h h' S ∧ Keeps h h' ∧ Sub h' xs' (m + 32) (k + 1) q b S' ∧
        (∀ x, x ∈ S' → x ∈ S ∨ x = tl ∨ h.length ≤ x) ∧ (q = p ∨ h.length ≤ q) ∧
        ∃ qn, h'[q]? = some qn ∧ qn.edit = E
  | 0, fuel, h, p, b, S, hs, hb, hbm, hmb, hl, htl, hr, hf, hk => by
    obtain ⟨f, rfl⟩ : ∃ f, fuel = f + 1 := ⟨fuel - 1, by omega⟩
    have hvalid := hs.valid
    have hpS := hs.root_mem
    obtain ⟨n, hn, hlen, hv, Ss, hS, hp, hd, hch⟩ := hs
    obtain ⟨r, hr, hrE⟩ := hr
    obtain ⟨hj, hlo, hhi⟩ := digit_push 0 b m hb hm hbm hmb
    generalize hjdef : (m + 31) / 32 ^ (0 + 1) % 32 = j at hj hlo hhi
    have hbase : b + j * 32 ^ (0 + 1) = m := by omega
    obtain ⟨h1, pn, n1, e1, f1, k1, hpn, hlen1, hpnlt, hfresh, hn1, hn1e, hn1l, hn1v, hn1s⟩ :=
      ensureEditable_spec hn hr hlen hv
    have htlv : tl < h.length := hl.valid tl (by simp)
    have htlp : tl ≠ p := fun hc => htl (by rw [hc]; exact hpS)
    have hpn' : pn = p ∨ h.length ≤ pn := by rcases hpn with h1' | h1' <;> [left; right] <;> omega
    have hl1 : Sub h1 xs' (m + 32) 0 tl (b + j * 32 ^ (0 + 1)) {tl} := by
      rw [hbase]; exact hl.of_frame f1 (fun _ _ => by simp)
    obtain ⟨S', hs', hS'⟩ := Sub.rebuild_write tl hvalid hS hp hd hch hj hlo hhi hxs hpn' hn1 hn1l
      hn1v hn1s (fun i hi _ x hx => f1.2 x (hvalid x ((hS x).2 (Or.inr ⟨i, hi, hx⟩))) (by simp))
      hl1 (fun x hx => Or.inr (Or.inl (by simpa using hx)))
      (by
        intro hc
        have : pn = tl := by simpa using hc
        rcases hpn' with h1' | h1' <;> omega) htl
    have hw := writeSlot_eq (Obj.node tl) hn1 (by rw [hn1v]; exact hj)
    refine ⟨h1.set pn ⟨n1.edit, n1.length, n1._v.set j (Obj.node tl)⟩, pn, S', ?_, ?_,
      k1.comp (Keeps.of_write hn1 rfl), hs', hS', hpn',
      ⟨_, set_get_self _ hn1, hn1e.trans hrE⟩⟩
    · rw [tpushTailF]
      simp only [e1, Option.bind_eq_bind, Option.some_bind]
      rw [if_neg (Nat.not_le.2 hk), if_pos (by simp)]
      simp only [hend, digit_eq, hjdef, hw, Option.some_bind]
    · refine ⟨le_trans f1.1 (by simp), fun x hx hxS => ?_⟩
      rw [set_get_ne h1 _ (fun hc => by
        rcases hpn' with h1' | h1'
        · exact hxS (by rw [hc, h1']; exact hpS)
        · omega)]
      exact f1.2 x hx (by simp)
  | k + 1, fuel, h, p, b, S, hs, hb, hbm, hmb, hl, htl, hr, hf, hk => by
    obtain ⟨f, rfl⟩ : ∃ f, fuel = f + 1 := ⟨fuel - 1, by omega⟩
    have hvalid := hs.valid
    have hpS := hs.root_mem
    obtain ⟨n, hn, hlen, hv, Ss, hS, hp, hd, hch⟩ := hs
    have hr0 := hr
    obtain ⟨r, hr, hrE⟩ := hr
    obtain ⟨hj, hlo, hhi⟩ := digit_push (k + 1) b m hb hm hbm hmb
    generalize hjdef : (m + 31) / 32 ^ (k + 1 + 1) % 32 = j at hj hlo hhi
    have hSs : ∀ i, i < BRANCHES → ∀ x, x ∈ Ss i → x ∈ S :=
      fun i hi x hx => (hS x).2 (Or.inr ⟨i, hi, hx⟩)
    have hne : BITS * (k + 1 + 1) ≠ BITS := by simp only [BITS_eq]; omega
    have hb' : 32 ^ (k + 1 + 1) ∣ b + j * 32 ^ (k + 1 + 1) :=
      Dvd.dvd.add (dvd_trans (pow_dvd_pow 32 (Nat.le_succ _)) hb) (dvd_mul_left _ _)
    obtain ⟨h1, pn, n1, e1, f1, k1, hpn, hlen1, hpnlt, hfresh, hn1, hn1e, hn1l, hn1v, hn1s⟩ :=
      ensureEditable_spec hn hr hlen hv
    have htlv : tl < h.length := hl.valid tl (by simp)
    have htlp : tl ≠ p := fun hc => htl (by rw [hc]; exact hpS)
    have hpn' : pn = p ∨ h.length ≤ pn := by rcases hpn with h1' | h1' <;> [left; right] <;> omega
    have hpntl : pn ≠ tl := by rcases hpn' with h1' | h1' <;> omega
    have hpnSs : ∀ i, i < BRANCHES → pn ∉ Ss i := by
      intro i hi hc
      rcases hpn' with h1' | h1'
      · exact hp i hi (by rw [← h1']; exact hc)
      · have := hvalid _ (hSs i hi _ hc)
        omega
    have hr1 := root_keeps k1 hr0
    have hl1 : Sub h1 xs' (m + 32) 0 tl m {tl} := hl.of_frame f1 (fun _ _ => by simp)
    -- the child to insert, and the heap in which it lives
    have hchild : ∃ h2 q S1, (do
          let p ← h1[pn]?
          let s ← p.slot j
          match s with
          | Obj.value _ => none
          | Obj.node c => do
            let (h2, q) ← tpushTailF a tl f h1 (sub32 (BITS * (k + 1 + 1)) BITS) (some c)
            let h3 ← writeSlot h2 pn j (Obj.node q)
            some (h3, pn)
          | Obj.null => do
            let r ← root h1 a
            let (h2, q) ← newPath h1 r.edit (sub32 (BITS * (k + 1 + 1)) BITS) tl
            let h3 ← writeSlot h2 pn j (Obj.node q)
            some (h3, pn)) = (writeSlot h2 pn j (Obj.node q)).bind (fun h3 => some (h3, pn)) ∧
        Frame h1 h2 (Ss j) ∧ Keeps h1 h2 ∧
        Sub h2 xs' (m + 32) (k + 1) q (b + j * 32 ^ (k + 1 + 1)) S1 ∧
        (∀ x, x ∈ S1 → x ∈ Ss j ∨ x = tl ∨ h1.length ≤ x) := by
      by_cases hlt : b + j * 32 ^ (k + 1 + 1) < m
      · obtain ⟨c, hc, hsub⟩ := (hch j hj).1 hlt
        obtain ⟨h2, q, S1, e2, f2, k2, hs2, hS2, -, -⟩ :=
          tpushTailF_spec a tl xs xs' m E hend hm hxs k f h1 c (b + j * 32 ^ (k + 1 + 1)) (Ss j)
            (hsub.of_frame f1 (fun _ _ => by simp)) hb' hlo
            (by rw [add_mul, one_mul] at hhi; omega) hl1 (fun hc => htl (hSs j hj _ hc))
            hr1 (by omega) (by simp only [BITS_eq] at *; omega)
        refine ⟨h2, q, S1, ?_, f2, k2, hs2, hS2⟩
        simp only [hn1, N.slot, hn1s j hj, hc, Option.bind_eq_bind, Option.some_bind,
          sub32_level hk, e2]
      · have hc := ((hch j hj).2 (by omega)).1
        have hbase : m = b + j * 32 ^ (k + 1 + 1) := by omega
        obtain ⟨r1, hr1', -⟩ := hr1
        obtain ⟨h2, q, S1, e2, f2, hs2, hS2⟩ :=
          newPathF_spec r1.edit tl xs' m (k + 1) (BITS * (k + 1) + 1) h1
            (by simp only [BITS_eq]; omega) (by simp only [BITS_eq] at *; omega) hl1
        refine ⟨h2, q, S1, ?_, f2.mono (fun _ hx => absurd hx (by simp)), ?_, ?_, fun x hx => ?_⟩
        · simp only [hn1, N.slot, hn1s j hj, hc, Option.bind_eq_bind, Option.some_bind]
          rw [hr1', Option.some_bind]
          unfold newPath
          rw [sub32_level hk, e2, Option.some_bind]
        · intro x nx hnx
          exact ⟨nx, by rw [f2.2 x (get_lt hnx) (by simp)]; exact hnx, rfl⟩
        · rw [← hbase]; exact hs2
        · exact Or.inr (hS2 x hx)
    obtain ⟨h2, q, S1, e2, f2, k2, hs2, hS2⟩ := hchild
    have hpn2 : h2[pn]? = some n1 := by
      rw [f2.2 pn hpnlt (hpnSs j hj)]; exact hn1
    have hpnS1 : pn ∉ S1 := by
      intro hc
      rcases hS2 pn hc with h' | h' | h'
      · exact hpnSs j hj h'
      · exact hpntl h'
      · omega
    have hsib : ∀ i, i < BRANCHES → i ≠ j → ∀ x, x ∈ Ss i → h2[x]? = h[x]? := by
      intro i hi hij x hx
      have hxv := hvalid x (hSs i hi x hx)
      rw [f2.2 x (lt_of_lt_of_le hxv f1.1) (fun hc => hd i j hi hj hij x hx hc)]
      exact f1.2 x hxv (by simp)
    obtain ⟨S', hs', hS'⟩ := Sub.rebuild_write tl hvalid hS hp hd hch hj hlo hhi hxs hpn' hpn2 hn1l
      hn1v hn1s hsib hs2 (fun x hx => by
        rcases hS2 x hx with h' | h' | h'
        · exact Or.inl h'
        · exact Or.inr (Or.inl h')
        · exact Or.inr (Or.inr (le_trans f1.1 h'))) hpnS1 htl
    have hw := writeSlot_eq (Obj.node q) hpn2 (by rw [hn1v]; exact hj)
    refine ⟨h2.set pn ⟨n1.edit, n1.length, n1._v.set j (Obj.node q)⟩, pn, S', ?_, ?_,
      (k1.comp k2).comp (Keeps.of_write hpn2 rfl), hs', hS', hpn',
      ⟨_, set_get_self _ hpn2, hn1e.trans hrE⟩⟩
    · rw [tpushTailF]
      simp only [e1, Option.bind_eq_bind, Option.some_bind]
      rw [if_neg (Nat.not_le.2 hk)]
      simp only [hend, digit_eq, hjdef]
      rw [if_neg hne]
      exact e2.trans (by rw [hw, Option.some_bind])
    · refine ⟨le_trans (le_trans f1.1 f2.1) (by simp), fun x hx hxS => ?_⟩
      have hxpn : x ≠ pn := by
        intro hc
        rcases hpn' with h1' | h1'
        · exact hxS (by rw [hc, h1']; exact hpS)
        · omega
      rw [set_get_ne h2 _ hxpn, f2.2 x (lt_of_lt_of_le hx f1.1) (fun hc => hxS (hSs j hj x hc))]
      exact f1.2 x hx (by simp)

/-! ## Transient push -/

theorem toff_mod {e : Nat} (h : e - toff e < 32) : e % 32 = e - toff e := by
  unfold toff at *
  split_ifs at * <;> omega

theorem TRep.editable {h : Heap α} {t : TA} {xs : List α} (hp : TRep h t xs) :
    isEditable h t = some true := by
  obtain ⟨k, rp, tp, tn, S, r, -, -, -, rn, hrn, he⟩ := hp
  simp only [isEditable, ArrayImp.root, r.hroot, deref, hrn, Option.bind_eq_bind,
    Option.some_bind]
  simp [he]

theorem TAbove.trep {L : Nat} {h : Heap α} {t : TA} {xs : List α} (hp : TAbove L h t xs) :
    TRep h t xs := by
  obtain ⟨k, rp, tp, tn, S, r, htl, htv, htS, hrn, -, -⟩ := hp
  exact ⟨k, rp, tp, tn, S, r, htl, htv, htS, hrn⟩

theorem TRep.above {h : Heap α} {t : TA} {xs : List α} (hp : TRep h t xs) :
    TAbove 0 h t xs := by
  obtain ⟨k, rp, tp, tn, S, r, htl, htv, htS, hrn⟩ := hp
  exact ⟨k, rp, tp, tn, S, r, htl, htv, htS, hrn, Nat.zero_le _, fun _ _ => Nat.zero_le _⟩

/-- Transient push when the tail has room: the value is written into the tail in
place. -/
theorem tpush_room {L : Nat} {h : Heap α} {t : TA} {xs : List α} (x : α)
    (hp : TAbove L h t xs) (hlen : xs.length + 1 < U32) (hroom : xs.length - tailoff t < 32) :
    ∃ h' t', ArrayImp.tpush h t (Obj.value x) = some ⟨h', t', true⟩ ∧
      TAbove L h' t' (xs ++ [x]) ∧ t'._start = t._start ∧ Frame h h' (Set.Ici L) := by
  have hed := hp.trep.editable
  obtain ⟨k, rp, tp, tn, S, r, htl, htv, htS, ⟨rn, hrn, he⟩, hLt, hLS⟩ := hp
  have hU : t._end < U32 := by rw [r.hend]; exact r.hlt
  have ht := tailoff_toff t hU
  have ht' := tailoff_toff ⟨t._start, xs.length + 1, t._shift, t._root, t._tail⟩
    (by simpa using hlen)
  simp only [r.hend] at ht ht'
  have hmm : tailoff ⟨t._start, xs.length + 1, t._shift, t._root, t._tail⟩ = tailoff t := by
    rw [ht, ht']
    exact toff_room (ht ▸ hroom)
  have hle : tailoff t ≤ xs.length := by rw [ht]; exact (toff_spec _).2.1
  have hidx : xs.length &&& MASK = xs.length - tailoff t := by
    rw [and_MASK, ht]
    exact toff_mod (ht ▸ hroom)
  have hw := writeSlot_eq (Obj.value x) r.htn
    (show xs.length - tailoff t < tn._v.length by rw [htv, BRANCHES_eq]; exact hroom)
  have hrpS := r.hsub.root_mem
  have hne : rp ≠ tp := fun hc => htS (by rw [← hc]; exact hrpS)
  have hfr : Frame h (h.set tp ⟨tn.edit, tn.length, tn._v.set (xs.length - tailoff t)
      (Obj.value x)⟩) {tp} := Frame.write_at h tp _ (by simp)
  refine ⟨h.set tp ⟨tn.edit, tn.length, tn._v.set (xs.length - tailoff t) (Obj.value x)⟩,
    ⟨t._start, xs.length + 1, t._shift, t._root, t._tail⟩, ?_,
    ⟨k, rp, tp, ⟨tn.edit, tn.length, tn._v.set (xs.length - tailoff t) (Obj.value x)⟩, S,
      ⟨by simp, by simpa using hlen, r.hshift, r.hroot, r.htail, ?_, ?_, ?_,
        set_get_self _ r.htn, ?_, ?_⟩, htl, by simpa using htv, htS, ⟨rn, ?_, he⟩, hLt, hLS⟩,
    rfl, Frame.write_at h tp _ (Set.mem_Ici.2 hLt)⟩
  · unfold ArrayImp.tpush
    rw [hed]
    simp only [Option.bind_eq_bind, Option.some_bind, Bool.not_true, Bool.false_eq_true,
      if_false]
    rw [if_pos (by rw [r.hend, sub32_eq hle r.hlt, BRANCHES_eq]; exact hroom)]
    simp only [ArrayImp.tail, r.htail, deref, r.htn, Option.bind_eq_bind, Option.some_bind,
      r.hend, add32_eq hlen]
    rw [hidx, hw, Option.some_bind]
  · rw [hmm]
    exact Sub.congr (r.hsub.of_frame hfr (fun y hy hc => htS (by
        have : y = tp := by simpa using hc
        rw [← this]; exact hy)))
      (fun i _ _ h3 => append_get_lt xs x (by omega)) (fun c _ _ => Iff.rfl)
  · rw [hmm]; exact r.hcap
  · rw [hmm]; exact r.hmin
  · rw [hmm]
    simp only [List.length_append, List.length_singleton]
    rw [htl, BRANCHES_eq]
    omega
  · intro j hj
    rw [hmm] at hj ⊢
    simp only [List.length_append, List.length_singleton] at hj
    by_cases hjt : j = xs.length - tailoff t
    · rw [hjt, List.getElem?_set_self (by rw [htv, BRANCHES_eq]; omega)]
      have : tailoff t + (xs.length - tailoff t) = xs.length := by omega
      rw [this]
      simp
    · rw [List.getElem?_set_ne (Ne.symm hjt), append_get_lt xs x (by omega)]
      exact r.hvals j (by omega)
  · rw [set_get_ne h _ hne]; exact hrn

/-- Transient push when the tail is full: the tail node itself goes into the
trie (which grows by a level when it is full) and a fresh tail starts. -/
theorem tpush_full {L : Nat} {h : Heap α} {t : TA} {xs : List α} (x : α)
    (hp : TAbove L h t xs) (hL : L ≤ h.length)
    (hlen : xs.length + 1 < U32) (hfull : ¬ xs.length - tailoff t < 32) :
    ∃ h' t', ArrayImp.tpush h t (Obj.value x) = some ⟨h', t', true⟩ ∧
      TAbove L h' t' (xs ++ [x]) ∧ t'._start = t._start ∧ Frame h h' (Set.Ici L) := by
  have hed := hp.trep.editable
  obtain ⟨k, rp, tp, tn, S, r, htl, htv, htS, ⟨rn, hrn, he⟩, hLt, hLS⟩ := hp
  have hU : t._end < U32 := by rw [r.hend]; exact r.hlt
  have ht := tailoff_toff t hU
  rw [r.hend] at ht
  obtain ⟨hto, hfl⟩ := toff_full (e := xs.length) (by rw [← ht]; exact hfull)
  rw [← ht] at hfl
  have hm32 : 32 ∣ tailoff t := by rw [ht]; exact (toff_spec _).1
  have hsl := r.shift_lt
  have hxs : ∀ i, i < tailoff t → (xs ++ [x])[i]? = xs[i]? :=
    fun i hi => append_get_lt xs x (by omega)
  have hvalid := r.hsub.valid
  have htpv : tp < h.length := get_lt r.htn
  have hnewS : h.length ∉ S := fun hc => by have := hvalid _ hc; omega
  have hnt : (N.create BRANCHES rn.edit : N α).setSlot 0 (Obj.value x) =
      some ⟨rn.edit, BRANCHES, (List.replicate BRANCHES Obj.null).set 0 (Obj.value x)⟩ :=
    N.setSlot_eq (N.create BRANCHES rn.edit : N α) 0 (Obj.value x)
      (by simp [N.create, BRANCHES_eq])
  have hfa := Frame.alloc h
    (⟨rn.edit, BRANCHES, (List.replicate BRANCHES Obj.null).set 0 (Obj.value x)⟩ : N α) ∅
  have hleaf : Sub (h ++ [(⟨rn.edit, BRANCHES,
      (List.replicate BRANCHES Obj.null).set 0 (Obj.value x)⟩ : N α)]) (xs ++ [x])
      (tailoff t + 32) 0 tp (tailoff t) {tp} := by
    refine Sub.leaf (by rw [get_append_old h _ htpv]; exact r.htn) htl htv ?_
    intro j hj
    have hj' : j < 32 := hj
    rw [append_get_lt xs x (by omega)]
    exact r.hvals j (by omega)
  have hend1 : add32 t._end 1 = xs.length + 1 := by rw [r.hend, add32_eq hlen]
  have hcond : ¬ sub32 t._end (tailoff t) < BRANCHES := by
    rw [r.hend, sub32_eq (by omega) r.hlt, BRANCHES_eq]; exact hfull
  have hguard : ¬ 31 ≤ t._shift := by rw [r.hshift]; omega
  have hovf := overflow_iff hfl hm32 r.hcap
  have ht' : ∀ st sh rt tlp, tailoff ⟨st, xs.length + 1, sh, rt, tlp⟩ = xs.length := by
    intro st sh rt tlp
    rw [tailoff_toff _ (by simpa using hlen)]
    exact hto
  have hntget : ∀ {h' : Heap α} {M : Set Nat}, Frame (h ++ [(⟨rn.edit, BRANCHES,
      (List.replicate BRANCHES Obj.null).set 0 (Obj.value x)⟩ : N α)]) h' M → h.length ∉ M →
      h'[h.length]? = some (⟨rn.edit, BRANCHES,
        (List.replicate BRANCHES Obj.null).set 0 (Obj.value x)⟩ : N α) := by
    intro h' M f hM
    rw [f.2 h.length (by simp) hM]
    exact get_append_new h _
  by_cases hov : tailoff t = 32 ^ (k + 1 + 1)
  · -- the trie is full: a new root
    obtain ⟨h2, np, S1, e1, f1, hs1, hS1⟩ :=
      newPathF_spec rn.edit tp (xs ++ [x]) (tailoff t) (k + 1) (BITS * (k + 1) + 1)
        (h ++ [(⟨rn.edit, BRANCHES, (List.replicate BRANCHES Obj.null).set 0 (Obj.value x)⟩ : N α)])
        (by simp only [BITS_eq]; omega) (by omega) hleaf
    obtain ⟨g0, g1, gl, grest⟩ := set_set_get (α := α) (Obj.node rp) (Obj.node np)
    have hroot0 : (N.create BRANCHES rn.edit : N α).setSlot 0 (Obj.node rp) =
        some ⟨rn.edit, BRANCHES, (List.replicate BRANCHES Obj.null).set 0 (Obj.node rp)⟩ :=
      N.setSlot_eq (N.create BRANCHES rn.edit : N α) 0 (Obj.node rp)
        (by simp [N.create, BRANCHES_eq])
    have hroot1 : (⟨rn.edit, BRANCHES, (List.replicate BRANCHES Obj.null).set 0
        (Obj.node rp)⟩ : N α).setSlot 1 (Obj.node np) =
        some ⟨rn.edit, BRANCHES, ((List.replicate BRANCHES Obj.null).set 0 (Obj.node rp)).set 1
          (Obj.node np)⟩ :=
      N.setSlot_eq
        (⟨rn.edit, BRANCHES, (List.replicate BRANCHES Obj.null).set 0 (Obj.node rp)⟩ : N α) 1
        (Obj.node np) (by simp [BRANCHES_eq])
    have f2 : Frame h h2 ∅ := Frame.trans hfa f1 (fun x hx => hx) (fun x hx _ => hx)
    have f3 := Frame.alloc h2
      (⟨rn.edit, BRANCHES, ((List.replicate BRANCHES Obj.null).set 0 (Obj.node rp)).set 1
        (Obj.node np)⟩ : N α) ∅
    have f13 : Frame _ _ ∅ := Frame.trans f1 f3 (fun x hx => hx) (fun x hx _ => hx)
    have hsold : Sub h2 (xs ++ [x]) (tailoff t + 32) (k + 1) rp 0 S :=
      Sub.congr (r.hsub.of_frame f2 (fun _ _ => by simp)) (fun i _ _ h3 => hxs i h3)
        (fun c _ hc => ⟨fun _ => by omega, fun _ => by rw [hov]; omega⟩)
    have hlen1 : h.length + 1 ≤ h2.length := by simpa using f1.1
    have hgrow := Sub.grow h2.length hov (hsold.of_frame f3 (fun _ _ => by simp))
      (hs1.of_frame f3 (fun _ _ => by simp))
      (get_append_new h2 _)
      rfl gl g0 g1 grest
      (fun hc => by have := hvalid _ hc; omega)
      (fun hc => by have := hs1.valid _ hc; omega)
      (fun y hy hc => by
        have := hvalid _ hy
        rcases hS1 y hc with h1' | h1'
        · exact htS (by rw [← h1']; exact hy)
        · simp at h1'; omega)
    refine ⟨h2 ++ [(⟨rn.edit, BRANCHES, ((List.replicate BRANCHES Obj.null).set 0
        (Obj.node rp)).set 1 (Obj.node np)⟩ : N α)],
      ⟨t._start, xs.length + 1, BITS * (k + 1 + 1), some h2.length, some h.length⟩, ?_,
      ⟨k + 1, h2.length, h.length,
        (⟨rn.edit, BRANCHES, (List.replicate BRANCHES Obj.null).set 0 (Obj.value x)⟩ : N α),
        (fun y => y = h2.length ∨ y ∈ S ∨ y ∈ S1),
        ⟨by simp, by simpa using hlen, rfl, rfl, rfl, ?_, ?_, ?_, hntget f13 (by simp), ?_, ?_⟩,
        rfl, by simp, ?_, ⟨_, get_append_new h2 _, he⟩, hL, ?_⟩, rfl,
      (Frame.trans f2 f3 (fun x hx => hx) (fun x hx _ => hx)).mono (fun _ hx => absurd hx (by simp))⟩
    · unfold ArrayImp.tpush
      rw [hed]
      simp only [Option.bind_eq_bind, Option.some_bind, Bool.not_true, Bool.false_eq_true,
        if_false]
      rw [if_neg hcond]
      simp only [ArrayImp.tail, ArrayImp.root, r.htail, r.hroot, deref, r.htn, hrn,
        Option.bind_eq_bind, Option.some_bind, alloc, hnt]
      rw [if_neg hguard, r.hend, r.hshift, if_pos (hovf.2 hov)]
      unfold newPath
      rw [e1]
      simp only [Option.some_bind, Obj.ofN, hroot0, hroot1, ← r.hend, hend1]
      rw [add32_level hsl]
    · rw [ht', ← hfl]; exact hgrow
    · rw [ht', ← hfl, hov]
      have := pow_ge_32 (k + 1 + 1)
      rw [pow_succ 32 (k + 1 + 1)]
      omega
    · intro _
      rw [ht', ← hfl, hov]
      omega
    · rw [ht']; simp [BRANCHES_eq]
    · intro j hj
      rw [ht'] at hj ⊢
      exact new_tail_vals x xs _ _ j hj
    · intro hc
      rcases hc with hc | hc | hc
      · omega
      · exact hnewS hc
      · rcases hS1 _ hc with h1' | h1'
        · omega
        · simp at h1'
    · intro y hy
      rcases hy with hy | hy | hy
      · omega
      · exact hLS y hy
      · rcases hS1 _ hy with h1' | h1'
        · rw [h1']; exact hLt
        · simp at h1'; omega
  · -- the trie has room: the path is made editable and written in place
    have hcaplt : tailoff t < 0 + 32 ^ (k + 1 + 1) := by
      have := r.hcap
      omega
    obtain ⟨h2, q, S', e1, f1, -, hs', hS', -, qn, hqn, hqe⟩ :=
      tpushTailF_spec ⟨t._start, t._end, BITS * (k + 1), some rp, some h.length⟩ tp xs (xs ++ [x])
        (tailoff t) rn.edit
        (by rw [r.hend, sub32_eq (by omega) r.hlt]; omega) hm32 hxs k (BITS * (k + 1) + 1)
        (h ++ [(⟨rn.edit, BRANCHES, (List.replicate BRANCHES Obj.null).set 0 (Obj.value x)⟩ : N α)])
        rp 0 S
        (r.hsub.of_frame hfa (fun _ _ => by simp))
        (dvd_zero _) (Nat.zero_le _) hcaplt hleaf htS
        ⟨rn, by
          simp only [ArrayImp.root, deref]
          rw [get_append_old h _ (hvalid rp r.hsub.root_mem)]; exact hrn, rfl⟩
        (by simp only [BITS_eq]; omega) (by omega)
    refine ⟨h2, ⟨t._start, xs.length + 1, BITS * (k + 1), some q, some h.length⟩, ?_,
      ⟨k, q, h.length,
        (⟨rn.edit, BRANCHES, (List.replicate BRANCHES Obj.null).set 0 (Obj.value x)⟩ : N α), S',
        ⟨by simp, by simpa using hlen, rfl, rfl, rfl, ?_, ?_, ?_, hntget f1 hnewS, ?_, ?_⟩,
        rfl, by simp, ?_, ⟨qn, hqn, by rw [hqe]; exact he⟩, hL, ?_⟩, rfl,
      Frame.trans hfa f1 (fun x hx => absurd hx (by simp))
        (fun x hx _ => Set.mem_Ici.2 (hLS x hx))⟩
    · unfold ArrayImp.tpush
      rw [hed]
      simp only [Option.bind_eq_bind, Option.some_bind, Bool.not_true, Bool.false_eq_true,
        if_false]
      rw [if_neg hcond]
      simp only [ArrayImp.tail, ArrayImp.root, r.htail, r.hroot, deref, r.htn, hrn,
        Option.bind_eq_bind, Option.some_bind, alloc, hnt]
      rw [if_neg hguard, r.hend, r.hshift, if_neg (fun hc => hov (hovf.1 hc))]
      unfold tpushTail
      rw [← r.hend, e1]
      simp only [Option.some_bind, hend1]
      rw [r.hend]
    · rw [ht', ← hfl]; exact hs'
    · rw [ht', ← hfl]
      have := r.hcap
      obtain ⟨c, hc⟩ := hm32
      obtain ⟨d, hd⟩ := pow_dvd_32 (k + 1)
      omega
    · intro hk
      rw [ht', ← hfl]
      have := r.hmin hk
      omega
    · rw [ht']; simp [BRANCHES_eq]
    · intro j hj
      rw [ht'] at hj ⊢
      exact new_tail_vals x xs _ _ j hj
    · intro hc
      rcases hS' _ hc with h1' | h1' | h1'
      · exact hnewS h1'
      · omega
      · simp at h1'
    · intro y hy
      rcases hS' _ hy with h1' | h1' | h1'
      · exact hLS y h1'
      · rw [h1']; exact hLt
      · simp at h1'; omega

/-- Transient push on an editable transient whose nodes are at addresses from
`L` on: the element is appended, the transient itself is returned, its nodes are
still at addresses from `L` on, and no node below `L` has changed. -/
theorem TAbove.push_above {L : Nat} {h : Heap α} {t : TA} {xs : List α} (x : α)
    (hp : TAbove L h t xs) (hL : L ≤ h.length) (hlen : xs.length + 1 < U32) :
    ∃ h' t', TA.push h t x = some ⟨h', t', true⟩ ∧ TAbove L h' t' (xs ++ [x]) ∧
      t'._start = t._start ∧ Frame h h' (Set.Ici L) := by
  by_cases hroom : xs.length - tailoff t < 32
  · exact tpush_room x hp hlen hroom
  · exact tpush_full x hp hL hlen hroom

/-- Transient push on an editable transient: the element is appended in place
and the transient itself is returned. -/
theorem TRep.tpush {h : Heap α} {t : TA} {xs : List α} (x : α) (hp : TRep h t xs)
    (hlen : xs.length + 1 < U32) :
    ∃ h' t', TA.push h t x = some ⟨h', t', true⟩ ∧ TRep h' t' (xs ++ [x]) ∧
      t'._start = t._start := by
  obtain ⟨h', t', e, hp', hs, -⟩ := hp.above.push_above x (Nat.zero_le _) hlen
  exact ⟨h', t', e, hp'.trep, hs⟩

/-! ## Thawing and freezing -/

/-- A trie stays a trie when its root is replaced by a node with the same slots:
a copy at a new address, or the root itself with another edit token. -/
theorem Sub.reroot {h : Heap α} {xs : List α} {m k p b : Nat} {S : Set Nat} {n : N α}
    (h' : Heap α) (p' : Nat) (n' : N α)
    (hs : Sub h xs m (k + 1) p b S) (hn : h[p]? = some n)
    (hn' : h'[p']? = some n') (hl : n'.length = BRANCHES) (hv : n'._v.length = BRANCHES)
    (hslots : ∀ j, j < BRANCHES → n'._v[j]? = n._v[j]?)
    (hf : ∀ x, x ∈ S → x ≠ p → h'[x]? = h[x]?)
    (hp' : p' = p ∨ p' ∉ S) :
    ∃ S', Sub h' xs m (k + 1) p' b S' ∧ ∀ x, x ∈ S' → x = p' ∨ x ∈ S := by
  obtain ⟨n0, hn0, -, -, Ss, hS, hp, hd, hch⟩ := hs
  rw [hn] at hn0
  obtain rfl : n = n0 := Option.some.inj hn0
  have hSs : ∀ j, j < BRANCHES → ∀ x, x ∈ Ss j → x ∈ S :=
    fun j hj x hx => (hS x).2 (Or.inr ⟨j, hj, hx⟩)
  refine ⟨fun x => x = p' ∨ ∃ j, j < BRANCHES ∧ x ∈ Ss j,
    ⟨n', hn', hl, hv, Ss, fun x => Iff.rfl, ?_, hd, ?_⟩, ?_⟩
  · intro j hj hc
    rcases hp' with h1 | h1
    · exact hp j hj (by rw [← h1]; exact hc)
    · exact h1 (hSs j hj _ hc)
  · intro j hj
    refine ⟨fun hlt => ?_, fun hge => ?_⟩
    · obtain ⟨q, hq, hsub⟩ := (hch j hj).1 hlt
      refine ⟨q, by rw [hslots j hj]; exact hq, hsub.frame (fun x hx => ?_)⟩
      exact hf x (hSs j hj x hx) (fun hc => hp j hj (by rw [← hc]; exact hx))
    · rw [hslots j hj]
      exact (hch j hj).2 hge
  · intro x hx
    rcases hx with h1 | ⟨j, hj, h1⟩
    · exact Or.inl h1
    · exact Or.inr (hSs j hj x h1)

/-- The values of a copy of a tail node. -/
theorem copy_vals {xs : List α} {m len e : Nat} {tn : N α}
    (hvals : ∀ j, m + j < xs.length → tn._v[j]? = (xs[m + j]?).map Obj.value)
    (hlen : xs.length - m ≤ len) (htl : xs.length - m ≤ tn.length) (h32 : xs.length - m ≤ 32) :
    ∀ j, m + j < xs.length → (tn.copy len e)._v[j]? = (xs[m + j]?).map Obj.value := by
  intro j hj
  have hv := hvals j hj
  rw [List.getElem?_eq_getElem hj, Option.map_some'] at hv ⊢
  rw [N.copy_get _ _ _ (show j < BRANCHES by rw [BRANCHES_eq]; omega),
    if_pos (by simp only [lt_min_iff]; omega), getD_eq hv]

/-- `createTransient` on a represented vector: an editable transient with the same
data, made of a copy of the root and a full-length copy of the tail; no node of
the heap is changed. -/
theorem PRep.thaw {h : Heap α} {a : A} {xs : List α} (tid : Nat) (hp : PRep h a xs)
    (htid : tid ≠ NO_EDIT) :
    ∃ h' t, createTransient tid h a = some (h', t) ∧ TRep h' t xs ∧ Frame h h' ∅ ∧
      t._start = a._start ∧ t._end = a._end ∧ t._root = some h.length := by
  obtain ⟨k, rp, tp, tn, S, r, htn⟩ := hp
  have hsub := r.hsub
  obtain ⟨rn, hrn, hrl, hrv, -⟩ := hsub
  have hvalid := r.hsub.valid
  have htpv : tp < h.length := get_lt r.htn
  have hU : a._end < U32 := by rw [r.hend]; exact r.hlt
  obtain ⟨-, t2, t3, -⟩ := tailoff_spec a hU
  rw [r.hend] at t2 t3
  have f1 := Frame.alloc h (rn.copy rn.length tid) ∅
  have f2 := Frame.alloc (h ++ [rn.copy rn.length tid]) (tn.copy BRANCHES tid) ∅
  have f12 : Frame h (h ++ [rn.copy rn.length tid] ++ [tn.copy BRANCHES tid]) ∅ :=
    Frame.trans f1 f2 (fun x hx => hx) (fun x hx _ => hx)
  obtain ⟨S', hs', hS'⟩ := Sub.reroot
    (h ++ [rn.copy rn.length tid] ++ [tn.copy BRANCHES tid]) h.length (rn.copy rn.length tid)
    r.hsub hrn
    (get_append_two h (rn.copy rn.length tid) (tn.copy BRANCHES tid)).1
    (by rw [N.copy_length]; exact hrl) (N.copy_v_length _ _ _)
    (fun j hj => by
      rw [N.copy_get _ _ _ hj, if_pos (by rw [hrl]; simpa using hj)]
      exact getD_null (by rw [hrv]; exact hj))
    (fun x hx _ => f12.2 x (hvalid x hx) (by simp))
    (Or.inr (fun hc => by have := hvalid _ hc; omega))
  refine ⟨h ++ [rn.copy rn.length tid] ++ [tn.copy BRANCHES tid],
    ⟨a._start, a._end, a._shift, some h.length, some (h.length + 1)⟩, ?_,
    ⟨k, h.length, h.length + 1, tn.copy BRANCHES tid, S',
      ⟨r.hend, r.hlt, r.hshift, rfl, rfl, hs', r.hcap, r.hmin,
        (get_append_two h _ _).2, ?_, ?_⟩, rfl, N.copy_v_length _ _ _, ?_, rn.copy rn.length tid,
        (get_append_two h _ _).1, htid⟩, f12, rfl, rfl, rfl⟩
  · simp only [createTransient, ArrayImp.root, ArrayImp.tail, r.hroot, r.htail, deref, hrn,
      Option.bind_eq_bind, Option.some_bind, alloc]
    rw [get_append_old h _ htpv, r.htn, Option.some_bind]
    simp
  · show xs.length - tailoff a ≤ BRANCHES
    rw [BRANCHES_eq]; exact t3
  · exact copy_vals r.hvals (by rw [BRANCHES_eq]; exact t3)
      (by rw [htn]; exact le_refl _) t3
  · intro hc
    rcases hS' _ hc with h1 | h1
    · omega
    · have := hvalid _ h1; omega

/-- `createPersistent` on an editable transient: a persistent vector with the same
data; the root loses its edit token in place and the tail is trimmed into a
fresh node. -/
theorem TRep.freeze {h : Heap α} {t : TA} {xs : List α} (hp : TRep h t xs) :
    ∃ h' a rp, createPersistent h t = some (h', some a) ∧ PRep h' a xs ∧ Frame h h' {rp} ∧
      t._root = some rp ∧ a._start = t._start ∧ a._end = t._end := by
  have hed := hp.editable
  obtain ⟨k, rp, tp, tn, S, r, htl, htv, htS, rn, hrn, he⟩ := hp
  have hsub := r.hsub
  obtain ⟨rn0, hrn0, hrl, hrv, -⟩ := hsub
  rw [hrn] at hrn0
  obtain rfl : rn = rn0 := Option.some.inj hrn0
  have hvalid := r.hsub.valid
  have hrpS := r.hsub.root_mem
  have hne : tp ≠ rp := fun hc => htS (by rw [hc]; exact hrpS)
  have hU : t._end < U32 := by rw [r.hend]; exact r.hlt
  obtain ⟨-, t2, t3, -⟩ := tailoff_spec t hU
  rw [r.hend] at t2 t3
  have hsz : sub32 t._end (tailoff t) = xs.length - tailoff t := by
    rw [r.hend, sub32_eq t2 r.hlt]
  have f1 : Frame h (h.set rp ⟨NO_EDIT, rn.length, rn._v⟩) {rp} := Frame.write_at h rp _ (by simp)
  have f2 := Frame.alloc (h.set rp ⟨NO_EDIT, rn.length, rn._v⟩)
    (tn.copy (xs.length - tailoff t) NO_EDIT) {rp}
  have f12 : Frame h (h.set rp ⟨NO_EDIT, rn.length, rn._v⟩ ++
      [tn.copy (xs.length - tailoff t) NO_EDIT]) {rp} :=
    Frame.trans f1 f2 (fun x hx => hx) (fun x hx _ => hx)
  have hlen1 : (h.set rp ⟨NO_EDIT, rn.length, rn._v⟩).length = h.length := by simp
  obtain ⟨S', hs', hS'⟩ := Sub.reroot
    (h.set rp ⟨NO_EDIT, rn.length, rn._v⟩ ++ [tn.copy (xs.length - tailoff t) NO_EDIT]) rp
    ⟨NO_EDIT, rn.length, rn._v⟩ r.hsub hrn
    (by rw [get_append_old _ _ (by rw [hlen1]; exact get_lt hrn)]; exact set_get_self _ hrn)
    hrl hrv (fun j _ => rfl)
    (fun x hx hxp => f12.2 x (hvalid x hx) (by simpa using hxp))
    (Or.inl rfl)
  refine ⟨h.set rp ⟨NO_EDIT, rn.length, rn._v⟩ ++ [tn.copy (xs.length - tailoff t) NO_EDIT],
    ⟨t._start, t._end, t._shift, t._root, some h.length⟩, rp, ?_,
    ⟨k, rp, h.length, tn.copy (xs.length - tailoff t) NO_EDIT, S',
      ⟨r.hend, r.hlt, r.hshift, r.hroot, rfl, hs', r.hcap, r.hmin, ?_, ?_, ?_⟩, rfl⟩,
    f12, r.hroot, rfl, rfl⟩
  · unfold createPersistent
    rw [hed]
    simp only [Option.bind_eq_bind, Option.some_bind, Bool.not_true, Bool.false_eq_true,
      if_false, r.hroot, hrn, ArrayImp.tail, r.htail, deref]
    rw [set_get_ne h _ hne, r.htn, Option.some_bind, hsz]
    simp [alloc]
  · rw [← hlen1]; exact get_append_new _ _
  · show xs.length - tailoff t ≤ xs.length - tailoff t
    exact le_refl _
  · exact copy_vals r.hvals (le_refl _) (by rw [htl, BRANCHES_eq]; exact t3) t3

/-! ## Lookup through the façade, for any `_start` -/

theorem TRep.to_rep {h : Heap α} {t : TA} {xs : List α} (hp : TRep h t xs) :
    ∃ k rp tp tn S, Rep h t xs k rp tp tn S := by
  obtain ⟨k, rp, tp, tn, S, r, -⟩ := hp
  exact ⟨k, rp, tp, tn, S, r⟩

theorem PRep.as_rep {h : Heap α} {a : A} {xs : List α} (hp : PRep h a xs) :
    ∃ k rp tp tn S, Rep h a xs k rp tp tn S := by
  obtain ⟨k, rp, tp, tn, S, r, -⟩ := hp
  exact ⟨k, rp, tp, tn, S, r⟩

/-- Successive transient pushes append to the underlying data. -/
theorem TRep.tpushAll (xs : List α) : ∀ (ys : List α) {h : Heap α} {t : TA}, TRep h t xs →
    (xs ++ ys).length < U32 →
    ∃ h' t', TA.pushAll h t ys = some (h', t') ∧ TRep h' t' (xs ++ ys) ∧
      t'._start = t._start := by
  intro ys
  induction ys generalizing xs with
  | nil =>
    intro h t hp _
    exact ⟨h, t, rfl, by simpa using hp, rfl⟩
  | cons y ys ih =>
    intro h t hp hlen
    simp only [List.length_append, List.length_cons] at hlen
    obtain ⟨h1, t1, e1, hp1, hs1⟩ := hp.tpush y (by omega)
    obtain ⟨h2, t2, e2, hp2, hs2⟩ := ih (xs ++ [y]) hp1 (by simp; omega)
    refine ⟨h2, t2, ?_, by simpa using hp2, hs2.trans hs1⟩
    simp only [TA.pushAll, e1, Option.bind_eq_bind, Option.some_bind, if_true]
    exact e2

/-- At `2 ^ 32 - 1` elements a transient push wraps `_end` around to 0. -/
theorem TRep.tpush_wrap {h : Heap α} {t : TA} {xs : List α} (x : α) (hp : TRep h t xs)
    (hlen : xs.length = 4294967295) :
    ∃ h' t', TA.push h t x = some ⟨h', t', true⟩ ∧ t'._end = 0 ∧ t'._start = t._start := by
  have hed := hp.editable
  obtain ⟨k, rp, tp, tn, S, r, htl, htv, htS, rn, hrn, he⟩ := hp
  have hU : t._end < U32 := by rw [r.hend]; exact r.hlt
  have ht := tailoff_toff t hU
  rw [r.hend, hlen] at ht
  have ht2 : tailoff t = 4294967264 := by rw [ht]; decide
  have hidx : (4294967295 : Nat) &&& MASK = 31 := by rw [and_MASK]
  have hw := writeSlot_eq (Obj.value x) r.htn
    (show 31 < tn._v.length by rw [htv, BRANCHES_eq]; decide)
  refine ⟨h.set tp ⟨tn.edit, tn.length, tn._v.set 31 (Obj.value x)⟩,
    ⟨t._start, 0, t._shift, t._root, t._tail⟩, ?_, rfl, rfl⟩
  unfold TA.push ArrayImp.tpush
  rw [hed]
  simp only [Option.bind_eq_bind, Option.some_bind, Bool.not_true, Bool.false_eq_true,
    if_false]
  rw [if_pos (by rw [r.hend, hlen, ht2]; decide)]
  simp only [ArrayImp.tail, r.htail, deref, r.htn, Option.bind_eq_bind, Option.some_bind,
    r.hend, hlen]
  rw [hidx, hw, Option.some_bind]
  rfl

/-! ## Reading a vector -/

/-- The unchecked walk gives the same result on a heap that extends the heap it
succeeded on. -/
theorem uncheckedSlotsForF_frame {h h' : Heap α} (f : Frame h h' ∅) (i : Nat) :
    ∀ (fuel level : Nat) (p r : Ptr), uncheckedSlotsForF i fuel h level p = some r →
      uncheckedSlotsForF i fuel h' level p = some r
  | 0, _, _, _, e => by simp [uncheckedSlotsForF] at e
  | fuel + 1, level, p, r, e => by
    rw [uncheckedSlotsForF] at e ⊢
    by_cases h0 : level = 0
    · rw [if_pos h0] at e ⊢; exact e
    · rw [if_neg h0] at e ⊢
      by_cases h32 : 32 ≤ level
      · rw [if_pos h32] at e; exact absurd e (by simp)
      · rw [if_neg h32] at e ⊢
        simp only [Option.bind_eq_bind, Option.bind_eq_some] at e ⊢
        obtain ⟨n, hn, s, hs, c, hc, hrec⟩ := e
        refine ⟨n, ?_, s, hs, c, hc, uncheckedSlotsForF_frame f i fuel _ c r hrec⟩
        cases p with
        | none => simp [deref] at hn
        | some q =>
          simp only [deref] at hn ⊢
          rw [f.2 q (get_lt hn) (by simp)]
          exact hn

theorem uncheckedSlotsFor_frame {h h' : Heap α} (f : Frame h h' ∅) (a : A) (i : Nat) (r : Ptr)
    (e : uncheckedSlotsFor h a i = some r) : uncheckedSlotsFor h' a i = some r := by
  have hd : ∀ (p : Ptr) (n : N α), deref h p = some n → deref h' p = some n := by
    intro p n hn
    cases p with
    | none => simp [deref] at hn
    | some q =>
      simp only [deref] at hn ⊢
      rw [f.2 q (get_lt hn) (by simp)]
      exact hn
  unfold uncheckedSlotsFor at e ⊢
  by_cases ht : tailoff a ≤ i
  · rw [if_pos ht] at e ⊢
    simp only [Option.bind_eq_bind, Option.bind_eq_some] at e ⊢
    obtain ⟨n, hn, e⟩ := e
    exact ⟨n, hd _ _ hn, e⟩
  · rw [if_neg ht] at e ⊢
    simp only [Option.bind_eq_bind, Option.bind_eq_some] at e ⊢
    obtain ⟨n, hn, e⟩ := e
    exact ⟨n, hd _ _ hn, uncheckedSlotsForF_frame f i _ _ _ _ e⟩

theorem Readable.extend {h h' : Heap α} {a : A} {xs : List α} (hr : Readable h a xs)
    (f : Frame h h' ∅) : Readable h' a xs := by
  obtain ⟨he, hlt, hk, hall⟩ := hr
  refine ⟨he, hlt, hk, fun i hi => ?_⟩
  obtain ⟨p, n, e, hn, hv⟩ := hall i hi
  exact ⟨p, n, uncheckedSlotsFor_frame f a i _ e, by rw [f.2 p (get_lt hn) (by simp)]; exact hn, hv⟩

/-- The unchecked walk looks at an index only through its digits above the
lowest: two indices of the same block of 32 take the same path. -/
theorem uncheckedSlotsForF_block {i j : Nat} (hij : i / 32 = j / 32) :
    ∀ (fuel k : Nat) (h : Heap α) (p : Ptr),
      uncheckedSlotsForF i fuel h (BITS * k) p = uncheckedSlotsForF j fuel h (BITS * k) p
  | 0, _, _, _ => rfl
  | fuel + 1, k, h, p => by
    rw [uncheckedSlotsForF, uncheckedSlotsForF]
    cases k with
    | zero => rfl
    | succ k =>
      rw [if_neg (level_ne_zero k), if_neg (level_ne_zero k)]
      by_cases h32 : 32 ≤ BITS * (k + 1)
      · rw [if_pos h32, if_pos h32]
      · rw [if_neg h32, if_neg h32]
        have hd : ∀ x : Nat, x / 32 ^ (k + 1) % 32 = x / 32 / 32 ^ k % 32 := by
          intro x
          rw [Nat.div_div_eq_div_mul, pow_succ, mul_comm]
        rw [digit_eq, digit_eq, hd i, hd j, hij, sub32_level (Nat.lt_of_not_le h32)]
        simp only [Option.bind_eq_bind]
        congr 1
        funext n
        congr 1
        funext s
        congr 1
        funext c
        exact uncheckedSlotsForF_block hij fuel k h c

theorem uncheckedSlotsFor_block {h : Heap α} {a : A} {i j k : Nat} (hU : a._end < U32)
    (hk : a._shift = BITS * (k + 1)) (hij : i / 32 = j / 32) :
    uncheckedSlotsFor h a i = uncheckedSlotsFor h a j := by
  obtain ⟨t1, -, -, -⟩ := tailoff_spec a hU
  unfold uncheckedSlotsFor
  have hc : tailoff a ≤ i ↔ tailoff a ≤ j := by omega
  by_cases ht : tailoff a ≤ i
  · rw [if_pos ht, if_pos (hc.1 ht)]
  · rw [if_neg ht, if_neg (fun hc' => ht (hc.2 hc')), hk,
      uncheckedSlotsForF_block hij (BITS * (k + 1) + 1) (k + 1) h a._root]

/-- A represented vector is readable. -/
theorem Rep.readable {h : Heap α} {a : A} {xs : List α} {k rp tp : Nat} {tn : N α}
    {S : Set Nat} (r : Rep h a xs k rp tp tn S) : Readable h a xs := by
  refine ⟨r.hend, r.hlt, ⟨k, r.hshift⟩, fun i hi => ?_⟩
  have hU : a._end < U32 := r.hend ▸ r.hlt
  obtain ⟨t1, t2, t3, -⟩ := tailoff_spec a hU
  by_cases hm : tailoff a ≤ i
  · have hv := r.hvals (i - tailoff a) (by omega)
    have e : i % 32 = i - tailoff a := by rw [r.hend] at t2 t3; omega
    have e2 : tailoff a + (i - tailoff a) = i := by omega
    rw [e2, ← e] at hv
    refine ⟨tp, tn, ?_, r.htn, hv⟩
    simp only [uncheckedSlotsFor, hm, if_true, ArrayImp.tail, r.htail, deref, r.htn,
      Option.bind_eq_bind, Option.some_bind]
  · have hsub := r.hsub
    have hs := r.shift_lt
    obtain ⟨q, n, e1, -, -, hq, -, -, hval⟩ :=
      Sub.walk i (a._shift + 1) hsub (dvd_zero _) (Nat.zero_le _)
        (by rw [zero_add]; exact lt_of_lt_of_le (Nat.lt_of_not_le hm) r.hcap) (by omega)
        (by rw [r.hshift]; simp only [BITS_eq]; omega) (by omega)
    obtain ⟨rn, hrn, -⟩ := hsub
    rw [← r.hshift] at e1
    refine ⟨q, n, ?_, hq, hval⟩
    simp only [uncheckedSlotsFor, hm, if_false, ArrayImp.root, r.hroot, deref, hrn, e1,
      Option.bind_eq_bind, Option.some_bind]

theorem PRep.is_readable {h : Heap α} {a : A} {xs : List α} (hp : PRep h a xs) :
    Readable h a xs := by
  obtain ⟨k, rp, tp, tn, S, r, -⟩ := hp
  exact r.readable

/-- Reading a readable vector through the typed surface. -/
theorem Readable.read {h : Heap α} {a : A} {xs : List α} (hr : Readable h a xs) (i : Nat)
    (hi : i + a._start < xs.length) : A.get h a i = xs[i + a._start]? := by
  obtain ⟨he, hlt, hk, hall⟩ := hr
  obtain ⟨p, n, e, hn, hv⟩ := hall _ hi
  have e1 : add32 i a._start = i + a._start := add32_eq (by omega)
  have hx : xs[i + a._start]? = some xs[i + a._start] := List.getElem?_eq_getElem hi
  simp only [A.get, A.getValue, ArrayImp.getValue, e1, e, deref, hn, N.slot, and_MASK, hv, hx,
    Option.bind_eq_bind, Option.some_bind, Option.map_some']

theorem Readable.size_eq {h : Heap α} {a : A} {xs : List α} (hr : Readable h a xs)
    (hs : a._start ≤ a._end) : a.size = xs.length - a._start := by
  rw [A.size, sub32_eq hs (by rw [hr.1]; exact hr.2.1), hr.1]

/-! ## Copying a range through a transient -/

/-- Nodes below `L` that have not changed since `h0`, of length `L`, are the
nodes of `h0`. -/
theorem Frame.below {h0 h h' : Heap α} (f0 : Frame h0 h ∅) (f : Frame h h' (Set.Ici h0.length)) :
    Frame h0 h' ∅ :=
  Frame.trans f0 f (fun x hx => hx) (fun x hx hlt => by
    have := Set.mem_Ici.1 hx
    omega)

/-- `createTransient` on the empty singleton, on any heap that extends the initial
one: an editable transient of no elements whose two nodes are fresh. -/
theorem thaw_empty {h : Heap α} (tid : Nat) (f : Frame heap0 h ∅) (htid : tid ≠ NO_EDIT) :
    ∃ h' t, createTransient tid h EMPTY = some (h', t) ∧ TAbove h.length h' t [] ∧
      Frame h h' ∅ ∧ t._start = 0 := by
  have h0 : h[0]? = some ⟨NO_EDIT, BRANCHES, List.replicate BRANCHES Obj.null⟩ := by
    rw [f.2 0 (by simp [heap0]) (by simp)]; rfl
  have h1 : h[1]? = some ⟨NO_EDIT, 0, []⟩ := by
    rw [f.2 1 (by simp [heap0]) (by simp)]; rfl
  have hlen : 2 ≤ h.length := by have := f.1; simpa [heap0] using this
  have f1 := Frame.alloc h ((⟨NO_EDIT, BRANCHES, List.replicate BRANCHES Obj.null⟩ : N α).copy
    BRANCHES tid) ∅
  have f2 := Frame.alloc (h ++ [(⟨NO_EDIT, BRANCHES, List.replicate BRANCHES Obj.null⟩ : N α).copy
    BRANCHES tid]) ((⟨NO_EDIT, 0, []⟩ : N α).copy BRANCHES tid) ∅
  have f12 := Frame.trans f1 f2 (fun x hx => hx) (fun x hx _ => hx)
  have ht : tailoff ⟨0, 0, BITS, some h.length, some (h.length + 1)⟩ = 0 := rfl
  refine ⟨h ++ [(⟨NO_EDIT, BRANCHES, List.replicate BRANCHES Obj.null⟩ : N α).copy BRANCHES tid] ++
      [(⟨NO_EDIT, 0, []⟩ : N α).copy BRANCHES tid],
    ⟨0, 0, BITS, some h.length, some (h.length + 1)⟩, ?_,
    ⟨0, h.length, h.length + 1, (⟨NO_EDIT, 0, []⟩ : N α).copy BRANCHES tid, {h.length},
      ⟨rfl, by simp [U32], rfl, rfl, rfl, ?_, ?_, fun hc => absurd hc (by omega),
        (get_append_two h _ _).2, by simp, fun j hj => by simp at hj⟩,
      rfl, N.copy_v_length _ _ _, by simp, ⟨_, (get_append_two h _ _).1, htid⟩, by omega,
      fun x hx => by
        have : x = h.length := by simpa using hx
        omega⟩, f12, rfl⟩
  · simp only [createTransient, ArrayImp.root, ArrayImp.tail, EMPTY, EMPTY_ROOT, EMPTY_NODE,
      deref, h0, Option.bind_eq_bind, Option.some_bind, alloc]
    rw [get_append_old h _ (by omega), h1, Option.some_bind]
    simp
  · rw [ht]
    refine ⟨_, (get_append_two h _ _).1, rfl, N.copy_v_length _ _ _, fun _ => ∅,
      fun x => by simp, fun _ _ => by simp, fun _ _ _ _ _ _ hx => by simp at hx, ?_⟩
    intro j hj
    refine ⟨fun hc => by omega, fun _ => ⟨?_, rfl⟩⟩
    rw [N.copy_get _ _ _ hj]
    simp only [min_self]
    rw [if_pos hj]
    congr 1
    exact getD_eq (by rw [List.getElem?_replicate, if_pos hj])
  · rw [ht]; positivity

/-- `createPersistent` on an editable transient whose nodes are at addresses from
`L` on changes no node below `L`. -/
theorem TAbove.to_persistent {L : Nat} {h : Heap α} {t : TA} {xs : List α} (hp : TAbove L h t xs) :
    ∃ h' a, createPersistent h t = some (h', some a) ∧ PRep h' a xs ∧
      Frame h h' (Set.Ici L) ∧ a._start = t._start ∧ a._end = t._end := by
  obtain ⟨h', a, rp, e, hP, f, hroot, hs, he⟩ := hp.trep.freeze
  obtain ⟨k, rp0, tp, tn, S, r, -, -, -, -, -, hLS⟩ := hp
  rw [r.hroot] at hroot
  obtain rfl : rp0 = rp := Option.some.inj hroot
  refine ⟨h', a, e, hP, f.mono (fun x hx => ?_), hs, he⟩
  have : x = rp0 := by simpa using hx
  rw [this]
  exact Set.mem_Ici.2 (hLS rp0 r.hsub.root_mem)

theorem drop_take_succ (xs : List α) {i : Nat} (hi : i < xs.length) (n : Nat) :
    (xs.drop i).take (n + 1) = xs[i] :: (xs.drop (i + 1)).take n := by
  rw [List.drop_eq_getElem_cons hi, List.take_succ_cons]

/-- The loop of `tpushAll`: the iterator is at index `i` of a readable source,
`n` elements before its end `e`, and caches the node of `i`; the loop pushes the
elements `xs[i], ..., xs[e - 1]` onto the transient and changes no node of the
heap `h0` the source was read in. -/
theorem tpushAllF_spec {h0 : Heap α} {src : A} {xs : List α} (hr : Readable h0 src xs)
    (e : Nat) (he : e ≤ xs.length) :
    ∀ (n i fuel : Nat) (h : Heap α) (dst : TA) (ys : List α) (it : Iterator),
      e = i + n → n < fuel → Frame h0 h ∅ → TAbove h0.length h dst ys → ys.length + n < U32 →
      it._a = some src → it._i = i → it._end = e →
      (n = 0 → it._slots = none) →
      (0 < n → it._base = i - i % 32 ∧
        ∃ p, it._slots = some p ∧ uncheckedSlotsFor h0 src i = some (some p)) →
      ∃ h' dst', tpushAllF fuel h dst it = some (h', dst') ∧ Frame h0 h' ∅ ∧
        TAbove h0.length h' dst' (ys ++ (xs.drop i).take n) ∧ dst'._start = dst._start
  | 0, i, fuel, h, dst, ys, it, _, hf, f0, hT, _, _, _, _, h0n, _ => by
    obtain ⟨f, rfl⟩ : ∃ f, fuel = f + 1 := ⟨fuel - 1, by omega⟩
    obtain ⟨ia, ii, ie, ib, is, il⟩ := it
    have hs : is = none := h0n rfl
    subst hs
    refine ⟨h, dst, ?_, f0, by simpa using hT, rfl⟩
    simp [tpushAllF, Iterator.eq, END_ITERATOR]
  | n + 1, i, fuel, h, dst, ys, it, hen, hf, f0, hT, hlen, ha, hi, hie, _, hpos => by
    obtain ⟨f, rfl⟩ : ∃ f, fuel = f + 1 := ⟨fuel - 1, by omega⟩
    obtain ⟨ia, ii, ie, ib, is, il⟩ := it
    simp only at ha hi hie
    subst ha hi hie
    subst hen
    obtain ⟨hb, p, hs, hp⟩ := hpos (by omega)
    simp only at hb hs
    subst hb hs
    obtain ⟨hend, hlt, ⟨k, hk⟩, hall⟩ := hr
    have hU : src._end < U32 := by rw [hend]; exact hlt
    have hix : ii < xs.length := by omega
    obtain ⟨p0, n0, e0, hn0, hv0⟩ := hall ii hix
    rw [hp] at e0
    obtain rfl : p = p0 := Option.some.inj (Option.some.inj e0)
    have hnp : h[p]? = some n0 := by rw [f0.2 p (get_lt hn0) (by simp)]; exact hn0
    rw [List.getElem?_eq_getElem hix, Option.map_some'] at hv0
    obtain ⟨h1, dst1, e1, hT1, hs1, f1⟩ := hT.push_above xs[ii] f0.1 (by omega)
    have f01 := f0.below f1
    have hi1 : add32 ii 1 = ii + 1 := add32_eq (by omega)
    have hnext : ∃ it1 : Iterator, Iterator.next h1
        (⟨some src, ii, ii + (n + 1), ii - ii % 32, some p, il⟩ : Iterator) = some it1 ∧
        it1._a = some src ∧ it1._i = ii + 1 ∧ it1._end = ii + (n + 1) ∧
        (n = 0 → it1._slots = none) ∧
        (0 < n → it1._base = (ii + 1) - (ii + 1) % 32 ∧
          ∃ q, it1._slots = some q ∧ uncheckedSlotsFor h0 src (ii + 1) = some (some q)) := by
      by_cases hn : n = 0
      · refine ⟨⟨some src, ii + 1, ii + (n + 1), ii - ii % 32, none, il⟩, ?_, rfl, rfl, rfl,
          fun _ => rfl, fun hc => absurd hc (by omega)⟩
        simp only [Iterator.next, hi1]
        rw [if_neg (by omega)]
      · by_cases hblk : ii % 32 = 31
        · obtain ⟨q, nq, eq1, hnq, -⟩ := hall (ii + 1) (by omega)
          have eq2 := uncheckedSlotsFor_frame f01 src _ _ eq1
          have hnq1 : h1[q]? = some nq := by rw [f01.2 q (get_lt hnq) (by simp)]; exact hnq
          refine ⟨⟨some src, ii + 1, ii + (n + 1), ii + 1, some q, nq.length⟩, ?_, rfl, rfl,
            rfl, fun hc => absurd hc hn, fun _ => ⟨by simp only; omega, q, rfl, eq1⟩⟩
          simp only [Iterator.next, hi1]
          rw [if_pos (by omega),
            if_pos (by rw [sub32_eq (by omega) (by omega), BRANCHES_eq]; omega)]
          simp only [slotsFor, eq2, hnq1, Option.bind_eq_bind, Option.some_bind]
          rw [add32_eq (by rw [BRANCHES_eq]; omega), BRANCHES_eq]
          have : ii - ii % 32 + 32 = ii + 1 := by omega
          rw [this]
        · refine ⟨⟨some src, ii + 1, ii + (n + 1), ii - ii % 32, some p, il⟩, ?_, rfl, rfl,
            rfl, fun hc => absurd hc hn, fun _ => ⟨by simp only; omega, p, rfl, ?_⟩⟩
          · simp only [Iterator.next, hi1]
            rw [if_pos (by omega),
              if_neg (by rw [sub32_eq (by omega) (by omega), BRANCHES_eq]; omega)]
          · rw [uncheckedSlotsFor_block hU hk (show (ii + 1) / 32 = ii / 32 by omega)]
            exact hp
    obtain ⟨it1, en, ha1, hi1', he1, hz1, hp1⟩ := hnext
    obtain ⟨h', dst', e2, f2, hT2, hs2⟩ :=
      tpushAllF_spec ⟨hend, hlt, ⟨k, hk⟩, hall⟩ (ii + (n + 1)) he n (ii + 1) f h1 dst1
        (ys ++ [xs[ii]]) it1 (by omega) (by omega) f01 hT1 (by simp; omega) ha1 hi1' he1 hz1 hp1
    refine ⟨h', dst', ?_, f2, ?_, hs2.trans hs1⟩
    · rw [tpushAllF]
      have hne : Iterator.eq (⟨some src, ii, ii + (n + 1), ii - ii % 32, some p, il⟩ : Iterator)
          END_ITERATOR = false := by
        simp [Iterator.eq, END_ITERATOR]
      rw [hne]
      simp only [Bool.false_eq_true, if_false, Iterator.value, deref, hnp, N.slot, and_MASK, hv0,
        Option.bind_eq_bind, Option.some_bind]
      have e1' : tpush h dst (Obj.value xs[ii]) = some ⟨h1, dst1, true⟩ := e1
      rw [e1', Option.some_bind]
      simp only [en, Option.some_bind]
      exact e2
    · rw [drop_take_succ xs hix n]
      simpa using hT2

/-- The function `tpushAll`: the elements `xs[s], ..., xs[e - 1]` of a readable
source are pushed onto the transient; no node of the heap `h0` the source was
read in is changed. -/
theorem tpushAll_spec {h0 h : Heap α} {src dst : A} {xs ys : List α} {s e : Nat}
    (hr : Readable h0 src xs) (f0 : Frame h0 h ∅) (hT : TAbove h0.length h dst ys)
    (hse : s ≤ e) (he : e ≤ xs.length) (hlen : ys.length + (e - s) < U32) :
    ∃ h' dst', tpushAll h dst src s e = some (h', dst') ∧ Frame h0 h' ∅ ∧
      TAbove h0.length h' dst' (ys ++ (xs.drop s).take (e - s)) ∧ dst'._start = dst._start := by
  have hlt := hr.2.1
  have hb : sub32 s (s % BRANCHES) = s - s % 32 := by
    rw [BRANCHES_eq, sub32_eq (Nat.mod_le _ _) (by omega)]
  have hfuel : sub32 e s = e - s := sub32_eq hse (by omega)
  by_cases hlt' : s < e
  · obtain ⟨p, n, e1, hn, -⟩ := hr.2.2.2 s (by omega)
    have e2 := uncheckedSlotsFor_frame f0 src _ _ e1
    have hn2 : h[p]? = some n := by rw [f0.2 p (get_lt hn) (by simp)]; exact hn
    obtain ⟨h', dst', e3, f3, hT3, hs3⟩ :=
      tpushAllF_spec hr e he (e - s) s (e - s + 1) h dst ys
        ⟨some src, s, e, s - s % 32, some p, n.length⟩ (by omega) (by omega) f0 hT hlen rfl rfl
        rfl (fun hc => absurd hc (by omega)) (fun _ => ⟨rfl, p, rfl, e1⟩)
    refine ⟨h', dst', ?_, f3, hT3, hs3⟩
    simp only [tpushAll, Iterator.create, hb, hfuel]
    rw [if_pos hlt']
    simp only [slotsFor, e2, hn2, Option.bind_eq_bind, Option.some_bind]
    exact e3
  · obtain rfl : s = e := by omega
    obtain ⟨h', dst', e3, f3, hT3, hs3⟩ :=
      tpushAllF_spec hr s he 0 s (s - s + 1) h dst ys
        ⟨some src, s, s, s - s % 32, none, 0⟩ rfl (by omega) f0 hT (by omega) rfl rfl
        rfl (fun _ => rfl) (fun hc => absurd hc (by omega))
    refine ⟨h', dst', ?_, f3, by simpa using hT3, hs3⟩
    simp only [tpushAll, Iterator.create, hb, hfuel]
    rw [if_neg hlt']
    simp only [Option.bind_eq_bind, Option.some_bind]
    exact e3

/-- The function `ArrayImp::slice` on a readable vector and a range
`s <= e <= _end` of absolute indices: the result is a readable vector whose
elements are `xs[s], ..., xs[e - 1]`, and no node of the heap is changed. -/
theorem slice_abs {h : Heap α} {v : A} {xs : List α} (tid : Nat) (htid : tid ≠ NO_EDIT)
    (f : Frame heap0 h ∅) (hr : Readable h v xs) {s e : Nat} (hse : s ≤ e)
    (he : e ≤ xs.length) :
    ∃ h' w ys, ArrayImp.slice tid h v s e = some (h', some w) ∧ Readable h' w ys ∧
      w._start ≤ w._end ∧ Frame h h' ∅ ∧ w._end - w._start = e - s ∧
      ∀ i, i < e - s → ys[w._start + i]? = xs[s + i]? := by
  have hend := hr.1
  have hlt := hr.2.1
  have hb : isOutOfBounds v s e = true := by simp [isOutOfBounds, hend, hse, he]
  unfold ArrayImp.slice
  rw [hb]
  simp only [Bool.not_true, Bool.false_eq_true, if_false]
  by_cases h1 : s = e
  · rw [if_pos h1]
    refine ⟨h, EMPTY, [], rfl, ⟨rfl, by simp [U32], ⟨0, rfl⟩, fun i hi => by simp at hi⟩,
      le_refl _, Frame.refl _ _, by simp [EMPTY]; omega, fun i hi => by omega⟩
  rw [if_neg h1]
  by_cases h2 : s = v._start ∧ e = v._end
  · rw [if_pos h2]
    obtain ⟨rfl, rfl⟩ := h2
    exact ⟨h, v, xs, rfl, hr, hse, Frame.refl _ _, rfl, fun i _ => rfl⟩
  rw [if_neg h2]
  by_cases h3 : e = v._end ∧ v.size / 2 ≤ sub32 e s
  · rw [if_pos h3]
    obtain ⟨rfl, -⟩ := h3
    refine ⟨h, _, xs, rfl, ⟨hend, hlt, hr.2.2.1, fun i hi => ?_⟩, hse, Frame.refl _ _, rfl,
      fun i _ => rfl⟩
    exact hr.2.2.2 i hi
  rw [if_neg h3]
  obtain ⟨h1', t, e1, hT1, f1, hs1⟩ := thaw_empty tid f htid
  obtain ⟨h2', t2, e2, f2, hT2, hs2⟩ := tpushAll_spec (s := s) (e := e) hr f1 hT1 hse he
    (by simp; omega)
  rw [List.nil_append] at hT2
  obtain ⟨h3', w, e3, hP, f3, hs3, he3⟩ := hT2.to_persistent
  obtain ⟨k, rp, tp, tn, S, r⟩ := hP.as_rep
  have hw0 : w._start = 0 := hs3.trans (hs2.trans hs1)
  have hlen : ((xs.drop s).take (e - s)).length = e - s := by
    rw [List.length_take, List.length_drop]; omega
  refine ⟨h3', w, (xs.drop s).take (e - s), ?_, hP.is_readable, by rw [hw0]; exact Nat.zero_le _,
    f2.below f3, by rw [hw0, r.hend, hlen]; omega, fun i hi => ?_⟩
  · simp only [e1, Option.bind_eq_bind, Option.some_bind, e2]
    exact e3
  · rw [hw0, zero_add, List.getElem?_take_of_lt hi, List.getElem?_drop]

/-- The method `Array<T>::slice(a, b)` on a readable vector, `a <= b <= size()`. -/
theorem slice_spec {h : Heap α} {v : A} {xs : List α} (tid : Nat) (htid : tid ≠ NO_EDIT)
    (f : Frame heap0 h ∅) (hr : Readable h v xs) (hs : v._start ≤ v._end) {a b : Nat}
    (hab : a ≤ b) (hb : b ≤ v.size) :
    ∃ h' w ys, A.slice tid h v a b = some (h', some w) ∧ Readable h' w ys ∧
      w._start ≤ w._end ∧ Frame h h' ∅ ∧ w.size = b - a ∧
      ∀ i, i < b - a → ys[w._start + i]? = xs[v._start + a + i]? := by
  have hend := hr.1
  have hlt := hr.2.1
  have hsz := hr.size_eq hs
  have ea : add32 a v._start = v._start + a := by rw [add32_eq (by omega)]; omega
  have eb : (if b = END then v._end else add32 b v._start) = v._start + b := by
    split
    · rename_i hc
      rw [hc] at hb
      unfold END U32 at *
      omega
    · rw [add32_eq (by omega)]; omega
  obtain ⟨h', w, ys, e, hr', hs', f', hsz', hget⟩ :=
    slice_abs tid htid f hr (show v._start + a ≤ v._start + b by omega)
      (show v._start + b ≤ xs.length by omega)
  refine ⟨h', w, ys, ?_, hr', hs', f', ?_, fun i hi => ?_⟩
  · unfold A.slice
    rw [ea, eb]
    exact e
  · rw [hr'.size_eq hs', ← hr'.1, hsz']; omega
  · exact hget i (by omega)

/-! ## Taking the last leaf out of the trie -/

/-- Rebuilding a node after the leaf that starts at index `m` was taken out
below its child `j`: the new node `n'` at `p'` has the slots of the old node `n`
except slot `j`, which holds what is left of the child, a node or null. -/
theorem Sub.shrink {h h' : Heap α} {xs : List α} {m k b j : Nat} {n : N α}
    {Ss : Nat → Set Nat} (p' : Nat) (n' : N α) (Sq : Set Nat)
    (hd : ∀ i i', i < BRANCHES → i' < BRANCHES → i ≠ i' → ∀ x, x ∈ Ss i → x ∉ Ss i')
    (hch : ∀ i, i < BRANCHES →
      (b + i * 32 ^ (k + 1) < m + 32 →
        ∃ q, n._v[i]? = some (Obj.node q) ∧ Sub h xs (m + 32) k q (b + i * 32 ^ (k + 1)) (Ss i)) ∧
      (m + 32 ≤ b + i * 32 ^ (k + 1) → n._v[i]? = some Obj.null ∧ Ss i = ∅))
    (hj : j < BRANCHES) (hlo : b + j * 32 ^ (k + 1) ≤ m)
    (hhi : m + 32 ≤ b + (j + 1) * 32 ^ (k + 1))
    (hn' : h'[p']? = some n') (hl' : n'.length = BRANCHES) (hv' : n'._v.length = BRANCHES)
    (hslots : ∀ i, i < BRANCHES → i ≠ j → n'._v[i]? = n._v[i]?)
    (hslotj : (b + j * 32 ^ (k + 1) < m →
        ∃ q', n'._v[j]? = some (Obj.node q') ∧ Sub h' xs m k q' (b + j * 32 ^ (k + 1)) Sq) ∧
      (m ≤ b + j * 32 ^ (k + 1) → n'._v[j]? = some Obj.null ∧ Sq = ∅))
    (hfr : ∀ i, i < BRANCHES → i ≠ j → ∀ x, x ∈ Ss i → h'[x]? = h[x]?)
    (hp' : ∀ i, i < BRANCHES → i ≠ j → p' ∉ Ss i) (hp'q : p' ∉ Sq)
    (hdq : ∀ i, i < BRANCHES → i ≠ j → ∀ x, x ∈ Sq → x ∉ Ss i) :
    Sub h' xs m (k + 1) p' b
      (fun x => x = p' ∨ x ∈ Sq ∨ ∃ i, i < BRANCHES ∧ i ≠ j ∧ x ∈ Ss i) := by
  have hC : 0 < 32 ^ (k + 1) := by positivity
  refine ⟨n', hn', hl', hv', fun i => if i = j then Sq else Ss i, ?_, ?_, ?_, ?_⟩
  · intro x
    constructor
    · rintro (hx | hx | ⟨i, hi, hij, hx⟩)
      · exact Or.inl hx
      · exact Or.inr ⟨j, hj, by simpa using hx⟩
      · exact Or.inr ⟨i, hi, by simpa [hij] using hx⟩
    · rintro (hx | ⟨i, hi, hx⟩)
      · exact Or.inl hx
      · by_cases hij : i = j
        · subst hij
          exact Or.inr (Or.inl (by simpa using hx))
        · exact Or.inr (Or.inr ⟨i, hi, hij, by simpa [hij] using hx⟩)
  · intro i hi
    by_cases hij : i = j
    · simpa [hij] using hp'q
    · simpa [hij] using hp' i hi hij
  · intro i i' hi hi' hii x hx
    by_cases hij : i = j
    · have hi'j : i' ≠ j := fun hc => hii (hij.trans hc.symm)
      simp only [hij, if_true] at hx
      simpa [hi'j] using hdq i' hi' hi'j x hx
    · simp only [hij, if_false] at hx
      by_cases hi'j : i' = j
      · simp only [hi'j, if_true]
        exact fun hc => hdq i hi hij x hc hx
      · simpa [hi'j] using hd i i' hi hi' hii x hx
  · intro i hi
    by_cases hij : i = j
    · subst hij
      simp only [if_true]
      exact hslotj
    · simp only [hij, if_false]
      rw [hslots i hi hij]
      rcases Nat.lt_or_gt_of_ne hij with hlt | hgt
      · have h1 : (i + 1) * 32 ^ (k + 1) ≤ j * 32 ^ (k + 1) := Nat.mul_le_mul_right _ hlt
        rw [add_mul, one_mul] at h1
        refine ⟨fun _ => ?_, fun hc => by omega⟩
        obtain ⟨q, hq, hsub⟩ := (hch i hi).1 (by omega)
        refine ⟨q, hq, Sub.congr (hsub.frame (hfr i hi hij)) (fun c _ _ _ => rfl)
          (fun c _ hc2 => ⟨fun _ => by omega, fun _ => by omega⟩)⟩
      · have h1 : (j + 1) * 32 ^ (k + 1) ≤ i * 32 ^ (k + 1) := Nat.mul_le_mul_right _ hgt
        exact ⟨fun hc => by omega, fun _ => (hch i hi).2 (by omega)⟩

theorem root_frame {h h' : Heap α} {a : A} (f : Frame h h' ∅) (hr : ∃ r, root h a = some r) :
    ∃ r, root h' a = some r := by
  obtain ⟨r, hr⟩ := hr
  refine ⟨r, ?_⟩
  unfold root deref at *
  cases hp : a._root with
  | none => rw [hp] at hr; exact absurd hr (by simp)
  | some rp =>
    rw [hp] at hr
    simp only at hr ⊢
    rw [f.2 rp (get_lt hr) (by simp)]
    exact hr

/-- `popTail` on a subtree of height `k + 1` whose last leaf starts at index `m`:
the result is null when that leaf is all the subtree holds, and else a copy of
the subtree without the leaf; nothing that exists is changed. -/
theorem popTailF_spec (a : A) (xs : List α) (m : Nat) (hend : sub32 a._end 2 = m + 31)
    (hm : 32 ∣ m) :
    ∀ (k fuel : Nat) (h : Heap α) (p b : Nat) (S : Set Nat) (n : N α),
      Sub h xs (m + 32) (k + 1) p b S → h[p]? = some n → 32 ^ (k + 1 + 1) ∣ b → b ≤ m →
      m < b + 32 ^ (k + 1 + 1) → (∃ r, root h a = some r) → k + 1 < fuel →
      BITS * (k + 1) < 32 →
      ∃ h' r, popTailF a fuel h (BITS * (k + 1)) n = some (h', r) ∧ Frame h h' ∅ ∧
        (b = m → r = none) ∧
        (b < m → ∃ q S', r = some q ∧ Sub h' xs m (k + 1) q b S' ∧
          ∀ x, x ∈ S' → x ∈ S ∨ h.length ≤ x)
  | 0, fuel, h, p, b, S, n, hs, hn, hb, hbm, hmb, hr, hf, hk => by
    obtain ⟨f, rfl⟩ : ∃ f, fuel = f + 1 := ⟨fuel - 1, by omega⟩
    have hvalid := hs.valid
    obtain ⟨n0, hn0, hlen, hv, Ss, hS, hp, hd, hch⟩ := hs
    obtain rfl : n0 = n := by rw [hn] at hn0; exact (Option.some.inj hn0).symm
    obtain ⟨hj, hlo, hhi⟩ := digit_push 0 b m hb hm hbm hmb
    generalize hjdef : (m + 31) / 32 ^ (0 + 1) % 32 = j at hj hlo hhi
    have hbase : b + j * 32 ^ (0 + 1) = m := by omega
    have hSs : ∀ i, i < BRANCHES → ∀ x, x ∈ Ss i → x ∈ S :=
      fun i hi x hx => (hS x).2 (Or.inr ⟨i, hi, hx⟩)
    obtain ⟨r, hr⟩ := hr
    by_cases hj0 : j = 0
    · refine ⟨h, none, ?_, Frame.refl _ _, fun _ => rfl, fun hc => ?_⟩
      · rw [popTailF, if_neg (Nat.not_le.2 hk)]
        simp only [hend, digit_eq, hjdef]
        rw [if_neg (by simp [BITS_eq]), if_neg (by simpa using hj0)]
      · rw [hj0] at hbase; omega
    · have hsh := Sub.shrink (h.length) (n0.copyAssign j Obj.null r.edit) ∅ hd hch hj hlo hhi
        (get_append_new h _) (by rw [N.copyAssign_length]; exact hlen)
        (N.copyAssign_v_length _ _ _ _)
        (fun i hi hij => by rw [N.copyAssign_get _ _ _ _ hlen hv hi, if_neg hij])
        ⟨fun hc => absurd hc (by rw [hbase]; exact lt_irrefl _), fun _ =>
          ⟨by rw [N.copyAssign_get _ _ _ _ hlen hv hj, if_pos rfl], rfl⟩⟩
        (fun i hi _ x hx => get_append_old h _ (hvalid x (hSs i hi x hx)))
        (fun i hi _ hc => by have := hvalid _ (hSs i hi _ hc); omega)
        (by simp) (fun i hi _ x hx => by simp at hx)
      refine ⟨_, some h.length, ?_, Frame.alloc h _ ∅, fun hc => ?_,
        fun _ => ⟨h.length, _, rfl, hsh, ?_⟩⟩
      · rw [popTailF, if_neg (Nat.not_le.2 hk)]
        simp only [hend, digit_eq, hjdef]
        rw [if_neg (by simp [BITS_eq]), if_pos hj0, hr]
        simp only [Option.bind_eq_bind, Option.some_bind, alloc]
      · have : j * 32 ^ (0 + 1) = 0 := by omega
        have : j = 0 := by simpa using this
        exact absurd this hj0
      · rintro x (hx | hx | ⟨i, hi, _, hx⟩)
        · exact Or.inr (by omega)
        · simp at hx
        · exact Or.inl (hSs i hi x hx)
  | k + 1, fuel, h, p, b, S, n, hs, hn, hb, hbm, hmb, hr, hf, hk => by
    obtain ⟨f, rfl⟩ : ∃ f, fuel = f + 1 := ⟨fuel - 1, by omega⟩
    have hvalid := hs.valid
    obtain ⟨n0, hn0, hlen, hv, Ss, hS, hp, hd, hch⟩ := hs
    obtain rfl : n0 = n := by rw [hn] at hn0; exact (Option.some.inj hn0).symm
    obtain ⟨hj, hlo, hhi⟩ := digit_push (k + 1) b m hb hm hbm hmb
    generalize hjdef : (m + 31) / 32 ^ (k + 1 + 1) % 32 = j at hj hlo hhi
    have hSs : ∀ i, i < BRANCHES → ∀ x, x ∈ Ss i → x ∈ S :=
      fun i hi x hx => (hS x).2 (Or.inr ⟨i, hi, hx⟩)
    have hlvl : BITS < BITS * (k + 1 + 1) := by simp only [BITS_eq]; omega
    have hb' : 32 ^ (k + 1 + 1) ∣ b + j * 32 ^ (k + 1 + 1) :=
      Dvd.dvd.add (dvd_trans (pow_dvd_pow 32 (Nat.le_succ _)) hb) (dvd_mul_left _ _)
    obtain ⟨c, hc, hsub⟩ := (hch j hj).1 (by omega)
    have hsub' := hsub
    obtain ⟨cn, hcn, -⟩ := hsub'
    obtain ⟨h1, nc, e1, f1, hnone, hsome⟩ :=
      popTailF_spec a xs m hend hm k f h c (b + j * 32 ^ (k + 1 + 1)) (Ss j) cn hsub hcn hb' hlo
        (by rw [add_mul, one_mul] at hhi; omega) hr (by omega)
        (by simp only [BITS_eq] at *; omega)
    obtain ⟨r1, hr1⟩ := root_frame f1 hr
    have heval : popTailF a (f + 1) h (BITS * (k + 1 + 1)) n0 =
        if nc ≠ none ∨ j ≠ 0 then
          some (h1 ++ [n0.copyAssign j (Obj.ofN nc) r1.edit], some h1.length)
        else some (h1, none) := by
      rw [popTailF, if_neg (Nat.not_le.2 hk)]
      simp only [hend, digit_eq, hjdef]
      rw [if_pos hlvl]
      simp only [N.slot, hc, Obj.toN, deref, hcn, sub32_level hk, e1, Option.bind_eq_bind,
        Option.some_bind]
      split
      · rw [hr1]
        simp only [Option.some_bind, alloc]
      · rfl
    by_cases hbc : b + j * 32 ^ (k + 1 + 1) < m
    · obtain ⟨q, S1, rfl, hs1, hS1⟩ := hsome hbc
      have hsh := Sub.shrink (h1.length) (n0.copyAssign j (Obj.node q) r1.edit) S1 hd hch hj
        hlo hhi (get_append_new h1 _) (by rw [N.copyAssign_length]; exact hlen)
        (N.copyAssign_v_length _ _ _ _)
        (fun i hi hij => by rw [N.copyAssign_get _ _ _ _ hlen hv hi, if_neg hij])
        ⟨fun _ => ⟨q, by rw [N.copyAssign_get _ _ _ _ hlen hv hj, if_pos rfl],
          hs1.of_frame (Frame.alloc h1 _ ∅) (fun _ _ => by simp)⟩, fun hc' => by omega⟩
        (fun i hi _ x hx => by
          have hx' := hvalid x (hSs i hi x hx)
          rw [get_append_old h1 _ (lt_of_lt_of_le hx' f1.1)]
          exact f1.2 x hx' (by simp))
        (fun i hi _ hc' => by have := hvalid _ (hSs i hi _ hc'); have := f1.1; omega)
        (fun hc' => by have := hs1.valid _ hc'; omega)
        (fun i hi hij x hx hc' => by
          rcases hS1 x hx with h1' | h1'
          · exact hd j i hj hi (Ne.symm hij) x h1' hc'
          · have := hvalid _ (hSs i hi _ hc'); omega)
      refine ⟨_, some h1.length, ?_, Frame.trans f1 (Frame.alloc h1 _ ∅) (fun x hx => hx)
        (fun x hx _ => hx), fun hc' => by omega, fun _ => ⟨h1.length, _, rfl, hsh, ?_⟩⟩
      · rw [heval, if_pos (Or.inl (by simp))]
        rfl
      · rintro x (hx | hx | ⟨i, hi, _, hx⟩)
        · exact Or.inr (by have := f1.1; omega)
        · rcases hS1 x hx with h1' | h1'
          · exact Or.inl (hSs j hj x h1')
          · exact Or.inr h1'
        · exact Or.inl (hSs i hi x hx)
    · have hbm' : b + j * 32 ^ (k + 1 + 1) = m := by omega
      obtain rfl := hnone hbm'
      by_cases hj0 : j = 0
      · refine ⟨h1, none, ?_, f1, fun _ => rfl, fun hc' => ?_⟩
        · rw [heval, if_neg (by simp [hj0])]
        · rw [hj0] at hbm'; omega
      · have hsh := Sub.shrink (h1.length) (n0.copyAssign j Obj.null r1.edit) ∅ hd hch hj
          hlo hhi (get_append_new h1 _) (by rw [N.copyAssign_length]; exact hlen)
          (N.copyAssign_v_length _ _ _ _)
          (fun i hi hij => by rw [N.copyAssign_get _ _ _ _ hlen hv hi, if_neg hij])
          ⟨fun hc' => by omega, fun _ =>
            ⟨by rw [N.copyAssign_get _ _ _ _ hlen hv hj, if_pos rfl], rfl⟩⟩
          (fun i hi _ x hx => by
            have hx' := hvalid x (hSs i hi x hx)
            rw [get_append_old h1 _ (lt_of_lt_of_le hx' f1.1)]
            exact f1.2 x hx' (by simp))
          (fun i hi _ hc' => by have := hvalid _ (hSs i hi _ hc'); have := f1.1; omega)
          (by simp) (fun i hi _ x hx => by simp at hx)
        refine ⟨_, some h1.length, ?_, Frame.trans f1 (Frame.alloc h1 _ ∅) (fun x hx => hx)
          (fun x hx _ => hx), fun hc' => ?_, fun _ => ⟨h1.length, _, rfl, hsh, ?_⟩⟩
        · rw [heval, if_pos (Or.inr hj0)]
          rfl
        · have : j * 32 ^ (k + 1 + 1) = 0 := by omega
          have hC : 0 < 32 ^ (k + 1 + 1) := by positivity
          have : j = 0 := by
            rcases Nat.eq_zero_or_pos j with h0 | h0
            · exact h0
            · have := Nat.mul_pos h0 hC; omega
          exact absurd this hj0
        · rintro x (hx | hx | ⟨i, hi, _, hx⟩)
          · exact Or.inr (by have := f1.1; omega)
          · simp at hx
          · exact Or.inl (hSs i hi x hx)

/-- The leaf the walk ends at holds the whole block of 32 elements around the
index. -/
theorem Sub.walk_block {h : Heap α} {xs : List α} {m : Nat} (i : Nat) {k p b : Nat}
    {S : Set Nat} (fuel : Nat) (hs : Sub h xs m k p b S) (hb : 32 ^ (k + 1) ∣ b) (hm : 32 ∣ m)
    (h1 : b ≤ i) (h2 : i < b + 32 ^ (k + 1)) (h3 : i < m) (hf : k < fuel)
    (hl : BITS * k < 32) :
    ∃ q n, uncheckedSlotsForF i fuel h (BITS * k) (some p) = some (some q) ∧ q ∈ S ∧
      h[q]? = some n ∧ n.length = BRANCHES ∧ n._v.length = BRANCHES ∧
      ∀ j, j < 32 → n._v[j]? = (xs[i - i % 32 + j]?).map Obj.value := by
  obtain ⟨q, n, e, -, hq, hn, hlen, hv, -⟩ := Sub.walk i fuel hs hb h1 h2 h3 hf hl
  refine ⟨q, n, e, hq, hn, hlen, hv, fun j hj => ?_⟩
  have hb32 : 32 ∣ b := dvd_trans (dvd_pow_self 32 (by omega)) hb
  have hC32 : 32 ∣ 32 ^ (k + 1) := dvd_pow_self 32 (by omega)
  obtain ⟨b', rfl⟩ := hb32
  obtain ⟨m', rfl⟩ := hm
  obtain ⟨c', hc'⟩ := hC32
  obtain ⟨q', n', e', -, -, hn', -, -, hval'⟩ := Sub.walk (i - i % 32 + j) fuel hs hb
    (by omega) (by omega) (by omega) hf hl
  rw [uncheckedSlotsForF_block (show (i - i % 32 + j) / 32 = i / 32 by omega) fuel k h
    (some p), e] at e'
  obtain rfl : q = q' := Option.some.inj (Option.some.inj e')
  rw [hn] at hn'
  obtain rfl : n = n' := Option.some.inj hn'
  rw [← hval']
  congr 1
  omega

theorem toff_pop_tail {n : Nat} (h : 1 < n + 1 - toff (n + 1)) : toff n = toff (n + 1) := by
  unfold toff at *
  split_ifs at * <;> omega

theorem toff_pop_leaf {n : Nat} (hn : 1 ≤ n) (h : ¬ 1 < n + 1 - toff (n + 1)) :
    toff (n + 1) = n ∧ 32 ∣ n ∧ 32 ≤ n ∧ toff n = n - 32 := by
  unfold toff at *
  split_ifs at * <;> omega

theorem statics {h : Heap α} (f : Frame heap0 h ∅) :
    h[0]? = some ⟨NO_EDIT, BRANCHES, List.replicate BRANCHES Obj.null⟩ ∧
      h[1]? = some ⟨NO_EDIT, 0, []⟩ := by
  constructor
  · rw [f.2 0 (by simp [heap0]) (by simp)]; rfl
  · rw [f.2 1 (by simp [heap0]) (by simp)]; rfl

/-- The empty singleton is a small vector of no elements on every heap that
extends the initial one. -/
theorem SRep.of_empty {h : Heap α} (f : Frame heap0 h ∅) : SRep h EMPTY [] := by
  obtain ⟨h0, h1⟩ := statics f
  exact ⟨rfl, by simp, rfl, ⟨_, h0⟩, 1, _, rfl, h1, rfl, fun j hj => by simp at hj⟩

/-! ## Persistent pop -/

/-- Persistent pop when the tail holds more than one element: only the tail is
copied, one slot shorter. -/
theorem pop_in_tail {h : Heap α} {a : A} {xs : List α} {x : α} {k rp tp : Nat} {tn : N α}
    {S : Set Nat} (r : Rep h a (xs ++ [x]) k rp tp tn S)
    (htn : tn.length = (xs ++ [x]).length - tailoff a)
    (hroom : 1 < xs.length + 1 - tailoff a) :
    ∃ h' a', ArrayImp.pop h a = some (h', a') ∧ PRep h' a' xs ∧ Frame h h' ∅ ∧
      a'._start = 0 := by
  have hlt : xs.length + 1 < U32 := by simpa using r.hlt
  have hend : a._end = xs.length + 1 := by rw [r.hend]; simp
  have hU : a._end < U32 := by rw [hend]; exact hlt
  have ht := tailoff_toff a hU
  rw [hend] at ht
  have ht' : ∀ sh rt tlp, tailoff ⟨0, xs.length, sh, rt, tlp⟩ = tailoff a := by
    intro sh rt tlp
    rw [tailoff_toff _ (show xs.length < U32 by omega), ht]
    exact toff_pop_tail (by rw [← ht]; exact hroom)
  have hle : tailoff a < xs.length := by omega
  have htl : tn.length = xs.length + 1 - tailoff a := by rw [htn]; simp
  have h32 : xs.length + 1 - tailoff a ≤ 32 := by rw [ht]; exact (toff_spec _).2.2
  obtain ⟨rn, hrn, -⟩ := r.hsub
  have hvals : ∀ j, tailoff a + j < xs.length → tn._v[j]? = (xs[tailoff a + j]?).map Obj.value :=
    fun j hj => by
      rw [← append_get_lt xs x hj]
      exact r.hvals j (by simp; omega)
  refine ⟨h ++ [tn.copy (tn.length - 1) tn.edit],
    ⟨0, xs.length, a._shift, a._root, some h.length⟩, ?_,
    ⟨k, rp, h.length, tn.copy (tn.length - 1) tn.edit, S,
      ⟨rfl, by omega, r.hshift, r.hroot, rfl, ?_, ?_, ?_, get_append_new h _, ?_, ?_⟩, ?_⟩,
    Frame.alloc h _ ∅, rfl⟩
  · unfold ArrayImp.pop
    rw [if_neg (by rw [hend]; omega),
      if_pos (by rw [hend, sub32_eq (by omega) hlt]; exact hroom)]
    simp only [ArrayImp.tail, ArrayImp.root, r.htail, r.hroot, deref, r.htn, hrn,
      Option.bind_eq_bind, Option.some_bind, alloc]
    rw [sub32_eq (by omega) (by omega), hend, sub32_eq (by omega) hlt]
    rfl
  · rw [ht']
    exact Sub.congr (r.hsub.of_frame (Frame.alloc h _ ∅) (fun _ _ => by simp))
      (fun i _ _ h3 => (append_get_lt xs x (by omega)).symm) (fun c _ _ => Iff.rfl)
  · rw [ht']; exact r.hcap
  · rw [ht']; exact r.hmin
  · rw [ht', N.copy_length]; omega
  · rw [ht']
    exact copy_vals hvals (by omega) (by omega) (by omega)
  · rw [ht', N.copy_length]; omega

/-- Persistent pop on a small vector of two or more elements. -/
theorem pop_small {h : Heap α} {a : A} {xs : List α} {x : α} (hp : SRep h a (xs ++ [x]))
    (hne : 1 ≤ xs.length) :
    ∃ h' a', ArrayImp.pop h a = some (h', a') ∧ SRep h' a' xs ∧ Frame h h' ∅ ∧
      a'._start = 0 := by
  obtain ⟨hend, h32, hsh, ⟨rn, hrn⟩, tp, tn, htail, htn, htl, hvals⟩ := hp
  simp only [List.length_append, List.length_singleton] at hend h32 htl hvals
  have hU : a._end < U32 := by rw [hend]; unfold U32; omega
  have ht : tailoff a = 0 := by
    rw [tailoff_toff a hU, hend]
    unfold toff
    split_ifs <;> omega
  have hvals' : ∀ j, 0 + j < xs.length → tn._v[j]? = (xs[0 + j]?).map Obj.value :=
    fun j hj => by
      rw [zero_add] at hj ⊢
      rw [← append_get_lt xs x hj]
      exact hvals j (by omega)
  have f1 := Frame.alloc h (tn.copy (tn.length - 1) tn.edit) ∅
  refine ⟨h ++ [tn.copy (tn.length - 1) tn.edit],
    ⟨0, xs.length, a._shift, a._root, some h.length⟩, ?_,
    ⟨rfl, by omega, hsh, root_frame f1 ⟨rn, hrn⟩, h.length, _, rfl, get_append_new h _,
      by rw [N.copy_length]; omega, fun j hj => ?_⟩, f1, rfl⟩
  · unfold ArrayImp.pop
    rw [if_neg (by rw [hend]; omega),
      if_pos (by rw [hend, ht, sub32_eq (by omega) (by unfold U32; omega)]; omega)]
    simp only [ArrayImp.tail, htail, deref, htn, hrn, Option.bind_eq_bind, Option.some_bind,
      alloc]
    rw [sub32_eq (by omega) (by unfold U32; omega), hend,
      sub32_eq (by omega) (by unfold U32; omega)]
    rfl
  · have hcv : ∀ j, 0 + j < xs.length → (tn.copy (tn.length - 1) tn.edit)._v[j]? =
        (xs[0 + j]?).map Obj.value := copy_vals hvals' (by omega) (by omega) (by omega)
    simpa using hcv j (by omega)

/-- Persistent pop when the tail holds one element: the last leaf of the trie
becomes the tail, and the trie is copied without it; the root becomes
`EMPTY_NODE` when that leaf was the only one, and the trie loses a level when
only its first child is left. -/
theorem pop_leaf {h : Heap α} {a : A} {xs : List α} {x : α} {k rp tp : Nat} {tn : N α}
    {S : Set Nat} (r : Rep h a (xs ++ [x]) k rp tp tn S) (f : Frame heap0 h ∅)
    (hne : 1 ≤ xs.length) (hfull : ¬ 1 < xs.length + 1 - tailoff a) :
    ∃ h' a', ArrayImp.pop h a = some (h', a') ∧ (PRep h' a' xs ∨ SRep h' a' xs) ∧
      Frame h h' ∅ ∧ a'._start = 0 := by
  have hlt : xs.length + 1 < U32 := by simpa using r.hlt
  have hend : a._end = xs.length + 1 := by rw [r.hend]; simp
  have hU : a._end < U32 := by rw [hend]; exact hlt
  have ht := tailoff_toff a hU
  rw [hend] at ht
  obtain ⟨hto, hm32, h32, hto'⟩ := toff_pop_leaf hne (by rw [← ht]; exact hfull)
  rw [← ht] at hto
  obtain ⟨m, hmdef⟩ : ∃ m, xs.length = m + 32 := ⟨xs.length - 32, by omega⟩
  have hm : 32 ∣ m := by
    obtain ⟨c, hc⟩ := hm32
    exact ⟨c - 1, by omega⟩
  have ht' : ∀ sh rt tlp, tailoff ⟨0, xs.length, sh, rt, tlp⟩ = m := by
    intro sh rt tlp
    rw [tailoff_toff _ (show xs.length < U32 by omega), hto']
    omega
  have hsl := r.shift_lt
  have hsub : Sub h (xs ++ [x]) (m + 32) (k + 1) rp 0 S := by
    have := r.hsub
    rwa [hto, hmdef] at this
  have hcap : m + 32 ≤ 32 ^ (k + 1 + 1) := by
    have := r.hcap
    rwa [hto, hmdef] at this
  have hvalid := hsub.valid
  obtain ⟨rn, hrn, -⟩ := r.hsub
  have hs2 : sub32 a._end 2 = m + 31 := by rw [hend, sub32_eq (by omega) hlt]; omega
  have hs1 : sub32 a._end 1 = xs.length := by rw [hend, sub32_eq (by omega) hlt]; omega
  obtain ⟨lf, nl, ew, hlfS, hnl, hnll, hnlv, hnlvals⟩ :=
    Sub.walk_block (m + 31) (BITS * (k + 1) + 1) hsub (dvd_zero _) (Dvd.dvd.add hm (dvd_refl _))
      (Nat.zero_le _) (by omega) (by omega) (by simp only [BITS_eq]; omega) (by omega)
  have hblock : m + 31 - (m + 31) % 32 = m := by
    obtain ⟨c, rfl⟩ := hm
    omega
  rw [hblock] at hnlvals
  obtain ⟨h1, popped, ep, f1, hnone, hsome⟩ :=
    popTailF_spec a (xs ++ [x]) m hs2 hm k (BITS * (k + 1) + 1) h rp 0 S rn hsub hrn
      (dvd_zero _) (Nat.zero_le _) (by omega)
      ⟨rn, by simp only [ArrayImp.root, r.hroot, deref, hrn]⟩ (by simp only [BITS_eq]; omega)
      (by omega)
  have hnl1 : h1[lf]? = some nl := by rw [f1.2 lf (get_lt hnl) (by simp)]; exact hnl
  have hxs : ∀ i, i < xs.length → (xs ++ [x])[i]? = xs[i]? := fun i hi => append_get_lt xs x hi
  have htvals : ∀ j, m + j < xs.length → nl._v[j]? = (xs[m + j]?).map Obj.value :=
    fun j hj => by rw [hnlvals j (by omega), hxs _ hj]
  have hpre : ArrayImp.pop h a =
      (if BITS < BITS * (k + 1) then do
        let nr ← h1[(popped.getD EMPTY_NODE)]?
        let s1 ← nr.slot 1
        if s1.isNull then do
          let s0 ← nr.slot 0
          let p0 ← s0.toN
          some (h1, ⟨0, xs.length, sub32 (BITS * (k + 1)) BITS, p0, some lf⟩)
        else some (h1, ⟨0, xs.length, BITS * (k + 1),
          some (popped.getD EMPTY_NODE), some lf⟩)
      else some (h1, ⟨0, xs.length, BITS * (k + 1),
        some (popped.getD EMPTY_NODE), some lf⟩)) := by
    unfold ArrayImp.pop
    rw [if_neg (by rw [hend]; omega),
      if_neg (by rw [hend, sub32_eq (by omega) hlt, hto]; omega)]
    simp only [uncheckedSlotsFor, hs2, hto]
    rw [if_neg (by omega)]
    simp only [ArrayImp.root, r.hroot, deref, hrn, r.hshift, ew, popTail, ep, hs1,
      Option.bind_eq_bind, Option.some_bind]
    cases popped <;> rfl
  rw [hpre]
  by_cases hm0 : m = 0
  · -- the leaf was the only one: a small vector with `EMPTY_NODE` as root
    obtain rfl := hnone hm0.symm
    have hk0 : k = 0 := by
      by_contra hk
      have := r.hmin (Nat.pos_of_ne_zero hk)
      rw [hto, hmdef, hm0] at this
      have h2 : 32 ^ 1 ≤ 32 ^ (k + 1) := Nat.pow_le_pow_right (by norm_num) (by omega)
      omega
    subst hk0
    refine ⟨h1, ⟨0, xs.length, BITS * (0 + 1), some EMPTY_NODE, some lf⟩, ?_, Or.inr ?_, f1, rfl⟩
    · rw [if_neg (by simp [BITS_eq])]
      rfl
    · obtain ⟨-, hE⟩ := statics (Frame.trans f f1 (fun x hx => hx) (fun x hx _ => hx))
      refine ⟨rfl, by omega, rfl, ⟨_, hE⟩, lf, nl, rfl, hnl1, by rw [hnll, BRANCHES_eq]; omega,
        fun j hj => ?_⟩
      have := htvals j (by omega)
      rw [hm0, zero_add] at this
      exact this
  · obtain ⟨q, S', rfl, hs', hS'⟩ := hsome (by omega)
    have hsx : Sub h1 xs m (k + 1) q 0 S' :=
      Sub.congr hs' (fun i _ _ h3 => (hxs i (by omega)).symm) (fun c _ _ => Iff.rfl)
    have hrep : ∀ (k' q' : Nat) (S'' : Set Nat), Sub h1 xs m (k' + 1) q' 0 S'' →
        m ≤ 32 ^ (k' + 1 + 1) → (0 < k' → 32 ^ (k' + 1) < m) →
        PRep h1 ⟨0, xs.length, BITS * (k' + 1), some q', some lf⟩ xs := by
      intro k' q' S'' hsub' hcap' hmin'
      refine ⟨k', q', lf, nl, S'', ⟨rfl, by omega, rfl, rfl, rfl, ?_, ?_, ?_, hnl1, ?_, ?_⟩, ?_⟩
      · rw [ht']; exact hsub'
      · rw [ht']; exact hcap'
      · rw [ht']; exact hmin'
      · rw [ht', hnll, BRANCHES_eq]; omega
      · rw [ht']; exact htvals
      · rw [ht', hnll, BRANCHES_eq]; omega
    have hsx' := hsx
    obtain ⟨nr, hnr, -, -, Ss, hS, -, -, hch⟩ := hsx'
    rcases Nat.eq_zero_or_pos k with hk0 | hkpos
    · subst hk0
      refine ⟨h1, ⟨0, xs.length, BITS * (0 + 1), some q, some lf⟩, ?_,
        Or.inl (hrep 0 q S' hsx (by omega) (fun hc => absurd hc (by omega))), f1, rfl⟩
      rw [if_neg (by simp [BITS_eq])]
      rfl
    · have hlvl : BITS < BITS * (k + 1) := by simp only [BITS_eq]; omega
      rw [if_pos hlvl]
      simp only [Option.getD, hnr, N.slot, Option.bind_eq_bind, Option.some_bind]
      have h32k : 32 ^ (k + 1) ≤ m := by
        have := r.hmin hkpos
        rw [hto, hmdef] at this
        obtain ⟨c, rfl⟩ := hm
        obtain ⟨d, hd⟩ := pow_dvd_32 k
        omega
      by_cases h1m : 0 + 1 * 32 ^ (k + 1) < m
      · obtain ⟨q1, hq1, -⟩ := (hch 1 (by simp [BRANCHES_eq])).1 h1m
        refine ⟨h1, ⟨0, xs.length, BITS * (k + 1), some q, some lf⟩, ?_,
          Or.inl (hrep k q S' hsx (by omega) (fun _ => by omega)), f1, rfl⟩
        rw [hq1]
        simp only [Option.some_bind, Obj.isNull, Bool.false_eq_true, if_false]
      · obtain ⟨hq1, -⟩ := (hch 1 (by simp [BRANCHES_eq])).2 (by omega)
        obtain ⟨q0, hq0, hs0⟩ := (hch 0 (by simp [BRANCHES_eq])).1 (by omega)
        obtain ⟨k', rfl⟩ : ∃ k', k = k' + 1 := ⟨k - 1, by omega⟩
        have hs0' : Sub h1 xs m (k' + 1) q0 0 (Ss 0) := by simpa using hs0
        have hmeq : m = 32 ^ (k' + 1 + 1) := by omega
        refine ⟨h1, ⟨0, xs.length, BITS * (k' + 1), some q0, some lf⟩, ?_,
          Or.inl (hrep k' q0 (Ss 0) hs0' (by omega) (fun _ => ?_)), f1, rfl⟩
        · rw [hq1]
          simp only [Option.some_bind, Obj.isNull, if_true, hq0, Obj.toN]
          rw [sub32_level (by omega)]
        · rw [hmeq]
          exact Nat.pow_lt_pow_right (by norm_num) (by omega)

theorem SRep.is_small_readable {h : Heap α} {a : A} {xs : List α} (hp : SRep h a xs) :
    Readable h a xs := by
  obtain ⟨hend, h32, hsh, -, tp, tn, htail, htn, -, hvals⟩ := hp
  have hU : a._end < U32 := by rw [hend]; unfold U32; omega
  have ht : tailoff a = 0 := by
    rw [tailoff_toff a hU, hend]
    unfold toff
    split_ifs <;> omega
  refine ⟨hend, by unfold U32; omega, ⟨0, hsh⟩, fun i hi => ⟨tp, tn, ?_, htn, ?_⟩⟩
  · simp only [uncheckedSlotsFor, ht, Nat.zero_le, if_true, ArrayImp.tail, htail, deref, htn,
      Option.bind_eq_bind, Option.some_bind]
  · rw [Nat.mod_eq_of_lt (by omega)]
    exact hvals i hi

theorem readable_of_rep {h : Heap α} {a : A} {xs : List α} (hp : PRep h a xs ∨ SRep h a xs) :
    Readable h a xs := by
  rcases hp with hp | hp
  · exact hp.is_readable
  · exact hp.is_small_readable

/-- One `pop` on a vector that is represented, by a trie or as a small vector:
the result represents the data without its last element. -/
theorem pop_step {h : Heap α} {a : A} {xs : List α} {x : α}
    (hp : PRep h a (xs ++ [x]) ∨ SRep h a (xs ++ [x])) (hs : a._start = 0)
    (f : Frame heap0 h ∅) :
    ∃ h' a', A.pop h a = some (h', a') ∧ (PRep h' a' xs ∨ SRep h' a' xs) ∧ a'._start = 0 ∧
      Frame h h' ∅ := by
  have hrd := readable_of_rep hp
  have hend : a._end = xs.length + 1 := by rw [hrd.1]; simp
  have hlt : xs.length + 1 < U32 := by simpa using hrd.2.1
  have hsz : a.size ≠ 0 := by
    rw [A.size, hs, hend, sub32_eq (Nat.zero_le _) hlt]
    omega
  unfold A.pop
  rw [if_pos hsz]
  rcases Nat.eq_zero_or_pos xs.length with h0 | hpos
  · refine ⟨h, EMPTY, ?_, Or.inr ?_, rfl, Frame.refl _ _⟩
    · unfold ArrayImp.pop
      rw [if_pos (by rw [hend, h0])]
    · have : xs = [] := List.length_eq_zero.1 h0
      rw [this]
      exact SRep.of_empty f
  · rcases hp with hp | hp
    · obtain ⟨k, rp, tp, tn, S, r, htn⟩ := hp
      by_cases hroom : 1 < xs.length + 1 - tailoff a
      · obtain ⟨h', a', e, hp', f', hs'⟩ := pop_in_tail r htn hroom
        exact ⟨h', a', e, Or.inl hp', hs', f'⟩
      · obtain ⟨h', a', e, hp', f', hs'⟩ := pop_leaf r f hpos hroom
        exact ⟨h', a', e, hp', hs', f'⟩
    · obtain ⟨h', a', e, hp', f', hs'⟩ := pop_small hp hpos
      exact ⟨h', a', e, Or.inr hp', hs', f'⟩

/-- As many pops as there are elements end in a vector of size 0. -/
theorem popN_spec : ∀ (n : Nat) (xs : List α) (h : Heap α) (a : A), xs.length = n →
    (PRep h a xs ∨ SRep h a xs) → a._start = 0 → Frame heap0 h ∅ →
    ∃ h' a', A.popN n h a = some (h', a') ∧ a'.size = 0
  | 0, xs, h, a, hn, hp, hs, _ => by
    refine ⟨h, a, rfl, ?_⟩
    rw [(readable_of_rep hp).size_eq (by rw [hs]; exact Nat.zero_le _), hn]
    exact Nat.zero_sub _
  | n + 1, xs, h, a, hn, hp, hs, f => by
    have hne : xs ≠ [] := fun hc => by rw [hc] at hn; simp at hn
    have hx := List.dropLast_append_getLast hne
    rw [← hx] at hp
    obtain ⟨h1, a1, e1, hp1, hs1, f1⟩ := pop_step hp hs f
    obtain ⟨h2, a2, e2, hz⟩ := popN_spec n xs.dropLast h1 a1 (by simp [hn]) hp1 hs1
      (Frame.trans f f1 (fun x hx => hx) (fun x hx _ => hx))
    refine ⟨h2, a2, ?_, hz⟩
    simp only [A.popN, e1, Option.bind_eq_bind, Option.some_bind]
    exact e2

/-! ## Iterators over a readable vector -/

/-- The constructor `Iterator(a, i, e)` on a readable vector returns for every
end within the data. -/
theorem ItAt.of_create {h : Heap α} {src : A} {xs : List α} (hr : Readable h src xs)
    {e : Nat} (he : e ≤ xs.length) (i : Nat) :
    ∃ it, Iterator.create h src i e = some it ∧ ItAt h src e i it := by
  by_cases hi : i < e
  · obtain ⟨hend, hlt, hk, hall⟩ := hr
    obtain ⟨p, n, e0, hn, -⟩ := hall i (by omega)
    refine ⟨⟨some src, i, e, i - i % 32, some p, n.length⟩, ?_, rfl, rfl, rfl,
      fun hc => absurd hc (by omega), fun _ => ⟨rfl, p, rfl, e0⟩⟩
    unfold Iterator.create
    rw [if_pos hi]
    simp only [slotsFor, e0, hn, Option.bind_eq_bind, Option.some_bind]
    rw [BRANCHES_eq, sub32_eq (Nat.mod_le _ _) (by omega)]
  · refine ⟨⟨some src, i, e, sub32 i (i % BRANCHES), none, 0⟩, ?_, rfl, rfl, rfl,
      fun _ => rfl, fun hc => absurd hc hi⟩
    unfold Iterator.create
    rw [if_neg hi]

/-- One `operator++` of an iterator that has not reached its end. -/
theorem ItAt.step {h : Heap α} {src : A} {xs : List α} (hr : Readable h src xs)
    {e i : Nat} {it : Iterator} (he : e ≤ xs.length) (ha : ItAt h src e i it) (hi : i < e) :
    ∃ it1, it.next h = some it1 ∧ ItAt h src e (i + 1) it1 := by
  obtain ⟨ia, ii, ie, ib, is, il⟩ := it
  obtain ⟨h1, h2, h3, -, h5⟩ := ha
  simp only at h1 h2 h3
  subst h1 h2 h3
  obtain ⟨hb, p, hs, hp⟩ := h5 hi
  simp only at hb hs
  subst hb hs
  obtain ⟨hend, hlt, ⟨k, hk⟩, hall⟩ := hr
  have hU : src._end < U32 := by rw [hend]; exact hlt
  have hi1 : add32 ii 1 = ii + 1 := add32_eq (by omega)
  by_cases hn : ii + 1 < ie
  · by_cases hblk : ii % 32 = 31
    · obtain ⟨q, nq, eq1, hnq, -⟩ := hall (ii + 1) (by omega)
      refine ⟨⟨some src, ii + 1, ie, ii + 1, some q, nq.length⟩, ?_, rfl, rfl, rfl,
        fun hc => absurd hc (by omega), fun _ => ⟨by simp only; omega, q, rfl, eq1⟩⟩
      simp only [Iterator.next, hi1]
      rw [if_pos hn, if_pos (by rw [sub32_eq (by omega) (by omega), BRANCHES_eq]; omega)]
      simp only [slotsFor, eq1, hnq, Option.bind_eq_bind, Option.some_bind]
      rw [add32_eq (by rw [BRANCHES_eq]; omega), BRANCHES_eq]
      have : ii - ii % 32 + 32 = ii + 1 := by omega
      rw [this]
    · refine ⟨⟨some src, ii + 1, ie, ii - ii % 32, some p, il⟩, ?_, rfl, rfl, rfl,
        fun hc => absurd hc (by omega), fun _ => ⟨by simp only; omega, p, rfl, ?_⟩⟩
      · simp only [Iterator.next, hi1]
        rw [if_pos hn, if_neg (by rw [sub32_eq (by omega) (by omega), BRANCHES_eq]; omega)]
      · rw [uncheckedSlotsFor_block hU hk (show (ii + 1) / 32 = ii / 32 by omega)]
        exact hp
  · refine ⟨⟨some src, ii + 1, ie, ii - ii % 32, none, il⟩, ?_, rfl, rfl, rfl,
      fun _ => rfl, fun hc => absurd hc hn⟩
    simp only [Iterator.next, hi1]
    rw [if_neg hn]

/-- The value under an iterator that has not reached its end. -/
theorem ItAt.value_eq {h : Heap α} {src : A} {xs : List α} (hr : Readable h src xs)
    {e i : Nat} {it : Iterator} (he : e ≤ xs.length) (ha : ItAt h src e i it) (hi : i < e) :
    it.value h = (xs[i]?).map Obj.value := by
  obtain ⟨-, h2, -, -, h5⟩ := ha
  obtain ⟨-, p, hs, hp⟩ := h5 hi
  obtain ⟨hend, hlt, hk, hall⟩ := hr
  obtain ⟨p0, n0, e0, hn0, hv0⟩ := hall i (by omega)
  rw [hp] at e0
  obtain rfl : p = p0 := Option.some.inj (Option.some.inj e0)
  simp only [Iterator.value, hs, h2, deref, hn0, N.slot, and_MASK, hv0, Option.bind_eq_bind,
    Option.some_bind]

/-- An iterator equals `END_ITERATOR` exactly when it has reached its end. -/
theorem ItAt.eq_end {h : Heap α} {src : A} {e i : Nat} {it : Iterator}
    (ha : ItAt h src e i it) : it.eq END_ITERATOR = decide (e ≤ i) := by
  obtain ⟨-, -, -, h4, h5⟩ := ha
  by_cases hi : i < e
  · obtain ⟨-, p, hs, -⟩ := h5 hi
    have : ¬ e ≤ i := by omega
    simp [Iterator.eq, END_ITERATOR, hs, this]
  · have hle : e ≤ i := by omega
    simp [Iterator.eq, END_ITERATOR, h4 hle, hle]

/-- Advancing an iterator `k` times within its range. -/
theorem ItAt.advance_to {h : Heap α} {src : A} {xs : List α} (hr : Readable h src xs)
    {e : Nat} (he : e ≤ xs.length) :
    ∀ (k i : Nat) (it : Iterator), ItAt h src e i it → i + k ≤ e →
      ∃ I, Iterator.advance h k it = some I ∧ ItAt h src e (i + k) I
  | 0, _, it, ha, _ => ⟨it, rfl, ha⟩
  | k + 1, i, it, ha, hk => by
    obtain ⟨it1, e1, ha1⟩ := ha.step hr he (by omega)
    obtain ⟨I, e2, ha2⟩ := ItAt.advance_to hr he k (i + 1) it1 ha1 (by omega)
    refine ⟨I, ?_, by rw [show i + (k + 1) = i + 1 + k by omega]; exact ha2⟩
    simp only [Iterator.advance, e1, Option.bind_eq_bind, Option.some_bind]
    exact e2

/-- The distance between two iterators of one vector, for the source positions
`i <= j <= e`, taken in either direction. -/
theorem ItAt.distance {h : Heap α} {src : A} {e i j : Nat} {x y : Iterator}
    (hx : ItAt h src e i x) (hy : ItAt h src e j y) (hij : i ≤ j) (hje : j ≤ e)
    (hU : e < U32) : x.distanceTo y = j - i ∧ y.distanceTo x = j - i := by
  obtain ⟨-, xi, xe, xn, xs⟩ := hx
  obtain ⟨-, yi, ye, yn, ys⟩ := hy
  unfold Iterator.distanceTo
  rw [xi, xe, yi, ye]
  by_cases h1 : j < e
  · obtain ⟨-, p, hp, -⟩ := xs (by omega)
    obtain ⟨-, q, hq, -⟩ := ys h1
    rw [hp, hq]
    simp only [Option.isNone_some, Bool.false_eq_true, if_false]
    constructor
    · rw [if_neg (by omega), sub32_eq hij (by omega)]
    · by_cases h2 : i < j
      · rw [if_pos h2, sub32_eq hij (by omega)]
      · rw [if_neg h2, sub32_eq (by omega) (by omega)]
        omega
  · have hje' : j = e := by omega
    subst hje'
    rw [yn le_rfl]
    by_cases h2 : i < j
    · obtain ⟨-, p, hp, -⟩ := xs h2
      rw [hp]
      simp only [Option.isNone_some, Option.isNone_none, Bool.false_eq_true, if_false, if_true]
      exact ⟨sub32_eq hij hU, sub32_eq hij hU⟩
    · rw [xn (by omega)]
      simp only [Option.isNone_none, if_true]
      have : i = j := by omega
      subst this
      exact ⟨sub32_eq le_rfl hU, sub32_eq le_rfl hU⟩

/-- The distance between an iterator of a vector and `END_ITERATOR`, in either
direction. -/
theorem ItAt.distance_end {h : Heap α} {src : A} {e i : Nat} {x : Iterator}
    (hx : ItAt h src e i x) (hie : i ≤ e) (hU : e < U32) :
    x.distanceTo END_ITERATOR = e - i ∧ END_ITERATOR.distanceTo x = e - i := by
  obtain ⟨-, xi, xe, xn, xs⟩ := hx
  unfold Iterator.distanceTo
  rw [xi, xe]
  have hz : sub32 0 0 = 0 := by decide
  by_cases h1 : i < e
  · obtain ⟨-, p, hp, -⟩ := xs h1
    rw [hp]
    simp only [END_ITERATOR, Option.isNone_some, Option.isNone_none, Bool.false_eq_true,
      if_false, if_true]
    exact ⟨sub32_eq hie hU, sub32_eq hie hU⟩
  · rw [xn (by omega)]
    simp only [END_ITERATOR, Option.isNone_none, if_true]
    have : i = e := by omega
    subst this
    exact ⟨by rw [hz]; omega, sub32_eq le_rfl hU⟩

/-! ## The loop of `compare` -/

theorem lexSign_range [LinearOrder α] :
    ∀ (l r : List α), lexSign l r = -1 ∨ lexSign l r = 0 ∨ lexSign l r = 1
  | [], _ => Or.inr (Or.inl (by simp [lexSign]))
  | _ :: _, [] => Or.inr (Or.inl (by simp [lexSign]))
  | x :: l, y :: r => by
    unfold lexSign
    split
    · exact Or.inl rfl
    · split
      · exact Or.inr (Or.inr rfl)
      · exact lexSign_range l r

theorem lexSign_zero [LinearOrder α] :
    ∀ (l r : List α), l.length = r.length → (lexSign l r = 0 ↔ l = r)
  | [], [], _ => by simp [lexSign]
  | [], _ :: _, hl => by simp at hl
  | _ :: _, [], hl => by simp at hl
  | x :: l, y :: r, hl => by
    have ih := lexSign_zero l r (by simpa using hl)
    unfold lexSign
    by_cases h1 : x < y
    · rw [if_pos h1]
      constructor
      · intro hc; exact absurd hc (by decide)
      · intro hc
        have : x = y := (List.cons.inj hc).1
        exact absurd h1 (by rw [this]; exact lt_irrefl _)
    · rw [if_neg h1]
      by_cases h2 : y < x
      · rw [if_pos h2]
        constructor
        · intro hc; exact absurd hc (by decide)
        · intro hc
          have : x = y := (List.cons.inj hc).1
          exact absurd h2 (by rw [this]; exact lt_irrefl _)
      · rw [if_neg h2, ih]
        have hxy : x = y := le_antisymm (not_lt.1 h2) (not_lt.1 h1)
        constructor
        · intro hc; rw [hxy, hc]
        · intro hc; exact (List.cons.inj hc).2

theorem lexSign_first [LinearOrder α] :
    ∀ (l r : List α) (i : Nat) (x y : α), l[i]? = some x → r[i]? = some y →
      (∀ j, j < i → l[j]? = r[j]?) →
      (x < y → lexSign l r = -1) ∧ (y < x → lexSign l r = 1)
  | [], _, _, _, _, hx, _, _ => by simp at hx
  | _ :: _, [], _, _, _, _, hy, _ => by simp at hy
  | a :: l, b :: r, 0, x, y, hx, hy, _ => by
    simp only [List.getElem?_cons_zero, Option.some.injEq] at hx hy
    subst hx hy
    unfold lexSign
    constructor
    · intro h1; rw [if_pos h1]
    · intro h2; rw [if_neg (lt_asymm h2), if_pos h2]
  | a :: l, b :: r, i + 1, x, y, hx, hy, hall => by
    have h0 := hall 0 (Nat.succ_pos _)
    simp only [List.getElem?_cons_zero, Option.some.injEq] at h0
    subst h0
    simp only [List.getElem?_cons_succ] at hx hy
    have ih := lexSign_first l r i x y hx hy (fun j hj => by
      have := hall (j + 1) (by omega)
      simpa using this)
    unfold lexSign
    rw [if_neg (lt_irrefl _), if_neg (lt_irrefl _)]
    exact ih

/-- The loop of `compare` on two iterators that both have `n` elements left: the
sign of the first difference of the two ranges. -/
theorem compareF_spec [LinearOrder α] {h : Heap α} {v w : A} {xs ys : List α}
    (cellEq : α → α → Bool) (hcell : ∀ x y, cellEq x y = true → x = y)
    (hv : Readable h v xs) (hw : Readable h w ys) {ev ew : Nat} (hev : ev ≤ xs.length)
    (hew : ew ≤ ys.length) :
    ∀ (n i j fuel : Nat) (ai bi : Iterator), ItAt h v ev i ai → ItAt h w ew j bi →
      ev = i + n → ew = j + n → n < fuel →
      A.compareF cellEq fuel h ai bi =
        some (lexSign ((xs.drop i).take n) ((ys.drop j).take n))
  | 0, i, j, fuel, ai, bi, ha, _, h1, _, hf => by
    obtain ⟨f, rfl⟩ : ∃ f, fuel = f + 1 := ⟨fuel - 1, by omega⟩
    have he := ha.eq_end
    rw [decide_eq_true (by omega : ev ≤ i)] at he
    simp [A.compareF, A.end_, he, lexSign]
  | n + 1, i, j, fuel, ai, bi, ha, hb, h1, h2, hf => by
    obtain ⟨f, rfl⟩ : ∃ f, fuel = f + 1 := ⟨fuel - 1, by omega⟩
    have he := ha.eq_end
    rw [decide_eq_false (by omega : ¬ ev ≤ i)] at he
    have hix : i < xs.length := by omega
    have hjy : j < ys.length := by omega
    have va := ha.value_eq hv hev (by omega)
    have vb := hb.value_eq hw hew (by omega)
    rw [List.getElem?_eq_getElem hix, Option.map_some'] at va
    rw [List.getElem?_eq_getElem hjy, Option.map_some'] at vb
    obtain ⟨ai1, ea, ha1⟩ := ha.step hv hev (by omega)
    obtain ⟨bi1, eb, hb1⟩ := hb.step hw hew (by omega)
    have ih := compareF_spec cellEq hcell hv hw hev hew n (i + 1) (j + 1) f ai1 bi1 ha1 hb1
      (by omega) (by omega) (by omega)
    rw [drop_take_succ xs hix n, drop_take_succ ys hjy n]
    unfold A.compareF lexSign
    simp only [A.end_, he, Bool.false_eq_true, if_false, va, vb, Option.bind_eq_bind,
      Option.some_bind]
    by_cases c1 : xs[i] < ys[j]
    · have hce : cellEq xs[i] ys[j] = false := by
        cases hc : cellEq xs[i] ys[j]
        · rfl
        · exact absurd c1 (by rw [hcell _ _ hc]; exact lt_irrefl _)
      simp [hce, c1]
    · by_cases c2 : ys[j] < xs[i]
      · have hce : cellEq xs[i] ys[j] = false := by
          cases hc : cellEq xs[i] ys[j]
          · rfl
          · exact absurd c2 (by rw [hcell _ _ hc]; exact lt_irrefl _)
        simp [hce, c1, c2]
      · simp only [c1, c2, decide_False, Bool.and_false, Bool.false_eq_true, if_false, gt_iff_lt,
          ea, eb, Option.some_bind]
        exact ih

/-! ## Slices that keep the trie representation, and bulk push by values -/

/-- At `2 ^ 32 - 1` elements a transient push wraps `_end` around to 0, and
`createPersistent` then trims the tail to length 0: the resulting vector has
`_end = 0` and reads no element at any index. -/
theorem tpush_wrap_freeze {h : Heap α} {t : TA} {xs : List α} (x : α) (hp : TRep h t xs)
    (hlen : xs.length = 4294967295) :
    ∃ h1 t1 h2 w, tpush h t (Obj.value x) = some ⟨h1, t1, true⟩ ∧
      createPersistent h1 t1 = some (h2, some w) ∧ w._start = t._start ∧ w._end = 0 ∧
      ∀ i, A.get h2 w i = none := by
  have hed := hp.editable
  obtain ⟨k, rp, tp, tn, S, r, htl, htv, htS, rn, hrn, he⟩ := hp
  have hU : t._end < U32 := by rw [r.hend]; exact r.hlt
  have ht := tailoff_toff t hU
  rw [r.hend, hlen] at ht
  have ht2 : tailoff t = 4294967264 := by rw [ht]; decide
  have hidx : (4294967295 : Nat) &&& MASK = 31 := by rw [and_MASK]
  have hw := writeSlot_eq (Obj.value x) r.htn
    (show 31 < tn._v.length by rw [htv, BRANCHES_eq]; decide)
  have hne : tp ≠ rp := fun hc => htS (by rw [hc]; exact r.hsub.root_mem)
  have hrn1 : (h.set tp ⟨tn.edit, tn.length, tn._v.set 31 (Obj.value x)⟩)[rp]? = some rn := by
    rw [set_get_ne h _ (Ne.symm hne)]; exact hrn
  have htn1 : ((h.set tp ⟨tn.edit, tn.length, tn._v.set 31 (Obj.value x)⟩).set rp
      ⟨NO_EDIT, rn.length, rn._v⟩)[tp]? =
      some ⟨tn.edit, tn.length, tn._v.set 31 (Obj.value x)⟩ := by
    rw [set_get_ne _ _ hne]; exact set_get_self _ r.htn
  have hl : ((h.set tp ⟨tn.edit, tn.length, tn._v.set 31 (Obj.value x)⟩).set rp
      ⟨NO_EDIT, rn.length, rn._v⟩).length = h.length := by simp
  have hz : sub32 0 0 = 0 := by decide
  refine ⟨h.set tp ⟨tn.edit, tn.length, tn._v.set 31 (Obj.value x)⟩,
    ⟨t._start, 0, t._shift, t._root, t._tail⟩,
    (h.set tp ⟨tn.edit, tn.length, tn._v.set 31 (Obj.value x)⟩).set rp
      ⟨NO_EDIT, rn.length, rn._v⟩ ++
      [(⟨tn.edit, tn.length, tn._v.set 31 (Obj.value x)⟩ : N α).copy 0 NO_EDIT],
    ⟨t._start, 0, t._shift, t._root, some h.length⟩, ?_, ?_, rfl, rfl, fun i => ?_⟩
  · unfold ArrayImp.tpush
    rw [hed]
    simp only [Option.bind_eq_bind, Option.some_bind, Bool.not_true, Bool.false_eq_true,
      if_false]
    rw [if_pos (by rw [r.hend, hlen, ht2]; decide)]
    simp only [ArrayImp.tail, r.htail, deref, r.htn, Option.bind_eq_bind, Option.some_bind,
      r.hend, hlen]
    rw [hidx, hw, Option.some_bind]
    rfl
  · have hed1 : isEditable (h.set tp ⟨tn.edit, tn.length, tn._v.set 31 (Obj.value x)⟩)
        ⟨t._start, 0, t._shift, t._root, t._tail⟩ = some true := by
      simp only [isEditable, ArrayImp.root, r.hroot, deref, hrn1, Option.bind_eq_bind,
        Option.some_bind]
      simp [he]
    unfold createPersistent
    rw [hed1]
    simp only [Option.bind_eq_bind, Option.some_bind, Bool.not_true, Bool.false_eq_true,
      if_false, r.hroot, hrn1, ArrayImp.tail, r.htail, deref, htn1]
    have hto : tailoff ⟨t._start, 0, t._shift, some rp, some tp⟩ = 0 := rfl
    rw [hto, hz]
    simp [alloc]
  · have hto : tailoff ⟨t._start, 0, t._shift, t._root, some h.length⟩ = 0 := rfl
    have hnew := get_append_new ((h.set tp ⟨tn.edit, tn.length,
      tn._v.set 31 (Obj.value x)⟩).set rp ⟨NO_EDIT, rn.length, rn._v⟩)
      ((⟨tn.edit, tn.length, tn._v.set 31 (Obj.value x)⟩ : N α).copy 0 NO_EDIT)
    rw [hl] at hnew
    have hslot := N.copy_get (⟨tn.edit, tn.length, tn._v.set 31 (Obj.value x)⟩ : N α) 0 NO_EDIT
      (show add32 i t._start % 32 < BRANCHES by rw [BRANCHES_eq]; exact Nat.mod_lt _ (by decide))
    rw [if_neg (by simp)] at hslot
    simp only [A.get, A.getValue, ArrayImp.getValue, uncheckedSlotsFor, hto, Nat.zero_le,
      if_true, ArrayImp.tail, deref, hnew, Option.bind_eq_bind, Option.some_bind, N.slot,
      and_MASK, hslot]

/-! ## The loop of `tpushAll` when the last push wraps `_end` -/

theorem ItAt.extend_to {h h' : Heap α} {src : A} {e i : Nat} {it : Iterator}
    (f : Frame h h' ∅) (ha : ItAt h src e i it) : ItAt h' src e i it := by
  obtain ⟨h1, h2, h3, h4, h5⟩ := ha
  refine ⟨h1, h2, h3, h4, fun hi => ?_⟩
  obtain ⟨hb, p, hs, hp⟩ := h5 hi
  exact ⟨hb, p, hs, uncheckedSlotsFor_frame f src i _ hp⟩

theorem ItAt.restrict {h h' : Heap α} {src : A} {xs : List α} {e i : Nat} {it : Iterator}
    (ha : ItAt h' src e i it) (hr : Readable h src xs) (he : e ≤ xs.length)
    (f : Frame h h' ∅) : ItAt h src e i it := by
  obtain ⟨h1, h2, h3, h4, h5⟩ := ha
  refine ⟨h1, h2, h3, h4, fun hi => ?_⟩
  obtain ⟨hb, p, hs, hp⟩ := h5 hi
  obtain ⟨q, n, eq, -, -⟩ := hr.2.2.2 i (by omega)
  have := uncheckedSlotsFor_frame f src i _ eq
  rw [hp] at this
  obtain rfl : p = q := Option.some.inj (Option.some.inj this)
  exact ⟨hb, p, hs, eq⟩

/-- The increment of an iterator at its last element, in any heap: the result
equals `END_ITERATOR`. -/
theorem ItAt.step_last {h : Heap α} {src : A} {e i : Nat} {it : Iterator} (h' : Heap α)
    (ha : ItAt h src e i it) (hi : i + 1 = e) (hU : e < U32) :
    ∃ it1, it.next h' = some it1 ∧ it1.eq END_ITERATOR = true := by
  obtain ⟨ia, ii, ie, ib, is, il⟩ := it
  obtain ⟨-, h2, h3, -, -⟩ := ha
  simp only at h2 h3
  subst h2 h3
  refine ⟨⟨ia, ii + 1, ie, ib, none, il⟩, ?_, by simp [Iterator.eq, END_ITERATOR]⟩
  simp only [Iterator.next, add32_eq (show ii + 1 < U32 by omega)]
  rw [if_neg (by omega)]

/-- The loop of `tpushAll` when the transient reaches `2 ^ 32` elements with the
last element of the range: the loop returns, `_end` has wrapped around to 0, and
`createPersistent` gives a vector that reads no element at any index. -/
theorem tpushAllF_wrap {h0 : Heap α} {src : A} {xs : List α} (hr : Readable h0 src xs)
    (e : Nat) (he : e ≤ xs.length) :
    ∀ (n i fuel : Nat) (h : Heap α) (dst : TA) (ys : List α) (it : Iterator),
      e = i + (n + 1) → n + 1 < fuel → Frame h0 h ∅ → TAbove h0.length h dst ys →
      ys.length + (n + 1) = U32 → ItAt h0 src e i it →
      ∃ h1 t1 h2 w, tpushAllF fuel h dst it = some (h1, t1) ∧
        createPersistent h1 t1 = some (h2, some w) ∧ w._start = dst._start ∧ w._end = 0 ∧
        ∀ j, A.get h2 w j = none
  | 0, i, fuel, h, dst, ys, it, hen, hf, f0, hT, hlen, ha => by
    obtain ⟨f, rfl⟩ : ∃ f, fuel = f + 2 := ⟨fuel - 2, by omega⟩
    have hlt := hr.2.1
    have hq := (ha.extend_to f0).eq_end
    rw [decide_eq_false (by omega)] at hq
    have hix : i < xs.length := by omega
    have hv := (ha.extend_to f0).value_eq (hr.extend f0) he (by omega)
    rw [List.getElem?_eq_getElem hix, Option.map_some'] at hv
    obtain ⟨h1, t1, h2, w, e1, e2, hs, hend, hget⟩ :=
      tpush_wrap_freeze xs[i] hT.trep (by unfold U32 at hlen; omega)
    obtain ⟨it1, en, hq1⟩ := ha.step_last h1 (by omega) (by omega)
    refine ⟨h1, t1, h2, w, ?_, e2, hs, hend, hget⟩
    rw [tpushAllF, hq]
    simp only [Bool.false_eq_true, if_false, hv, e1, en, Option.bind_eq_bind, Option.some_bind]
    rw [tpushAllF, hq1, if_pos rfl]
  | n + 1, i, fuel, h, dst, ys, it, hen, hf, f0, hT, hlen, ha => by
    obtain ⟨f, rfl⟩ : ∃ f, fuel = f + 1 := ⟨fuel - 1, by omega⟩
    have hlt := hr.2.1
    have hq := (ha.extend_to f0).eq_end
    rw [decide_eq_false (by omega)] at hq
    have hix : i < xs.length := by omega
    have hv := (ha.extend_to f0).value_eq (hr.extend f0) he (by omega)
    rw [List.getElem?_eq_getElem hix, Option.map_some'] at hv
    obtain ⟨h1, t1, e1, hT1, hs1, f1⟩ := hT.push_above xs[i] f0.1 (by omega)
    have f01 := f0.below f1
    obtain ⟨it1, en, ha1⟩ := (ha.extend_to f01).step (hr.extend f01) he (by omega)
    have ha1' := ha1.restrict hr he f01
    obtain ⟨h2, t2, h3, w, e2, e3, hs, hend, hget⟩ :=
      tpushAllF_wrap hr e he n (i + 1) f h1 t1 (ys ++ [xs[i]]) it1 (by omega) (by omega) f01 hT1
        (by rw [List.length_append, List.length_singleton]; omega) ha1'
    refine ⟨h2, t2, h3, w, ?_, e3, hs.trans hs1, hend, hget⟩
    rw [tpushAllF, hq]
    have e1' : tpush h dst (Obj.value xs[i]) = some ⟨h1, t1, true⟩ := e1
    simp only [Bool.false_eq_true, if_false, hv, e1', en, Option.bind_eq_bind, Option.some_bind]
    exact e2

/-! ## Facts that need no representation invariant -/

/-- The recursion of `newPath` from a level that is a multiple of `BITS` comes
back, and only allocates. -/
theorem newPathF_total (edit node : Nat) :
    ∀ (k fuel : Nat) (h : Heap α), k < fuel → BITS * k < 32 →
      ∃ h' q, newPathF edit node fuel h (BITS * k) = some (h', q) ∧ Frame h h' ∅
  | 0, fuel, h, hf, _ => by
    obtain ⟨f, rfl⟩ : ∃ f, fuel = f + 1 := ⟨fuel - 1, by omega⟩
    exact ⟨h, node, by simp [newPathF], Frame.refl _ _⟩
  | k + 1, fuel, h, hf, hk => by
    obtain ⟨f, rfl⟩ : ∃ f, fuel = f + 1 := ⟨fuel - 1, by omega⟩
    obtain ⟨h1, c, e1, f1⟩ := newPathF_total edit node k f h (by omega)
      (by simp only [BITS_eq] at *; omega)
    have hs := N.setSlot_eq (N.create BRANCHES edit : N α) 0 (Obj.node c)
      (by simp [N.create, BRANCHES_eq])
    refine ⟨h1 ++ [⟨edit, BRANCHES, (List.replicate BRANCHES Obj.null).set 0 (Obj.node c)⟩],
      h1.length, ?_,
      Frame.trans f1 (Frame.alloc h1 _ ∅) (fun x hx => hx) (fun x hx _ => hx)⟩
    rw [newPathF, if_neg (level_ne_zero k), sub32_level hk, e1]
    simp only [Option.bind_eq_bind, Option.some_bind, hs, alloc]
    rfl

theorem full1056_rep : PRep full1056.1 full1056.2 (List.range 1056) ∧ full1056.2._end = 1056 := by
  obtain ⟨h, v, e, hp, -, hs⟩ := PRep.pushAll [] (List.range 1056) (PRep.empty (α := Nat)) rfl
    (by rw [List.nil_append, List.length_range]; decide)
  rw [List.nil_append] at hp
  have : full1056 = (h, v) := by unfold full1056; rw [e]; rfl
  rw [this]
  obtain ⟨k, rp, tp, tn, S, r⟩ := hp.as_rep
  exact ⟨hp, by rw [r.hend, List.length_range]⟩

/-! ## The value of `compare` -/

theorem lexSign_swap [LinearOrder α] : ∀ (l r : List α), lexSign r l = -lexSign l r
  | [], [] => by simp [lexSign]
  | [], _ :: _ => by simp [lexSign]
  | _ :: _, [] => by simp [lexSign]
  | x :: l, y :: r => by
    have ih := lexSign_swap l r
    unfold lexSign
    by_cases h1 : x < y
    · simp [h1, lt_asymm h1]
    · by_cases h2 : y < x
      · simp [h1, h2]
      · simp [h1, h2, ih]

/-- What `compare` returns for two readable vectors that are not one and the same
header: the order of the sizes, and for equal sizes the sign of the first
difference. -/
theorem compare_eval [LinearOrder α] (cellEq : α → α → Bool) {h : Heap α} {v w : A}
    {xs ys : List α} (hv : Readable h v xs) (hw : Readable h w ys)
    (hsv : v._start ≤ v._end) (hsw : w._start ≤ w._end)
    (hcell : ∀ x y, cellEq x y = true → x = y) :
    A.compare cellEq false h v w =
      some (if v.size < w.size then -1 else if w.size < v.size then 1
        else lexSign (xs.drop v._start) (ys.drop w._start)) := by
  have szv := hv.size_eq hsv
  have szw := hw.size_eq hsw
  have hUv : v._end < U32 := by rw [hv.1]; exact hv.2.1
  have hUw : w._end < U32 := by rw [hw.1]; exact hw.2.1
  unfold A.compare
  simp only [Bool.false_eq_true, if_false]
  by_cases h1 : v.size < w.size
  · rw [if_pos h1, if_pos h1]
  · rw [if_neg h1, if_neg h1]
    by_cases h2 : v.size > w.size
    · rw [if_pos h2, if_pos h2]
    · rw [if_neg h2, if_neg h2]
      obtain ⟨ai, ea, ha⟩ := ItAt.of_create hv (le_of_eq hv.1) v._start
      obtain ⟨bi, eb, hb⟩ := ItAt.of_create hw (le_of_eq hw.1) w._start
      have e1 : A.begin h v 0 END = some ai := by
        unfold A.begin
        rw [if_pos rfl, add32_eq (by omega), Nat.add_zero]
        exact ea
      have e2 : A.begin h w 0 END = some bi := by
        unfold A.begin
        rw [if_pos rfl, add32_eq (by omega), Nat.add_zero]
        exact eb
      have hve := hv.1
      have hwe := hw.1
      have spec := compareF_spec cellEq hcell hv hw (le_of_eq hv.1) (le_of_eq hw.1) v.size
        v._start w._start (v.size + 1) ai bi ha hb (by omega) (by omega) (by omega)
      have tL : (xs.drop v._start).take v.size = xs.drop v._start :=
        List.take_of_length_le (by rw [List.length_drop]; omega)
      have tR : (ys.drop w._start).take v.size = ys.drop w._start :=
        List.take_of_length_le (by rw [List.length_drop]; omega)
      rw [tL, tR] at spec
      simp only [e1, e2, Option.bind_eq_bind, Option.some_bind]
      exact spec

/-! ## The shift of the headers that the operations return -/

theorem bind_some {β γ : Type} {x : Option β} {f : β → Option γ} {r : γ}
    (e : (x >>= f) = some r) : ∃ y, x = some y ∧ f y = some r :=
  Option.bind_eq_some.1 e

theorem add32_lt (a b : Nat) : add32 a b < U32 := Nat.mod_lt _ (by decide)

theorem sub32_lt (a b : Nat) : sub32 a b < U32 := Nat.mod_lt _ (by decide)

theorem shiftOk_static : ShiftOk EMPTY := ⟨⟨0, rfl⟩, by decide, by decide⟩

theorem ShiftOk.keep {a : A} (hs : ShiftOk a) (st en : Nat) (ro ta : Ptr) (he : en < U32) :
    ShiftOk ⟨st, en, a._shift, ro, ta⟩ :=
  ⟨hs.1, hs.2.1, he⟩

theorem ShiftOk.up {a : A} (hs : ShiftOk a) (hov : a._end >>> BITS > 1 <<< a._shift)
    (st en : Nat) (ro ta : Ptr) (he : en < U32) :
    ShiftOk ⟨st, en, add32 a._shift BITS, ro, ta⟩ := by
  obtain ⟨⟨k, hk⟩, h1, h2⟩ := hs
  have hadd : add32 a._shift BITS = BITS * (k + 1 + 1) := by
    rw [hk, add32_level (by rw [← hk]; exact h1)]
  rw [hk, shl_level, Nat.shiftRight_eq_div_pow, BITS_eq] at hov
  have h3 : a._end / 2 ^ 5 < 2 ^ 27 := by unfold U32 at h2; omega
  have h4 : 32 ^ (k + 1) < 32 ^ 6 := by
    calc 32 ^ (k + 1) < a._end / 2 ^ 5 := hov
      _ < 2 ^ 27 := h3
      _ ≤ 32 ^ 6 := by norm_num
  have h5 : k + 1 < 6 := (Nat.pow_lt_pow_iff_right (by norm_num)).1 h4
  refine ⟨⟨k + 1, hadd⟩, ?_, he⟩
  show add32 a._shift BITS < 31
  rw [hadd]
  simp only [BITS_eq]
  omega

theorem ShiftOk.down {a : A} (hs : ShiftOk a) (h1 : BITS < a._shift)
    (st en : Nat) (ro ta : Ptr) (he : en < U32) :
    ShiftOk ⟨st, en, sub32 a._shift BITS, ro, ta⟩ := by
  obtain ⟨⟨k, hk⟩, h2, -⟩ := hs
  obtain ⟨j, rfl⟩ : ∃ j, k = j + 1 := ⟨k - 1, by rw [hk, BITS_eq] at h1; omega⟩
  have hsub : sub32 a._shift BITS = BITS * (j + 1) := by
    rw [hk, sub32_level (by rw [← hk]; omega)]
  refine ⟨⟨j, hsub⟩, ?_, he⟩
  show sub32 a._shift BITS < 31
  rw [hsub]
  rw [hk] at h2
  simp only [BITS_eq] at *
  omega

theorem push_shift {h : Heap α} {a : A} {obj : Obj α} {r : Heap α × A} (hs : ShiftOk a)
    (e : ArrayImp.push h a obj = some r) : ShiftOk r.2 := by
  unfold ArrayImp.push at e
  by_cases c1 : sub32 a._end (tailoff a) < BRANCHES
  · rw [if_pos c1] at e
    obtain ⟨t, -, e⟩ := bind_some e
    obtain ⟨nt, -, e⟩ := bind_some e
    dsimp only [alloc] at e
    cases e
    exact hs.keep _ _ _ _ (add32_lt _ _)
  · rw [if_neg c1] at e
    obtain ⟨t, -, e⟩ := bind_some e
    obtain ⟨r0, -, e⟩ := bind_some e
    dsimp only [alloc] at e
    by_cases c2 : 31 ≤ a._shift
    · rw [if_pos c2] at e; cases e
    · rw [if_neg c2] at e
      by_cases c3 : a._end >>> BITS > 1 <<< a._shift
      · rw [if_pos c3] at e
        obtain ⟨⟨h2, np⟩, -, e⟩ := bind_some e
        dsimp only at e
        obtain ⟨nr0, -, e⟩ := bind_some e
        obtain ⟨nr, -, e⟩ := bind_some e
        obtain ⟨newTail, -, e⟩ := bind_some e
        cases e
        exact hs.up c3 _ _ _ _ (add32_lt _ _)
      · rw [if_neg c3] at e
        obtain ⟨⟨h2, np⟩, -, e⟩ := bind_some e
        dsimp only at e
        obtain ⟨newTail, -, e⟩ := bind_some e
        cases e
        exact hs.keep _ _ _ _ (add32_lt _ _)

theorem pop_shift {h : Heap α} {a : A} {r : Heap α × A} (hs : ShiftOk a)
    (e : ArrayImp.pop h a = some r) : ShiftOk r.2 := by
  unfold ArrayImp.pop at e
  by_cases c0 : a._end = 1
  · rw [if_pos c0] at e; cases e; exact shiftOk_static
  · rw [if_neg c0] at e
    by_cases c1 : 1 < sub32 a._end (tailoff a)
    · rw [if_pos c1] at e
      obtain ⟨t, -, e⟩ := bind_some e
      obtain ⟨r0, -, e⟩ := bind_some e
      dsimp only [alloc] at e
      cases e
      exact hs.keep _ _ _ _ (sub32_lt _ _)
    · rw [if_neg c1] at e
      obtain ⟨newTail, -, e⟩ := bind_some e
      obtain ⟨r0, -, e⟩ := bind_some e
      obtain ⟨⟨h1, popped⟩, -, e⟩ := bind_some e
      dsimp only at e
      by_cases c2 : BITS < a._shift
      · rw [if_pos c2] at e
        obtain ⟨nr, -, e⟩ := bind_some e
        obtain ⟨s1, -, e⟩ := bind_some e
        by_cases c3 : s1.isNull = true
        · rw [if_pos c3] at e
          obtain ⟨s0, -, e⟩ := bind_some e
          obtain ⟨p0, -, e⟩ := bind_some e
          cases e
          exact hs.down c2 _ _ _ _ (sub32_lt _ _)
        · rw [if_neg c3] at e
          cases e
          exact hs.keep _ _ _ _ (sub32_lt _ _)
      · rw [if_neg c2] at e
        cases e
        exact hs.keep _ _ _ _ (sub32_lt _ _)

theorem set_shift {h : Heap α} {a : A} {i : Nat} {obj : Obj α} {r : Heap α × A} (hs : ShiftOk a)
    (e : ArrayImp.set h a i obj = some r) : ShiftOk r.2 := by
  unfold ArrayImp.set at e
  by_cases c1 : tailoff a ≤ i
  · rw [if_pos c1] at e
    obtain ⟨r0, -, e⟩ := bind_some e
    obtain ⟨t, -, e⟩ := bind_some e
    dsimp only [alloc] at e
    cases e
    exact hs.keep _ _ _ _ hs.2.2
  · rw [if_neg c1] at e
    obtain ⟨r0, -, e⟩ := bind_some e
    obtain ⟨⟨h1, p⟩, -, e⟩ := bind_some e
    dsimp only at e
    obtain ⟨t, -, e⟩ := bind_some e
    cases e
    exact hs.keep _ _ _ _ hs.2.2

theorem tpush_shift {h : Heap α} {a : TA} {v : Obj α} {r : TRes α} (hs : ShiftOk a)
    (e : tpush h a v = some r) : ShiftOk r.hdr := by
  unfold tpush at e
  obtain ⟨ed, -, e⟩ := bind_some e
  by_cases c0 : (!ed) = true
  · rw [if_pos c0] at e; cases e; exact hs
  · rw [if_neg c0] at e
    dsimp only at e
    by_cases c1 : sub32 a._end (tailoff a) < BRANCHES
    · rw [if_pos c1] at e
      obtain ⟨_, -, e⟩ := bind_some e
      obtain ⟨tp, -, e⟩ := bind_some e
      obtain ⟨h1, -, e⟩ := bind_some e
      cases e; exact hs.keep _ _ _ _ (add32_lt _ _)
    · rw [if_neg c1] at e
      obtain ⟨_, -, e⟩ := bind_some e
      obtain ⟨tailNode, -, e⟩ := bind_some e
      obtain ⟨r0, -, e⟩ := bind_some e
      obtain ⟨nt, -, e⟩ := bind_some e
      dsimp only [alloc] at e
      by_cases c2 : 31 ≤ a._shift
      · rw [if_pos c2] at e; cases e
      · rw [if_neg c2] at e
        by_cases c3 : a._end >>> BITS > 1 <<< a._shift
        · rw [if_pos c3] at e
          obtain ⟨⟨h2, np⟩, -, e⟩ := bind_some e
          dsimp only at e
          obtain ⟨nr0, -, e⟩ := bind_some e
          obtain ⟨nr, -, e⟩ := bind_some e
          cases e
          exact hs.up c3 _ _ _ _ (add32_lt _ _)
        · rw [if_neg c3] at e
          obtain ⟨⟨h2, np⟩, -, e⟩ := bind_some e
          cases e
          exact hs.keep _ _ _ _ (add32_lt _ _)

theorem tset_shift {h : Heap α} {a : TA} {i : Nat} {v : Obj α} {r : TRes α} (hs : ShiftOk a)
    (e : tset h a i v = some r) : ShiftOk r.hdr := by
  unfold tset at e
  obtain ⟨ed, -, e⟩ := bind_some e
  by_cases c0 : (!ed) = true
  · rw [if_pos c0] at e; cases e; exact hs
  · rw [if_neg c0] at e
    by_cases c1 : tailoff a ≤ i
    · rw [if_pos c1] at e
      obtain ⟨_, -, e⟩ := bind_some e
      obtain ⟨tp, -, e⟩ := bind_some e
      obtain ⟨h1, -, e⟩ := bind_some e
      cases e; exact hs
    · rw [if_neg c1] at e
      obtain ⟨⟨h1, p⟩, -, e⟩ := bind_some e
      cases e; exact hs.keep _ _ _ _ hs.2.2

theorem tpop_shift {h : Heap α} {a : TA} {r : TRes α} (hs : ShiftOk a)
    (e : tpop h a = some r) : ShiftOk r.hdr := by
  unfold tpop at e
  by_cases c0 : a._end = 1
  · rw [if_pos c0] at e; injection e with e; subst e
    exact hs.keep _ _ _ _ (by decide)
  · rw [if_neg c0] at e
    dsimp only at e
    by_cases c1 : 0 < sub32 a._end 1 &&& MASK
    · rw [if_pos c1] at e; injection e with e; subst e; exact hs.keep _ _ _ _ (sub32_lt _ _)
    · rw [if_neg c1] at e
      obtain ⟨⟨h1, newTail⟩, -, e⟩ := bind_some e
      dsimp only at e
      obtain ⟨⟨h2, popped⟩, -, e⟩ := bind_some e
      dsimp only at e
      obtain ⟨r0, -, e⟩ := bind_some e
      cases popped with
      | none =>
        dsimp only [alloc] at e
        by_cases c2 : BITS < a._shift
        · rw [if_pos c2] at e
          obtain ⟨nr, -, e⟩ := bind_some e
          obtain ⟨s1, -, e⟩ := bind_some e
          by_cases c3 : s1.isNull = true
          · rw [if_pos c3] at e
            obtain ⟨s0, -, e⟩ := bind_some e
            obtain ⟨p0, -, e⟩ := bind_some e
            obtain ⟨⟨h4, q⟩, -, e⟩ := bind_some e
            injection e with e
            subst e
            exact hs.down c2 _ _ _ _ (sub32_lt _ _)
          · rw [if_neg c3] at e
            injection e with e
            subst e
            exact hs.keep _ _ _ _ (sub32_lt _ _)
        · rw [if_neg c2] at e
          injection e with e
          subst e
          exact hs.keep _ _ _ _ (sub32_lt _ _)
      | some p =>
        dsimp only at e
        by_cases c2 : BITS < a._shift
        · rw [if_pos c2] at e
          obtain ⟨nr, -, e⟩ := bind_some e
          obtain ⟨s1, -, e⟩ := bind_some e
          by_cases c3 : s1.isNull = true
          · rw [if_pos c3] at e
            obtain ⟨s0, -, e⟩ := bind_some e
            obtain ⟨p0, -, e⟩ := bind_some e
            obtain ⟨⟨h4, q⟩, -, e⟩ := bind_some e
            injection e with e
            subst e
            exact hs.down c2 _ _ _ _ (sub32_lt _ _)
          · rw [if_neg c3] at e
            injection e with e
            subst e
            exact hs.keep _ _ _ _ (sub32_lt _ _)
        · rw [if_neg c2] at e
          injection e with e
          subst e
          exact hs.keep _ _ _ _ (sub32_lt _ _)

theorem createTransient_shift {tid : Nat} {h : Heap α} {a : A} {r : Heap α × TA}
    (hs : ShiftOk a) (e : createTransient tid h a = some r) : ShiftOk r.2 := by
  unfold createTransient at e
  obtain ⟨r0, -, e⟩ := bind_some e
  dsimp only [alloc] at e
  obtain ⟨t, -, e⟩ := bind_some e
  cases e
  exact hs.keep _ _ _ _ hs.2.2

theorem createPersistent_shift {h : Heap α} {t : TA} {r : Heap α × Option A} {a' : A}
    (hs : ShiftOk t) (e : createPersistent h t = some r) (ha : r.2 = some a') : ShiftOk a' := by
  unfold createPersistent at e
  obtain ⟨ed, -, e⟩ := bind_some e
  by_cases c0 : (!ed) = true
  · rw [if_pos c0] at e; cases e; cases ha
  · rw [if_neg c0] at e
    obtain ⟨rp, -, e⟩ := bind_some e
    obtain ⟨r0, -, e⟩ := bind_some e
    dsimp only at e
    obtain ⟨tl, -, e⟩ := bind_some e
    dsimp only [alloc] at e
    cases e
    cases ha
    exact hs.keep _ _ _ _ hs.2.2

theorem tpushAllF_shift : ∀ (fuel : Nat) {h : Heap α} {dst : TA} {it : Iterator}
    {r : Heap α × TA}, ShiftOk dst → tpushAllF fuel h dst it = some r → ShiftOk r.2
  | 0, _, _, _, _, _, e => by rw [tpushAllF] at e; cases e
  | fuel + 1, h, dst, it, r, hs, e => by
    rw [tpushAllF] at e
    by_cases c : it.eq END_ITERATOR = true
    · rw [if_pos c] at e; cases e; exact hs
    · rw [if_neg c] at e
      obtain ⟨v, -, e⟩ := bind_some e
      obtain ⟨r1, hr1, e⟩ := bind_some e
      obtain ⟨it1, -, e⟩ := bind_some e
      exact tpushAllF_shift fuel (tpush_shift hs hr1) e

theorem tpushAll_shift {h : Heap α} {dst : TA} {src : A} {s e' : Nat} {r : Heap α × TA}
    (hs : ShiftOk dst) (e : tpushAll h dst src s e' = some r) : ShiftOk r.2 := by
  unfold tpushAll at e
  obtain ⟨it, -, e⟩ := bind_some e
  exact tpushAllF_shift _ hs e

theorem tpushList_shift : ∀ (vals : List (Obj α)) {h : Heap α} {t : TA} {r : Heap α × TA},
    ShiftOk t → tpushList h t vals = some r → ShiftOk r.2
  | [], _, _, _, hs, e => by rw [tpushList] at e; cases e; exact hs
  | v :: vs, h, t, r, hs, e => by
    rw [tpushList] at e
    obtain ⟨r1, hr1, e⟩ := bind_some e
    exact tpushList_shift vs (tpush_shift hs hr1) e

theorem pushAllItF_shift : ∀ (fuel : Nat) {h : Heap α} {t : TA} {it : Iterator}
    {r : Heap α × TA}, ShiftOk t → pushAllItF fuel h t it = some r → ShiftOk r.2
  | 0, _, _, _, _, _, e => by rw [pushAllItF] at e; cases e
  | fuel + 1, h, t, it, r, hs, e => by
    rw [pushAllItF] at e
    obtain ⟨v, -, e⟩ := bind_some e
    obtain ⟨r1, hr1, e⟩ := bind_some e
    obtain ⟨it1, -, e⟩ := bind_some e
    by_cases c : it1.eq END_ITERATOR = true
    · rw [if_pos c] at e; cases e; exact tpush_shift hs hr1
    · rw [if_neg c] at e
      exact pushAllItF_shift fuel (tpush_shift hs hr1) e

theorem pushItF_shift (E : Iterator) : ∀ (fuel : Nat) {h : Heap α} {t : TA} {it : Iterator}
    {r : Heap α × TA}, ShiftOk t → A.pushItF E fuel h t it = some r → ShiftOk r.2
  | 0, _, _, _, _, _, e => by rw [A.pushItF] at e; cases e
  | fuel + 1, h, t, it, r, hs, e => by
    rw [A.pushItF] at e
    by_cases c : it.eq E = true
    · rw [if_pos c] at e; cases e; exact hs
    · rw [if_neg c] at e
      obtain ⟨v, -, e⟩ := bind_some e
      obtain ⟨r1, hr1, e⟩ := bind_some e
      obtain ⟨it1, -, e⟩ := bind_some e
      exact pushItF_shift E fuel (tpush_shift hs hr1) e

theorem TA.pushAll_shift : ∀ (vals : List α) {h : Heap α} {t : TA} {r : Heap α × TA},
    ShiftOk t → TA.pushAll h t vals = some r → ShiftOk r.2
  | [], _, _, _, hs, e => by rw [TA.pushAll] at e; cases e; exact hs
  | v :: vs, h, t, r, hs, e => by
    rw [TA.pushAll] at e
    obtain ⟨r1, hr1, e⟩ := bind_some e
    by_cases c : r1.self = true
    · rw [if_pos c] at e
      exact TA.pushAll_shift vs (tpush_shift hs hr1) e
    · rw [if_neg c] at e; cases e

theorem slice_shift {tid : Nat} {h : Heap α} {a : A} {s e' : Nat} {r : Heap α × Option A}
    {a' : A} (hs : ShiftOk a) (e : ArrayImp.slice tid h a s e' = some r) (ha : r.2 = some a') :
    ShiftOk a' := by
  unfold ArrayImp.slice at e
  by_cases c0 : (!isOutOfBounds a s e') = true
  · rw [if_pos c0] at e; cases e; cases ha
  · rw [if_neg c0] at e
    by_cases c1 : s = e'
    · rw [if_pos c1] at e; cases e; cases ha; exact shiftOk_static
    · rw [if_neg c1] at e
      by_cases c2 : s = a._start ∧ e' = a._end
      · rw [if_pos c2] at e; cases e; cases ha; exact hs
      · rw [if_neg c2] at e
        by_cases c3 : e' = a._end ∧ a.size / 2 ≤ sub32 e' s
        · rw [if_pos c3] at e; cases e; cases ha
          exact hs.keep _ _ _ _ (by rw [c3.1]; exact hs.2.2)
        · rw [if_neg c3] at e
          obtain ⟨⟨h1, t⟩, e1, e⟩ := bind_some e
          dsimp only at e
          obtain ⟨⟨h2, t2⟩, e2, e⟩ := bind_some e
          dsimp only at e
          exact createPersistent_shift
            (tpushAll_shift (createTransient_shift shiftOk_static e1) e2) e ha

theorem releaseLocal_some {β : Type} {isNew pushed : Bool} {r r' : β}
    (e : releaseLocal isNew pushed r = some r') : r = r' := by
  unfold releaseLocal at e
  split at e
  · cases e
  · cases e; rfl

theorem pushAllFn_shift {tid : Nat} {h : Heap α} {a : A} {vals : List (Obj α)}
    {r : Heap α × Option A} {a' : A} (hs : ShiftOk a)
    (e : pushAllFn tid h a vals = some r) (ha : r.2 = some a') : ShiftOk a' := by
  unfold pushAllFn at e
  cases vals with
  | nil => dsimp only at e; cases e; cases ha; exact hs
  | cons v vs =>
    dsimp only at e
    obtain ⟨⟨h1, t⟩, e1, e⟩ := bind_some e
    dsimp only at e
    obtain ⟨⟨h2, t2⟩, e2, e⟩ := bind_some e
    dsimp only at e
    exact createPersistent_shift (tpushList_shift _ (createTransient_shift hs e1) e2) e ha

theorem pushAllIt_shift {tid : Nat} {h : Heap α} {a : A} {it : Iterator}
    {r : Heap α × Option A} {a' : A} (hs : ShiftOk a)
    (e : pushAllIt tid h a it = some r) (ha : r.2 = some a') : ShiftOk a' := by
  unfold pushAllIt at e
  by_cases c0 : (!it.eq END_ITERATOR) = true
  · rw [if_pos c0] at e
    obtain ⟨⟨h1, t⟩, e1, e⟩ := bind_some e
    dsimp only at e
    obtain ⟨⟨h2, t2⟩, e2, e⟩ := bind_some e
    dsimp only at e
    exact createPersistent_shift (pushAllItF_shift _ (createTransient_shift hs e1) e2) e ha
  · rw [if_neg c0] at e; cases e; cases ha; exact hs

theorem without_shift {tid : Nat} {h : Heap α} {a : A} {s e' : Nat} {r : Heap α × Option A}
    {a' : A} (hs : ShiftOk a) (e : ArrayImp.without tid h a s e' = some r)
    (ha : r.2 = some a') : ShiftOk a' := by
  unfold ArrayImp.without at e
  by_cases c0 : (!isOutOfBounds a s e') = true
  · rw [if_pos c0] at e; cases e; cases ha
  · rw [if_neg c0] at e
    by_cases c1 : s = e'
    · rw [if_pos c1] at e; cases e; cases ha; exact hs
    · rw [if_neg c1] at e
      by_cases c2 : s = a._start
      · rw [if_pos c2] at e
        by_cases c3 : e' = a._end
        · rw [if_pos c3] at e; cases e; cases ha; exact shiftOk_static
        · rw [if_neg c3] at e
          exact slice_shift hs e ha
      · rw [if_neg c2] at e
        by_cases c3 : e' = a._end
        · rw [if_pos c3] at e
          exact slice_shift hs e ha
        · rw [if_neg c3] at e
          obtain ⟨⟨h1, oleft⟩, e1, e⟩ := bind_some e
          dsimp only at e
          obtain ⟨left, hl, e⟩ := bind_some e
          obtain ⟨⟨h2, t⟩, e2, e⟩ := bind_some e
          dsimp only at e
          obtain ⟨⟨h3, t2⟩, e3, e⟩ := bind_some e
          dsimp only at e
          exact createPersistent_shift
            (tpushAll_shift (createTransient_shift (slice_shift hs e1 hl) e2) e3) e ha

theorem cons_shift {tid : Nat} {h : Heap α} {a : A} {v : Obj α} {r : Heap α × Option A}
    {a' : A} (e : ArrayImp.cons tid h a v = some r) (ha : r.2 = some a') : ShiftOk a' := by
  unfold ArrayImp.cons at e
  obtain ⟨⟨h1, t⟩, e1, e⟩ := bind_some e
  dsimp only at e
  obtain ⟨r1, e2, e⟩ := bind_some e
  obtain ⟨⟨h2, t2⟩, e3, e⟩ := bind_some e
  dsimp only at e
  exact createPersistent_shift
    (tpushAll_shift (tpush_shift (createTransient_shift shiftOk_static e1) e2) e3) e ha

theorem splicefn_shift {tid : Nat} {h : Heap α} {a : A} {s e' : Nat} {vals : List (Obj α)}
    {r : Heap α × Option A} {a' : A} (hs : ShiftOk a)
    (e : splicefn tid h a s e' vals = some r) (ha : r.2 = some a') : ShiftOk a' := by
  unfold splicefn at e
  by_cases c0 : (!isOutOfBounds a s e') = true
  · rw [if_pos c0] at e; cases e; cases ha
  · rw [if_neg c0] at e
    by_cases c1 : s = a._start
    · rw [if_pos c1] at e
      by_cases c2 : e' = a._end
      · rw [if_pos c2] at e
        exact pushAllFn_shift shiftOk_static e ha
      · rw [if_neg c2] at e
        obtain ⟨⟨h1, ob⟩, e1, e⟩ := bind_some e
        dsimp only at e
        obtain ⟨b, hb, e⟩ := bind_some e
        obtain ⟨r1, e2, e⟩ := bind_some e
        rw [releaseLocal_some e] at e2
        exact pushAllFn_shift (slice_shift hs e1 hb) e2 ha
    · rw [if_neg c1] at e
      by_cases c2 : e' = a._end
      · rw [if_pos c2] at e
        by_cases c3 : s = e'
        · rw [if_pos c3] at e
          exact pushAllFn_shift hs e ha
        · rw [if_neg c3] at e
          obtain ⟨⟨h1, ob⟩, e1, e⟩ := bind_some e
          dsimp only at e
          obtain ⟨b, hb, e⟩ := bind_some e
          obtain ⟨r1, e2, e⟩ := bind_some e
          rw [releaseLocal_some e] at e2
          exact pushAllFn_shift (slice_shift hs e1 hb) e2 ha
      · rw [if_neg c2] at e
        obtain ⟨⟨h1, t⟩, e1, e⟩ := bind_some e
        dsimp only at e
        obtain ⟨⟨h2, t2⟩, e2, e⟩ := bind_some e
        dsimp only at e
        obtain ⟨⟨h3, t3⟩, e3, e⟩ := bind_some e
        dsimp only at e
        obtain ⟨⟨h4, t4⟩, e4, e⟩ := bind_some e
        dsimp only at e
        exact createPersistent_shift (tpushAll_shift (tpushList_shift _
          (tpushAll_shift (createTransient_shift shiftOk_static e1) e2) e3) e4) e ha

theorem splice_shift {tid : Nat} {h : Heap α} {a : A} {s e' : Nat} {it : Iterator}
    {r : Heap α × Option A} {a' : A} (hs : ShiftOk a)
    (e : ArrayImp.splice tid h a s e' it = some r) (ha : r.2 = some a') : ShiftOk a' := by
  unfold ArrayImp.splice at e
  by_cases c0 : (!isOutOfBounds a s e') = true
  · rw [if_pos c0] at e; cases e; cases ha
  · rw [if_neg c0] at e
    by_cases c1 : s = a._start
    · rw [if_pos c1] at e
      by_cases c2 : e' = a._end
      · rw [if_pos c2] at e
        exact pushAllIt_shift shiftOk_static e ha
      · rw [if_neg c2] at e
        obtain ⟨⟨h1, ob⟩, e1, e⟩ := bind_some e
        dsimp only at e
        obtain ⟨b, hb, e⟩ := bind_some e
        obtain ⟨r1, e2, e⟩ := bind_some e
        rw [releaseLocal_some e] at e2
        exact pushAllIt_shift (slice_shift hs e1 hb) e2 ha
    · rw [if_neg c1] at e
      by_cases c2 : e' = a._end
      · rw [if_pos c2] at e
        by_cases c3 : s = e'
        · rw [if_pos c3] at e
          exact pushAllIt_shift hs e ha
        · rw [if_neg c3] at e
          obtain ⟨⟨h1, ob⟩, e1, e⟩ := bind_some e
          dsimp only at e
          obtain ⟨b, hb, e⟩ := bind_some e
          obtain ⟨r1, e2, e⟩ := bind_some e
          rw [releaseLocal_some e] at e2
          exact pushAllIt_shift (slice_shift hs e1 hb) e2 ha
      · rw [if_neg c2] at e
        obtain ⟨⟨h1, t⟩, e1, e⟩ := bind_some e
        dsimp only at e
        obtain ⟨⟨h2, t2⟩, e2, e⟩ := bind_some e
        dsimp only at e
        obtain ⟨⟨h3, t3⟩, e3, e⟩ := bind_some e
        dsimp only at e
        obtain ⟨⟨h4, t4⟩, e4, e⟩ := bind_some e
        dsimp only at e
        exact createPersistent_shift (tpushAll_shift (tpushAllF_shift _
          (tpushAll_shift (createTransient_shift shiftOk_static e1) e2) e3) e4) e ha

theorem pushRange_shift {tid : Nat} {h : Heap α} {a : A} {I E : Iterator}
    {r : Heap α × Option A} {a' : A} (hs : ShiftOk a)
    (e : A.pushRange tid h a I E = some r) (ha : r.2 = some a') : ShiftOk a' := by
  unfold A.pushRange at e
  obtain ⟨⟨h1, t⟩, e1, e⟩ := bind_some e
  dsimp only at e
  obtain ⟨⟨h2, t2⟩, e2, e⟩ := bind_some e
  dsimp only at e
  exact createPersistent_shift (pushItF_shift E _ (createTransient_shift hs e1) e2) e ha

/-- Every header that the public operations hand out satisfies the shift
invariant. -/
theorem Reachable.shiftOk {a : A} (hr : Reachable α a) : ShiftOk a := by
  induction hr with
  | empty => exact shiftOk_static
  | push h h' a a' v _ e ih => exact push_shift ih e
  | pop h h' a a' _ e ih =>
    unfold A.pop at e
    by_cases c : a.size ≠ 0
    · rw [if_pos c] at e; exact pop_shift ih e
    · rw [if_neg c] at e; cases e; exact ih
  | set h h' a a' i v _ e ih =>
    unfold A.set at e
    dsimp only at e
    by_cases c : a._end ≤ add32 i a._start
    · rw [if_pos c] at e; cases e
    · rw [if_neg c] at e
      obtain ⟨r, hr, e⟩ := Option.map_eq_some'.1 e
      cases e
      exact set_shift ih hr
  | slice tid h h' a a' s e' _ e ih => exact slice_shift ih e rfl
  | without tid h h' a a' s e' _ e ih => exact without_shift ih e rfl
  | cons tid h h' a a' v _ e _ => exact cons_shift e rfl
  | splice tid h h' a a' s e' vals _ e ih => exact splicefn_shift ih e rfl
  | spliceIt tid h h' a a' s e' it _ e ih => exact splice_shift ih e rfl
  | spliceArray tid h h' a a' q s e' _ e ih =>
    unfold A.spliceArray at e
    obtain ⟨it, -, e⟩ := bind_some e
    exact splice_shift ih e rfl
  | pushRange tid h h' a a' I E _ e ih => exact pushRange_shift ih e rfl
  | concat tid h h' a a' other _ e ih =>
    unfold A.concat at e
    obtain ⟨it, -, e⟩ := bind_some e
    exact pushRange_shift ih e rfl
  | create tid h h' a' vals e =>
    unfold A.create at e
    obtain ⟨⟨h1, t⟩, e1, e⟩ := bind_some e
    dsimp only at e
    obtain ⟨⟨h2, t2⟩, e2, e⟩ := bind_some e
    dsimp only at e
    exact createPersistent_shift
      (TA.pushAll_shift _ (createTransient_shift shiftOk_static e1) e2) e rfl
  | asTransient tid h h' a t _ e ih => exact createTransient_shift ih e
  | tpush h t v r _ e ih => exact tpush_shift ih e
  | tset h t i v r _ e ih =>
    unfold TA.set at e
    dsimp only at e
    by_cases c : t._end ≤ add32 i t._start
    · rw [if_pos c] at e; cases e; exact ih
    · rw [if_neg c] at e; exact tset_shift ih e
  | tpop h t r _ e ih =>
    unfold TA.pop at e
    by_cases c : A.size t ≠ 0
    · rw [if_pos c] at e; exact tpop_shift ih e
    · rw [if_neg c] at e; cases e; exact ih
  | makePersistent h h' t a' _ e ih => exact createPersistent_shift ih e rfl

/-! ## The level recursions need no more fuel than the number of levels -/

/-- The decrement `level - BITS` of a positive multiple of `BITS` does not wrap:
it is the multiple before. -/
theorem sub32_step {k : Nat} (hk : BITS * (k + 1) < U32) :
    sub32 (BITS * (k + 1)) BITS = BITS * k := by
  rw [sub32_eq (by simp [BITS_eq]) hk]
  simp only [BITS_eq]; omega

theorem level_ne_bits (k : Nat) : BITS * (k + 1 + 1) ≠ BITS := by
  simp [BITS_eq]

theorem bits_lt_level (k : Nat) : BITS < BITS * (k + 1 + 1) := by
  simp only [BITS_eq]; omega

theorem newPathF_fuel (edit node : Nat) :
    ∀ (k fuel : Nat) (h : Heap α), k < fuel → BITS * k < U32 →
      newPathF edit node fuel h (BITS * k) = newPathF edit node (k + 1) h (BITS * k)
  | 0, fuel, h, hf, _ => by
    obtain ⟨f, rfl⟩ : ∃ f, fuel = f + 1 := ⟨fuel - 1, by omega⟩
    simp [newPathF]
  | k + 1, fuel, h, hf, hk => by
    obtain ⟨f, rfl⟩ : ∃ f, fuel = f + 1 := ⟨fuel - 1, by omega⟩
    have ih := fun h => newPathF_fuel edit node k f h (by omega)
      (by simp only [BITS_eq] at *; omega)
    rw [newPathF, newPathF]
    simp only [sub32_step hk, ih]

theorem doAssocF_fuel (i : Nat) (obj : Obj α) :
    ∀ (k fuel : Nat) (h : Heap α) (node : N α), k < fuel → BITS * k < U32 →
      doAssocF i obj fuel h (BITS * k) node = doAssocF i obj (k + 1) h (BITS * k) node
  | 0, fuel, h, node, hf, _ => by
    obtain ⟨f, rfl⟩ : ∃ f, fuel = f + 1 := ⟨fuel - 1, by omega⟩
    simp [doAssocF]
  | k + 1, fuel, h, node, hf, hk => by
    obtain ⟨f, rfl⟩ : ∃ f, fuel = f + 1 := ⟨fuel - 1, by omega⟩
    have ih := fun h node => doAssocF_fuel i obj k f h node (by omega)
      (by simp only [BITS_eq] at *; omega)
    rw [doAssocF, doAssocF]
    simp only [sub32_step hk, ih]

theorem tdoAssocF_fuel (a : TA) (i : Nat) (val : Obj α) :
    ∀ (k fuel : Nat) (h : Heap α) (node : Ptr), k < fuel → BITS * k < U32 →
      tdoAssocF a i val fuel h (BITS * k) node = tdoAssocF a i val (k + 1) h (BITS * k) node
  | 0, fuel, h, node, hf, _ => by
    obtain ⟨f, rfl⟩ : ∃ f, fuel = f + 1 := ⟨fuel - 1, by omega⟩
    simp [tdoAssocF]
  | k + 1, fuel, h, node, hf, hk => by
    obtain ⟨f, rfl⟩ : ∃ f, fuel = f + 1 := ⟨fuel - 1, by omega⟩
    have ih := fun h node => tdoAssocF_fuel a i val k f h node (by omega)
      (by simp only [BITS_eq] at *; omega)
    rw [tdoAssocF, tdoAssocF]
    simp only [sub32_step hk, ih, level_ne_zero, if_false]

theorem checkedSlotsForF_fuel (i : Nat) :
    ∀ (k fuel : Nat) (h : Heap α) (node : Nat), k < fuel → BITS * k < U32 →
      checkedSlotsForF i fuel h (BITS * k) node = checkedSlotsForF i (k + 1) h (BITS * k) node
  | 0, fuel, h, node, hf, _ => by
    obtain ⟨f, rfl⟩ : ∃ f, fuel = f + 1 := ⟨fuel - 1, by omega⟩
    simp [checkedSlotsForF]
  | k + 1, fuel, h, node, hf, hk => by
    obtain ⟨f, rfl⟩ : ∃ f, fuel = f + 1 := ⟨fuel - 1, by omega⟩
    have ih := fun h node => checkedSlotsForF_fuel i k f h node (by omega)
      (by simp only [BITS_eq] at *; omega)
    rw [checkedSlotsForF, checkedSlotsForF]
    simp only [sub32_step hk, ih]

theorem uncheckedSlotsForF_fuel (i : Nat) :
    ∀ (k fuel : Nat) (h : Heap α) (node : Ptr), k < fuel → BITS * k < U32 →
      uncheckedSlotsForF i fuel h (BITS * k) node =
        uncheckedSlotsForF i (k + 1) h (BITS * k) node
  | 0, fuel, h, node, hf, _ => by
    obtain ⟨f, rfl⟩ : ∃ f, fuel = f + 1 := ⟨fuel - 1, by omega⟩
    simp [uncheckedSlotsForF]
  | k + 1, fuel, h, node, hf, hk => by
    obtain ⟨f, rfl⟩ : ∃ f, fuel = f + 1 := ⟨fuel - 1, by omega⟩
    have ih := fun h node => uncheckedSlotsForF_fuel i k f h node (by omega)
      (by simp only [BITS_eq] at *; omega)
    rw [uncheckedSlotsForF, uncheckedSlotsForF]
    simp only [sub32_step hk, ih]

theorem editableSlotsForF_fuel (a : TA) (i : Nat) :
    ∀ (k fuel : Nat) (h : Heap α) (node : Nat), k < fuel → BITS * k < U32 →
      editableSlotsForF a i fuel h (BITS * k) node =
        editableSlotsForF a i (k + 1) h (BITS * k) node
  | 0, fuel, h, node, hf, _ => by
    obtain ⟨f, rfl⟩ : ∃ f, fuel = f + 1 := ⟨fuel - 1, by omega⟩
    simp [editableSlotsForF]
  | k + 1, fuel, h, node, hf, hk => by
    obtain ⟨f, rfl⟩ : ∃ f, fuel = f + 1 := ⟨fuel - 1, by omega⟩
    have ih := fun h node => editableSlotsForF_fuel a i k f h node (by omega)
      (by simp only [BITS_eq] at *; omega)
    rw [editableSlotsForF, editableSlotsForF]
    simp only [sub32_step hk, ih]

theorem pushTailF_fuel (a : A) (tailNode : Nat) :
    ∀ (k fuel : Nat) (h : Heap α) (parentNode : N α), k < fuel → BITS * (k + 1) < U32 →
      pushTailF a tailNode fuel h (BITS * (k + 1)) parentNode =
        pushTailF a tailNode (k + 1) h (BITS * (k + 1)) parentNode
  | 0, fuel, h, parentNode, hf, _ => by
    obtain ⟨f, rfl⟩ : ∃ f, fuel = f + 1 := ⟨fuel - 1, by omega⟩
    simp [pushTailF]
  | k + 1, fuel, h, parentNode, hf, hk => by
    obtain ⟨f, rfl⟩ : ∃ f, fuel = f + 1 := ⟨fuel - 1, by omega⟩
    have ih := fun h parentNode => pushTailF_fuel a tailNode k f h parentNode (by omega)
      (by simp only [BITS_eq] at *; omega)
    rw [pushTailF, pushTailF]
    simp only [sub32_step hk, ih]

theorem tpushTailF_fuel (a : TA) (tailNode : Nat) :
    ∀ (k fuel : Nat) (h : Heap α) (parentNode : Ptr), k < fuel → BITS * (k + 1) < U32 →
      tpushTailF a tailNode fuel h (BITS * (k + 1)) parentNode =
        tpushTailF a tailNode (k + 1) h (BITS * (k + 1)) parentNode
  | 0, fuel, h, parentNode, hf, _ => by
    obtain ⟨f, rfl⟩ : ∃ f, fuel = f + 1 := ⟨fuel - 1, by omega⟩
    simp [tpushTailF]
  | k + 1, fuel, h, parentNode, hf, hk => by
    obtain ⟨f, rfl⟩ : ∃ f, fuel = f + 1 := ⟨fuel - 1, by omega⟩
    have ih := fun h parentNode => tpushTailF_fuel a tailNode k f h parentNode (by omega)
      (by simp only [BITS_eq] at *; omega)
    rw [tpushTailF, tpushTailF]
    simp only [sub32_step hk, ih]

theorem popTailF_fuel (a : A) :
    ∀ (k fuel : Nat) (h : Heap α) (node : N α), k < fuel → BITS * (k + 1) < U32 →
      popTailF a fuel h (BITS * (k + 1)) node = popTailF a (k + 1) h (BITS * (k + 1)) node
  | 0, fuel, h, node, hf, _ => by
    obtain ⟨f, rfl⟩ : ∃ f, fuel = f + 1 := ⟨fuel - 1, by omega⟩
    simp [popTailF]
  | k + 1, fuel, h, node, hf, hk => by
    obtain ⟨f, rfl⟩ : ∃ f, fuel = f + 1 := ⟨fuel - 1, by omega⟩
    have ih := fun h node => popTailF_fuel a k f h node (by omega)
      (by simp only [BITS_eq] at *; omega)
    rw [popTailF, popTailF]
    simp only [sub32_step hk, ih]

theorem tpopTailF_fuel (a : TA) :
    ∀ (k fuel : Nat) (h : Heap α) (node : Ptr), k < fuel → BITS * (k + 1) < U32 →
      tpopTailF a fuel h (BITS * (k + 1)) node = tpopTailF a (k + 1) h (BITS * (k + 1)) node
  | 0, fuel, h, node, hf, _ => by
    obtain ⟨f, rfl⟩ : ∃ f, fuel = f + 1 := ⟨fuel - 1, by omega⟩
    simp [tpopTailF]
  | k + 1, fuel, h, node, hf, hk => by
    obtain ⟨f, rfl⟩ : ∃ f, fuel = f + 1 := ⟨fuel - 1, by omega⟩
    have ih := fun h node => tpopTailF_fuel a k f h node (by omega)
      (by simp only [BITS_eq] at *; omega)
    rw [tpopTailF, tpopTailF]
    simp only [sub32_step hk, ih]

/-! ## The persistent recursions only allocate -/

theorem newPathF_frame (edit node : Nat) :
    ∀ (fuel : Nat) {h h' : Heap α} {level q : Nat},
      newPathF edit node fuel h level = some (h', q) → Frame h h' ∅
  | 0, _, _, _, _, e => by rw [newPathF] at e; cases e
  | fuel + 1, h, h', level, q, e => by
    rw [newPathF] at e
    by_cases c : level = 0
    · rw [if_pos c] at e; cases e; exact Frame.refl _ _
    · rw [if_neg c] at e
      obtain ⟨⟨h1, c1⟩, e1, e⟩ := bind_some e
      dsimp only at e
      obtain ⟨ret, -, e⟩ := bind_some e
      cases e
      exact Frame.trans (newPathF_frame edit node fuel e1) (Frame.alloc h1 _ ∅)
        (fun x hx => hx) (fun x hx _ => hx)

/-- The node that `pushTail` returns is a `copyAssign` of the parent with a node
pointer in the slot of the last index of the old tail. -/
theorem pushTailF_top (a : A) (tailNode : Nat) :
    ∀ (fuel : Nat) {h h' : Heap α} {level q : Nat} {parentNode : N α},
      pushTailF a tailNode fuel h level parentNode = some (h', q) →
      Frame h h' ∅ ∧ ∃ c, h'[q]? = some (parentNode.copyAssign
        (((sub32 a._end 1) >>> level) &&& MASK) (Obj.node c) parentNode.edit)
  | 0, _, _, _, _, _, e => by rw [pushTailF] at e; cases e
  | fuel + 1, h, h', level, q, parentNode, e => by
    rw [pushTailF] at e
    by_cases c0 : 32 ≤ level
    · rw [if_pos c0] at e; cases e
    · rw [if_neg c0] at e
      dsimp only at e
      by_cases c1 : level = BITS
      · rw [if_pos c1] at e
        dsimp only [alloc] at e
        cases e
        exact ⟨Frame.alloc h _ ∅, tailNode, get_append_new h _⟩
      · rw [if_neg c1] at e
        obtain ⟨child, -, e⟩ := bind_some e
        cases child with
        | value v => dsimp only at e; cases e
        | node c =>
          dsimp only at e
          obtain ⟨cn, -, e⟩ := bind_some e
          obtain ⟨⟨h1, p⟩, e1, e⟩ := bind_some e
          dsimp only [alloc] at e
          cases e
          exact ⟨Frame.trans (pushTailF_top a tailNode fuel e1).1 (Frame.alloc h1 _ ∅)
            (fun x hx => hx) (fun x hx _ => hx), p, get_append_new h1 _⟩
        | null =>
          dsimp only at e
          obtain ⟨r, -, e⟩ := bind_some e
          obtain ⟨⟨h1, p⟩, e1, e⟩ := bind_some e
          dsimp only [alloc] at e
          cases e
          exact ⟨Frame.trans (newPathF_frame _ _ _ e1) (Frame.alloc h1 _ ∅)
            (fun x hx => hx) (fun x hx _ => hx), p, get_append_new h1 _⟩

theorem mod_pow_succ_zero (y n : Nat) :
    y % 32 ^ (n + 1) = 0 ↔ y % 32 ^ n = 0 ∧ y / 32 ^ n % 32 = 0 := by
  rw [Nat.mod_pow_succ]
  have hp : 0 < 32 ^ n := by positivity
  constructor
  · intro hc
    have h1 : y % 32 ^ n = 0 := by omega
    have h2 : 32 ^ n * (y / 32 ^ n % 32) = 0 := by omega
    exact ⟨h1, (Nat.mul_eq_zero.1 h2).resolve_left (by omega)⟩
  · rintro ⟨h1, h2⟩
    rw [h1, h2]
    simp

/-- The recursion of `popTail` only allocates, and it returns the null node exactly
when the digits of `_end - 2` at the levels from `BITS` up to the level it starts
at are all 0. -/
theorem popTailF_null (a : A) :
    ∀ (j fuel : Nat) {h h' : Heap α} {node : N α} {r : Ptr},
      popTailF a fuel h (BITS * (j + 1)) node = some (h', r) →
      Frame h h' ∅ ∧ (r = none ↔ sub32 a._end 2 / 32 % 32 ^ (j + 1) = 0)
  | _, 0, _, _, _, _, e => by rw [popTailF] at e; cases e
  | 0, fuel + 1, h, h', node, r, e => by
    rw [popTailF] at e
    by_cases c0 : 32 ≤ BITS * (0 + 1)
    · rw [if_pos c0] at e; cases e
    · rw [if_neg c0, if_neg (by simp)] at e
      have hd := digit_eq (sub32 a._end 2) 1
      rw [pow_one, Nat.mul_one] at hd
      rw [zero_add, Nat.mul_one, hd] at e
      rw [zero_add, pow_one]
      by_cases c2 : sub32 a._end 2 / 32 % 32 ≠ 0
      · rw [if_pos c2] at e
        obtain ⟨rn, -, e⟩ := bind_some e
        dsimp only [alloc] at e
        cases e
        exact ⟨Frame.alloc h _ ∅, by simpa using c2⟩
      · rw [if_neg c2] at e
        cases e
        exact ⟨Frame.refl _ _, by simpa using c2⟩
  | j + 1, fuel + 1, h, h', node, r, e => by
    rw [popTailF] at e
    by_cases c0 : 32 ≤ BITS * (j + 1 + 1)
    · rw [if_pos c0] at e; cases e
    · rw [if_neg c0, if_pos (bits_lt_level j), sub32_level (by omega)] at e
      have hd := digit_eq (sub32 a._end 2) (j + 1 + 1)
      rw [hd] at e
      obtain ⟨s, -, e⟩ := bind_some e
      obtain ⟨cp, -, e⟩ := bind_some e
      obtain ⟨cn, -, e⟩ := bind_some e
      obtain ⟨⟨h1, newChild⟩, e1, e⟩ := bind_some e
      dsimp only at e
      obtain ⟨f1, hn⟩ := popTailF_null a j fuel e1
      have hdiv : sub32 a._end 2 / 32 ^ (j + 1 + 1) = sub32 a._end 2 / 32 / 32 ^ (j + 1) := by
        rw [Nat.div_div_eq_div_mul, pow_succ 32 (j + 1), mul_comm]
      rw [mod_pow_succ_zero, ← hn, ← hdiv]
      by_cases c2 : newChild ≠ none ∨ sub32 a._end 2 / 32 ^ (j + 1 + 1) % 32 ≠ 0
      · rw [if_pos c2] at e
        obtain ⟨rn, -, e⟩ := bind_some e
        dsimp only [alloc] at e
        cases e
        refine ⟨Frame.trans f1 (Frame.alloc h1 _ ∅) (fun x hx => hx) (fun x hx _ => hx), ?_⟩
        constructor
        · intro hc; cases hc
        · rintro ⟨h1', h2'⟩
          rcases c2 with c2 | c2
          · exact absurd h1' c2
          · exact absurd h2' c2
      · rw [if_neg c2] at e
        cases e
        refine ⟨f1, fun _ => ?_, fun _ => rfl⟩
        by_contra hc
        apply c2
        by_cases h3 : newChild = none
        · exact Or.inr (fun h4 => hc ⟨h3, h4⟩)
        · exact Or.inl h3

/-- The node that `popTail` returns from a level above `BITS`, when the digit of
`_end - 2` at that level is not 0: a `copyAssign` of the node it was given, with
what the recursion returned in the slot of that digit. -/
theorem popTailF_top (a : A) {k fuel : Nat} {h h' : Heap α} {node : N α} {r : Ptr}
    (e : popTailF a fuel h (BITS * (k + 1 + 1)) node = some (h', r))
    (hd : sub32 a._end 2 / 32 ^ (k + 1 + 1) % 32 ≠ 0) :
    Frame h h' ∅ ∧ ∃ q nc ed, r = some q ∧
      h'[q]? = some (node.copyAssign (sub32 a._end 2 / 32 ^ (k + 1 + 1) % 32) (Obj.ofN nc) ed) ∧
      (nc = none ↔ sub32 a._end 2 / 32 % 32 ^ (k + 1) = 0) := by
  obtain ⟨f, rfl⟩ : ∃ f, fuel = f + 1 := by
    cases fuel with
    | zero => rw [popTailF] at e; cases e
    | succ f => exact ⟨f, rfl⟩
  rw [popTailF] at e
  by_cases c0 : 32 ≤ BITS * (k + 1 + 1)
  · rw [if_pos c0] at e; cases e
  · rw [if_neg c0, if_pos (bits_lt_level k), sub32_level (by omega)] at e
    have hdg := digit_eq (sub32 a._end 2) (k + 1 + 1)
    rw [hdg] at e
    obtain ⟨s, -, e⟩ := bind_some e
    obtain ⟨cp, -, e⟩ := bind_some e
    obtain ⟨cn, -, e⟩ := bind_some e
    obtain ⟨⟨h1, newChild⟩, e1, e⟩ := bind_some e
    dsimp only at e
    obtain ⟨f1, hn⟩ := popTailF_null a k f e1
    rw [if_pos (Or.inr hd)] at e
    obtain ⟨rn, -, e⟩ := bind_some e
    dsimp only [alloc] at e
    cases e
    exact ⟨Frame.trans f1 (Frame.alloc h1 _ ∅) (fun x hx => hx) (fun x hx _ => hx),
      h1.length, newChild, rn.edit, rfl, get_append_new h1 _, hn⟩

/-! ## The shift as a function of `_end` -/

theorem mul_cmp {T d j : Nat} (hj : j ≠ d) : j * T + T ≤ d * T ∨ d * T + T ≤ j * T := by
  rcases Nat.lt_or_gt_of_ne hj with h | h
  · left
    have := Nat.mul_le_mul_right T (Nat.succ_le_of_lt h)
    rw [Nat.succ_mul] at this
    exact this
  · right
    have := Nat.mul_le_mul_right T (Nat.succ_le_of_lt h)
    rw [Nat.succ_mul] at this
    exact this

/-- The digit of `m + 31`, the last index of a full tail, at the level of the root. -/
theorem push_digit {m k : Nat} (h32 : 32 ∣ m) (hlo : 32 ^ (k + 1) < m)
    (hhi : m + 32 ≤ 32 ^ (k + 1 + 1)) :
    ∃ d, (m + 31) / 32 ^ (k + 1) % 32 = d ∧ 1 ≤ d ∧ d < 32 ∧ d * 32 ^ (k + 1) ≤ m ∧
      m + 32 ≤ d * 32 ^ (k + 1) + 32 ^ (k + 1) := by
  obtain ⟨hd, h1, h2⟩ := digit_spec (k + 1) 0 (m + 31) (dvd_zero _) (Nat.zero_le _) (by omega)
  refine ⟨_, rfl, ?_, hd, ?_, ?_⟩
  · by_contra hc
    have h0 : (m + 31) / 32 ^ (k + 1) % 32 = 0 := by omega
    rw [h0] at h2
    have := pow_ge_32 k
    omega
  · obtain ⟨c, rfl⟩ := h32
    generalize (32 * c + 31) / 32 ^ (k + 1) % 32 = d at *
    have hT : 32 ^ (k + 1) = 32 * 32 ^ k := pow_succ' 32 k
    rw [hT] at h1 ⊢
    have e1 : d * (32 * 32 ^ k) = 32 * (d * 32 ^ k) := by ring
    omega
  · obtain ⟨c, rfl⟩ := h32
    generalize (32 * c + 31) / 32 ^ (k + 1) % 32 = d at *
    have hT : 32 ^ (k + 1) = 32 * 32 ^ k := pow_succ' 32 k
    rw [hT] at h2 ⊢
    have e1 : d * (32 * 32 ^ k) = 32 * (d * 32 ^ k) := by ring
    have e2 : (d + 1) * (32 * 32 ^ k) = 32 * (d * 32 ^ k) + 32 * 32 ^ k := by ring
    omega

/-- The digit of `m - 1`, the last index of the last leaf, at the level of the root,
and when the digits below it down to the level `BITS` are all 0. -/
theorem pop_digit {m k : Nat} (h32 : 32 ∣ m) (hlo : 32 ^ (k + 1) < m)
    (hhi : m ≤ 32 ^ (k + 1 + 1)) :
    ∃ d, (m - 1) / 32 ^ (k + 1) % 32 = d ∧ 1 ≤ d ∧ d < 32 ∧ d * 32 ^ (k + 1) + 32 ≤ m ∧
      m ≤ d * 32 ^ (k + 1) + 32 ^ (k + 1) ∧
      ((m - 1) / 32 % 32 ^ k = 0 ↔ m = d * 32 ^ (k + 1) + 32) := by
  have hge := pow_ge_32 k
  obtain ⟨hd, h1, h2⟩ := digit_spec (k + 1) 0 (m - 1) (dvd_zero _) (Nat.zero_le _) (by omega)
  have hT : 32 ^ (k + 1) = 32 * 32 ^ k := pow_succ' 32 k
  have hP : 0 < 32 ^ k := by positivity
  obtain ⟨c, rfl⟩ := h32
  have hy : (32 * c - 1) / 32 = c - 1 := by omega
  have hdiv : (32 * c - 1) / 32 ^ (k + 1) = (c - 1) / 32 ^ k := by
    rw [hT, ← Nat.div_div_eq_div_mul, hy]
  have hlt : (c - 1) / 32 ^ k < 32 := by
    rw [← hdiv]
    exact Nat.div_lt_of_lt_mul (by rw [pow_succ 32 (k + 1), mul_comm] at hhi; omega)
  have hdm := Nat.div_add_mod (c - 1) (32 ^ k)
  rw [hdiv, Nat.mod_eq_of_lt hlt] at h1 h2 ⊢
  rw [hy]
  generalize (c - 1) / 32 ^ k = d at *
  generalize (c - 1) % 32 ^ k = r at *
  rw [hT] at h1 h2 hlo ⊢
  have e1 : d * (32 * 32 ^ k) = 32 * (d * 32 ^ k) := by ring
  have e2 : (d + 1) * (32 * 32 ^ k) = 32 * (d * 32 ^ k) + 32 * 32 ^ k := by ring
  have e3 : 32 ^ k * d = d * 32 ^ k := mul_comm _ _
  refine ⟨d, rfl, ?_, hlt, ?_, ?_, ?_⟩
  · by_contra hc
    have h0 : d = 0 := by omega
    subst h0
    omega
  · omega
  · omega
  · constructor <;> intro hc <;> omega

theorem Spine.grow_heap {h h' : Heap α} {m : Nat} (f : Frame h h' ∅) :
    ∀ {k : Nat} {p : Ptr}, Spine h m k p → Spine h' m k p
  | 0, _, _ => trivial
  | k + 1, p, hs => by
    obtain ⟨q, n, hp, hn, hl, hv, hsl, s0, c, h0, ht, hc⟩ := hs
    exact ⟨q, n, hp, by rw [f.2 q (get_lt hn) (by simp)]; exact hn, hl, hv, hsl, s0, c, h0, ht,
      Spine.grow_heap f hc⟩

/-- A trie whose slots are all taken stays as it is when the number of elements
changes above it. -/
theorem Spine.full {h : Heap α} {m m' : Nat} :
    ∀ {k : Nat} {p : Ptr}, 31 * 32 ^ (k + 1) < m → 31 * 32 ^ (k + 1) < m' → Spine h m k p →
      Spine h m' k p
  | 0, _, _, _, _ => trivial
  | k + 1, p, h1, h2, hs => by
    obtain ⟨q, n, hp, hn, hl, hv, hsl, s0, c, h0, ht, hc⟩ := hs
    have hpow : 32 ^ (k + 1) ≤ 32 ^ (k + 1 + 1) := Nat.pow_le_pow_right (by norm_num) (by omega)
    refine ⟨q, n, hp, hn, hl, hv, fun j hj1 hj2 => ?_, s0, c, h0, ht,
      Spine.full (by omega) (by omega) hc⟩
    rw [hsl j hj1 hj2]
    have hj : j * 32 ^ (k + 1 + 1) ≤ 31 * 32 ^ (k + 1 + 1) :=
      Nat.mul_le_mul_right _ (by rw [BRANCHES_eq] at hj2; omega)
    constructor <;> intro hc' <;> omega

theorem minimal_static (h : Heap α) : Minimal h EMPTY :=
  ⟨rfl, by decide, 0, rfl, by decide, fun hc => absurd hc (by decide), trivial⟩

/-- The height is determined by the number of elements in the trie. -/
theorem height_unique {m k k' : Nat} (h1 : m ≤ 32 ^ (k + 1 + 1))
    (h2 : 0 < k → 32 ^ (k + 1) < m) (h1' : m ≤ 32 ^ (k' + 1 + 1))
    (h2' : 0 < k' → 32 ^ (k' + 1) < m) : k = k' := by
  by_contra hne
  rcases Nat.lt_or_gt_of_ne hne with hlt | hlt
  · have := h2' (by omega)
    have hp : 32 ^ (k + 1 + 1) ≤ 32 ^ (k' + 1) := Nat.pow_le_pow_right (by norm_num) (by omega)
    omega
  · have := h2 (by omega)
    have hp : 32 ^ (k' + 1 + 1) ≤ 32 ^ (k + 1) := Nat.pow_le_pow_right (by norm_num) (by omega)
    omega

theorem toN_ofN (p : Ptr) : (Obj.ofN p : Obj α).toN = some p := by
  cases p <;> rfl

theorem ofN_null_iff (p : Ptr) : (Obj.ofN p : Obj α) = Obj.null ↔ p = none := by
  cases p <;> simp [Obj.ofN]

theorem isNull_iff (o : Obj α) : o.isNull = true ↔ o = Obj.null := by
  cases o <;> simp [Obj.isNull]

theorem Frame.snoc {h h1 : Heap α} (f : Frame h h1 ∅) (n : N α) : Frame h (h1 ++ [n]) ∅ :=
  Frame.trans f (Frame.alloc h1 n ∅) (fun _ hx => hx) (fun _ hx _ => hx)

/-- Persistent `push` keeps the shift minimal. -/
theorem push_minimal {h : Heap α} {a : A} {obj : Obj α} {r : Heap α × A} (hm : Minimal h a)
    (hlen : a._end + 1 < U32) (e : ArrayImp.push h a obj = some r) : Minimal r.1 r.2 := by
  obtain ⟨hst, hU, k, hsh, hcap, hmin, hsp⟩ := hm
  have hto := tailoff_toff a hU
  have hadd : add32 a._end 1 = a._end + 1 := add32_eq hlen
  have hsb : sub32 a._end (tailoff a) = a._end - toff a._end := by
    rw [hto]; exact sub32_eq (toff_spec _).2.1 hU
  unfold ArrayImp.push at e
  rw [hsb, hadd] at e
  by_cases c1 : a._end - toff a._end < BRANCHES
  · rw [if_pos c1] at e
    obtain ⟨t, -, e⟩ := bind_some e
    obtain ⟨nt, -, e⟩ := bind_some e
    dsimp only [alloc] at e
    cases e
    have ht : toff (a._end + 1) = toff a._end := toff_room (by rw [BRANCHES_eq] at c1; exact c1)
    refine ⟨rfl, hlen, k, hsh, ?_, ?_, ?_⟩
    · show toff (a._end + 1) ≤ _
      rw [ht]; exact hcap
    · intro hk
      show _ < toff (a._end + 1)
      rw [ht]; exact hmin hk
    · show Spine _ (toff (a._end + 1)) k a._root
      rw [ht]; exact Spine.grow_heap (Frame.alloc h _ ∅) hsp
  · rw [if_neg c1] at e
    obtain ⟨hto1, hfl⟩ := toff_full (e := a._end) (by rw [BRANCHES_eq] at c1; exact c1)
    have hm32 : 32 ∣ toff a._end := (toff_spec _).1
    obtain ⟨t, -, e⟩ := bind_some e
    obtain ⟨rn, hrn, e⟩ := bind_some e
    dsimp only [alloc] at e
    by_cases c2 : 31 ≤ a._shift
    · rw [if_pos c2] at e; cases e
    · rw [if_neg c2] at e
      have hovf := overflow_iff hfl hm32 hcap
      have hT : 32 ^ (k + 1 + 1) = 32 * 32 ^ (k + 1) := pow_succ' 32 (k + 1)
      have hge := pow_ge_32 k
      by_cases c3 : a._end >>> BITS > 1 <<< a._shift
      · rw [if_pos c3] at e
        have hfull : toff a._end = 32 ^ (k + 1 + 1) := hovf.1 (by rw [← hsh]; exact c3)
        obtain ⟨⟨h2, np⟩, e1, e⟩ := bind_some e
        dsimp only at e
        obtain ⟨nr0, hnr0, e⟩ := bind_some e
        obtain ⟨nr, hnr, e⟩ := bind_some e
        obtain ⟨newTail, -, e⟩ := bind_some e
        cases e
        rw [N.setSlot_eq _ _ _ (by simp [N.create, BRANCHES_eq])] at hnr0
        cases hnr0
        rw [N.setSlot_eq _ _ _ (by simp [N.create, BRANCHES_eq])] at hnr
        cases hnr
        obtain ⟨g0, g1, gl, grest⟩ := set_set_get (α := α) (Obj.ofN a._root) (Obj.node np)
        have f1 : Frame h h2 ∅ := Frame.trans (Frame.alloc h _ ∅) (newPathF_frame _ _ _ e1)
          (fun x hx => hx) (fun x hx _ => hx)
        have hT2 : 32 ^ (k + 1 + 1 + 1) = 32 * 32 ^ (k + 1 + 1) := pow_succ' 32 (k + 1 + 1)
        refine ⟨rfl, hlen, k + 1, ?_, ?_, ?_, ?_⟩
        · show add32 a._shift BITS = _
          rw [hsh, add32_level (by rw [← hsh]; omega)]
        · show toff (a._end + 1) ≤ _
          rw [hto1]; omega
        · intro _
          show _ < toff (a._end + 1)
          rw [hto1]; omega
        · show Spine _ (toff (a._end + 1)) (k + 1) (some h2.length)
          rw [hto1]
          refine ⟨h2.length, _, rfl, (get_append_two h2 _ _).1, rfl, gl, fun j hj1 hj2 => ?_,
            Obj.ofN a._root, a._root, g0, toN_ofN _,
            Spine.grow_heap ((f1.snoc _).snoc _) (Spine.full (by omega) (by omega) hsp)⟩
          by_cases hj : j = 1
          · subst hj
            constructor
            · intro hc
              have := g1.symm.trans hc
              cases this
            · intro hc; omega
          · have hj2' : 2 * 32 ^ (k + 1 + 1) ≤ j * 32 ^ (k + 1 + 1) :=
              Nat.mul_le_mul_right _ (by omega)
            constructor
            · intro _; omega
            · intro _; exact grest j (by omega) hj2
      · rw [if_neg c3] at e
        have hne : toff a._end ≠ 32 ^ (k + 1 + 1) := fun hc => c3 (by rw [hsh]; exact hovf.2 hc)
        have hroom : toff a._end + 32 ≤ 32 ^ (k + 1 + 1) := by
          obtain ⟨c, hc⟩ := hm32
          omega
        obtain ⟨⟨h2, newRoot⟩, e1, e⟩ := bind_some e
        dsimp only at e
        obtain ⟨newTail, -, e⟩ := bind_some e
        cases e
        unfold pushTail at e1
        obtain ⟨f1, c, hc⟩ := pushTailF_top a _ _ e1
        have f2 : Frame h (h2 ++ [newTail]) ∅ :=
          (Frame.trans (Frame.alloc h _ ∅) f1 (fun x hx => hx) (fun x hx _ => hx)).snoc _
        refine ⟨rfl, hlen, k, hsh, ?_, ?_, ?_⟩
        · show toff (a._end + 1) ≤ _
          rw [hto1]; omega
        · intro hk
          show _ < toff (a._end + 1)
          rw [hto1]
          have := hmin hk
          omega
        · show Spine _ (toff (a._end + 1)) k (some newRoot)
          rw [hto1]
          cases k with
          | zero => trivial
          | succ k' =>
            obtain ⟨q0, n0, hroot, hn0, hl, hv, hsl, s0, c0, h0, ht0, hc0⟩ := hsp
            have hrn' : rn = n0 := by
              simp only [ArrayImp.root, hroot, deref, hn0] at hrn
              exact (Option.some.inj hrn).symm
            subst hrn'
            have hlo := hmin (Nat.succ_pos _)
            obtain ⟨d, hd, hd1, hd32, hdlo, hdhi⟩ := push_digit hm32 hlo hroom
            have hdig : (sub32 a._end 1 >>> a._shift) &&& MASK = d := by
              rw [sub32_eq (by omega) hU, hsh, digit_eq, ← hd]
              congr 2
              omega
            rw [hdig] at hc
            have hget := fun j (hj : j < BRANCHES) =>
              N.copyAssign_get rn d (Obj.node c) rn.edit hl hv hj
            have hTk : 32 ^ (k' + 1 + 1) = 32 * 32 ^ (k' + 1) := pow_succ' 32 (k' + 1)
            refine ⟨newRoot, rn.copyAssign d (Obj.node c) rn.edit, rfl, ?_,
              (N.copyAssign_length _ _ _ _).trans hl, N.copyAssign_v_length _ _ _ _,
              fun j hj1 hj2 => ?_, s0, c0, ?_, ht0,
              Spine.grow_heap f2 (Spine.full (by omega) (by omega) hc0)⟩
            · rw [get_append_old _ _ (get_lt hc)]
              exact hc
            · rw [hget j hj2]
              by_cases hj : j = d
              · subst hj
                rw [if_pos rfl]
                constructor
                · intro hc'; cases hc'
                · intro hc'; omega
              · rw [if_neg hj, hsl j hj1 hj2]
                rcases mul_cmp (T := 32 ^ (k' + 1 + 1)) hj with h3 | h3
                · constructor <;> intro _ <;> omega
                · constructor <;> intro _ <;> omega
            · rw [hget 0 (by rw [BRANCHES_eq]; omega), if_neg (by omega)]
              exact h0

/-- Persistent `pop` keeps the shift minimal; and when it brings the number of
elements in the trie down to what the first child of the root holds, it lowers
the shift by `BITS` and makes that child the root. -/
theorem pop_minimal {h : Heap α} {a : A} {r : Heap α × A} (hm : Minimal h a)
    (hne : a._end ≠ 0) (e : ArrayImp.pop h a = some r) :
    Minimal r.1 r.2 ∧ r.2._end = a._end - 1 ∧
    (BITS < a._shift → toff (a._end - 1) ≤ 32 ^ (a._shift / BITS) →
      r.2._shift = a._shift - BITS ∧
      ∃ rn s0, root h a = some rn ∧ rn.slot 0 = some s0 ∧ s0.toN = some r.2._root) := by
  obtain ⟨hst, hU, k, hsh, hcap, hmin, hsp⟩ := hm
  have hto := tailoff_toff a hU
  have h1e : sub32 a._end 1 = a._end - 1 := sub32_eq (by omega) hU
  have hsb : sub32 a._end (tailoff a) = a._end - toff a._end := by
    rw [hto]; exact sub32_eq (toff_spec _).2.1 hU
  have hdivk : a._shift / BITS = k + 1 := by
    rw [hsh, Nat.mul_div_cancel_left _ (by decide : 0 < BITS)]
  unfold ArrayImp.pop at e
  rw [hsb, h1e] at e
  by_cases c0 : a._end = 1
  · rw [if_pos c0] at e
    cases e
    refine ⟨minimal_static h, by rw [c0]; rfl, fun hb _ => ?_⟩
    exfalso
    have hk : 0 < k := by rw [hsh] at hb; simp only [BITS_eq] at hb; omega
    have := hmin hk
    rw [c0] at this
    have h0 : toff 1 = 0 := rfl
    omega
  · rw [if_neg c0] at e
    obtain ⟨n, hn⟩ : ∃ n, a._end = n + 1 := ⟨a._end - 1, by omega⟩
    have hn1 : a._end - 1 = n := by omega
    by_cases c1 : 1 < a._end - toff a._end
    · rw [if_pos c1] at e
      obtain ⟨t, -, e⟩ := bind_some e
      obtain ⟨r0, -, e⟩ := bind_some e
      dsimp only [alloc] at e
      cases e
      have ht : toff (a._end - 1) = toff a._end := by
        rw [hn1, hn]; exact toff_pop_tail (by rw [← hn]; exact c1)
      refine ⟨⟨rfl, by show a._end - 1 < U32; omega, k, hsh, ?_, ?_, ?_⟩, rfl, fun hb hle => ?_⟩
      · show toff (a._end - 1) ≤ _
        rw [ht]; exact hcap
      · intro hk
        show _ < toff (a._end - 1)
        rw [ht]; exact hmin hk
      · show Spine _ (toff (a._end - 1)) k a._root
        rw [ht]; exact Spine.grow_heap (Frame.alloc h _ ∅) hsp
      · exfalso
        have hk : 0 < k := by rw [hsh] at hb; simp only [BITS_eq] at hb; omega
        have := hmin hk
        rw [ht, hdivk] at hle
        omega
    · rw [if_neg c1] at e
      obtain ⟨hm1, hm32, hge32, hm2⟩ := toff_pop_leaf (n := n) (by omega)
        (by rw [← hn]; exact c1)
      rw [hn, hm1] at hcap hmin hsp
      obtain ⟨newTail, -, e⟩ := bind_some e
      obtain ⟨rn, hrn, e⟩ := bind_some e
      obtain ⟨⟨h1, popped⟩, hp, e⟩ := bind_some e
      dsimp only at e
      cases k with
      | zero =>
        rw [if_neg (by rw [hsh]; simp)] at e
        cases e
        refine ⟨⟨rfl, by show a._end - 1 < U32; omega, 0, hsh, ?_,
          fun hc => absurd hc (by decide), trivial⟩, rfl,
          fun hb _ => absurd hb (by rw [hsh]; simp)⟩
        show toff (a._end - 1) ≤ _
        rw [hn1, hm2]; omega
      | succ k' =>
        have hlo := hmin (Nat.succ_pos _)
        obtain ⟨d, hd, hd1, hd32, hdlo, hdhi, hdz⟩ := pop_digit hm32 hlo hcap
        have hT : 32 ^ (k' + 1 + 1) = 32 * 32 ^ (k' + 1) := pow_succ' 32 (k' + 1)
        have hT3 : 32 ^ (k' + 1 + 1 + 1) = 32 * 32 ^ (k' + 1 + 1) := pow_succ' 32 (k' + 1 + 1)
        have hge := pow_ge_32 k'
        have hx : sub32 a._end 2 = n - 1 := by rw [sub32_eq (by omega) hU]; omega
        have hlev : BITS * (k' + 1 + 1) < 32 := by
          have h4 : 32 ^ (k' + 1 + 1) < 32 ^ 7 := by
            calc 32 ^ (k' + 1 + 1) < n := hlo
              _ < 32 ^ 7 := by unfold U32 at hU; omega
          have h5 : k' + 1 + 1 < 7 := (Nat.pow_lt_pow_iff_right (by norm_num)).1 h4
          simp only [BITS_eq]; omega
        unfold popTail at hp
        rw [hsh] at hp
        obtain ⟨f1, q, nc, ed, hpq, hq, hnc⟩ := popTailF_top a hp (by rw [hx, hd]; omega)
        rw [hx, hd] at hq
        rw [hx] at hnc
        subst hpq
        dsimp only at e
        rw [if_pos (by rw [hsh]; exact bits_lt_level k')] at e
        obtain ⟨nr, hnr, e⟩ := bind_some e
        have hnr' : nr = rn.copyAssign d (Obj.ofN nc) ed := Option.some.inj (hnr.symm.trans hq)
        subst hnr'
        obtain ⟨s1, hs1, e⟩ := bind_some e
        obtain ⟨q0, n0, hroot, hn0, hl, hv, hsl, s0, c0, h0, ht0, hc0⟩ := hsp
        have hrn' : rn = n0 := by
          simp only [ArrayImp.root, hroot, deref, hn0] at hrn
          exact (Option.some.inj hrn).symm
        subst hrn'
        have hget := fun j (hj : j < BRANCHES) =>
          N.copyAssign_get rn d (Obj.ofN nc) ed hl hv hj
        have hslot0 : (rn.copyAssign d (Obj.ofN nc) ed)._v[0]? = some s0 := by
          rw [hget 0 (by rw [BRANCHES_eq]; omega), if_neg (by omega)]
          exact h0
        have hslots : ∀ j, 1 ≤ j → j < BRANCHES →
            ((rn.copyAssign d (Obj.ofN nc) ed)._v[j]? = some Obj.null ↔
              n - 32 ≤ j * 32 ^ (k' + 1 + 1)) := by
          intro j hj1 hj2
          rw [hget j hj2]
          by_cases hj : j = d
          · subst hj
            rw [if_pos rfl]
            constructor
            · intro hc
              have h3 : nc = none := (ofN_null_iff nc).1 (Option.some.inj hc)
              have := hdz.1 (hnc.1 h3)
              omega
            · intro hc
              have h3 : nc = none := hnc.2 (hdz.2 (by omega))
              rw [h3]; rfl
          · rw [if_neg hj, hsl j hj1 hj2]
            rcases mul_cmp (T := 32 ^ (k' + 1 + 1)) hj with h3 | h3
            · constructor <;> intro _ <;> omega
            · constructor <;> intro _ <;> omega
        have hnull : s1 = Obj.null ↔ n - 32 ≤ 32 ^ (k' + 1 + 1) := by
          have h3 := hslots 1 (le_refl 1) (by rw [BRANCHES_eq]; omega)
          rw [one_mul] at h3
          rw [← h3]
          unfold N.slot at hs1
          rw [hs1]
          constructor
          · intro hc; rw [hc]
          · intro hc; exact Option.some.inj hc
        have hfullc : 31 * 32 ^ (k' + 1) < n - 32 := by omega
        by_cases c3 : s1.isNull = true
        · rw [if_pos c3] at e
          obtain ⟨s0', hs0', e⟩ := bind_some e
          obtain ⟨p0, hp0, e⟩ := bind_some e
          cases e
          have hnu := hnull.1 ((isNull_iff s1).1 c3)
          unfold N.slot at hs0'
          have hs0eq : s0' = s0 := Option.some.inj (hs0'.symm.trans hslot0)
          subst hs0eq
          have hp0eq : p0 = c0 := Option.some.inj (hp0.symm.trans ht0)
          subst hp0eq
          have hsub : sub32 a._shift BITS = BITS * (k' + 1) := by
            rw [hsh, sub32_level hlev]
          refine ⟨⟨rfl, by show a._end - 1 < U32; omega, k', hsub, ?_, ?_, ?_⟩, rfl,
            fun _ _ => ⟨?_, rn, s0', hrn, h0, ht0⟩⟩
          · show toff (a._end - 1) ≤ _
            rw [hn1, hm2]; exact hnu
          · intro _
            show _ < toff (a._end - 1)
            rw [hn1, hm2]; omega
          · show Spine _ (toff (a._end - 1)) k' p0
            rw [hn1, hm2]
            exact Spine.grow_heap f1 (Spine.full (by omega) hfullc hc0)
          · show sub32 a._shift BITS = a._shift - BITS
            rw [hsub, hsh]
            simp only [BITS_eq]; omega
        · rw [if_neg c3] at e
          cases e
          have hnn : ¬ n - 32 ≤ 32 ^ (k' + 1 + 1) := fun hc =>
            c3 ((isNull_iff s1).2 (hnull.2 hc))
          refine ⟨⟨rfl, by show a._end - 1 < U32; omega, k' + 1, hsh, ?_, ?_, ?_⟩, rfl,
            fun _ hle => ?_⟩
          · show toff (a._end - 1) ≤ _
            rw [hn1, hm2]; omega
          · intro _
            show _ < toff (a._end - 1)
            rw [hn1, hm2]; omega
          · show Spine _ (toff (a._end - 1)) (k' + 1) (some q)
            rw [hn1, hm2]
            exact ⟨q, _, rfl, hq, (N.copyAssign_length _ _ _ _).trans hl,
              N.copyAssign_v_length _ _ _ _, hslots, s0, c0, hslot0, ht0,
              Spine.grow_heap f1 (Spine.full (by omega) hfullc hc0)⟩
          · exfalso
            rw [hn1, hm2, hdivk] at hle
            exact hnn hle

theorem Minimal.later {h h' : Heap α} {a : A} (hm : Minimal h a) (f : Frame h h' ∅) :
    Minimal h' a := by
  obtain ⟨hst, hU, k, hsh, hcap, hmin, hsp⟩ := hm
  exact ⟨hst, hU, k, hsh, hcap, hmin, Spine.grow_heap f hsp⟩

/-- Every vector reachable through `push` and `pop` has the minimal shift. -/
theorem PushPop.minimal {h : Heap α} {a : A} (hr : PushPop α h a) : Minimal h a := by
  induction hr with
  | empty => exact minimal_static _
  | later h h' a _ f ih => exact ih.later f
  | push h h' a a' v _ hlen e ih => exact push_minimal ih hlen e
  | pop h h' a a' _ e ih =>
    unfold A.pop at e
    by_cases c : a.size ≠ 0
    · rw [if_pos c] at e
      have hne : a._end ≠ 0 := fun hc => c (by rw [A.size, ih.1, hc]; rfl)
      exact (pop_minimal ih hne e).1
    · rw [if_neg c] at e
      cases e
      exact ih

/-- The push onto a vector of `2 ^ 32 - 1` elements: `_end` wraps around to 0 and
the shift stays what it was, 30. -/
theorem PRep.push_wrap_shift {h : Heap α} {a : A} {xs : List α} (x : α) (hp : PRep h a xs)
    (hlen : xs.length = 4294967295) :
    ∃ h' a', A.push h a x = some (h', a') ∧ a'._end = 0 ∧ a'._shift = 30 := by
  obtain ⟨k, rp, tp, tn, S, r, htn⟩ := hp
  have hU : a._end < U32 := by rw [r.hend]; exact r.hlt
  have ht := tailoff_toff a hU
  rw [r.hend, hlen] at ht
  have ht2 : tailoff a = 4294967264 := by rw [ht]; rfl
  have htl : tn.length = 31 := by rw [htn, ht2, hlen]
  have hk : k = 5 := height_unique (m := 4294967264) (by rw [← ht2]; exact r.hcap)
    (fun hk => by rw [← ht2]; exact r.hmin hk) (by norm_num) (fun _ => by norm_num)
  have hset := N.setSlot_eq (tn.copy 32 tn.edit) 31 (Obj.value x)
    (by rw [N.copy_v_length, BRANCHES_eq]; omega)
  refine ⟨h ++ [⟨tn.edit, 32, (tn.copy 32 tn.edit)._v.set 31 (Obj.value x)⟩],
    ⟨0, 0, a._shift, a._root, some h.length⟩, ?_, rfl, ?_⟩
  · unfold A.push ArrayImp.push
    rw [if_pos (by rw [r.hend, ht2, hlen, BRANCHES_eq]; decide)]
    simp only [ArrayImp.tail, r.htail, deref, r.htn, Option.bind_eq_bind, Option.some_bind, htl]
    rw [show add32 31 1 = 32 from rfl, hset, Option.some_bind, r.hend, hlen,
      show add32 4294967295 1 = 0 from rfl]
    rfl
  · show a._shift = 30
    rw [r.hshift, hk]
    rfl

theorem forty_rep : PRep forty.1 forty.2 (List.range 40) ∧ forty.2._start = 0 := by
  obtain ⟨h, v, e, hp, -, hs⟩ := PRep.pushAll [] (List.range 40) (PRep.empty (α := Nat)) rfl
    (by rw [List.nil_append, List.length_range]; decide)
  rw [List.nil_append] at hp
  have : forty = (h, v) := by unfold forty; rw [e]; rfl
  rw [this]
  exact ⟨hp, hs⟩

/-! ## The runs with fuel agree with the model and come back -/

theorem Res.toOption_bind {β γ : Type} (x : Res β) (f : β → Res γ) :
    (x >>= f).toOption = x.toOption >>= fun b => (f b).toOption := by
  cases x <;> rfl

theorem Res.toOption_ofOption {β : Type} (o : Option β) : (Res.ofOption o).toOption = o := by
  cases o <;> rfl

theorem Res.toOption_ok {β : Type} (b : β) : (Res.ok b).toOption = some b := rfl

theorem Res.toOption_ub {β : Type} : (Res.ub : Res β).toOption = none := rfl

theorem Res.bind_back {β γ : Type} {x : Res β} {f : β → Res γ} (hx : x ≠ Res.outOfFuel)
    (hf : ∀ b, f b ≠ Res.outOfFuel) : (x >>= f) ≠ Res.outOfFuel := by
  cases x with
  | ok b => exact hf b
  | ub => intro hc; cases hc
  | outOfFuel => exact absurd rfl hx

theorem Res.ofOption_back {β : Type} (o : Option β) : Res.ofOption o ≠ Res.outOfFuel := by
  cases o <;> intro hc <;> cases hc

theorem Res.ok_back {β : Type} (b : β) : Res.ok b ≠ Res.outOfFuel := fun hc => by cases hc

theorem Res.ub_back {β : Type} : (Res.ub : Res β) ≠ Res.outOfFuel := fun hc => by cases hc

theorem newPathF_eq (edit node : Nat) : ∀ (fuel : Nat) (h : Heap α) (level : Nat),
    newPathF edit node fuel h level = (newPathR edit node fuel h level).toOption
  | 0, _, _ => rfl
  | fuel + 1, h, level => by
    rw [newPathF, newPathR]
    split
    · rfl
    · rw [Res.toOption_bind, ← newPathF_eq edit node fuel h (sub32 level BITS)]
      cases newPathF edit node fuel h (sub32 level BITS) with
      | none => rfl
      | some p =>
        obtain ⟨h1, c⟩ := p
        simp only [Option.some_bind, Option.bind_eq_bind, Res.toOption_bind,
          Res.toOption_ofOption]
        rfl

theorem pushTailF_eq (a : A) (tailNode : Nat) : ∀ (fuel : Nat) (h : Heap α) (level : Nat)
    (p : N α), pushTailF a tailNode fuel h level p = (pushTailR a tailNode fuel h level p).toOption
  | 0, _, _, _ => rfl
  | fuel + 1, h, level, p => by
    rw [pushTailF, pushTailR]
    generalize sub32 a._end 1 = e1
    generalize hlv : sub32 level BITS = lv
    split
    · rfl
    · dsimp only
      split
      · rfl
      · rw [Res.toOption_bind, Res.toOption_ofOption]
        cases p.slot (e1 >>> level &&& MASK) with
        | none => rfl
        | some child =>
          cases child with
          | value v => rfl
          | node c =>
            simp only [Option.some_bind, Option.bind_eq_bind, Res.toOption_bind,
              Res.toOption_ofOption]
            cases h[c]? with
            | none => rfl
            | some cn =>
              simp only [Option.some_bind]
              rw [← pushTailF_eq a tailNode fuel h lv cn]
              cases pushTailF a tailNode fuel h lv cn with
              | none => rfl
              | some q => rfl
          | null =>
            simp only [Option.some_bind, Option.bind_eq_bind, Res.toOption_bind,
              Res.toOption_ofOption]
            cases root h a with
            | none => rw [Option.none_bind, Option.none_bind]
            | some r =>
              rw [Option.some_bind, Option.some_bind,
                ← newPathF_eq r.edit tailNode (lv + 1) h lv, newPath]
              cases newPathF r.edit tailNode (lv + 1) h lv with
              | none => rfl
              | some q => rfl

theorem doAssocF_eq (i : Nat) (obj : Obj α) : ∀ (fuel : Nat) (h : Heap α) (level : Nat)
    (node : N α), doAssocF i obj fuel h level node = (doAssocR i obj fuel h level node).toOption
  | 0, _, _, _ => rfl
  | fuel + 1, h, level, node => by
    rw [doAssocF, doAssocR]
    split
    · rfl
    · split
      · rfl
      · simp only [Option.bind_eq_bind, Res.toOption_bind, Res.toOption_ofOption,
          ← doAssocF_eq i obj fuel]
        cases node.slot (i >>> level &&& MASK) with
        | none => rfl
        | some s =>
          simp only [Option.some_bind]
          cases s.toN with
          | none => rfl
          | some sp =>
            simp only [Option.some_bind]
            cases deref h sp with
            | none => rfl
            | some sn =>
              simp only [Option.some_bind]
              cases doAssocF i obj fuel h (sub32 level BITS) sn with
              | none => rfl
              | some q => rfl

theorem checkedSlotsForF_eq (i : Nat) : ∀ (fuel : Nat) (h : Heap α) (level node : Nat),
    checkedSlotsForF i fuel h level node = (checkedSlotsForR i fuel h level node).toOption
  | 0, _, _, _ => rfl
  | fuel + 1, h, level, node => by
    rw [checkedSlotsForF, checkedSlotsForR]
    split
    · rfl
    · split
      · rfl
      · simp only [Option.bind_eq_bind, Res.toOption_bind, Res.toOption_ofOption]
        cases h[node]? with
        | none => rfl
        | some n =>
          simp only [Option.some_bind]
          split
          · simp only [Option.bind_eq_bind, Res.toOption_bind, Res.toOption_ofOption]
            cases n.slot (i >>> level &&& MASK) with
            | none => rfl
            | some s =>
              cases s with
              | null => rfl
              | value v => rfl
              | node c => exact checkedSlotsForF_eq i fuel h (sub32 level BITS) c
          · rfl

theorem uncheckedSlotsForF_eq (i : Nat) : ∀ (fuel : Nat) (h : Heap α) (level : Nat) (node : Ptr),
    uncheckedSlotsForF i fuel h level node = (uncheckedSlotsForR i fuel h level node).toOption
  | 0, _, _, _ => rfl
  | fuel + 1, h, level, node => by
    rw [uncheckedSlotsForF, uncheckedSlotsForR]
    split
    · rfl
    · split
      · rfl
      · simp only [Option.bind_eq_bind, Res.toOption_bind, Res.toOption_ofOption,
          ← uncheckedSlotsForF_eq i fuel]

theorem popTailF_eq (a : A) : ∀ (fuel : Nat) (h : Heap α) (level : Nat) (node : N α),
    popTailF a fuel h level node = (popTailR a fuel h level node).toOption
  | 0, _, _, _ => rfl
  | fuel + 1, h, level, node => by
    rw [popTailF, popTailR]
    split
    · rfl
    · dsimp only
      split
      · simp only [Option.bind_eq_bind, Res.toOption_bind, Res.toOption_ofOption,
          ← popTailF_eq a fuel]
        cases node.slot (sub32 a._end 2 >>> level &&& MASK) with
        | none => rfl
        | some s =>
          simp only [Option.some_bind]
          cases s.toN with
          | none => rfl
          | some cp =>
            simp only [Option.some_bind]
            cases deref h cp with
            | none => rfl
            | some cn =>
              simp only [Option.some_bind]
              cases popTailF a fuel h (sub32 level BITS) cn with
              | none => rfl
              | some q =>
                obtain ⟨h1, nc⟩ := q
                simp only [Option.some_bind]
                split
                · simp only [Option.bind_eq_bind, Res.toOption_bind, Res.toOption_ofOption]
                  cases root h1 a with
                  | none => rfl
                  | some r => rfl
                · rfl
      · split
        · simp only [Option.bind_eq_bind, Res.toOption_bind, Res.toOption_ofOption]
          cases root h a with
          | none => rfl
          | some r => rfl
        · rfl

theorem tpushTailF_eq (a : TA) (tailNode : Nat) : ∀ (fuel : Nat) (h : Heap α) (level : Nat)
    (p : Ptr), tpushTailF a tailNode fuel h level p =
      (tpushTailR a tailNode fuel h level p).toOption
  | 0, _, _, _ => rfl
  | fuel + 1, h, level, p => by
    rw [tpushTailF, tpushTailR]
    generalize sub32 a._end 1 = e1
    generalize sub32 level BITS = lv
    simp only [Option.bind_eq_bind, Res.toOption_bind, Res.toOption_ofOption]
    cases ensureEditable h a p with
    | none => rfl
    | some q =>
      obtain ⟨h1, pn⟩ := q
      simp only [Option.some_bind]
      split
      · rfl
      · split
        · simp only [Option.bind_eq_bind, Res.toOption_bind, Res.toOption_ofOption]
          cases writeSlot h1 pn (e1 >>> level &&& MASK) (Obj.node tailNode) with
          | none => rfl
          | some h2 => rfl
        · simp only [Option.bind_eq_bind, Res.toOption_bind, Res.toOption_ofOption]
          cases h1[pn]? with
          | none => rfl
          | some n =>
            simp only [Option.some_bind]
            cases n.slot (e1 >>> level &&& MASK) with
            | none => rfl
            | some s =>
              cases s with
              | value v => rfl
              | node c =>
                simp only [Option.some_bind, Option.bind_eq_bind, Res.toOption_bind,
                  Res.toOption_ofOption]
                rw [← tpushTailF_eq a tailNode fuel h1 lv (some c)]
                cases tpushTailF a tailNode fuel h1 lv (some c) with
                | none => rfl
                | some r =>
                  obtain ⟨h2, q⟩ := r
                  simp only [Option.some_bind]
                  cases writeSlot h2 pn (e1 >>> level &&& MASK) (Obj.node q) with
                  | none => rfl
                  | some h3 => rfl
              | null =>
                simp only [Option.some_bind, Option.bind_eq_bind, Res.toOption_bind,
                  Res.toOption_ofOption]
                cases root h1 a with
                | none => rw [Option.none_bind, Option.none_bind]
                | some r =>
                  rw [Option.some_bind, Option.some_bind,
                    ← newPathF_eq r.edit tailNode (lv + 1) h1 lv, newPath]
                  cases newPathF r.edit tailNode (lv + 1) h1 lv with
                  | none => rfl
                  | some r2 =>
                    obtain ⟨h2, q⟩ := r2
                    simp only [Option.some_bind]
                    cases writeSlot h2 pn (e1 >>> level &&& MASK) (Obj.node q) with
                    | none => rfl
                    | some h3 => rfl

theorem tdoAssocF_eq (a : TA) (i : Nat) (val : Obj α) : ∀ (fuel : Nat) (h : Heap α)
    (level : Nat) (node : Ptr), tdoAssocF a i val fuel h level node =
      (tdoAssocR a i val fuel h level node).toOption
  | 0, _, _, _ => rfl
  | fuel + 1, h, level, node => by
    rw [tdoAssocF, tdoAssocR]
    simp only [Option.bind_eq_bind, Res.toOption_bind, Res.toOption_ofOption]
    cases ensureEditable h a node with
    | none => rfl
    | some q =>
      obtain ⟨h1, pn⟩ := q
      simp only [Option.some_bind]
      split
      · simp only [Option.bind_eq_bind, Res.toOption_bind, Res.toOption_ofOption]
        cases writeSlot h1 pn (i &&& MASK) val with
        | none => rfl
        | some h2 => rfl
      · split
        · rfl
        · simp only [Option.bind_eq_bind, Res.toOption_bind, Res.toOption_ofOption,
            ← tdoAssocF_eq a i val fuel]
          cases h1[pn]? with
          | none => rfl
          | some n =>
            simp only [Option.some_bind]
            cases n.slot (i >>> level &&& MASK) with
            | none => rfl
            | some s =>
              simp only [Option.some_bind]
              cases s.toN with
              | none => rfl
              | some sp =>
                simp only [Option.some_bind]
                cases tdoAssocF a i val fuel h1 (sub32 level BITS) sp with
                | none => rfl
                | some r =>
                  obtain ⟨h2, q⟩ := r
                  simp only [Option.some_bind]
                  cases writeSlot h2 pn (i >>> level &&& MASK) (Obj.node q) with
                  | none => rfl
                  | some h3 => rfl

theorem editableSlotsForF_eq (a : TA) (i : Nat) : ∀ (fuel : Nat) (h : Heap α) (level node : Nat),
    editableSlotsForF a i fuel h level node = (editableSlotsForR a i fuel h level node).toOption
  | 0, _, _, _ => rfl
  | fuel + 1, h, level, node => by
    rw [editableSlotsForF, editableSlotsForR]
    split
    · rfl
    · split
      · rfl
      · simp only [Option.bind_eq_bind, Res.toOption_bind, Res.toOption_ofOption]
        cases h[node]? with
        | none => rfl
        | some n =>
          simp only [Option.some_bind]
          cases n.slot (i >>> level &&& MASK) with
          | none => rfl
          | some s =>
            simp only [Option.some_bind]
            cases s.toN with
            | none => rfl
            | some c =>
              simp only [Option.some_bind]
              cases ensureEditable h a c with
              | none => rfl
              | some q =>
                obtain ⟨h1, q⟩ := q
                exact editableSlotsForF_eq a i fuel h1 (sub32 level BITS) q

theorem tpopTailF_eq (a : TA) : ∀ (fuel : Nat) (h : Heap α) (level : Nat) (node : Ptr),
    tpopTailF a fuel h level node = (tpopTailR a fuel h level node).toOption
  | 0, _, _, _ => rfl
  | fuel + 1, h, level, node => by
    rw [tpopTailF, tpopTailR]
    simp only [Option.bind_eq_bind, Res.toOption_bind, Res.toOption_ofOption]
    cases ensureEditable h a node with
    | none => rfl
    | some q =>
      obtain ⟨h1, pn⟩ := q
      simp only [Option.some_bind]
      split
      · rfl
      · split
        · simp only [Option.bind_eq_bind, Res.toOption_bind, Res.toOption_ofOption,
            ← tpopTailF_eq a fuel]
          cases h1[pn]? with
          | none => rfl
          | some n =>
            simp only [Option.some_bind]
            cases n.slot (sub32 a._end 2 >>> level &&& MASK) with
            | none => rfl
            | some s =>
              simp only [Option.some_bind]
              cases s.toN with
              | none => rfl
              | some c =>
                simp only [Option.some_bind]
                cases tpopTailF a fuel h1 (sub32 level BITS) c with
                | none => rfl
                | some r =>
                  obtain ⟨h2, nc⟩ := r
                  simp only [Option.some_bind]
                  split
                  · simp only [Option.bind_eq_bind, Res.toOption_bind, Res.toOption_ofOption]
                    cases writeSlot h2 pn (sub32 a._end 2 >>> level &&& MASK) (Obj.ofN nc) with
                    | none => rfl
                    | some h3 => rfl
                  · rfl
        · split
          · simp only [Option.bind_eq_bind, Res.toOption_bind, Res.toOption_ofOption]
            cases writeSlot h1 pn (sub32 a._end 2 >>> level &&& MASK) Obj.null with
            | none => rfl
            | some h2 => rfl
          · rfl

/-! ## With one unit of fuel per level the runs come back -/

theorem newPathR_back (edit node : Nat) :
    ∀ (k fuel : Nat) (h : Heap α), k < fuel → BITS * k < U32 →
      newPathR edit node fuel h (BITS * k) ≠ Res.outOfFuel
  | 0, fuel, h, hf, _ => by
    obtain ⟨f, rfl⟩ : ∃ f, fuel = f + 1 := ⟨fuel - 1, by omega⟩
    rw [newPathR, if_pos (by simp)]
    exact Res.ok_back _
  | k + 1, fuel, h, hf, hk => by
    obtain ⟨f, rfl⟩ : ∃ f, fuel = f + 1 := ⟨fuel - 1, by omega⟩
    rw [newPathR, if_neg (by simp [BITS_eq]), sub32_step hk]
    refine Res.bind_back (newPathR_back edit node k f h (by omega)
      (by simp only [BITS_eq] at *; omega)) ?_
    rintro ⟨h1, c⟩
    exact Res.bind_back (Res.ofOption_back _) (fun _ => Res.ok_back _)

theorem doAssocR_back (i : Nat) (obj : Obj α) :
    ∀ (k fuel : Nat) (h : Heap α) (node : N α), k < fuel → BITS * k < U32 →
      doAssocR i obj fuel h (BITS * k) node ≠ Res.outOfFuel
  | 0, fuel, h, node, hf, _ => by
    obtain ⟨f, rfl⟩ : ∃ f, fuel = f + 1 := ⟨fuel - 1, by omega⟩
    rw [doAssocR, if_pos (by simp)]
    exact Res.ok_back _
  | k + 1, fuel, h, node, hf, hk => by
    obtain ⟨f, rfl⟩ : ∃ f, fuel = f + 1 := ⟨fuel - 1, by omega⟩
    rw [doAssocR, if_neg (by simp [BITS_eq]), sub32_step hk]
    split
    · exact Res.ub_back
    · refine Res.bind_back (Res.ofOption_back _) (fun s => ?_)
      refine Res.bind_back (Res.ofOption_back _) (fun sp => ?_)
      refine Res.bind_back (Res.ofOption_back _) (fun sn => ?_)
      refine Res.bind_back (doAssocR_back i obj k f h sn (by omega)
        (by simp only [BITS_eq] at *; omega)) ?_
      rintro ⟨h1, c⟩
      exact Res.ok_back _

theorem tdoAssocR_back (a : TA) (i : Nat) (val : Obj α) :
    ∀ (k fuel : Nat) (h : Heap α) (node : Ptr), k < fuel → BITS * k < U32 →
      tdoAssocR a i val fuel h (BITS * k) node ≠ Res.outOfFuel
  | 0, fuel, h, node, hf, _ => by
    obtain ⟨f, rfl⟩ : ∃ f, fuel = f + 1 := ⟨fuel - 1, by omega⟩
    rw [tdoAssocR]
    refine Res.bind_back (Res.ofOption_back _) ?_
    rintro ⟨h1, pn⟩
    dsimp only
    rw [if_pos (by simp)]
    exact Res.bind_back (Res.ofOption_back _) (fun _ => Res.ok_back _)
  | k + 1, fuel, h, node, hf, hk => by
    obtain ⟨f, rfl⟩ : ∃ f, fuel = f + 1 := ⟨fuel - 1, by omega⟩
    rw [tdoAssocR, sub32_step hk]
    refine Res.bind_back (Res.ofOption_back _) ?_
    rintro ⟨h1, pn⟩
    dsimp only
    rw [if_neg (by simp [BITS_eq])]
    split
    · exact Res.ub_back
    · refine Res.bind_back (Res.ofOption_back _) (fun n => ?_)
      refine Res.bind_back (Res.ofOption_back _) (fun s => ?_)
      refine Res.bind_back (Res.ofOption_back _) (fun sp => ?_)
      refine Res.bind_back (tdoAssocR_back a i val k f h1 sp (by omega)
        (by simp only [BITS_eq] at *; omega)) ?_
      rintro ⟨h2, q⟩
      exact Res.bind_back (Res.ofOption_back _) (fun _ => Res.ok_back _)

theorem checkedSlotsForR_back (i : Nat) :
    ∀ (k fuel : Nat) (h : Heap α) (node : Nat), k < fuel → BITS * k < U32 →
      checkedSlotsForR i fuel h (BITS * k) node ≠ Res.outOfFuel
  | 0, fuel, h, node, hf, _ => by
    obtain ⟨f, rfl⟩ : ∃ f, fuel = f + 1 := ⟨fuel - 1, by omega⟩
    rw [checkedSlotsForR, if_pos (by simp)]
    exact Res.ok_back _
  | k + 1, fuel, h, node, hf, hk => by
    obtain ⟨f, rfl⟩ : ∃ f, fuel = f + 1 := ⟨fuel - 1, by omega⟩
    rw [checkedSlotsForR, if_neg (by simp [BITS_eq]), sub32_step hk]
    split
    · exact Res.ub_back
    · refine Res.bind_back (Res.ofOption_back _) (fun n => ?_)
      dsimp only
      split
      · refine Res.bind_back (Res.ofOption_back _) (fun s => ?_)
        cases s with
        | null => exact Res.ok_back _
        | value v => exact Res.ub_back
        | node c =>
          exact checkedSlotsForR_back i k f h c (by omega) (by simp only [BITS_eq] at *; omega)
      · exact Res.ok_back _

theorem uncheckedSlotsForR_back (i : Nat) :
    ∀ (k fuel : Nat) (h : Heap α) (node : Ptr), k < fuel → BITS * k < U32 →
      uncheckedSlotsForR i fuel h (BITS * k) node ≠ Res.outOfFuel
  | 0, fuel, h, node, hf, _ => by
    obtain ⟨f, rfl⟩ : ∃ f, fuel = f + 1 := ⟨fuel - 1, by omega⟩
    rw [uncheckedSlotsForR, if_pos (by simp)]
    exact Res.ok_back _
  | k + 1, fuel, h, node, hf, hk => by
    obtain ⟨f, rfl⟩ : ∃ f, fuel = f + 1 := ⟨fuel - 1, by omega⟩
    rw [uncheckedSlotsForR, if_neg (by simp [BITS_eq]), sub32_step hk]
    split
    · exact Res.ub_back
    · refine Res.bind_back (Res.ofOption_back _) (fun n => ?_)
      refine Res.bind_back (Res.ofOption_back _) (fun s => ?_)
      refine Res.bind_back (Res.ofOption_back _) (fun c => ?_)
      exact uncheckedSlotsForR_back i k f h c (by omega) (by simp only [BITS_eq] at *; omega)

theorem editableSlotsForR_back (a : TA) (i : Nat) :
    ∀ (k fuel : Nat) (h : Heap α) (node : Nat), k < fuel → BITS * k < U32 →
      editableSlotsForR a i fuel h (BITS * k) node ≠ Res.outOfFuel
  | 0, fuel, h, node, hf, _ => by
    obtain ⟨f, rfl⟩ : ∃ f, fuel = f + 1 := ⟨fuel - 1, by omega⟩
    rw [editableSlotsForR, if_pos (by simp)]
    exact Res.ok_back _
  | k + 1, fuel, h, node, hf, hk => by
    obtain ⟨f, rfl⟩ : ∃ f, fuel = f + 1 := ⟨fuel - 1, by omega⟩
    rw [editableSlotsForR, if_neg (by simp [BITS_eq]), sub32_step hk]
    split
    · exact Res.ub_back
    · refine Res.bind_back (Res.ofOption_back _) (fun n => ?_)
      refine Res.bind_back (Res.ofOption_back _) (fun s => ?_)
      refine Res.bind_back (Res.ofOption_back _) (fun c => ?_)
      refine Res.bind_back (Res.ofOption_back _) ?_
      rintro ⟨h1, q⟩
      exact editableSlotsForR_back a i k f h1 q (by omega) (by simp only [BITS_eq] at *; omega)

theorem pushTailR_back (a : A) (tailNode : Nat) :
    ∀ (k fuel : Nat) (h : Heap α) (p : N α), k < fuel → BITS * (k + 1) < U32 →
      pushTailR a tailNode fuel h (BITS * (k + 1)) p ≠ Res.outOfFuel
  | 0, fuel, h, p, hf, _ => by
    obtain ⟨f, rfl⟩ : ∃ f, fuel = f + 1 := ⟨fuel - 1, by omega⟩
    rw [pushTailR]
    generalize sub32 a._end 1 = e1
    rw [if_neg (by simp [BITS_eq])]
    dsimp only
    rw [if_pos (by simp)]
    exact Res.ok_back _
  | k + 1, fuel, h, p, hf, hk => by
    obtain ⟨f, rfl⟩ : ∃ f, fuel = f + 1 := ⟨fuel - 1, by omega⟩
    rw [pushTailR, sub32_step hk]
    generalize sub32 a._end 1 = e1
    split
    · exact Res.ub_back
    · dsimp only
      rw [if_neg (level_ne_bits k)]
      refine Res.bind_back (Res.ofOption_back _) (fun child => ?_)
      cases child with
      | value v => exact Res.ub_back
      | node c =>
        refine Res.bind_back (Res.ofOption_back _) (fun cn => ?_)
        refine Res.bind_back (pushTailR_back a tailNode k f h cn (by omega)
          (by simp only [BITS_eq] at *; omega)) ?_
        rintro ⟨h1, q⟩
        exact Res.ok_back _
      | null =>
        refine Res.bind_back (Res.ofOption_back _) (fun r => ?_)
        refine Res.bind_back (newPathR_back r.edit tailNode (k + 1) _ h
          (by simp only [BITS_eq]; omega) (by simp only [BITS_eq] at *; omega)) ?_
        rintro ⟨h1, q⟩
        exact Res.ok_back _

theorem tpushTailR_back (a : TA) (tailNode : Nat) :
    ∀ (k fuel : Nat) (h : Heap α) (p : Ptr), k < fuel → BITS * (k + 1) < U32 →
      tpushTailR a tailNode fuel h (BITS * (k + 1)) p ≠ Res.outOfFuel
  | 0, fuel, h, p, hf, _ => by
    obtain ⟨f, rfl⟩ : ∃ f, fuel = f + 1 := ⟨fuel - 1, by omega⟩
    rw [tpushTailR]
    generalize sub32 a._end 1 = e1
    refine Res.bind_back (Res.ofOption_back _) ?_
    rintro ⟨h1, pn⟩
    dsimp only
    rw [if_neg (by simp [BITS_eq]), if_pos (by simp)]
    exact Res.bind_back (Res.ofOption_back _) (fun _ => Res.ok_back _)
  | k + 1, fuel, h, p, hf, hk => by
    obtain ⟨f, rfl⟩ : ∃ f, fuel = f + 1 := ⟨fuel - 1, by omega⟩
    rw [tpushTailR, sub32_step hk]
    generalize sub32 a._end 1 = e1
    refine Res.bind_back (Res.ofOption_back _) ?_
    rintro ⟨h1, pn⟩
    dsimp only
    split
    · exact Res.ub_back
    · rw [if_neg (level_ne_bits k)]
      refine Res.bind_back (Res.ofOption_back _) (fun n => ?_)
      refine Res.bind_back (Res.ofOption_back _) (fun s => ?_)
      cases s with
      | value v => exact Res.ub_back
      | node c =>
        refine Res.bind_back (tpushTailR_back a tailNode k f h1 (some c) (by omega)
          (by simp only [BITS_eq] at *; omega)) ?_
        rintro ⟨h2, q⟩
        exact Res.bind_back (Res.ofOption_back _) (fun _ => Res.ok_back _)
      | null =>
        refine Res.bind_back (Res.ofOption_back _) (fun r => ?_)
        refine Res.bind_back (newPathR_back r.edit tailNode (k + 1) _ h1
          (by simp only [BITS_eq]; omega) (by simp only [BITS_eq] at *; omega)) ?_
        rintro ⟨h2, q⟩
        exact Res.bind_back (Res.ofOption_back _) (fun _ => Res.ok_back _)

theorem popTailR_back (a : A) :
    ∀ (k fuel : Nat) (h : Heap α) (node : N α), k < fuel → BITS * (k + 1) < U32 →
      popTailR a fuel h (BITS * (k + 1)) node ≠ Res.outOfFuel
  | 0, fuel, h, node, hf, _ => by
    obtain ⟨f, rfl⟩ : ∃ f, fuel = f + 1 := ⟨fuel - 1, by omega⟩
    rw [popTailR]
    generalize sub32 a._end 2 = e2
    rw [if_neg (by simp [BITS_eq])]
    dsimp only
    rw [if_neg (by simp)]
    split
    · exact Res.bind_back (Res.ofOption_back _) (fun _ => Res.ok_back _)
    · exact Res.ok_back _
  | k + 1, fuel, h, node, hf, hk => by
    obtain ⟨f, rfl⟩ : ∃ f, fuel = f + 1 := ⟨fuel - 1, by omega⟩
    rw [popTailR, sub32_step hk]
    generalize sub32 a._end 2 = e2
    split
    · exact Res.ub_back
    · dsimp only
      rw [if_pos (bits_lt_level k)]
      refine Res.bind_back (Res.ofOption_back _) (fun s => ?_)
      refine Res.bind_back (Res.ofOption_back _) (fun cp => ?_)
      refine Res.bind_back (Res.ofOption_back _) (fun cn => ?_)
      refine Res.bind_back (popTailR_back a k f h cn (by omega)
        (by simp only [BITS_eq] at *; omega)) ?_
      rintro ⟨h1, nc⟩
      dsimp only
      split
      · exact Res.bind_back (Res.ofOption_back _) (fun _ => Res.ok_back _)
      · exact Res.ok_back _

theorem tpopTailR_back (a : TA) :
    ∀ (k fuel : Nat) (h : Heap α) (node : Ptr), k < fuel → BITS * (k + 1) < U32 →
      tpopTailR a fuel h (BITS * (k + 1)) node ≠ Res.outOfFuel
  | 0, fuel, h, node, hf, _ => by
    obtain ⟨f, rfl⟩ : ∃ f, fuel = f + 1 := ⟨fuel - 1, by omega⟩
    rw [tpopTailR]
    generalize sub32 a._end 2 = e2
    refine Res.bind_back (Res.ofOption_back _) ?_
    rintro ⟨h1, pn⟩
    dsimp only
    rw [if_neg (by simp [BITS_eq]), if_neg (by simp)]
    split
    · exact Res.bind_back (Res.ofOption_back _) (fun _ => Res.ok_back _)
    · exact Res.ok_back _
  | k + 1, fuel, h, node, hf, hk => by
    obtain ⟨f, rfl⟩ : ∃ f, fuel = f + 1 := ⟨fuel - 1, by omega⟩
    rw [tpopTailR, sub32_step hk]
    generalize sub32 a._end 2 = e2
    refine Res.bind_back (Res.ofOption_back _) ?_
    rintro ⟨h1, pn⟩
    dsimp only
    split
    · exact Res.ub_back
    · rw [if_pos (bits_lt_level k)]
      refine Res.bind_back (Res.ofOption_back _) (fun n => ?_)
      refine Res.bind_back (Res.ofOption_back _) (fun s => ?_)
      refine Res.bind_back (Res.ofOption_back _) (fun c => ?_)
      refine Res.bind_back (tpopTailR_back a k f h1 c (by omega)
        (by simp only [BITS_eq] at *; omega)) ?_
      rintro ⟨h2, nc⟩
      dsimp only
      split
      · exact Res.bind_back (Res.ofOption_back _) (fun _ => Res.ok_back _)
      · exact Res.ok_back _

/-! ## The example vector of 1057 pushes -/

/-- Successive pushes from a vector that `push` and `pop` reach stay among the
vectors that `push` and `pop` reach. -/
theorem PushPop.of_pushes (xs : List α) : ∀ (ys : List α) {h : Heap α} {a : A}, PRep h a xs →
    a._start = 0 → PushPop α h a → (xs ++ ys).length < U32 →
    ∃ h' a', A.pushAll h a ys = some (h', a') ∧ PRep h' a' (xs ++ ys) ∧ Frame h h' ∅ ∧
      a'._start = 0 ∧ PushPop α h' a' := by
  intro ys
  induction ys generalizing xs with
  | nil =>
    intro h a hp hs hr _
    exact ⟨h, a, rfl, by simpa using hp, Frame.refl _ _, hs, hr⟩
  | cons y ys ih =>
    intro h a hp hs hr hlen
    simp only [List.length_append, List.length_cons] at hlen
    obtain ⟨h1, a1, e1, hp1, f1, hs1⟩ := hp.push y (by omega)
    have hend := hp.is_readable.1
    obtain ⟨h2, a2, e2, hp2, f2, hs2, hr2⟩ := ih (xs ++ [y]) hp1 hs1
      (PushPop.push h h1 a a1 y hr (by rw [hend]; omega) e1) (by simp; omega)
    refine ⟨h2, a2, ?_, by simpa using hp2, Frame.trans f1 f2 (fun x hx => hx) (fun x hx _ => hx),
      hs2, hr2⟩
    simp only [A.pushAll, e1, Option.bind_eq_bind, Option.some_bind, e2]

/-- Successive pushes from a header that the public operations hand out give a
header that the public operations hand out. -/
theorem Reachable.of_pushes_only : ∀ (ys : List α) {h h' : Heap α} {a a' : A}, Reachable α a →
    A.pushAll h a ys = some (h', a') → Reachable α a'
  | [], h, h', a, a', hr, e => by
    cases e
    exact hr
  | y :: ys, h, h', a, a', hr, e => by
    rw [A.pushAll] at e
    obtain ⟨⟨h1, a1⟩, e1, e⟩ := bind_some e
    exact Reachable.of_pushes_only ys (Reachable.push h h1 a a1 y hr e1) e

/-- The example `big1057`: it is what the 1057 pushes return, it is represented
by a trie, and its shift is 10. -/
theorem big1057_rep :
    A.pushAll heap0 A.empty (List.range 1057) = some (big1057.1, big1057.2) ∧
      PRep big1057.1 big1057.2 (List.range 1057) ∧ big1057.2._start = 0 ∧
      Frame heap0 big1057.1 ∅ ∧ PushPop Nat big1057.1 big1057.2 ∧ big1057.2._end = 1057 ∧
      big1057.2._shift = 10 := by
  obtain ⟨h, v, e, hp, f, hs, hr⟩ := PushPop.of_pushes [] (List.range 1057)
    (PRep.empty (α := Nat)) rfl PushPop.empty
    (by rw [List.nil_append, List.length_range]; decide)
  rw [List.nil_append] at hp
  have hb : big1057 = (h, v) := by unfold big1057; rw [e]; rfl
  rw [hb]
  obtain ⟨k, rp, tp, tn, S, r⟩ := hp.as_rep
  have hend : v._end = 1057 := by rw [r.hend, List.length_range]
  have ht : tailoff v = 1056 := by
    rw [tailoff_toff v (by rw [hend]; decide), hend]
    rfl
  have hk : k = 1 := height_unique (m := 1056) (by rw [← ht]; exact r.hcap)
    (fun hk => by rw [← ht]; exact r.hmin hk) (by norm_num) (fun _ => by norm_num)
  exact ⟨e, hp, hs, f, hr, hend, by rw [r.hshift, hk]; rfl⟩

/-! ## Trees of nodes and the walk through them -/

theorem Trie.top_mem {h : Heap α} : ∀ {k p : Nat} {S : Set Nat}, Trie h k p S → p ∈ S
  | 0, p, S, hs => by
    obtain ⟨rfl, -⟩ := hs
    exact rfl
  | k + 1, p, S, hs => by
    obtain ⟨n, -, -, Ss, hS, -⟩ := hs
    exact (hS p).2 (Or.inl rfl)

theorem Trie.addr_lt {h : Heap α} : ∀ {k p : Nat} {S : Set Nat}, Trie h k p S →
    ∀ x, x ∈ S → x < h.length
  | 0, p, S, hs, x, hx => by
    obtain ⟨rfl, n, hn⟩ := hs
    obtain rfl : x = p := hx
    exact get_lt hn
  | k + 1, p, S, hs, x, hx => by
    obtain ⟨n, hn, -, Ss, hS, -, -, hch⟩ := hs
    rcases (hS x).1 hx with rfl | ⟨j, hj, hxj⟩
    · exact get_lt hn
    · rcases hch j hj with ⟨-, he⟩ | ⟨q, -, hq⟩
      · rw [he] at hxj
        exact absurd hxj (by simp)
      · exact hq.addr_lt x hxj

/-- A tree is a tree in every heap that has its nodes as they are. -/
theorem Trie.keep_on {h h' : Heap α} : ∀ {k p : Nat} {S : Set Nat}, Trie h k p S →
    (∀ x, x ∈ S → h'[x]? = h[x]?) → Trie h' k p S
  | 0, p, S, hs, he => by
    obtain ⟨rfl, n, hn⟩ := hs
    exact ⟨rfl, n, by rw [he p rfl]; exact hn⟩
  | k + 1, p, S, hs, he => by
    have hpS := hs.top_mem
    obtain ⟨n, hn, hv, Ss, hS, hp, hd, hch⟩ := hs
    refine ⟨n, by rw [he p hpS]; exact hn, hv, Ss, hS, hp, hd, fun j hj => ?_⟩
    rcases hch j hj with hnull | ⟨q, hq, hsub⟩
    · exact Or.inl hnull
    · exact Or.inr ⟨q, hq, hsub.keep_on (fun x hx => he x ((hS x).2 (Or.inr ⟨j, hj, hx⟩)))⟩

theorem readFrom_nil (h : Heap α) (i : Nat) : ∀ (fuel level : Nat),
    readFrom h i fuel level none = none
  | 0, _ => rfl
  | fuel + 1, level => by
    unfold readFrom
    rw [uncheckedSlotsForF]
    split
    · rfl
    · split <;> rfl

/-- The walk at level 0 has arrived: the leaf is read. -/
theorem readFrom_leaf (h : Heap α) (i f : Nat) (c : Ptr) :
    readFrom h i (f + 1) 0 c = (deref h c).bind fun n => n.slot (i &&& MASK) := by
  unfold readFrom
  rw [uncheckedSlotsForF, if_pos rfl]
  rfl

/-- One step of the walk, at a node of height `k + 1`. -/
theorem readFrom_down {h : Heap α} {i k p : Nat} {n : N α} {s : Obj α} {c : Ptr} (f : Nat)
    (hn : h[p]? = some n) (hk : BITS * (k + 1) < 32)
    (hs : n._v[i / 32 ^ (k + 1) % 32]? = some s) (hc : s.toN = some c) :
    readFrom h i (f + 1) (BITS * (k + 1)) (some p) = readFrom h i f (BITS * k) c := by
  unfold readFrom
  rw [uncheckedSlotsForF, if_neg (level_ne_zero k), if_neg (Nat.not_le.2 hk)]
  simp only [deref, hn, N.slot, digit_eq, hs, hc, sub32_level hk, Option.bind_eq_bind,
    Option.some_bind]

/-- One step of the walk of `uncheckedSlotsFor`, at a node of height `k + 1`. -/
theorem walk_down {h : Heap α} {i k p : Nat} {n : N α} {s : Obj α} {c : Ptr} (f : Nat)
    (hn : h[p]? = some n) (hk : BITS * (k + 1) < 32)
    (hs : n._v[i / 32 ^ (k + 1) % 32]? = some s) (hc : s.toN = some c) :
    uncheckedSlotsForF i (f + 1) h (BITS * (k + 1)) (some p) =
      uncheckedSlotsForF i f h (BITS * k) c := by
  rw [uncheckedSlotsForF, if_neg (level_ne_zero k), if_neg (Nat.not_le.2 hk)]
  simp only [deref, hn, N.slot, digit_eq, hs, hc, sub32_level hk, Option.bind_eq_bind,
    Option.some_bind]

/-- What is read through a tree depends on the nodes of the tree only. -/
theorem Trie.read_same {h h' : Heap α} (i : Nat) : ∀ {k p : Nat} {S : Set Nat}, Trie h k p S →
    (∀ x, x ∈ S → h'[x]? = h[x]?) → BITS * k < 32 →
    readFrom h' i (k + 1) (BITS * k) (some p) = readFrom h i (k + 1) (BITS * k) (some p)
  | 0, p, S, hs, he, _ => by
    obtain ⟨rfl, n, hn⟩ := hs
    rw [Nat.mul_zero, readFrom_leaf, readFrom_leaf]
    simp only [deref, he p rfl]
  | k + 1, p, S, hs, he, hk => by
    have hpS := hs.top_mem
    obtain ⟨n, hn, hv, Ss, hS, hp, hd, hch⟩ := hs
    have hn' : h'[p]? = some n := by rw [he p hpS]; exact hn
    have hj : i / 32 ^ (k + 1) % 32 < BRANCHES := Nat.mod_lt _ (by norm_num)
    rcases hch _ hj with ⟨hnull, -⟩ | ⟨q, hq, hsub⟩
    · rw [readFrom_down (k + 1) hn' hk hnull rfl, readFrom_down (k + 1) hn hk hnull rfl,
        readFrom_nil, readFrom_nil]
    · rw [readFrom_down (k + 1) hn' hk hq rfl, readFrom_down (k + 1) hn hk hq rfl]
      exact hsub.read_same i (fun x hx => he x ((hS x).2 (Or.inr ⟨_, hj, hx⟩)))
        (by simp only [BITS_eq] at *; omega)

/-- The walk from a null pointer does not look at the heap. -/
theorem walk_nil (h h' : Heap α) (i : Nat) : ∀ (fuel level : Nat),
    uncheckedSlotsForF i fuel h level none = uncheckedSlotsForF i fuel h' level none
  | 0, _ => rfl
  | fuel + 1, level => by
    rw [uncheckedSlotsForF, uncheckedSlotsForF]
    split
    · rfl
    · split
      · rfl
      · simp only [deref, Option.bind_eq_bind, Option.none_bind]

/-- Where the walk through a tree ends depends on the nodes of the tree only. -/
theorem Trie.walk_same {h h' : Heap α} (i : Nat) : ∀ {k p : Nat} {S : Set Nat}, Trie h k p S →
    (∀ x, x ∈ S → h'[x]? = h[x]?) → BITS * k < 32 →
    uncheckedSlotsForF i (k + 1) h' (BITS * k) (some p) =
      uncheckedSlotsForF i (k + 1) h (BITS * k) (some p)
  | 0, p, S, _, _, _ => by
    rw [Nat.mul_zero, uncheckedSlotsForF, uncheckedSlotsForF, if_pos rfl, if_pos rfl]
  | k + 1, p, S, hs, he, hk => by
    have hpS := hs.top_mem
    obtain ⟨n, hn, hv, Ss, hS, hp, hd, hch⟩ := hs
    have hn' : h'[p]? = some n := by rw [he p hpS]; exact hn
    have hj : i / 32 ^ (k + 1) % 32 < BRANCHES := Nat.mod_lt _ (by norm_num)
    rcases hch _ hj with ⟨hnull, -⟩ | ⟨q, hq, hsub⟩
    · rw [walk_down (k + 1) hn' hk hnull rfl, walk_down (k + 1) hn hk hnull rfl]
      exact walk_nil h' h i _ _
    · rw [walk_down (k + 1) hn' hk hq rfl, walk_down (k + 1) hn hk hq rfl]
      exact hsub.walk_same i (fun x hx => he x ((hS x).2 (Or.inr ⟨_, hj, hx⟩)))
        (by simp only [BITS_eq] at *; omega)

/-- The path condition holds in every heap that has the old nodes as they are. -/
theorem PathOk.keep_frame {h h' : Heap α} {E e : Nat} (f : Frame h h' ∅) :
    ∀ {k p : Nat}, PathOk h E e k p → PathOk h' E e k p
  | 0, _, _ => trivial
  | k + 1, p, hp => by
    obtain ⟨n, hn, hl, hnull, hch⟩ := hp
    exact ⟨n, by rw [f.2 p (get_lt hn) (by simp)]; exact hn, hl, hnull,
      fun q hq => (hch q hq).keep_frame f⟩

/-! ## `ensureEditable` and `newPath` on trees -/

/-- The digit of an index at height `k + 1` is the digit at height `k` of its
block number. -/
theorem digit_block (i k : Nat) : i / 32 ^ (k + 1) % 32 = i / 32 / 32 ^ k % 32 := by
  rw [Nat.div_div_eq_div_mul, pow_succ, mul_comm]

/-- Two block numbers agree in their lowest `k + 1` digits exactly when they
agree in digit `k` and in the `k` digits below. -/
theorem block_mod_succ (x y k : Nat) :
    x % 32 ^ (k + 1) = y % 32 ^ (k + 1) ↔
      x / 32 ^ k % 32 = y / 32 ^ k % 32 ∧ x % 32 ^ k = y % 32 ^ k := by
  have hC : 0 < 32 ^ k := by positivity
  rw [Nat.mod_pow_succ, Nat.mod_pow_succ]
  have hx : x % 32 ^ k < 32 ^ k := Nat.mod_lt _ hC
  have hy : y % 32 ^ k < 32 ^ k := Nat.mod_lt _ hC
  constructor
  · intro he
    have h1 : (x % 32 ^ k + 32 ^ k * (x / 32 ^ k % 32)) % 32 ^ k =
        (y % 32 ^ k + 32 ^ k * (y / 32 ^ k % 32)) % 32 ^ k := by rw [he]
    rw [Nat.add_mul_mod_self_left, Nat.add_mul_mod_self_left, Nat.mod_mod, Nat.mod_mod] at h1
    refine ⟨?_, h1⟩
    rw [h1] at he
    exact Nat.eq_of_mul_eq_mul_left hC (Nat.add_left_cancel he)
  · rintro ⟨h1, h2⟩
    rw [h1, h2]

/-- What `ensureEditable` returns for a node that has its full length unless it
carries the edit token of the root: the node itself or a fresh copy, either way
a node with the edit token of the root and the slots of the given node. -/
theorem ensureEditable_path {h : Heap α} {a : TA} {p : Nat} {n r : N α} (hn : h[p]? = some n)
    (hr : root h a = some r) (hl : n.edit ≠ r.edit → n.length = BRANCHES)
    (hv : n._v.length = BRANCHES) :
    ∃ h1 pn n1, ensureEditable h a (some p) = some (h1, pn) ∧ Frame h h1 ∅ ∧ Keeps h h1 ∧
      (pn = p ∨ pn = h.length) ∧ pn < h1.length ∧
      h1[pn]? = some n1 ∧ n1.edit = r.edit ∧ (n1.edit ≠ r.edit → n1.length = BRANCHES) ∧
      n1._v.length = BRANCHES ∧ ∀ j, j < BRANCHES → n1._v[j]? = n._v[j]? := by
  by_cases he : n.edit = r.edit
  · refine ⟨h, p, n, ?_, Frame.refl _ _, Keeps.same _, Or.inl rfl, get_lt hn, hn, he, hl, hv,
      fun _ _ => rfl⟩
    simp only [ensureEditable, hn, hr, Option.bind_eq_bind, Option.some_bind, he, bne_self_eq_false,
      Bool.false_eq_true, if_false]
  · have hlen := hl he
    refine ⟨h ++ [n.copy n.length r.edit], h.length, n.copy n.length r.edit, ?_, Frame.alloc _ _ _,
      Keeps.of_alloc _ _, Or.inr rfl, by simp, get_append_new h _, rfl,
      fun hc => absurd rfl hc, N.copy_v_length _ _ _, ?_⟩
    · simp only [ensureEditable, hn, hr, Option.bind_eq_bind, Option.some_bind, alloc]
      rw [if_pos (by simpa using he)]
    · intro j hj
      rw [N.copy_get _ _ _ hj, if_pos (by rw [hlen]; simpa using hj)]
      exact getD_null (by omega)

/-- `newPath` at level `BITS * k` hangs the node `tl` below a chain of `k` fresh
nodes, each with `tl` on the way below its slot 0 and nothing in its other
slots: the walk of an index whose block number has `k` digits 0 ends at `tl`,
and the walk of any other index meets a nil slot. -/
theorem newPathF_trie (edit tl : Nat) :
    ∀ (k : Nat) (h : Heap α), BITS * k < 32 → (∃ n, h[tl]? = some n) →
      ∃ h' q S, newPathF edit tl (k + 1) h (BITS * k) = some (h', q) ∧ Frame h h' ∅ ∧
        Trie h' k q S ∧ (∀ x, x ∈ S → x = tl ∨ h.length ≤ x) ∧
        (∀ i, i / 32 % 32 ^ k = 0 →
          uncheckedSlotsForF i (k + 1) h' (BITS * k) (some q) = some (some tl)) ∧
        ∀ i, i / 32 % 32 ^ k ≠ 0 → readFrom h' i (k + 1) (BITS * k) (some q) = none
  | 0, h, _, hl => by
    refine ⟨h, tl, {tl}, by simp [newPathF], Frame.refl _ _, ⟨rfl, hl⟩,
      fun x hx => Or.inl (by simpa using hx), fun i _ => ?_, fun i hi => ?_⟩
    · rw [Nat.mul_zero, uncheckedSlotsForF, if_pos rfl]
    · exact absurd (Nat.mod_one _) hi
  | k + 1, h, hk, hl => by
    obtain ⟨h1, c, S1, e1, f1, hs1, hS1, hw1, hr1⟩ :=
      newPathF_trie edit tl k h (by simp only [BITS_eq] at *; omega) hl
    have hset : (N.create BRANCHES edit : N α).setSlot 0 (Obj.node c) =
        some ⟨edit, BRANCHES, (List.replicate BRANCHES Obj.null).set 0 (Obj.node c)⟩ := by
      rw [N.setSlot_eq _ _ _ (by simp [N.create, BRANCHES_eq])]
      rfl
    have hvalid1 := hs1.addr_lt
    have hnew : (h1 ++ [(⟨edit, BRANCHES, (List.replicate BRANCHES Obj.null).set 0 (Obj.node c)⟩ :
        N α)])[h1.length]? = some ⟨edit, BRANCHES,
          (List.replicate BRANCHES Obj.null).set 0 (Obj.node c)⟩ := get_append_new h1 _
    have hold : ∀ x, x ∈ S1 → (h1 ++ [(⟨edit, BRANCHES,
        (List.replicate BRANCHES Obj.null).set 0 (Obj.node c)⟩ : N α)])[x]? = h1[x]? :=
      fun x hx => get_append_old h1 _ (hvalid1 x hx)
    have hslot0 : ((List.replicate BRANCHES Obj.null).set 0 (Obj.node c))[0]? =
        some (Obj.node c : Obj α) := by simp [BRANCHES_eq]
    have hslot : ∀ j, j < BRANCHES → j ≠ 0 →
        ((List.replicate BRANCHES Obj.null).set 0 (Obj.node c))[j]? =
          some (Obj.null : Obj α) := by
      intro j hj hj0
      rw [List.getElem?_set_ne (Ne.symm hj0), List.getElem?_replicate, if_pos hj]
    refine ⟨h1 ++ [⟨edit, BRANCHES, (List.replicate BRANCHES Obj.null).set 0 (Obj.node c)⟩],
      h1.length, fun x => x = h1.length ∨ x ∈ S1, ?_, ?_, ?_, ?_, ?_, ?_⟩
    · rw [newPathF]
      simp only [level_ne_zero, if_false, sub32_level hk, e1, hset, Option.bind_eq_bind,
        Option.some_bind, alloc]
    · exact Frame.trans f1 (Frame.alloc h1 _ ∅) (fun x hx => hx) (fun x hx _ => hx)
    · refine ⟨_, hnew, by simp, fun j => if j = 0 then S1 else ∅, ?_, ?_, ?_, ?_⟩
      · intro x
        constructor
        · rintro (hx | hx)
          · exact Or.inl hx
          · exact Or.inr ⟨0, by simp [BRANCHES_eq], by simpa using hx⟩
        · rintro (hx | ⟨j, hj, hx⟩)
          · exact Or.inl hx
          · by_cases hj0 : j = 0
            · subst hj0
              exact Or.inr (by simpa using hx)
            · simp [hj0] at hx
      · intro j _
        by_cases hj0 : j = 0
        · simp only [hj0, if_true]
          intro hc
          have := hvalid1 _ hc
          omega
        · simp [hj0]
      · intro i j _ _ hij x hx
        by_cases hi0 : i = 0
        · have hj0 : j ≠ 0 := fun hc => hij (hi0.trans hc.symm)
          simp [hj0]
        · simp [hi0] at hx
      · intro j hj
        by_cases hj0 : j = 0
        · subst hj0
          exact Or.inr ⟨c, hslot0, by simpa using hs1.keep_on hold⟩
        · exact Or.inl ⟨hslot j hj hj0, by simp [hj0]⟩
    · rintro x (hx | hx)
      · exact Or.inr (by rw [hx]; exact f1.1)
      · exact hS1 x hx
    · intro i hi
      obtain ⟨hd, hlow⟩ := (block_mod_succ (i / 32) 0 k).1 (by simpa using hi)
      rw [Nat.zero_div, Nat.zero_mod, ← digit_block] at hd
      rw [walk_down (s := Obj.node c) (c := some c) (k + 1) hnew hk (by rw [hd]; exact hslot0) rfl]
      exact uncheckedSlotsForF_frame (Frame.alloc h1 _ ∅) i _ _ _ _
        (hw1 i (by simpa using hlow))
    · intro i hi
      by_cases hd : i / 32 ^ (k + 1) % 32 = 0
      · rw [readFrom_down (s := Obj.node c) (c := some c) (k + 1) hnew hk
            (by rw [hd]; exact hslot0) rfl,
          hs1.read_same i hold (by simp only [BITS_eq] at *; omega)]
        refine hr1 i (fun hlow => hi ?_)
        exact ((block_mod_succ (i / 32) 0 k).2 ⟨by rw [← digit_block, hd]; simp,
          by simpa using hlow⟩).trans (by simp)
      · rw [readFrom_down (s := Obj.null) (c := none) (k + 1) hnew hk
          (hslot _ (Nat.mod_lt _ (by norm_num)) hd) rfl, readFrom_nil]

/-! ## `tpushTail` on a tree -/

/-- The node `pn` (the old node `p` or a fresh copy of it) after its slot `j` was
overwritten in place with the pointer to the new child `q1`: again a tree. -/
theorem Trie.rewrite {h h2 : Heap α} {k p j q1 pn : Nat} {n n2 : N α}
    {S T : Set Nat} {Ss : Nat → Set Nat} (tl : Nat)
    (hvalid : ∀ x, x ∈ S → x < h.length)
    (hS : ∀ x, x ∈ S ↔ x = p ∨ ∃ i, i < BRANCHES ∧ x ∈ Ss i)
    (hp : ∀ i, i < BRANCHES → p ∉ Ss i)
    (hd : ∀ i i', i < BRANCHES → i' < BRANCHES → i ≠ i' → ∀ x, x ∈ Ss i → x ∉ Ss i')
    (hch : ∀ i, i < BRANCHES →
      (n._v[i]? = some Obj.null ∧ Ss i = ∅) ∨
      ∃ q, n._v[i]? = some (Obj.node q) ∧ Trie h k q (Ss i))
    (hj : j < BRANCHES) (hpn : pn = p ∨ h.length ≤ pn)
    (hn2 : h2[pn]? = some n2) (hv2 : n2._v.length = BRANCHES)
    (hslots : ∀ i, i < BRANCHES → n2._v[i]? = n._v[i]?)
    (hsib : ∀ i, i < BRANCHES → i ≠ j → ∀ x, x ∈ Ss i → h2[x]? = h[x]?)
    (hs1 : Trie h2 k q1 T)
    (hS1 : ∀ x, x ∈ T → x ∈ Ss j ∨ x = tl ∨ h.length ≤ x)
    (hpnS1 : pn ∉ T) (htl : tl ∉ S) :
    ∃ S', Trie (h2.set pn ⟨n2.edit, n2.length, n2._v.set j (Obj.node q1)⟩) (k + 1) pn S' ∧
      (∀ x, x ∈ S' → x ∈ S ∨ x = tl ∨ h.length ≤ x) ∧
      ∀ x, x ∈ T → x ∈ S' := by
  have hSs : ∀ i, i < BRANCHES → ∀ x, x ∈ Ss i → x ∈ S :=
    fun i hi x hx => (hS x).2 (Or.inr ⟨i, hi, hx⟩)
  have hpnSs : ∀ i, i < BRANCHES → pn ∉ Ss i := by
    intro i hi hc
    rcases hpn with h1 | h1
    · exact hp i hi (h1 ▸ hc)
    · have := hvalid _ (hSs i hi _ hc)
      omega
  have hne : ∀ x, x ∈ T → x ≠ pn := fun x hx hc => hpnS1 (by rw [← hc]; exact hx)
  have hne2 : ∀ i, i < BRANCHES → ∀ x, x ∈ Ss i → x ≠ pn :=
    fun i hi x hx hc => hpnSs i hi (by rw [← hc]; exact hx)
  refine ⟨fun x => x = pn ∨ ∃ i, i < BRANCHES ∧ x ∈ (if i = j then T else Ss i),
    ⟨_, set_get_self _ hn2, by simpa using hv2, fun i => if i = j then T else Ss i,
      fun x => Iff.rfl, ?_, ?_, ?_⟩, ?_, fun x hx => Or.inr ⟨j, hj, by simpa using hx⟩⟩
  · intro i hi
    by_cases hij : i = j
    · simpa [hij] using hpnS1
    · simpa [hij] using hpnSs i hi
  · intro i i' hi hi' hne' x hx
    by_cases hij : i = j
    · have hi'j : i' ≠ j := fun hc => hne' (hij.trans hc.symm)
      simp only [hij, if_true] at hx
      simp only [hi'j, if_false]
      intro hc
      rcases hS1 x hx with h1' | h1' | h1'
      · exact hd j i' hj hi' (Ne.symm hi'j) x h1' hc
      · exact htl (h1' ▸ hSs i' hi' x hc)
      · have := hvalid x (hSs i' hi' x hc)
        omega
    · simp only [hij, if_false] at hx
      by_cases hi'j : i' = j
      · simp only [hi'j, if_true]
        intro hc
        rcases hS1 x hc with h1' | h1' | h1'
        · exact hd i j hi hj hij x hx h1'
        · exact htl (h1' ▸ hSs i hi x hx)
        · have := hvalid x (hSs i hi x hx)
          omega
      · simp only [hi'j, if_false]
        exact hd i i' hi hi' hne' x hx
  · intro i hi
    by_cases hij : i = j
    · subst hij
      refine Or.inr ⟨q1, ?_, ?_⟩
      · show (n2._v.set i (Obj.node q1))[i]? = _
        rw [List.getElem?_set_self (by rw [hv2]; exact hi)]
      · simp only [if_true]
        exact hs1.keep_on (fun x hx => set_get_ne h2 _ (hne x hx))
    · have hsl : (n2._v.set j (Obj.node q1))[i]? = n._v[i]? := by
        rw [List.getElem?_set_ne (Ne.symm hij)]
        exact hslots i hi
      simp only [hij, if_false]
      rcases hch i hi with ⟨hnull, hemp⟩ | ⟨q, hq, hsub⟩
      · exact Or.inl ⟨hsl.trans hnull, hemp⟩
      · refine Or.inr ⟨q, hsl.trans hq, hsub.keep_on (fun x hx => ?_)⟩
        rw [set_get_ne h2 _ (hne2 i hi x hx)]
        exact hsib i hi hij x hx
  · rintro x (hx | ⟨i, hi, hx⟩)
    · rcases hpn with h1 | h1
      · exact Or.inl ((hS x).2 (Or.inl (hx.trans h1)))
      · exact Or.inr (Or.inr (by omega))
    · by_cases hij : i = j
      · simp only [hij, if_true] at hx
        rcases hS1 x hx with h1' | h1' | h1'
        · exact Or.inl (hSs j hj x h1')
        · exact Or.inr (Or.inl h1')
        · exact Or.inr (Or.inr h1')
      · simp only [hij, if_false] at hx
        exact Or.inl (hSs i hi x hx)

/-- `tpushTail` on a tree of height `k + 1` puts the node `tl` at the place of the
leaf that ends at index `e - 1`; the nodes on the way are made editable and
overwritten in place. Only nodes of the tree are changed; the walk of an index
of that leaf ends at `tl`, and what is read at any other index is what was read
before. -/
theorem tpushTailF_trie (a : TA) (tl E e : Nat) (hend : sub32 a._end 1 = e - 1) :
    ∀ (k : Nat) (h : Heap α) (p : Nat) (S : Set Nat),
      Trie h (k + 1) p S → PathOk h E e (k + 1) p → (∃ r, root h a = some r ∧ r.edit = E) →
      (∃ n, h[tl]? = some n) → tl ∉ S → BITS * (k + 1) < 32 →
      ∃ h' q S', tpushTailF a tl (k + 1) h (BITS * (k + 1)) (some p) = some (h', q) ∧
        Frame h h' S ∧ Keeps h h' ∧ Trie h' (k + 1) q S' ∧
        (∀ x, x ∈ S' → x ∈ S ∨ x = tl ∨ h.length ≤ x) ∧ (q = p ∨ h.length ≤ q) ∧
        (∃ qn, h'[q]? = some qn ∧ qn.edit = E) ∧
        (∀ i, i / 32 % 32 ^ (k + 1) = (e - 1) / 32 % 32 ^ (k + 1) →
          uncheckedSlotsForF i (k + 1 + 1) h' (BITS * (k + 1)) (some q) = some (some tl)) ∧
        ∀ i, i / 32 % 32 ^ (k + 1) ≠ (e - 1) / 32 % 32 ^ (k + 1) →
          readFrom h' i (k + 1 + 1) (BITS * (k + 1)) (some q) =
            readFrom h i (k + 1 + 1) (BITS * (k + 1)) (some p)
  | 0, h, p, S, hs, hpath, hr, hl, htl, hk => by
    have hvalid := hs.addr_lt
    have hpS := hs.top_mem
    obtain ⟨n, hn, hv, Ss, hS, hp, hd, hch⟩ := hs
    obtain ⟨n', hn', hlen, -, -⟩ := hpath
    obtain rfl : n = n' := by rw [hn] at hn'; exact Option.some.inj hn'
    obtain ⟨r, hr, hrE⟩ := hr
    obtain ⟨j, hjdef⟩ : ∃ j, (e - 1) / 32 ^ (0 + 1) % 32 = j := ⟨_, rfl⟩
    have hj : j < BRANCHES := by rw [← hjdef]; exact Nat.mod_lt _ (by norm_num)
    obtain ⟨h1, pn, n1, e1, f1, k1, hpn, hpnlt, hn1, hn1e, -, hn1v, hn1s⟩ :=
      ensureEditable_path hn hr (by rw [hrE]; exact hlen) hv
    obtain ⟨tn, htn⟩ := hl
    have htlv : tl < h.length := get_lt htn
    have htlp : tl ≠ p := fun hc => htl (by rw [hc]; exact hpS)
    have hpn' : pn = p ∨ h.length ≤ pn := by rcases hpn with h1' | h1' <;> [left; right] <;> omega
    have hpntl : pn ≠ tl := by rcases hpn' with h1' | h1' <;> omega
    have htn1 : h1[tl]? = some tn := by rw [f1.2 tl htlv (by simp)]; exact htn
    have hSs : ∀ i, i < BRANCHES → ∀ x, x ∈ Ss i → x ∈ S :=
      fun i hi x hx => (hS x).2 (Or.inr ⟨i, hi, hx⟩)
    have hsib : ∀ i, i < BRANCHES → ∀ x, x ∈ Ss i → h1[x]? = h[x]? :=
      fun i hi x hx => f1.2 x (hvalid x (hSs i hi x hx)) (by simp)
    obtain ⟨S', hs', hS', -⟩ := Trie.rewrite (T := {tl}) tl hvalid hS hp hd hch hj hpn' hn1
      hn1v hn1s (fun i hi _ x hx => hsib i hi x hx) ⟨rfl, tn, htn1⟩
      (fun x hx => Or.inr (Or.inl (by simpa using hx)))
      (fun hc => hpntl (by simpa using hc)) htl
    have hw := writeSlot_eq (Obj.node tl) hn1 (by rw [hn1v]; exact hj)
    have hnew : (h1.set pn ⟨n1.edit, n1.length, n1._v.set j (Obj.node tl)⟩)[pn]? =
        some ⟨n1.edit, n1.length, n1._v.set j (Obj.node tl)⟩ := set_get_self _ hn1
    refine ⟨h1.set pn ⟨n1.edit, n1.length, n1._v.set j (Obj.node tl)⟩, pn, S', ?_, ?_,
      k1.comp (Keeps.of_write hn1 rfl), hs', hS', hpn',
      ⟨_, hnew, hn1e.trans hrE⟩, fun i hi => ?_, fun i hi => ?_⟩
    · rw [tpushTailF]
      simp only [e1, Option.bind_eq_bind, Option.some_bind]
      rw [if_neg (Nat.not_le.2 hk), if_pos (by simp)]
      simp only [hend, digit_eq, hjdef, hw, Option.some_bind]
    · refine ⟨le_trans f1.1 (by simp), fun x hx hxS => ?_⟩
      rw [set_get_ne h1 _ (fun hc => by
        rcases hpn' with h1' | h1'
        · exact hxS (by rw [hc, h1']; exact hpS)
        · omega)]
      exact f1.2 x hx (by simp)
    · obtain ⟨hdig, -⟩ := (block_mod_succ (i / 32) ((e - 1) / 32) 0).1 hi
      rw [← digit_block, ← digit_block, hjdef] at hdig
      rw [walk_down (s := Obj.node tl) (c := some tl) 1 hnew hk
        (by
          show (n1._v.set j (Obj.node tl))[i / 32 ^ (0 + 1) % 32]? = _
          rw [hdig, List.getElem?_set_self (by rw [hn1v]; exact hj)]) rfl,
        Nat.mul_zero, uncheckedSlotsForF, if_pos rfl]
    · have hdig : i / 32 ^ (0 + 1) % 32 ≠ j := by
        intro hc
        apply hi
        refine (block_mod_succ (i / 32) ((e - 1) / 32) 0).2 ⟨?_, by simp [Nat.mod_one]⟩
        rw [← digit_block, ← digit_block, hjdef]
        exact hc
      have hjd : i / 32 ^ (0 + 1) % 32 < BRANCHES := Nat.mod_lt _ (by norm_num)
      have hsl : (n1._v.set j (Obj.node tl))[i / 32 ^ (0 + 1) % 32]? =
          n._v[i / 32 ^ (0 + 1) % 32]? := by
        rw [List.getElem?_set_ne (Ne.symm hdig)]
        exact hn1s _ hjd
      rcases hch _ hjd with ⟨hnull, -⟩ | ⟨c, hc, hsub⟩
      · rw [readFrom_down (s := Obj.null) (c := none) 1 hnew hk (hsl.trans hnull) rfl,
          readFrom_down (s := Obj.null) (c := none) 1 hn hk hnull rfl, readFrom_nil,
          readFrom_nil]
      · rw [readFrom_down (s := Obj.node c) (c := some c) 1 hnew hk (hsl.trans hc) rfl,
          readFrom_down (s := Obj.node c) (c := some c) 1 hn hk hc rfl]
        refine hsub.read_same i (fun x hx => ?_) (by simp [BITS_eq])
        have hxS := hSs _ hjd x hx
        rw [set_get_ne h1 _ (fun hc' => by
          rcases hpn' with h1' | h1'
          · exact hp _ hjd (by rw [← h1', ← hc']; exact hx)
          · have := hvalid x hxS
            omega)]
        exact hsib _ hjd x hx
  | k + 1, h, p, S, hs, hpath, hr, hl, htl, hk => by
    have hvalid := hs.addr_lt
    have hpS := hs.top_mem
    obtain ⟨n, hn, hv, Ss, hS, hp, hd, hch⟩ := hs
    obtain ⟨n', hn', hlen, hpnull, hpch⟩ := hpath
    obtain rfl : n = n' := by rw [hn] at hn'; exact Option.some.inj hn'
    have hr0 := hr
    obtain ⟨r, hr, hrE⟩ := hr
    have hj : (e - 1) / 32 ^ (k + 1 + 1) % 32 < BRANCHES := Nat.mod_lt _ (by norm_num)
    generalize hjdef : (e - 1) / 32 ^ (k + 1 + 1) % 32 = j at hj hpnull hpch
    have hSs : ∀ i, i < BRANCHES → ∀ x, x ∈ Ss i → x ∈ S :=
      fun i hi x hx => (hS x).2 (Or.inr ⟨i, hi, hx⟩)
    have hne : BITS * (k + 1 + 1) ≠ BITS := by simp only [BITS_eq]; omega
    have hk' : BITS * (k + 1) < 32 := by simp only [BITS_eq] at *; omega
    obtain ⟨h1, pn, n1, e1, f1, k1, hpn, hpnlt, hn1, hn1e, -, hn1v, hn1s⟩ :=
      ensureEditable_path hn hr (by rw [hrE]; exact hlen) hv
    obtain ⟨tn, htn⟩ := hl
    have htlv : tl < h.length := get_lt htn
    have htlp : tl ≠ p := fun hc => htl (by rw [hc]; exact hpS)
    have hpn' : pn = p ∨ h.length ≤ pn := by rcases hpn with h1' | h1' <;> [left; right] <;> omega
    have hpntl : pn ≠ tl := by rcases hpn' with h1' | h1' <;> omega
    have htn1 : h1[tl]? = some tn := by rw [f1.2 tl htlv (by simp)]; exact htn
    have hpnSs : ∀ i, i < BRANCHES → pn ∉ Ss i := by
      intro i hi hc
      rcases hpn' with h1' | h1'
      · exact hp i hi (by rw [← h1']; exact hc)
      · have := hvalid _ (hSs i hi _ hc)
        omega
    have hr1 := root_keeps k1 hr0
    have hold1 : ∀ x, x < h.length → h1[x]? = h[x]? := fun x hx => f1.2 x hx (by simp)
    -- the child to insert, and the heap in which it lives
    have hchild : ∃ h2 q S1 s cp, n._v[j]? = some s ∧ s.toN = some cp ∧ (do
          let p ← h1[pn]?
          let s ← p.slot j
          match s with
          | Obj.value _ => none
          | Obj.node c => do
            let (h2, q) ← tpushTailF a tl (k + 1) h1 (sub32 (BITS * (k + 1 + 1)) BITS) (some c)
            let h3 ← writeSlot h2 pn j (Obj.node q)
            some (h3, pn)
          | Obj.null => do
            let r ← root h1 a
            let (h2, q) ← newPath h1 r.edit (sub32 (BITS * (k + 1 + 1)) BITS) tl
            let h3 ← writeSlot h2 pn j (Obj.node q)
            some (h3, pn)) = (writeSlot h2 pn j (Obj.node q)).bind (fun h3 => some (h3, pn)) ∧
        Frame h1 h2 (Ss j) ∧ Keeps h1 h2 ∧ Trie h2 (k + 1) q S1 ∧
        (∀ x, x ∈ S1 → x ∈ Ss j ∨ x = tl ∨ h1.length ≤ x) ∧
        (∀ i, i / 32 % 32 ^ (k + 1) = (e - 1) / 32 % 32 ^ (k + 1) →
          uncheckedSlotsForF i (k + 1 + 1) h2 (BITS * (k + 1)) (some q) = some (some tl)) ∧
        ∀ i, i / 32 % 32 ^ (k + 1) ≠ (e - 1) / 32 % 32 ^ (k + 1) →
          readFrom h2 i (k + 1 + 1) (BITS * (k + 1)) (some q) =
            readFrom h i (k + 1 + 1) (BITS * (k + 1)) cp := by
      rcases hch j hj with ⟨hnull, -⟩ | ⟨c, hc, hsub⟩
      · have h0 := hpnull hnull
        obtain ⟨r1, hr1', -⟩ := hr1
        obtain ⟨h2, q, S1, e2, f2, hs2, hS2, hw2, hr2⟩ :=
          newPathF_trie r1.edit tl (k + 1) h1 hk' ⟨tn, htn1⟩
        refine ⟨h2, q, S1, Obj.null, none, hnull, rfl, ?_,
          f2.mono (fun _ hx => absurd hx (by simp)), ?_, hs2, fun x hx => Or.inr (hS2 x hx),
          fun i hi => hw2 i (hi.trans h0), fun i hi => ?_⟩
        · simp only [hn1, N.slot, hn1s j hj, hnull, Option.bind_eq_bind, Option.some_bind]
          rw [hr1', Option.some_bind]
          unfold newPath
          rw [sub32_level hk, newPathF_fuel r1.edit tl (k + 1) _ h1
            (by simp only [BITS_eq]; omega) (by unfold U32; omega), e2, Option.some_bind]
        · intro x nx hnx
          exact ⟨nx, by rw [f2.2 x (get_lt hnx) (by simp)]; exact hnx, rfl⟩
        · rw [hr2 i (fun hc => hi (hc.trans h0.symm)), readFrom_nil]
      · obtain ⟨h2, q, S1, e2, f2, k2, hs2, hS2, -, -, hw2, hr2⟩ :=
          tpushTailF_trie a tl E e hend k h1 c (Ss j)
            (hsub.keep_on (fun x hx => hold1 x (hvalid x (hSs j hj x hx))))
            ((hpch c hc).keep_frame f1) hr1 ⟨tn, htn1⟩ (fun hc' => htl (hSs j hj _ hc')) hk'
        refine ⟨h2, q, S1, Obj.node c, some c, hc, rfl, ?_, f2, k2, hs2, hS2, hw2,
          fun i hi => ?_⟩
        · simp only [hn1, N.slot, hn1s j hj, hc, Option.bind_eq_bind, Option.some_bind,
            sub32_level hk, e2]
        · rw [hr2 i hi]
          exact hsub.read_same i (fun x hx => hold1 x (hvalid x (hSs j hj x hx))) hk'
    obtain ⟨h2, q, S1, s, cp, hs0, hcp, e2, f2, k2, hs2, hS2, hw2, hr2⟩ := hchild
    have hpn2 : h2[pn]? = some n1 := by
      rw [f2.2 pn hpnlt (hpnSs j hj)]; exact hn1
    have hpnS1 : pn ∉ S1 := by
      intro hc
      rcases hS2 pn hc with h' | h' | h'
      · exact hpnSs j hj h'
      · exact hpntl h'
      · omega
    have hsib : ∀ i, i < BRANCHES → i ≠ j → ∀ x, x ∈ Ss i → h2[x]? = h[x]? := by
      intro i hi hij x hx
      have hxv := hvalid x (hSs i hi x hx)
      rw [f2.2 x (lt_of_lt_of_le hxv f1.1) (fun hc => hd i j hi hj hij x hx hc)]
      exact hold1 x hxv
    obtain ⟨S', hs', hS', hS1S'⟩ := Trie.rewrite tl hvalid hS hp hd hch hj hpn' hpn2
      hn1v hn1s hsib hs2 (fun x hx => by
        rcases hS2 x hx with h' | h' | h'
        · exact Or.inl h'
        · exact Or.inr (Or.inl h')
        · exact Or.inr (Or.inr (le_trans f1.1 h'))) hpnS1 htl
    have hw := writeSlot_eq (Obj.node q) hpn2 (by rw [hn1v]; exact hj)
    have hnew : (h2.set pn ⟨n1.edit, n1.length, n1._v.set j (Obj.node q)⟩)[pn]? =
        some ⟨n1.edit, n1.length, n1._v.set j (Obj.node q)⟩ := set_get_self _ hpn2
    have hq3 : ∀ x, x ∈ S1 →
        (h2.set pn ⟨n1.edit, n1.length, n1._v.set j (Obj.node q)⟩)[x]? = h2[x]? :=
      fun x hx => set_get_ne h2 _ (fun hc => hpnS1 (by rw [← hc]; exact hx))
    have hslj : (n1._v.set j (Obj.node q))[j]? = some (Obj.node q) := by
      rw [List.getElem?_set_self (by rw [hn1v]; exact hj)]
    refine ⟨h2.set pn ⟨n1.edit, n1.length, n1._v.set j (Obj.node q)⟩, pn, S', ?_, ?_,
      (k1.comp k2).comp (Keeps.of_write hpn2 rfl), hs', hS', hpn',
      ⟨_, hnew, hn1e.trans hrE⟩, fun i hi => ?_, fun i hi => ?_⟩
    · rw [tpushTailF]
      simp only [e1, Option.bind_eq_bind, Option.some_bind]
      rw [if_neg (Nat.not_le.2 hk)]
      simp only [hend, digit_eq, hjdef]
      rw [if_neg hne]
      exact e2.trans (by rw [hw, Option.some_bind])
    · refine ⟨le_trans (le_trans f1.1 f2.1) (by simp), fun x hx hxS => ?_⟩
      have hxpn : x ≠ pn := by
        intro hc
        rcases hpn' with h1' | h1'
        · exact hxS (by rw [hc, h1']; exact hpS)
        · omega
      rw [set_get_ne h2 _ hxpn, f2.2 x (lt_of_lt_of_le hx f1.1) (fun hc => hxS (hSs j hj x hc))]
      exact hold1 x hx
    · obtain ⟨hdig, hlow⟩ := (block_mod_succ (i / 32) ((e - 1) / 32) (k + 1)).1 hi
      rw [← digit_block, ← digit_block, hjdef] at hdig
      rw [walk_down (s := Obj.node q) (c := some q) (k + 1 + 1) hnew hk
        (by
          show (n1._v.set j (Obj.node q))[i / 32 ^ (k + 1 + 1) % 32]? = _
          rw [hdig]; exact hslj) rfl,
        hs2.walk_same i hq3 hk']
      exact hw2 i hlow
    · by_cases hdig : i / 32 ^ (k + 1 + 1) % 32 = j
      · have hlow : i / 32 % 32 ^ (k + 1) ≠ (e - 1) / 32 % 32 ^ (k + 1) := by
          intro hc
          apply hi
          refine (block_mod_succ (i / 32) ((e - 1) / 32) (k + 1)).2 ⟨?_, hc⟩
          rw [← digit_block, ← digit_block, hjdef]
          exact hdig
        rw [readFrom_down (s := Obj.node q) (c := some q) (k + 1 + 1) hnew hk
          (by
            show (n1._v.set j (Obj.node q))[i / 32 ^ (k + 1 + 1) % 32]? = _
            rw [hdig]; exact hslj) rfl,
          hs2.read_same i hq3 hk', hr2 i hlow,
          readFrom_down (k + 1 + 1) hn hk (by rw [hdig]; exact hs0) hcp]
      · have hjd : i / 32 ^ (k + 1 + 1) % 32 < BRANCHES := Nat.mod_lt _ (by norm_num)
        have hsl : (n1._v.set j (Obj.node q))[i / 32 ^ (k + 1 + 1) % 32]? =
            n._v[i / 32 ^ (k + 1 + 1) % 32]? := by
          rw [List.getElem?_set_ne (Ne.symm hdig)]
          exact hn1s _ hjd
        rcases hch _ hjd with ⟨hnull, -⟩ | ⟨c, hc, hsub⟩
        · rw [readFrom_down (s := Obj.null) (c := none) (k + 1 + 1) hnew hk (hsl.trans hnull)
            rfl, readFrom_down (s := Obj.null) (c := none) (k + 1 + 1) hn hk hnull rfl,
            readFrom_nil, readFrom_nil]
        · rw [readFrom_down (s := Obj.node c) (c := some c) (k + 1 + 1) hnew hk
            (hsl.trans hc) rfl,
            readFrom_down (s := Obj.node c) (c := some c) (k + 1 + 1) hn hk hc rfl]
          refine hsub.read_same i (fun x hx => ?_) hk'
          rw [set_get_ne h2 _ (fun hc' => hpnSs _ hjd (by rw [← hc']; exact hx))]
          exact hsib _ hjd hdig x hx

/-! ## Transient push on a transient in shape -/

/-- `getValue` at an index in the tail reads the tail node. -/
theorem getValue_tail {h : Heap α} {a : A} {j tp : Nat} {tn : N α} (ht : tailoff a ≤ j)
    (htail : a._tail = some tp) (htn : h[tp]? = some tn) :
    ArrayImp.getValue h a j = tn._v[j % 32]? := by
  simp only [ArrayImp.getValue, uncheckedSlotsFor, if_pos ht, ArrayImp.tail, htail, deref, htn,
    N.slot, and_MASK, Option.bind_eq_bind, Option.some_bind]

/-- `getValue` at an index below the tail reads through the walk from the root. -/
theorem getValue_trie {h : Heap α} {a : A} {j k rp : Nat} {rn : N α} (ht : ¬ tailoff a ≤ j)
    (hsh : a._shift = BITS * (k + 1)) (hroot : a._root = some rp) (hrn : h[rp]? = some rn)
    (hk : BITS * (k + 1) < 32) :
    ArrayImp.getValue h a j = readFrom h j (k + 1 + 1) (BITS * (k + 1)) (some rp) := by
  simp only [ArrayImp.getValue, uncheckedSlotsFor, if_neg ht, ArrayImp.root, hroot, deref, hrn,
    Option.bind_eq_bind, Option.some_bind, readFrom, hsh]
  rw [uncheckedSlotsForF_fuel j (k + 1) _ h (some rp) (by simp only [BITS_eq]; omega)
    (by unfold U32; omega)]

/-- Transient push when the tail has room: the tail is written in place. -/
theorem tpush_room_reads {h : Heap α} {t : TA} {k rp tp : Nat} {rn tn : N α} {S : Set Nat}
    (v : Obj α) (hlen : t._end + 1 < U32) (hsh : t._shift = BITS * (k + 1))
    (hk : BITS * (k + 1) < 32) (hroot : t._root = some rp) (htail : t._tail = some tp)
    (hrn : h[rp]? = some rn) (hed : rn.edit ≠ NO_EDIT) (htn : h[tp]? = some tn)
    (htv : tn._v.length = BRANCHES) (hs : Trie h (k + 1) rp S) (htS : tp ∉ S)
    (hroom : t._end - toff t._end < 32) :
    ∃ h' t', tpush h t v = some ⟨h', t', true⟩ ∧ t'._start = t._start ∧ t'._end = t._end + 1 ∧
      isEditable h' t' = some true ∧ ArrayImp.getValue h' t' t._end = some v ∧
      ∀ j, j < t._end → ArrayImp.getValue h' t' j = ArrayImp.getValue h t j := by
  have hU : t._end < U32 := by omega
  have ht := tailoff_toff t hU
  have hisEd : isEditable h t = some true := by
    simp [isEditable, ArrayImp.root, hroot, deref, hrn, hed]
  have hrpS := hs.top_mem
  have hne : rp ≠ tp := fun hc => htS (by rw [← hc]; exact hrpS)
  obtain ⟨hm32, hle, -⟩ := toff_spec t._end
  have hmod := toff_mod hroom
  have hidx : t._end % 32 < tn._v.length := by rw [htv, BRANCHES_eq]; omega
  have hw := writeSlot_eq v htn hidx
  obtain ⟨t', hdef⟩ : ∃ t' : TA, t' = ⟨t._start, t._end + 1, t._shift, t._root, t._tail⟩ :=
    ⟨_, rfl⟩
  have hend' : t'._end = t._end + 1 := by rw [hdef]
  have hroot' : t'._root = some rp := by rw [hdef]; exact hroot
  have htail' : t'._tail = some tp := by rw [hdef]; exact htail
  have hsh' : t'._shift = BITS * (k + 1) := by rw [hdef]; exact hsh
  have ht' : tailoff t' = toff t._end := by
    rw [tailoff_toff t' (by rw [hend']; exact hlen), hend']
    exact toff_room hroom
  have hrn' : (h.set tp ⟨tn.edit, tn.length, tn._v.set (t._end % 32) v⟩)[rp]? = some rn := by
    rw [set_get_ne h _ hne]; exact hrn
  have htn' : (h.set tp ⟨tn.edit, tn.length, tn._v.set (t._end % 32) v⟩)[tp]? =
      some ⟨tn.edit, tn.length, tn._v.set (t._end % 32) v⟩ := set_get_self _ htn
  refine ⟨h.set tp ⟨tn.edit, tn.length, tn._v.set (t._end % 32) v⟩, t', ?_, by rw [hdef], hend',
    ?_, ?_, fun j hj => ?_⟩
  · rw [hdef]
    unfold ArrayImp.tpush
    rw [hisEd]
    simp only [Option.bind_eq_bind, Option.some_bind, Bool.not_true, Bool.false_eq_true,
      if_false]
    rw [if_pos (by rw [ht, sub32_eq hle hU, BRANCHES_eq]; exact hroom)]
    simp only [ArrayImp.tail, htail, deref, htn, Option.bind_eq_bind, Option.some_bind,
      add32_eq hlen]
    rw [and_MASK, hw, Option.some_bind]
  · simp [isEditable, ArrayImp.root, hroot', deref, hrn', hed]
  · rw [getValue_tail (by rw [ht']; exact hle) htail' htn']
    show (tn._v.set (t._end % 32) v)[t._end % 32]? = some v
    rw [List.getElem?_set_self hidx]
  · by_cases hjt : toff t._end ≤ j
    · rw [getValue_tail (by rw [ht']; exact hjt) htail' htn',
        getValue_tail (by rw [ht]; exact hjt) htail htn]
      show (tn._v.set (t._end % 32) v)[j % 32]? = _
      rw [List.getElem?_set_ne]
      obtain ⟨c, hc⟩ := hm32
      omega
    · rw [getValue_trie (by rw [ht']; exact hjt) hsh' hroot' hrn' hk,
        getValue_trie (by rw [ht]; exact hjt) hsh hroot hrn hk]
      exact hs.read_same j (fun x hx => set_get_ne h _ (fun hc => htS (by rw [← hc]; exact hx))) hk

/-- Transient push when the tail is full: the tail goes into the tree, which
gets a new root when it is full, and a new tail starts. -/
theorem tpush_full_reads {h : Heap α} {t : TA} {k rp tp : Nat} {rn tn : N α} {S : Set Nat}
    (v : Obj α) (hlen : t._end + 1 < U32) (hsh : t._shift = BITS * (k + 1))
    (h31 : t._shift < 31) (hroot : t._root = some rp) (htail : t._tail = some tp)
    (hrn : h[rp]? = some rn) (hed : rn.edit ≠ NO_EDIT) (htn : h[tp]? = some tn)
    (hs : Trie h (k + 1) rp S) (htS : tp ∉ S)
    (hcap : toff t._end ≤ 32 ^ (k + 1 + 1)) (hpath : PathOk h rn.edit t._end (k + 1) rp)
    (hfull : ¬ t._end - toff t._end < 32) :
    ∃ h' t', tpush h t v = some ⟨h', t', true⟩ ∧ t'._start = t._start ∧ t'._end = t._end + 1 ∧
      isEditable h' t' = some true ∧ ArrayImp.getValue h' t' t._end = some v ∧
      ∀ j, j < t._end → ArrayImp.getValue h' t' j = ArrayImp.getValue h t j := by
  have hU : t._end < U32 := by omega
  have ht := tailoff_toff t hU
  have hk : BITS * (k + 1) < 32 := by rw [hsh] at h31; omega
  have hisEd : isEditable h t = some true := by
    simp [isEditable, ArrayImp.root, hroot, deref, hrn, hed]
  have hvalid := hs.addr_lt
  have hrpS := hs.top_mem
  have htpv : tp < h.length := get_lt htn
  obtain ⟨hm32, hle, -⟩ := toff_spec t._end
  obtain ⟨hto, hfl⟩ := toff_full hfull
  have hnewS : h.length ∉ S := fun hc => by have := hvalid _ hc; omega
  have hnt : (N.create BRANCHES rn.edit : N α).setSlot 0 v =
      some ⟨rn.edit, BRANCHES, (List.replicate BRANCHES Obj.null).set 0 v⟩ :=
    N.setSlot_eq (N.create BRANCHES rn.edit : N α) 0 v (by simp [N.create, BRANCHES_eq])
  have hfa := Frame.alloc h
    (⟨rn.edit, BRANCHES, (List.replicate BRANCHES Obj.null).set 0 v⟩ : N α) ∅
  have hold1 : ∀ x, x < h.length → (h ++ [(⟨rn.edit, BRANCHES,
      (List.replicate BRANCHES Obj.null).set 0 v⟩ : N α)])[x]? = h[x]? :=
    fun x hx => hfa.2 x hx (by simp)
  have hcond : ¬ sub32 t._end (tailoff t) < BRANCHES := by
    rw [ht, sub32_eq hle hU, BRANCHES_eq]; exact hfull
  have hguard : ¬ 31 ≤ t._shift := by omega
  have hovf := overflow_iff hfl hm32 hcap
  have hend1 : add32 t._end 1 = t._end + 1 := add32_eq hlen
  have hntget : ∀ {h' : Heap α} {M : Set Nat}, Frame (h ++ [(⟨rn.edit, BRANCHES,
      (List.replicate BRANCHES Obj.null).set 0 v⟩ : N α)]) h' M → h.length ∉ M →
      h'[h.length]? = some (⟨rn.edit, BRANCHES,
        (List.replicate BRANCHES Obj.null).set 0 v⟩ : N α) := by
    intro h' M f hM
    rw [f.2 h.length (by simp) hM]
    exact get_append_new h _
  have he0 : t._end % 32 = 0 := by
    obtain ⟨c, hc⟩ := hm32
    omega
  have hnt0 : ((List.replicate BRANCHES Obj.null).set 0 v)[t._end % 32]? = some v := by
    rw [he0]; simp [BRANCHES_eq]
  by_cases hov : toff t._end = 32 ^ (k + 1 + 1)
  · -- the tree is full: a new root
    have hk2 : BITS * (k + 1 + 1) < 32 := by
      by_contra hc
      have h7 : 7 ≤ k + 1 + 1 := by simp only [BITS_eq] at hc; omega
      have := Nat.pow_le_pow_right (show 0 < 32 by norm_num) h7
      unfold U32 at hU
      omega
    obtain ⟨h2, np, S1, e1, f1, hs1, hS1, hw1, -⟩ :=
      newPathF_trie rn.edit tp (k + 1)
        (h ++ [(⟨rn.edit, BRANCHES, (List.replicate BRANCHES Obj.null).set 0 v⟩ : N α)]) hk
        ⟨tn, by rw [hold1 tp htpv]; exact htn⟩
    obtain ⟨g0, g1, gl, -⟩ := set_set_get (α := α) (Obj.node rp) (Obj.node np)
    have hroot0 : (N.create BRANCHES rn.edit : N α).setSlot 0 (Obj.node rp) =
        some ⟨rn.edit, BRANCHES, (List.replicate BRANCHES Obj.null).set 0 (Obj.node rp)⟩ :=
      N.setSlot_eq (N.create BRANCHES rn.edit : N α) 0 (Obj.node rp)
        (by simp [N.create, BRANCHES_eq])
    have hroot1 : (⟨rn.edit, BRANCHES, (List.replicate BRANCHES Obj.null).set 0
        (Obj.node rp)⟩ : N α).setSlot 1 (Obj.node np) =
        some ⟨rn.edit, BRANCHES, ((List.replicate BRANCHES Obj.null).set 0 (Obj.node rp)).set 1
          (Obj.node np)⟩ :=
      N.setSlot_eq
        (⟨rn.edit, BRANCHES, (List.replicate BRANCHES Obj.null).set 0 (Obj.node rp)⟩ : N α) 1
        (Obj.node np) (by simp [BRANCHES_eq])
    have f2 : Frame h h2 ∅ := Frame.trans hfa f1 (fun x hx => hx) (fun x hx _ => hx)
    have f3 := Frame.alloc h2
      (⟨rn.edit, BRANCHES, ((List.replicate BRANCHES Obj.null).set 0 (Obj.node rp)).set 1
        (Obj.node np)⟩ : N α) ∅
    have f13 : Frame _ _ ∅ := Frame.trans f1 f3 (fun x hx => hx) (fun x hx _ => hx)
    have f03 : Frame h _ ∅ := Frame.trans f2 f3 (fun x hx => hx) (fun x hx _ => hx)
    obtain ⟨t', hdef⟩ : ∃ t' : TA, t' = ⟨t._start, t._end + 1, BITS * (k + 1 + 1),
      some h2.length, some h.length⟩ := ⟨_, rfl⟩
    have hend' : t'._end = t._end + 1 := by rw [hdef]
    have hroot' : t'._root = some h2.length := by rw [hdef]
    have htail' : t'._tail = some h.length := by rw [hdef]
    have hsh' : t'._shift = BITS * (k + 1 + 1) := by rw [hdef]
    have ht' : tailoff t' = t._end := by
      rw [tailoff_toff t' (by rw [hend']; exact hlen), hend']
      exact hto
    have hnr := get_append_new h2 (⟨rn.edit, BRANCHES,
      ((List.replicate BRANCHES Obj.null).set 0 (Obj.node rp)).set 1 (Obj.node np)⟩ : N α)
    refine ⟨h2 ++ [(⟨rn.edit, BRANCHES, ((List.replicate BRANCHES Obj.null).set 0
        (Obj.node rp)).set 1 (Obj.node np)⟩ : N α)], t', ?_, by rw [hdef], hend', ?_, ?_,
      fun j hj => ?_⟩
    · rw [hdef]
      unfold ArrayImp.tpush
      rw [hisEd]
      simp only [Option.bind_eq_bind, Option.some_bind, Bool.not_true, Bool.false_eq_true,
        if_false]
      rw [if_neg hcond]
      simp only [ArrayImp.tail, ArrayImp.root, htail, hroot, deref, htn, hrn,
        Option.bind_eq_bind, Option.some_bind, alloc, hnt]
      rw [if_neg hguard, hsh, if_pos (hovf.2 hov)]
      unfold newPath
      rw [newPathF_fuel rn.edit tp (k + 1) _ _ (by simp only [BITS_eq]; omega)
        (by unfold U32; omega), e1]
      simp only [Option.some_bind, Obj.ofN, hroot0, hroot1, hend1]
      rw [add32_level (by rw [← hsh]; exact h31)]
    · simp [isEditable, ArrayImp.root, hroot', deref, hnr, hed]
    · rw [getValue_tail (by rw [ht']) htail' (hntget f13 (by simp))]
      exact hnt0
    · rw [getValue_trie (by rw [ht']; omega) hsh' hroot' hnr hk2]
      by_cases hjt : toff t._end ≤ j
      · have hdig : j / 32 ^ (k + 1 + 1) % 32 = 1 := by
          have h32 := pow_ge_32 (k + 1)
          rw [Nat.div_eq_of_lt_le (k := 1) (by omega) (by omega)]
        have hblock : j / 32 % 32 ^ (k + 1) = 0 := by
          have hC : 0 < 32 ^ (k + 1) := by positivity
          have hp : 32 ^ (k + 1 + 1) = 32 * 32 ^ (k + 1) := by rw [pow_succ]; ring
          have : j / 32 = 32 ^ (k + 1) := by
            apply Nat.div_eq_of_lt_le <;> omega
          rw [this, Nat.mod_self]
        rw [readFrom_down (s := Obj.node np) (c := some np) (k + 1 + 1) hnr hk2
          (by rw [hdig]; exact g1) rfl]
        unfold readFrom
        rw [hs1.walk_same j (fun x hx => f3.2 x (hs1.addr_lt x hx) (by simp)) hk, hw1 j hblock,
          getValue_tail (by rw [ht]; exact hjt) htail htn]
        simp only [Option.some_bind, deref, f03.2 tp htpv (by simp), htn, N.slot, and_MASK]
      · have hdig : j / 32 ^ (k + 1 + 1) % 32 = 0 := by
          rw [Nat.div_eq_of_lt (by omega)]
        rw [readFrom_down (s := Obj.node rp) (c := some rp) (k + 1 + 1) hnr hk2
          (by rw [hdig]; exact g0) rfl,
          hs.read_same j (fun x hx => f03.2 x (hvalid x hx) (by simp)) hk,
          getValue_trie (by rw [ht]; exact hjt) hsh hroot hrn hk]
  · -- the tree has room: the path is made editable and written in place
    have hC : 0 < 32 ^ (k + 1) := by positivity
    have hp : 32 ^ (k + 1 + 1) = 32 * 32 ^ (k + 1) := by rw [pow_succ]; ring
    obtain ⟨c, hc⟩ := hm32
    have hcC : c < 32 ^ (k + 1) := by
      have : toff t._end < 32 ^ (k + 1 + 1) := lt_of_le_of_ne hcap hov
      rw [hp, hc] at this
      exact Nat.lt_of_mul_lt_mul_left this
    have he1 : (t._end - 1) / 32 = c := by omega
    have h1e : 1 ≤ t._end := by omega
    obtain ⟨h2, q, S', e1, f1, -, hs', hS', -, ⟨qn, hqn, hqe⟩, hw2, hr2⟩ :=
      tpushTailF_trie ⟨t._start, t._end, BITS * (k + 1), some rp, some h.length⟩ tp rn.edit
        t._end (sub32_eq h1e hU) k
        (h ++ [(⟨rn.edit, BRANCHES, (List.replicate BRANCHES Obj.null).set 0 v⟩ : N α)])
        rp S (hs.keep_on (fun x hx => hold1 x (hvalid x hx))) (hpath.keep_frame hfa)
        ⟨rn, by
          simp only [ArrayImp.root, deref]
          rw [hold1 rp (hvalid rp hrpS)]; exact hrn, rfl⟩
        ⟨tn, by rw [hold1 tp htpv]; exact htn⟩ htS hk
    have f2 : Frame h h2 S := Frame.trans hfa f1 (fun x hx => absurd hx (by simp))
      (fun x hx _ => hx)
    obtain ⟨t', hdef⟩ : ∃ t' : TA, t' = ⟨t._start, t._end + 1, BITS * (k + 1),
      some q, some h.length⟩ := ⟨_, rfl⟩
    have hend' : t'._end = t._end + 1 := by rw [hdef]
    have hroot' : t'._root = some q := by rw [hdef]
    have htail' : t'._tail = some h.length := by rw [hdef]
    have hsh' : t'._shift = BITS * (k + 1) := by rw [hdef]
    have ht' : tailoff t' = t._end := by
      rw [tailoff_toff t' (by rw [hend']; exact hlen), hend']
      exact hto
    refine ⟨h2, t', ?_, by rw [hdef], hend', ?_, ?_, fun j hj => ?_⟩
    · rw [hdef]
      unfold ArrayImp.tpush
      rw [hisEd]
      simp only [Option.bind_eq_bind, Option.some_bind, Bool.not_true, Bool.false_eq_true,
        if_false]
      rw [if_neg hcond]
      simp only [ArrayImp.tail, ArrayImp.root, htail, hroot, deref, htn, hrn,
        Option.bind_eq_bind, Option.some_bind, alloc, hnt]
      rw [if_neg hguard, hsh, if_neg (fun hc => hov (hovf.1 hc))]
      unfold tpushTail
      rw [tpushTailF_fuel _ tp k _ _ _ (by simp only [BITS_eq]; omega) (by unfold U32; omega),
        e1]
      simp only [Option.some_bind, hend1]
    · simp [isEditable, ArrayImp.root, hroot', deref, hqn, hqe, hed]
    · rw [getValue_tail (by rw [ht']) htail' (hntget f1 hnewS)]
      exact hnt0
    · rw [getValue_trie (by rw [ht']; omega) hsh' hroot' hqn hk]
      by_cases hjt : toff t._end ≤ j
      · have hj32 : j / 32 = c := by omega
        unfold readFrom
        rw [hw2 j (by rw [hj32, he1]), getValue_tail (by rw [ht]; exact hjt) htail htn]
        simp only [Option.some_bind, deref, f2.2 tp htpv htS, htn, N.slot, and_MASK]
      · have hj32 : j / 32 < c := by omega
        rw [hr2 j (by
            rw [he1, Nat.mod_eq_of_lt hcC, Nat.mod_eq_of_lt (lt_trans hj32 hcC)]
            omega),
          hs.read_same j (fun x hx => hold1 x (hvalid x hx)) hk,
          getValue_trie (by rw [ht]; exact hjt) hsh hroot hrn hk]

/-- Transient push on a pushable transient whose `_end` is below `2 ^ 32 - 1`:
the transient itself is returned, still editable, with `_end` one more; the cell
is read at the old `_end`, and every absolute index below it reads what it read
before. -/
theorem Pushable.tpush_reads {h : Heap α} {t : TA} (hT : Pushable h t) (v : Obj α)
    (hlen : t._end + 1 < U32) :
    ∃ h' t', tpush h t v = some ⟨h', t', true⟩ ∧ t'._start = t._start ∧ t'._end = t._end + 1 ∧
      isEditable h' t' = some true ∧ ArrayImp.getValue h' t' t._end = some v ∧
      ∀ j, j < t._end → ArrayImp.getValue h' t' j = ArrayImp.getValue h t j := by
  obtain ⟨-, h31, k, rp, tp, rn, tn, S, hsh, hroot, htail, hrn, hed, htn, htv, hs, htS, hcap,
    hpath⟩ := hT
  have hk : BITS * (k + 1) < 32 := by rw [hsh] at h31; omega
  by_cases hroom : t._end - toff t._end < 32
  · exact tpush_room_reads v hlen hsh hk hroot htail hrn hed htn htv hs htS hroom
  · exact tpush_full_reads v hlen hsh h31 hroot htail hrn hed htn hs htS hcap
      (hpath (by omega)) hroom

/-- The example `popT`: the header, the root (a copy of `EMPTY_NODE` with length
0) and the tail. -/
theorem popT_eval : popT.2 = ⟨0, 32, 5, some 37, some 38⟩ ∧
    popT.1[37]? = some ⟨7, 0, List.replicate 32 Obj.null⟩ ∧
    popT.1[38]? = some ⟨7, 32, (List.range 32).map Obj.value⟩ := by
  decide!

/-- The example `popT` is a pushable transient. -/
theorem popT_pushable : Pushable popT.1 popT.2 := by
  obtain ⟨e1, e2, e3⟩ := popT_eval
  rw [e1]
  refine ⟨by decide, by decide, 0, 37, 38, _, _, {37}, rfl, rfl, rfl, e2, by decide, e3,
    by decide, ?_, by simp, by decide, fun _ => ?_⟩
  · refine ⟨_, e2, by decide, fun _ => ∅, fun x => ?_, fun j _ => by simp, fun i j _ _ _ x hx => ?_,
      fun j hj => Or.inl ⟨?_, rfl⟩⟩
    · simp
    · simp at hx
    · rw [BRANCHES_eq] at hj
      show (List.replicate 32 Obj.null)[j]? = some Obj.null
      rw [List.getElem?_replicate, if_pos hj]
  · exact ⟨_, e2, fun hc => absurd rfl hc, fun _ => by simp, fun _ _ => trivial⟩

/-- The tree of a representation is a tree in the weaker sense of `Trie`. -/
theorem Sub.to_trie {h : Heap α} {xs : List α} {m : Nat} : ∀ {k p b : Nat} {S : Set Nat},
    Sub h xs m k p b S → Trie h k p S
  | 0, p, b, S, hs => by
    obtain ⟨hS, -, n, hn, -⟩ := hs
    exact ⟨hS, n, hn⟩
  | k + 1, p, b, S, hs => by
    obtain ⟨n, hn, -, hv, Ss, hS, hp, hd, hch⟩ := hs
    refine ⟨n, hn, hv, Ss, hS, hp, hd, fun j hj => ?_⟩
    by_cases hc : b + j * 32 ^ (k + 1) < m
    · obtain ⟨q, hq, hsub⟩ := (hch j hj).1 hc
      exact Or.inr ⟨q, hq, hsub.to_trie⟩
    · exact Or.inl ((hch j hj).2 (by omega))

/-- The digit of `m` at a node that covers `32 * P` indices from `b` on, when `m`
is in that range or a multiple of `32 * P`: the child at that digit starts at or
before `m`, at a multiple of `P`, and `m` is in its range or a multiple of `P`. -/
theorem path_digit {P b m : Nat} (hP : 0 < P) (hb : 32 * P ∣ b) (hbm : b ≤ m)
    (hr : m < b + 32 * P ∨ 32 * P ∣ m) :
    b + m / P % 32 * P ≤ m ∧ P ∣ b + m / P % 32 * P ∧
      (m < b + m / P % 32 * P + P ∨ P ∣ m) := by
  obtain ⟨c, rfl⟩ := hb
  have hPb : P ∣ 32 * P * c + m / P % 32 * P :=
    Dvd.dvd.add ⟨32 * c, by ring⟩ ⟨m / P % 32, by ring⟩
  rcases hr with hr | ⟨t, rfl⟩
  · have hQ : m / P / 32 = c := by
      rw [Nat.div_div_eq_div_mul]
      apply Nat.div_eq_of_lt_le
      · calc c * (P * 32) = 32 * P * c := by ring
          _ ≤ m := hbm
      · calc m < 32 * P * c + 32 * P := hr
          _ = (c + 1) * (P * 32) := by ring
    have h1 := Nat.div_add_mod m P
    have h2 := Nat.div_add_mod (m / P) 32
    have h3 := Nat.mod_lt m hP
    rw [hQ] at h2
    generalize m / P % 32 = d at h2 hPb ⊢
    rw [← h2] at h1
    have h4 : P * (32 * c + d) = 32 * P * c + d * P := by ring
    exact ⟨by omega, hPb, Or.inl (by omega)⟩
  · have hd : 32 * P * t / P % 32 = 0 := by
      rw [show 32 * P * t = P * (32 * t) by ring, Nat.mul_div_cancel_left _ hP]
      exact Nat.mul_mod_right 32 t
    rw [hd] at hPb ⊢
    exact ⟨by omega, hPb, Or.inr ⟨32 * t, by ring⟩⟩

/-- In the tree of a representation the way to the place of the tail is as
`PathOk` wants it: every node has length `BRANCHES`, and an empty slot is met
only at the start of a block. -/
theorem Sub.path_ok {h : Heap α} {xs : List α} {m E e : Nat} (he : (e - 1) / 32 = m / 32)
    (hm : 32 ∣ m) : ∀ {k p b : Nat} {S : Set Nat}, Sub h xs m k p b S →
      32 ^ (k + 1) ∣ b → b ≤ m → (m < b + 32 ^ (k + 1) ∨ 32 ^ (k + 1) ∣ m) → PathOk h E e k p
  | 0, _, _, _, _, _, _, _ => trivial
  | k + 1, p, b, S, hs, hb, hbm, hr => by
    obtain ⟨n, hn, hl, hv, Ss, hS, hp, hd, hch⟩ := hs
    have hP : 0 < 32 ^ (k + 1) := by positivity
    have hpow : 32 ^ (k + 1 + 1) = 32 * 32 ^ (k + 1) := by rw [pow_succ]; ring
    have hdig : (e - 1) / 32 ^ (k + 1) = m / 32 ^ (k + 1) := by
      rw [pow_succ', ← Nat.div_div_eq_div_mul, ← Nat.div_div_eq_div_mul, he]
    rw [hpow] at hb hr
    obtain ⟨hA, hB, hC⟩ := path_digit hP hb hbm hr
    have hj : m / 32 ^ (k + 1) % 32 < BRANCHES := Nat.mod_lt _ (by norm_num)
    refine ⟨n, hn, fun _ => hl, fun hnull => ?_, fun q hq => ?_⟩
    · rw [hdig] at hnull
      by_cases hc : b + m / 32 ^ (k + 1) % 32 * 32 ^ (k + 1) < m
      · obtain ⟨q, hq, -⟩ := (hch _ hj).1 hc
        rw [hq] at hnull
        cases hnull
      · have hmeq : m = b + m / 32 ^ (k + 1) % 32 * 32 ^ (k + 1) := by omega
        rw [← hmeq] at hB
        obtain ⟨t, ht⟩ := hB
        rw [he, ht, pow_succ', Nat.mul_assoc, Nat.mul_div_cancel_left _ (by norm_num),
          Nat.mul_mod_right]
    · rw [hdig] at hq
      by_cases hc : b + m / 32 ^ (k + 1) % 32 * 32 ^ (k + 1) < m
      · obtain ⟨q', hq', hsub⟩ := (hch _ hj).1 hc
        rw [hq'] at hq
        cases hq
        exact hsub.path_ok he hm hB hA hC
      · have := ((hch _ hj).2 (by omega)).1
        rw [this] at hq
        cases hq

/-- An editable transient that satisfies the representation invariant is
pushable. -/
theorem TRep.pushable {h : Heap α} {t : TA} {xs : List α} (hT : TRep h t xs)
    (hs : t._start ≤ t._end) (h31 : t._shift < 31) : Pushable h t := by
  obtain ⟨k, rp, tp, tn, S, r, -, htv, htS, rn, hrn, hed⟩ := hT
  have ht := tailoff_toff t (by rw [r.hend]; exact r.hlt)
  obtain ⟨hm32, hle, -⟩ := toff_spec t._end
  have hsub := r.hsub
  have hcap := r.hcap
  rw [ht] at hsub hcap
  refine ⟨hs, h31, k, rp, tp, rn, tn, S, r.hshift, r.hroot, r.htail, hrn, hed, r.htn, htv,
    hsub.to_trie, htS, hcap, fun hfull => ?_⟩
  have hfl := (toff_full (e := t._end) (by omega)).2
  refine hsub.path_ok (by omega) hm32 (dvd_zero _) (Nat.zero_le _) ?_
  rcases Nat.lt_or_ge (toff t._end) (0 + 32 ^ (k + 1 + 1)) with hlt | hge
  · exact Or.inl hlt
  · have : toff t._end = 32 ^ (k + 1 + 1) := by omega
    exact Or.inr ⟨1, by rw [this, Nat.mul_one]⟩

/-! ## Claims -/

/-- C1, as amended: for every sequence `xs` of fewer than `2 ^ 32` elements, the
successive persistent pushes of `xs` onto the empty vector all return, and the
vector they end in has `size() = |xs|`, `get(i) = xs[i]` and
`findValue(i) = xs[i]` for every `i < |xs|`, and `findValue(|xs|)` is nil. The
statement covers every length, so also the ones at which the tail is full, the
root overflows and the trie grows by a level. -/
theorem push_sequence_contents (xs : List α) (hn : xs.length < U32) :
    ∃ h v, A.pushAll heap0 A.empty xs = some (h, v) ∧ v.size = xs.length ∧
      (∀ i, i < xs.length →
        A.get h v i = xs[i]? ∧ A.findValue h v i = (xs[i]?).map Obj.value) ∧
      A.findValue h v xs.length = some Obj.null := by
  obtain ⟨h, v, e, hp, -, hs⟩ := PRep.pushAll [] xs PRep.empty rfl (by simpa using hn)
  rw [List.nil_append] at hp
  exact ⟨h, v, e, hp.size hs, fun i hi => ⟨(hp.get hs i hi).1, (hp.get hs i hi).2.2⟩,
    hp.find_end hs⟩

/-- C1, an instance of the amended statement: the pushes of 1, 2, 3. -/
theorem push_sequence_contents_witness :
    [1, 2, 3].length < U32 ∧
    ∃ h v, A.pushAll heap0 A.empty [1, 2, 3] = some (h, v) ∧ v.size = [1, 2, 3].length ∧
      (∀ i, i < [1, 2, 3].length →
        A.get h v i = [1, 2, 3][i]? ∧ A.findValue h v i = ([1, 2, 3][i]?).map Obj.value) ∧
      A.findValue h v [1, 2, 3].length = some Obj.null :=
  ⟨by decide, push_sequence_contents [1, 2, 3] (by decide)⟩

/-- C1 fails at `n = 2 ^ 32`: after `2 ^ 32` pushes (here of the value 0) the
`uint32` field `_end` has wrapped around, and `size()` is 0, not `2 ^ 32`. -/
theorem push_wraps_at_two_pow_32 :
    ∃ h v, A.pushAll (heap0 : Heap Nat) A.empty (List.replicate 4294967296 0) = some (h, v) ∧
      v.size = 0 ∧ v.size ≠ (List.replicate 4294967296 0).length := by
  have hrep : List.replicate 4294967296 (0 : Nat) = List.replicate 4294967295 0 ++ [0] :=
    List.replicate_succ' 4294967295 0
  obtain ⟨h, v, e, hp, -, hs⟩ := PRep.pushAll [] (List.replicate 4294967295 (0 : Nat))
    PRep.empty rfl (by rw [List.nil_append, List.length_replicate]; decide)
  rw [List.nil_append] at hp
  obtain ⟨h', v', e', hend, hstart⟩ := hp.push_wrap 0 (List.length_replicate _ _)
  have hsz : v'.size = 0 := by rw [A.size, hend, hstart]; rfl
  refine ⟨h', v', ?_, hsz, ?_⟩
  · rw [hrep, A.pushAll_append, e]
    exact e'
  · rw [hsz, List.length_replicate]
    decide

/-- C2, evaluated at a failing input: `v` is `Array::create` of 0, 1, ..., 32 (a
frozen transient); a transient `t` of `v` made by the same thread sets index 0 to
99. Before the call `v.get(0)` is 0, after it `v.get(0)` is 99: the leaf of `v`
still carries the edit token of the thread and is overwritten in place. -/
theorem frozen_vector_changed_by_transient_set :
    (do
      let (h, ov) ← A.create 7 (heap0 : Heap Nat) (List.range 33)
      let v ← ov
      let (h1, t) ← A.asTransient 7 h v
      let r ← TA.set h1 t 0 99
      some [A.get h1 v 0, A.get r.heap v 0]) = some [some 0, some 99] := by
  decide!

/-- C3, evaluated at two failing inputs. First: `v` is the result of `pop` on the
vector of 33 pushes; `v` has size 32 and `v.get(0)` is 0, but in `w = v.push(77)`
index 0 is lost: `w.get(0)` dereferences a null pointer and `w.findValue(0)` is
nil. Second: `s` is the aliasing slice `[1 2 3].slice(1)` of size 2; `s.push(9)`
has `_start` 0 and size 4, and its element 0 is 1 while `s.get(0)` is 2. -/
theorem push_after_pop_and_on_slice :
    (do
      let (h1, v0) ← A.pushAll (heap0 : Heap Nat) A.empty (List.range 33)
      let (h2, v) ← A.pop h1 v0
      let (h3, w) ← A.push h2 v 77
      some ([v.size, w.size], [A.get h2 v 0, A.get h3 w 0, A.get h3 w 32],
        [A.findValue h3 w 0])) = some ([32, 33], [some 0, none, some 77], [some Obj.null]) ∧
    (do
      let (h, ov) ← A.create 7 (heap0 : Heap Nat) [1, 2, 3]
      let v ← ov
      let (h1, os) ← A.slice 7 h v 1 END
      let s ← os
      let (h2, w) ← A.push h1 s 9
      some ([s._start, s.size, w._start, w.size], [A.get h1 s 0, A.get h2 w 0])) =
      some ([1, 2, 0, 4], [some 2, some 1]) := by
  constructor <;> decide!

/-- C4, evaluated at two failing inputs. First: `s` is the aliasing slice
`[1 2 3].slice(1)`, of size 2 with `s.get(0) = 2`; `s.push(9).pop()` has size 3
and its element 0 is 1. Second: `v` is the result of `pop` on the vector of 33
pushes, with `v.get(0) = 0`; `v.push(77).pop()` has a null tail, and reading its
element 0 dereferences it. -/
theorem push_pop_round_trip_fails :
    (do
      let (h, ov) ← A.create 7 (heap0 : Heap Nat) [1, 2, 3]
      let v ← ov
      let (h1, os) ← A.slice 7 h v 1 END
      let s ← os
      let (h2, w) ← A.push h1 s 9
      let (h3, u) ← A.pop h2 w
      some ([s.size, u.size], [A.get h1 s 0, A.get h3 u 0])) =
      some ([2, 3], [some 2, some 1]) ∧
    (do
      let (h1, v0) ← A.pushAll (heap0 : Heap Nat) A.empty (List.range 33)
      let (h2, v) ← A.pop h1 v0
      let (h3, w) ← A.push h2 v 77
      let (h4, u) ← A.pop h3 w
      some ([v.size, u.size], [u._tail], [A.get h2 v 0, A.get h4 u 0])) =
      some ([32, 32], [none], [some 0, none]) := by
  constructor <;> decide!

/-- C6, evaluated at a failing input: `s` is the aliasing slice `[1 2 3].slice(1)`
of size 2; `w = s.set(0, 9)` is not nil, but it has `_start` 0 and size 3, and
`w.get(0)` is 1, not 9. -/
theorem set_on_slice_drops_start :
    (do
      let (h, ov) ← A.create 7 (heap0 : Heap Nat) [1, 2, 3]
      let v ← ov
      let (h1, os) ← A.slice 7 h v 1 END
      let s ← os
      let (h2, ow) ← A.set h1 s 0 9
      let w ← ow
      some ([s._start, s.size, w._start, w.size], [A.get h1 s 0, A.get h2 w 0, A.get h2 w 1])) =
      some ([1, 2, 0, 3], [some 2, some 1, some 9]) := by
  decide!

/-- C7, evaluated at a failing input: `s` is the aliasing slice `[1 2 3].slice(1)`
of size 2 and `i = 2 ^ 32 - 1`, which is not below `s.size()`; `i + _start` wraps
around to 0, and `s.set(i, 9)` is not nil. -/
theorem set_out_of_bounds_not_nil :
    (do
      let (h, ov) ← A.create 7 (heap0 : Heap Nat) [1, 2, 3]
      let v ← ov
      let (h1, os) ← A.slice 7 h v 1 END
      let s ← os
      let (_, ow) ← A.set h1 s 4294967295 9
      some ([s.size], [ow.isSome])) = some ([2], [true]) := by
  decide!

/-- C9, evaluated at a failing input: a transient `t` of the empty vector gets 65
pushes (0, ..., 64) and is frozen into `v`. A `pop` on `t` afterwards does not
return nil: it returns `t`, whose size goes from 65 to 64, and it clears slot 1
of the root that `v` shares, so that `v.get(32)`, which was 32, now dereferences
a null pointer. -/
theorem pop_after_freeze_not_sealed :
    (do
      let (h1, t) ← A.asTransient 7 (heap0 : Heap Nat) A.empty
      let (h2, t2) ← TA.pushAll h1 t (List.range 65)
      let (h3, ov) ← TA.makePersistent h2 t2
      let v ← ov
      let r ← TA.pop h3 t2
      some ([r.self], [A.size t2, A.size r.hdr], [A.get h3 v 32, A.get r.heap v 32])) =
      some ([true], [65, 64], [some 32, none]) := by
  decide!

/-- C10, as amended. First part: for every editable transient `t` that is
pushable (root and tail exist, the root carries an edit token, the tail has all
its `BRANCHES` slots and is not a node of the tree, the nodes of the tree above
the leaves have `BRANCHES` slots and no node occurs twice, the tail offset is
within the capacity of the tree, and when the tail is full: on the way to the
place where it goes, a node with a foreign edit token has length `BRANCHES` and
an empty slot is met only at the start of a block) and whose `_end` is below
`2 ^ 32 - 1`, and for every `x`, `t.push(x)` returns `t` itself, still editable,
and afterwards `t.size()` is one more than before, `t.get(old size)` is `x`,
`t.findValue(new size)` is nil and `t.get(i)` is what it was for every `i` below
the old size. Nothing is assumed about the lengths of the other nodes or about
what the transient holds. Second part: for every `n < 2 ^ 32` and every thread
id, the transient of the empty vector, after the pushes of 1, ..., n, freezes to
a vector that is not nil, has size `n` and has `get(i) = i + 1` for every
`i < n`. -/
theorem transient_push_contents (h : Heap α) (t : TA) (x : α)
    (hT : Pushable h t) (hlen : t._end + 1 < U32) :
    (∃ h' t', TA.push h t x = some ⟨h', t', true⟩ ∧ isEditable h' t' = some true ∧
      A.size t' = A.size t + 1 ∧
      TA.get h' t' (A.size t) = some x ∧ TA.findValue h' t' (A.size t') = some Obj.null ∧
      ∀ i, i < A.size t → TA.get h' t' i = TA.get h t i) ∧
    ∀ tid n, tid ≠ NO_EDIT → n < U32 →
      ∃ h1 t1 h2 t2 h3 v, A.asTransient tid (heap0 : Heap Nat) A.empty = some (h1, t1) ∧
        TA.pushAll h1 t1 (List.range' 1 n) = some (h2, t2) ∧
        TA.makePersistent h2 t2 = some (h3, some v) ∧ v.size = n ∧
        ∀ i, i < n → A.get h3 v i = some (i + 1) := by
  constructor
  · obtain ⟨h', t', e, hs', he', hed', hnew, hold⟩ := hT.tpush_reads (Obj.value x) hlen
    have hs := hT.1
    have hsz : A.size t = t._end - t._start := by
      rw [A.size, sub32_eq hs (by omega)]
    have hsz' : A.size t' = t._end + 1 - t._start := by
      rw [A.size, hs', he', sub32_eq (by omega) hlen]
    have hidx : ∀ i, i ≤ t._end + 1 - t._start → add32 i t._start = i + t._start :=
      fun i hi => add32_eq (by omega)
    refine ⟨h', t', e, hed', by rw [hsz, hsz']; omega, ?_, ?_, ?_⟩
    · simp only [TA.get, TA.getValue, hs']
      rw [hidx _ (by rw [hsz]; omega), hsz, Nat.sub_add_cancel hs, hnew]
    · simp only [TA.findValue, hs']
      rw [hidx _ (by rw [hsz']), hsz', Nat.sub_add_cancel (by omega), he', if_pos le_rfl]
    · intro i hi
      rw [hsz] at hi
      simp only [TA.get, TA.getValue, hs']
      rw [hidx i (by omega), hold _ (by omega)]
  · intro tid n htid hn
    obtain ⟨h1, t1, e1, hT1, -, hs1, -, -⟩ := (PRep.empty (α := Nat)).thaw tid htid
    obtain ⟨h2, t2, e2, hT2, hs2⟩ := TRep.tpushAll [] (List.range' 1 n) hT1
      (by rw [List.nil_append, List.length_range']; exact hn)
    rw [List.nil_append] at hT2
    obtain ⟨h3, v, rp, e3, hP, -, -, hs3, -⟩ := hT2.freeze
    have hv0 : v._start = 0 := hs3.trans (hs2.trans hs1)
    refine ⟨h1, t1, h2, t2, h3, v, e1, e2, e3, ?_, ?_⟩
    · rw [hP.size hv0, List.length_range']
    · intro i hi
      rw [(hP.get hv0 i (by rw [List.length_range']; exact hi)).1]
      simp [List.getElem?_range', hi]
      omega

/-- C10, an instance of the amended statement: the transient `popT` of the vector
that `pop` returns on the vector of 33 pushes (its root is a copy of
`EMPTY_NODE`, of length 0, and its tail is full) and the element 99; and the
build by thread 7. -/
theorem transient_push_contents_witness :
    (Pushable popT.1 popT.2 ∧ popT.2._end + 1 < U32 ∧ A.size popT.2 = 32) ∧
    (∃ h' t', TA.push popT.1 popT.2 99 = some ⟨h', t', true⟩ ∧ isEditable h' t' = some true ∧
      A.size t' = A.size popT.2 + 1 ∧
      TA.get h' t' (A.size popT.2) = some 99 ∧
      TA.findValue h' t' (A.size t') = some Obj.null ∧
      ∀ i, i < A.size popT.2 → TA.get h' t' i = TA.get popT.1 popT.2 i) ∧
    ∀ tid n, tid ≠ NO_EDIT → n < U32 →
      ∃ h1 t1 h2 t2 h3 v, A.asTransient tid (heap0 : Heap Nat) A.empty = some (h1, t1) ∧
        TA.pushAll h1 t1 (List.range' 1 n) = some (h2, t2) ∧
        TA.makePersistent h2 t2 = some (h3, some v) ∧ v.size = n ∧
        ∀ i, i < n → A.get h3 v i = some (i + 1) :=
  have h2 : popT.2._end + 1 < U32 := by rw [popT_eval.1]; decide
  have h3 : A.size popT.2 = 32 := by rw [popT_eval.1]; decide
  ⟨⟨popT_pushable, h2, h3⟩, transient_push_contents popT.1 popT.2 99 popT_pushable h2⟩

/-- C10 fails at size `2 ^ 32 - 1`: the transient of the empty vector made by
thread 7 is editable after `2 ^ 32 - 1` pushes (here of the value 0) and has
size `2 ^ 32 - 1`; one more push returns the transient itself, but `_end` has
wrapped around and the size is 0, not `2 ^ 32`. -/
theorem transient_push_wraps_at_two_pow_32 :
    ∃ h1 t1 h2 t2 h3 t3, A.asTransient 7 (heap0 : Heap Nat) A.empty = some (h1, t1) ∧
      TA.pushAll h1 t1 (List.replicate 4294967295 0) = some (h2, t2) ∧
      isEditable h2 t2 = some true ∧ A.size t2 = 4294967295 ∧
      TA.push h2 t2 0 = some ⟨h3, t3, true⟩ ∧ A.size t3 = 0 ∧ A.size t3 ≠ A.size t2 + 1 := by
  obtain ⟨h1, t1, e1, hT1, -, hs1, -, -⟩ := (PRep.empty (α := Nat)).thaw 7 (by decide)
  obtain ⟨h2, t2, e2, hT2, hs2⟩ := TRep.tpushAll [] (List.replicate 4294967295 (0 : Nat)) hT1
    (by rw [List.nil_append, List.length_replicate]; decide)
  rw [List.nil_append] at hT2
  obtain ⟨h3, t3, e3, hend, hstart⟩ := hT2.tpush_wrap 0 (List.length_replicate _ _)
  obtain ⟨k, rp, tp, tn, S, r⟩ := hT2.to_rep
  have hs0 : t2._start = 0 := hs2.trans hs1
  have hsz2 : A.size t2 = 4294967295 := by
    rw [A.size, hs0, r.hend, List.length_replicate]; rfl
  have hsz3 : A.size t3 = 0 := by rw [A.size, hend, hstart, hs0]; rfl
  exact ⟨h1, t1, h2, t2, h3, t3, e1, e2, hT2.editable, hsz2, e3, hsz3, by rw [hsz3, hsz2]; decide⟩

/-- C11, evaluated at a failing input: `s` is the aliasing slice
`[1 2 3 4 5].slice(2)` (size 3) and `t` its transient. `t.set(4294967295, 99)`
has an index far above the size, but `i += _start` wraps around to 1, which is
below `_end`: the call returns `t` itself, not nil. -/
theorem transient_set_out_of_bounds_not_nil :
    (do
      let (h, v) ← A.pushAll (heap0 : Heap Nat) A.empty [1, 2, 3, 4, 5]
      let (h1, os) ← A.slice 7 h v 2 END
      let s ← os
      let (h2, t) ← A.asTransient 7 h1 s
      let r ← TA.set h2 t 4294967295 99
      some (A.size t, r.self)) = some (3, true) := by
  decide!

/-- C13, evaluated at a failing input: `s` is the aliasing slice
`[1 2 3 4 5].slice(2)` of size 3. `s.findValue(4294967295)` is not nil although
the index is above the size: `i += _start` wraps around to 1, and the element
2 of the underlying vector, which is not an element of `s`, is returned. -/
theorem find_value_above_size_not_nil :
    (do
      let (h, v) ← A.pushAll (heap0 : Heap Nat) A.empty [1, 2, 3, 4, 5]
      let (h1, os) ← A.slice 7 h v 2 END
      let s ← os
      let r ← A.findValue h1 s 4294967295
      some (s.size, r)) = some (3, Obj.value 2) := by
  decide!

/-- C15, evaluated at a failing input: `s` is the aliasing slice
`[1 2 3 4 5].slice(2)` of size 3. In `s.slice(4294967295, 2)` the end is below
the start, but `start + _start` wraps around to 1: the result is not nil, it is
the vector `[2 3 4]`, whose first element is not an element of `s`. -/
theorem slice_wrapped_start_not_nil :
    (do
      let (h, v) ← A.pushAll (heap0 : Heap Nat) A.empty [1, 2, 3, 4, 5]
      let (h1, os) ← A.slice 7 h v 2 END
      let s ← os
      let (h2, ow) ← A.slice 7 h1 s 4294967295 2
      let w ← ow
      some (s.size :: w.size :: (A.toList h2 w).map (fun o => o.getD 0))) =
      some [3, 3, 2, 3, 4] := by
  decide!

/-- C16, as amended: for every vector `v` that is not empty, `v.slice(0,
v.size())` returns `v` itself, on the unchanged heap; for an empty `v` it
returns the empty singleton; and for every `a <= v.size()`, `v.slice(a, a)`
returns the empty singleton, which has size 0. -/
theorem slice_identity_cases (tid : Nat) (h : Heap α) (v : A) (hs : v._start ≤ v._end)
    (he : v._end < U32) :
    (v.size ≠ 0 → A.slice tid h v 0 v.size = some (h, some v)) ∧
    (v.size = 0 → A.slice tid h v 0 v.size = some (h, some A.empty)) ∧
    (∀ a, a ≤ v.size → A.slice tid h v a a = some (h, some A.empty)) ∧
    (A.empty).size = 0 := by
  have hsz : v.size = v._end - v._start := by rw [A.size, sub32_eq hs he]
  have h0 : add32 0 v._start = v._start := by rw [add32_eq (by omega)]; omega
  have hadd : ∀ a, a ≤ v.size → add32 a v._start = a + v._start :=
    fun a ha => add32_eq (by omega)
  have hend : (if v.size = END then v._end else add32 v.size v._start) = v._end := by
    split
    · rfl
    · rw [hadd _ (le_refl _)]; omega
  refine ⟨fun hne => ?_, fun hz => ?_, fun a ha => ?_, rfl⟩
  · unfold A.slice
    rw [h0, hend]
    unfold ArrayImp.slice isOutOfBounds
    rw [if_neg (by simp; omega), if_neg (by omega), if_pos ⟨rfl, rfl⟩]
  · unfold A.slice
    rw [h0, hend]
    unfold ArrayImp.slice isOutOfBounds
    rw [if_neg (by simp; omega), if_pos (by omega)]
    rfl
  · have hend' : (if a = END then v._end else add32 a v._start) = a + v._start := by
      split
      · rename_i hc
        rw [hc] at ha
        unfold END U32 at *
        omega
      · exact hadd a ha
    unfold A.slice
    rw [hend', hadd a ha]
    unfold ArrayImp.slice isOutOfBounds
    rw [if_neg (by simp; omega), if_pos rfl]
    rfl

/-- C16, an instance: the vector `forty` of the pushes 0, ..., 39. -/
theorem slice_identity_cases_witness :
    (forty.2._start ≤ forty.2._end ∧ forty.2._end < U32) ∧
    (forty.2.size ≠ 0 → A.slice 7 forty.1 forty.2 0 forty.2.size = some (forty.1, some forty.2)) ∧
    (forty.2.size = 0 → A.slice 7 forty.1 forty.2 0 forty.2.size = some (forty.1, some A.empty)) ∧
    (∀ a, a ≤ forty.2.size → A.slice 7 forty.1 forty.2 a a = some (forty.1, some A.empty)) ∧
    (A.empty).size = 0 :=
  have h1 : forty.2._start ≤ forty.2._end := by rw [forty_rep.2]; exact Nat.zero_le _
  have h2 : forty.2._end < U32 := by
    obtain ⟨k, rp, tp, tn, S, r⟩ := forty_rep.1.as_rep
    rw [r.hend, List.length_range]
    decide
  ⟨⟨h1, h2⟩, slice_identity_cases 7 forty.1 forty.2 h1 h2⟩

/-- C16 fails for an empty vector that is not the empty singleton: the vector
`Array::create` makes of no values has size 0 and its own root and tail, and
its `slice(0, size())` is the empty singleton, a different header. -/
theorem slice_of_empty_is_singleton :
    (do
      let (h, ov) ← A.create 7 (heap0 : Heap Nat) []
      let v ← ov
      let (_, ow) ← A.slice 7 h v 0 v.size
      let w ← ow
      some (v.size, decide (w = v), decide (w = A.empty))) = some (0, false, true) := by
  decide!

/-- C19: for every vector `v` and every `s <= v.size()`, `v.without(s, s)`
returns `v` itself, on the unchanged heap; and for every `v` that is not empty,
`v.without(0, v.size())` returns the empty singleton. -/
theorem without_identity_cases (tid : Nat) (h : Heap α) (v : A) (hs : v._start ≤ v._end)
    (he : v._end < U32) :
    (∀ s, s ≤ v.size → A.without tid h v s s = some (h, some v)) ∧
    (v.size ≠ 0 → A.without tid h v 0 v.size = some (h, some A.empty)) := by
  have hsz : v.size = v._end - v._start := by rw [A.size, sub32_eq hs he]
  have h0 : add32 0 v._start = v._start := by rw [add32_eq (by omega)]; omega
  have hadd : ∀ a, a ≤ v.size → add32 a v._start = a + v._start :=
    fun a ha => add32_eq (by omega)
  have hend : (if v.size = END then v._end else add32 v.size v._start) = v._end := by
    split
    · rfl
    · rw [hadd _ (le_refl _)]; omega
  refine ⟨fun a ha => ?_, fun hne => ?_⟩
  · have hend' : (if a = END then v._end else add32 a v._start) = a + v._start := by
      split
      · rename_i hc
        rw [hc] at ha
        unfold END U32 at *
        omega
      · exact hadd a ha
    unfold A.without
    rw [hend', hadd a ha]
    unfold ArrayImp.without isOutOfBounds
    rw [if_neg (by simp; omega), if_pos rfl]
  · unfold A.without
    rw [h0, hend]
    unfold ArrayImp.without isOutOfBounds
    rw [if_neg (by simp; omega), if_neg (by omega), if_pos rfl, if_pos rfl]
    rfl

/-- C19, an instance: the vector `forty` of the pushes 0, ..., 39. -/
theorem without_identity_cases_witness :
    (forty.2._start ≤ forty.2._end ∧ forty.2._end < U32) ∧
    (∀ s, s ≤ forty.2.size → A.without 7 forty.1 forty.2 s s = some (forty.1, some forty.2)) ∧
    (forty.2.size ≠ 0 →
      A.without 7 forty.1 forty.2 0 forty.2.size = some (forty.1, some A.empty)) :=
  have h1 : forty.2._start ≤ forty.2._end := by rw [forty_rep.2]; exact Nat.zero_le _
  have h2 : forty.2._end < U32 := by
    obtain ⟨k, rp, tp, tn, S, r⟩ := forty_rep.1.as_rep
    rw [r.hend, List.length_range]
    decide
  ⟨⟨h1, h2⟩, without_identity_cases 7 forty.1 forty.2 h1 h2⟩

/-- C18, evaluated at a failing input: `s` is the aliasing slice
`[1 2 3 4 5].slice(2)` of size 3. In `s.without(4294967295, 2)` the end is below
the start, so nil is due; but `start + _start` wraps around to 1, the range
passes the bounds test, the left part `slice(a, _start, start)` is null, and
`createTransient` dereferences it: the model has no result (`none`) where the
claim has nil (`some (_, none)`). An out-of-range request that does not wrap,
`s.without(2, 4)`, is answered with nil. -/
theorem without_wrapped_start_dereferences_null :
    (do
      let (h, v) ← A.pushAll (heap0 : Heap Nat) A.empty [1, 2, 3, 4, 5]
      let (h1, os) ← A.slice 7 h v 2 END
      let s ← os
      let r ← A.without 7 h1 s 2 4
      some (s.size, r.2)) = some (3, none) ∧
    (do
      let (h, v) ← A.pushAll (heap0 : Heap Nat) A.empty [1, 2, 3, 4, 5]
      let (h1, os) ← A.slice 7 h v 2 END
      let s ← os
      A.without 7 h1 s 4294967295 2) = none := by
  decide!

theorem forty_frame : Frame (heap0 : Heap Nat) forty.1 ∅ := by
  obtain ⟨h, v, e, -, f, -⟩ := PRep.pushAll [] (List.range 40) (PRep.empty (α := Nat)) rfl
    (by rw [List.nil_append, List.length_range]; decide)
  have : forty = (h, v) := by unfold forty; rw [e]; rfl
  rw [this]
  exact f

theorem forty_size : forty.2._start ≤ forty.2._end ∧ forty.2.size = 40 := by
  obtain ⟨k, rp, tp, tn, S, r⟩ := forty_rep.1.as_rep
  have h1 : forty.2._start ≤ forty.2._end := by rw [forty_rep.2]; exact Nat.zero_le _
  refine ⟨h1, ?_⟩
  rw [forty_rep.1.is_readable.size_eq h1, forty_rep.2, List.length_range]

/-- C14: for every readable vector `v` (one in which the walk finds every element
below `_end`, as in every vector built by push) on a heap that extends the
initial one, every thread id and every `a <= b <= v.size()`, `v.slice(a, b)` is
not nil, has size `b - a`, and its `get(i)` is `v.get(a + i)`, an element, for
every `i < b - a`; the heap nodes that were there before are unchanged; and
`slice(a)` with the `END` sentinel is the same call as `slice(a, v.size())`. The
statement does not depend on the branch taken: empty range, whole vector,
aliasing slice or copy through a transient. -/
theorem slice_contents (tid : Nat) (htid : tid ≠ NO_EDIT) (h : Heap α) (v : A) (xs : List α)
    (a b : Nat) (f : Frame heap0 h ∅) (hr : Readable h v xs) (hs : v._start ≤ v._end)
    (hab : a ≤ b) (hb : b ≤ v.size) :
    (∃ h' w, A.slice tid h v a b = some (h', some w) ∧ w.size = b - a ∧
      (∀ i, i < b - a → A.get h' w i = A.get h v (a + i) ∧ ∃ x, A.get h v (a + i) = some x) ∧
      Frame h h' ∅) ∧
    A.slice tid h v a END = A.slice tid h v a v.size := by
  have hsz := hr.size_eq hs
  constructor
  · obtain ⟨h', w, ys, e, hr', hs', f', hsz', hget⟩ := slice_spec tid htid f hr hs hab hb
    have hsz2 := hr'.size_eq hs'
    refine ⟨h', w, e, hsz', fun i hi => ?_, f'⟩
    have g1 := hr'.read i (by omega)
    have g2 := hr.read (a + i) (by omega)
    have g3 := hget i hi
    rw [add_comm w._start i] at g3
    rw [show v._start + a + i = a + i + v._start by omega] at g3
    rw [g1, g2, g3]
    exact ⟨rfl, _, List.getElem?_eq_getElem (by omega)⟩
  · unfold A.slice
    congr 1
    rw [if_pos rfl]
    split
    · rfl
    · rw [hsz, ← hr.1, add32_eq (by have := hr.2.1; rw [← hr.1] at this; omega)]
      omega

/-- C14, an instance: the vector `forty` of the pushes 0, ..., 39 and the range
from 3 to 20, which is copied through a transient. -/
theorem slice_contents_witness :
    (7 ≠ NO_EDIT ∧ Frame heap0 forty.1 ∅ ∧ Readable forty.1 forty.2 (List.range 40) ∧
      forty.2._start ≤ forty.2._end ∧ 3 ≤ 20 ∧ 20 ≤ forty.2.size) ∧
    (∃ h' w, A.slice 7 forty.1 forty.2 3 20 = some (h', some w) ∧ w.size = 20 - 3 ∧
      (∀ i, i < 20 - 3 → A.get h' w i = A.get forty.1 forty.2 (3 + i) ∧
        ∃ x, A.get forty.1 forty.2 (3 + i) = some x) ∧
      Frame forty.1 h' ∅) ∧
    A.slice 7 forty.1 forty.2 3 END = A.slice 7 forty.1 forty.2 3 forty.2.size :=
  have h1 : (20 : Nat) ≤ forty.2.size := by rw [forty_size.2]; decide
  ⟨⟨by decide, forty_frame, forty_rep.1.is_readable, forty_size.1, by decide, h1⟩,
    slice_contents 7 (by decide) forty.1 forty.2 (List.range 40) 3 20 forty_frame
      forty_rep.1.is_readable forty_size.1 (by decide) h1⟩

/-- C17: for every readable vector `v` on a heap that extends the initial one,
every `a <= b <= v.size()` and every `c <= d <= b - a`, the three slices
`w = v.slice(a, b)`, `u = w.slice(c, d)` and `u' = v.slice(a + c, a + d)` are not
nil, `u` and `u'` have the same size `d - c`, and `u.get(i) = u'.get(i)`, an
element, for every `i < d - c`. -/
theorem slice_of_slice (tid : Nat) (htid : tid ≠ NO_EDIT) (h : Heap α) (v : A) (xs : List α)
    (a b c d : Nat) (f : Frame heap0 h ∅) (hr : Readable h v xs) (hs : v._start ≤ v._end)
    (hab : a ≤ b) (hb : b ≤ v.size) (hcd : c ≤ d) (hd : d ≤ b - a) :
    ∃ h1 w h2 u h3 u', A.slice tid h v a b = some (h1, some w) ∧
      A.slice tid h1 w c d = some (h2, some u) ∧
      A.slice tid h v (a + c) (a + d) = some (h3, some u') ∧
      u.size = d - c ∧ u'.size = d - c ∧
      ∀ i, i < d - c → A.get h2 u i = A.get h3 u' i ∧ ∃ x, A.get h2 u i = some x := by
  have hsz := hr.size_eq hs
  obtain ⟨h1, w, ys, e1, hr1, hs1, f1, hsz1, hget1⟩ := slice_spec tid htid f hr hs hab hb
  have f01 : Frame heap0 h1 ∅ := Frame.trans f f1 (fun x hx => hx) (fun x hx _ => hx)
  obtain ⟨h2, u, zs, e2, hr2, hs2, f2, hsz2, hget2⟩ :=
    slice_spec tid htid f01 hr1 hs1 hcd (by rw [hsz1]; exact hd)
  obtain ⟨h3, u', zs', e3, hr3, hs3, f3, hsz3, hget3⟩ :=
    slice_spec tid htid f hr hs (show a + c ≤ a + d by omega) (show a + d ≤ v.size by omega)
  have hu := hr2.size_eq hs2
  have hu' := hr3.size_eq hs3
  have hdc : a + d - (a + c) = d - c := by omega
  rw [hdc] at hsz3 hget3
  refine ⟨h1, w, h2, u, h3, u', e1, e2, e3, hsz2, hsz3, fun i hi => ?_⟩
  have g2 := hr2.read i (by omega)
  have g3 := hr3.read i (by omega)
  have k2 := hget2 i hi
  have k1 := hget1 (c + i) (by omega)
  have k3 := hget3 i hi
  rw [add_comm u._start i] at k2
  rw [add_comm u'._start i] at k3
  rw [show w._start + c + i = w._start + (c + i) by omega] at k2
  rw [show v._start + (a + c) + i = v._start + a + (c + i) by omega] at k3
  have hx : v._start + a + (c + i) < xs.length := by omega
  rw [g2, g3, k2, k1, k3]
  exact ⟨rfl, xs[v._start + a + (c + i)], List.getElem?_eq_getElem hx⟩

/-- C17, an instance: the vector `forty`, `slice(3, 30)` (a copy) and then
`slice(10, 27)` of it (an aliasing slice), against `slice(13, 30)`. -/
theorem slice_of_slice_witness :
    (7 ≠ NO_EDIT ∧ Frame heap0 forty.1 ∅ ∧ Readable forty.1 forty.2 (List.range 40) ∧
      forty.2._start ≤ forty.2._end ∧ 3 ≤ 30 ∧ 30 ≤ forty.2.size ∧ 10 ≤ 27 ∧ 27 ≤ 30 - 3) ∧
    ∃ h1 w h2 u h3 u', A.slice 7 forty.1 forty.2 3 30 = some (h1, some w) ∧
      A.slice 7 h1 w 10 27 = some (h2, some u) ∧
      A.slice 7 forty.1 forty.2 (3 + 10) (3 + 27) = some (h3, some u') ∧
      u.size = 27 - 10 ∧ u'.size = 27 - 10 ∧
      ∀ i, i < 27 - 10 → A.get h2 u i = A.get h3 u' i ∧ ∃ x, A.get h2 u i = some x :=
  have h1 : (30 : Nat) ≤ forty.2.size := by rw [forty_size.2]; decide
  ⟨⟨by decide, forty_frame, forty_rep.1.is_readable, forty_size.1, by decide, h1, by decide,
      by decide⟩,
    slice_of_slice 7 (by decide) forty.1 forty.2 (List.range 40) 3 30 10 27 forty_frame
      forty_rep.1.is_readable forty_size.1 (by decide) h1 (by decide) (by decide)⟩

/-- C5: for every sequence `xs ++ [x]` of fewer than `2 ^ 32` elements, the
vector `v` built by pushing them onto the empty vector has `v.size() = |xs| +
1`; `v.pop()` has size `v.size() - 1`, its `get(i)` is `v.get(i)`, the element
`xs[i]`, for every `i < v.size() - 1`, and its `findValue(v.size() - 1)` is nil;
and `v.size()` pops in a row end in a vector of size 0. The statement covers
every length, so also the pops at which the tail is refilled with the last leaf
of the trie, at which the trie loses a level, and at which the root becomes
`EMPTY_NODE`. -/
theorem pop_contents (xs : List α) (x : α) (hn : xs.length + 1 < U32) :
    ∃ h v h' v', A.pushAll heap0 A.empty (xs ++ [x]) = some (h, v) ∧
      v.size = xs.length + 1 ∧ A.pop h v = some (h', v') ∧ v'.size = v.size - 1 ∧
      (∀ i, i < v.size - 1 → A.get h' v' i = A.get h v i ∧ A.get h' v' i = xs[i]?) ∧
      A.findValue h' v' (v.size - 1) = some Obj.null ∧
      ∃ h'' v'', A.popN v.size h v = some (h'', v'') ∧ v''.size = 0 := by
  obtain ⟨h, v, e, hp, f, hs⟩ := PRep.pushAll [] (xs ++ [x]) PRep.empty rfl (by simpa using hn)
  rw [List.nil_append] at hp
  have hsz : v.size = xs.length + 1 := by rw [hp.size hs]; simp
  obtain ⟨h', v', e', hp', hs', f'⟩ := pop_step (Or.inl hp) hs f
  have hrd := hp.is_readable
  have hrd' := readable_of_rep hp'
  have hsz' : v'.size = xs.length := by
    rw [hrd'.size_eq (by rw [hs']; exact Nat.zero_le _), hs']; rfl
  obtain ⟨h'', v'', e'', hz⟩ := popN_spec (xs.length + 1) (xs ++ [x]) h v (by simp)
    (Or.inl hp) hs f
  refine ⟨h, v, h', v', e, hsz, e', by rw [hsz, hsz']; rfl, fun i hi => ?_, ?_, h'', v'', ?_, hz⟩
  · rw [hsz] at hi
    have hi' : i < xs.length := by omega
    have g1 := hrd'.read i (by rw [hs']; exact hi')
    have g2 := hrd.read i (by rw [hs]; simp; omega)
    rw [hs', Nat.add_zero] at g1
    rw [hs, Nat.add_zero, append_get_lt xs x hi'] at g2
    exact ⟨g1.trans g2.symm, g1⟩
  · rw [hsz]
    simp only [A.findValue, hs', Nat.add_sub_cancel]
    rw [if_pos (by rw [hrd'.1, add32_eq (by omega)]; omega)]
  · rw [hsz]; exact e''

/-- C5, an instance: the vector of the 33 pushes 0, ..., 32, whose pop refills the
tail with the only leaf of the trie. -/
theorem pop_contents_witness :
    (List.range 32).length + 1 < U32 ∧
    ∃ h v h' v', A.pushAll heap0 A.empty (List.range 32 ++ [32]) = some (h, v) ∧
      v.size = (List.range 32).length + 1 ∧ A.pop h v = some (h', v') ∧
      v'.size = v.size - 1 ∧
      (∀ i, i < v.size - 1 → A.get h' v' i = A.get h v i ∧
        A.get h' v' i = (List.range 32)[i]?) ∧
      A.findValue h' v' (v.size - 1) = some Obj.null ∧
      ∃ h'' v'', A.popN v.size h v = some (h'', v'') ∧ v''.size = 0 :=
  ⟨by rw [List.length_range]; decide,
    pop_contents (List.range 32) 32 (by rw [List.length_range]; decide)⟩

/-- C27, evaluated at a failing input: `s` is the aliasing slice
`[1 2 3 4 5].slice(2)` of size 3. For `s.begin(4294967295)` the start is far above
the size, so the iterator should equal `end()` at once; but `_start + start`
wraps around to 1: the iterator is valid, it differs from `end()`, and advancing
it visits 2, 3, 4, 5, the first of which is not an element of `s`. -/
theorem begin_wrapped_start_visits_outside :
    (do
      let (h, v) ← A.pushAll (heap0 : Heap Nat) A.empty [1, 2, 3, 4, 5]
      let (h1, os) ← A.slice 7 h v 2 END
      let s ← os
      let it ← A.begin h1 s 4294967295 END
      let vs ← it.visit h1
      some (s.size, it.valid, it.eq A.end_, vs)) =
      some (3, true, false, [Obj.value 2, Obj.value 3, Obj.value 4, Obj.value 5]) := by
  decide!

/-- C28, evaluated at a failing input: `s` is the aliasing slice `[1 2].slice(1)`,
which has size 1 (`_start = 1`, `_end = 2`). `ArrayImp::pop` tests `_end == 1`,
not the size, and builds its result with `_start = 0`: `s.pop()` is the vector
`[1]` of size 1, not the empty singleton. -/
theorem pop_of_size_one_slice_not_empty :
    (do
      let (h, v) ← A.pushAll (heap0 : Heap Nat) A.empty [1, 2]
      let (h1, os) ← A.slice 7 h v 1 END
      let s ← os
      let (h2, r) ← A.pop h1 s
      some (s.size, A.toList h1 s, r.size, A.toList h2 r)) =
      some (1, [some 2], 1, [some 1]) := by
  decide!

/-- C29, evaluated at a failing input: `s` is the aliasing slice
`[1 2 3 4 5].slice(2)` of size 3. `s.find(4294967295)` has an index far above the
size, but `_start + i` wraps around to 1: the result is not the end iterator, it
is a valid iterator whose current element is 2, which is not an element of `s`. -/
theorem find_wrapped_index_not_end :
    (do
      let (h, v) ← A.pushAll (heap0 : Heap Nat) A.empty [1, 2, 3, 4, 5]
      let (h1, os) ← A.slice 7 h v 2 END
      let s ← os
      let it ← A.find h1 s 4294967295
      let x ← it.value h1
      some (s.size, it.valid, it.eq A.end_, x)) = some (3, true, false, Obj.value 2) := by
  decide!

set_option maxRecDepth 1000000 in
/-- C24, evaluated at a failing input, all vectors made by one thread:
`a = Array::create(0 .. 1056)`, `w = Array::create(5000 .. 5031)`,
`q = a.concat(w)` (so `q.get(1057) = 5000`), and `r = a.push(q.begin(1024), q.end())`.
The element of `r` at index `1057 + 33` should be `q.get(1024 + 33) = 5000`; it is
1024. The transient of `a` shares with `q` an inner node that still carries the
edit token of the thread; its 32nd push stores its full tail in that node, in the
slot that held the leaf of `q` for the indices 1056 to 1087, and the iterator
over `q` then reads that leaf. -/
theorem ranged_push_reads_overwritten_leaf :
    (do
      let (h, oa) ← A.create 7 (heap0 : Heap Nat) (List.range 1057)
      let a ← oa
      let (h1, ow) ← A.create 7 h ((List.range 32).map (· + 5000))
      let w ← ow
      let (h2, oq) ← A.concat 7 h1 a w
      let q ← oq
      let I ← A.begin h2 q 1024 END
      let (h3, or) ← A.pushRange 7 h2 a I A.end_
      let r ← or
      some [some a.size, some q.size, A.get h2 q (1024 + 33), some r.size,
        A.get h3 r (1057 + 33)]) =
      some [some 1057, some 1089, some 5000, some 1122, some 1024] := by
  decide!

set_option maxRecDepth 1000000 in
/-- C22, evaluated at a failing input, all vectors made by one thread:
`a = Array::create(0 .. 1056)`, `w = Array::create(5000 .. 5031)`,
`q = a.concat(w)`, and `vals` the 65 elements of `q` from index 1024 on. The splice
`a.splice(1057, 1057, it)` with the Array iterator `it = q.begin(1024)` and the
splice `a.splice(1057, 1057, vals)` through the iterator function both return a
vector of size 1122, but at index `1057 + 33` the first has 1024 and the second
has 5000: while it is being read, the leaf of `q` for the indices 1056 to 1087
is replaced in a shared inner node by the transient of `pushAllIt`. -/
theorem splice_entry_points_differ :
    (do
      let (h, oa) ← A.create 7 (heap0 : Heap Nat) (List.range 1057)
      let a ← oa
      let (h1, ow) ← A.create 7 h ((List.range 32).map (· + 5000))
      let w ← ow
      let (h2, oq) ← A.concat 7 h1 a w
      let q ← oq
      let vals := (List.range 65).filterMap (fun j => A.get h2 q (1024 + j))
      let I ← A.begin h2 q 1024 END
      let (h3, or) ← A.spliceIt 7 h2 a 1057 1057 I
      let r ← or
      let (h4, ou) ← A.splice 7 h2 a 1057 1057 vals
      let u ← ou
      some [some vals.length, some r.size, some u.size, A.get h3 r (1057 + 33),
        A.get h4 u (1057 + 33)]) =
      some [some 65, some 1122, some 1122, some 1024, some 5000] := by
  decide!

/-- C26: for every readable vector `v` (one in which the walk finds every element
below `_end`: every vector built by push, its slices, the empty vector),
`v.begin()` returns an iterator `b` with `b.distanceTo(v.end()) = v.size()` and
`v.end().distanceTo(b) = v.size()`; and for every `k <= v.size()` the iterator `I`
obtained from `b` by `k` increments exists and has `I.distanceTo(b) = k`,
`b.distanceTo(I) = k` and `I.distanceTo(v.end()) = v.size() - k`. -/
theorem iterator_distance (h : Heap α) (v : A) (xs : List α) (hr : Readable h v xs)
    (hs : v._start ≤ v._end) :
    ∃ b, A.begin h v 0 END = some b ∧ b.distanceTo A.end_ = v.size ∧
      A.end_.distanceTo b = v.size ∧
      ∀ k, k ≤ v.size → ∃ I, Iterator.advance h k b = some I ∧ I.distanceTo b = k ∧
        b.distanceTo I = k ∧ I.distanceTo A.end_ = v.size - k := by
  have hsz := hr.size_eq hs
  have hU : v._end < U32 := by rw [hr.1]; exact hr.2.1
  obtain ⟨b, eb, hb⟩ := ItAt.of_create hr (le_of_eq hr.1) v._start
  have e0 : A.begin h v 0 END = some b := by
    unfold A.begin
    rw [if_pos rfl, add32_eq (by omega), Nat.add_zero]
    exact eb
  have d0 := hb.distance_end hs hU
  rw [← hr.1] at hsz
  refine ⟨b, e0, by rw [hsz]; exact d0.1, by rw [hsz]; exact d0.2, fun k hk => ?_⟩
  obtain ⟨I, eI, hI⟩ := ItAt.advance_to hr (le_of_eq hr.1) k v._start b hb (by omega)
  have d1 := hb.distance hI (by omega) (by omega) hU
  have d2 := hI.distance_end (by omega) hU
  refine ⟨I, eI, by rw [d1.2]; omega, by rw [d1.1]; omega, ?_⟩
  show I.distanceTo END_ITERATOR = _
  rw [d2.1]
  omega

/-- C26, an instance: the vector `forty` of the pushes 0, ..., 39. -/
theorem iterator_distance_witness :
    (Readable forty.1 forty.2 (List.range 40) ∧ forty.2._start ≤ forty.2._end) ∧
    ∃ b, A.begin forty.1 forty.2 0 END = some b ∧ b.distanceTo A.end_ = forty.2.size ∧
      A.end_.distanceTo b = forty.2.size ∧
      ∀ k, k ≤ forty.2.size → ∃ I, Iterator.advance forty.1 k b = some I ∧
        I.distanceTo b = k ∧ b.distanceTo I = k ∧ I.distanceTo A.end_ = forty.2.size - k :=
  ⟨⟨forty_rep.1.is_readable, forty_size.1⟩,
    iterator_distance forty.1 forty.2 (List.range 40) forty_rep.1.is_readable forty_size.1⟩

/-- C25: for all readable vectors `v`, `w` in one heap, over a linearly ordered
element type, `v.compare(w)` returns a value `c` in {-1, 0, 1}; `c = -1` if
`v.size() < w.size()`, `c = 1` if `v.size() > w.size()`; for equal sizes, if `i` is
the first position at which the elements differ, `c = -1` if `v.get(i) < w.get(i)`
and `c = 1` if `v.get(i) > w.get(i)`; and `c = 0` exactly when the sizes are equal
and `v.get(i) = w.get(i)` for every `i` below the size. `same` is the outcome of
the address comparison of the two headers, which can hold only for one and the
same vector, and `cellEq` that of the address comparison of two value cells,
which can hold only for equal values. -/
theorem compare_law [LinearOrder α] (cellEq : α → α → Bool) (same : Bool) (h : Heap α)
    (v w : A) (xs ys : List α) (hv : Readable h v xs) (hw : Readable h w ys)
    (hsv : v._start ≤ v._end) (hsw : w._start ≤ w._end)
    (hcell : ∀ x y, cellEq x y = true → x = y) (hsame : same = true → v = w) :
    ∃ c, A.compare cellEq same h v w = some c ∧ (c = -1 ∨ c = 0 ∨ c = 1) ∧
      (v.size < w.size → c = -1) ∧ (w.size < v.size → c = 1) ∧
      (v.size = w.size → ∀ i x y, i < v.size → A.get h v i = some x →
        A.get h w i = some y → (∀ j, j < i → A.get h v j = A.get h w j) →
        (x < y → c = -1) ∧ (y < x → c = 1)) ∧
      (c = 0 ↔ v.size = w.size ∧ ∀ i, i < v.size → A.get h v i = A.get h w i) := by
  cases same
  · have szv := hv.size_eq hsv
    have szw := hw.size_eq hsw
    have hUv : v._end < U32 := by rw [hv.1]; exact hv.2.1
    have hUw : w._end < U32 := by rw [hw.1]; exact hw.2.1
    unfold A.compare
    simp only [Bool.false_eq_true, if_false]
    by_cases h1 : v.size < w.size
    · rw [if_pos h1]
      refine ⟨-1, rfl, Or.inl rfl, fun _ => rfl, fun hc => absurd hc (by omega),
        fun hc => absurd hc (by omega), ?_⟩
      constructor
      · intro hc; exact absurd hc (by decide)
      · intro hc; exact absurd hc.1 (by omega)
    · rw [if_neg h1]
      by_cases h2 : v.size > w.size
      · rw [if_pos h2]
        refine ⟨1, rfl, Or.inr (Or.inr rfl), fun hc => absurd hc (by omega), fun _ => rfl,
          fun hc => absurd hc (by omega), ?_⟩
        constructor
        · intro hc; exact absurd hc (by decide)
        · intro hc; exact absurd hc.1 (by omega)
      · rw [if_neg h2]
        have heq : v.size = w.size := by omega
        obtain ⟨ai, ea, ha⟩ := ItAt.of_create hv (le_of_eq hv.1) v._start
        obtain ⟨bi, eb, hb⟩ := ItAt.of_create hw (le_of_eq hw.1) w._start
        have e1 : A.begin h v 0 END = some ai := by
          unfold A.begin
          rw [if_pos rfl, add32_eq (by omega), Nat.add_zero]
          exact ea
        have e2 : A.begin h w 0 END = some bi := by
          unfold A.begin
          rw [if_pos rfl, add32_eq (by omega), Nat.add_zero]
          exact eb
        have hve := hv.1
        have hwe := hw.1
        have spec := compareF_spec cellEq hcell hv hw (le_of_eq hv.1) (le_of_eq hw.1) v.size
          v._start w._start (v.size + 1) ai bi ha hb (by omega) (by omega) (by omega)
        have tL : (xs.drop v._start).take v.size = xs.drop v._start :=
          List.take_of_length_le (by rw [List.length_drop]; omega)
        have tR : (ys.drop w._start).take v.size = ys.drop w._start :=
          List.take_of_length_le (by rw [List.length_drop]; omega)
        rw [tL, tR] at spec
        have hL : ∀ i, i < v.size → A.get h v i = (xs.drop v._start)[i]? := fun i hi => by
          rw [hv.read i (by omega), List.getElem?_drop, add_comm]
        have hR : ∀ i, i < v.size → A.get h w i = (ys.drop w._start)[i]? := fun i hi => by
          rw [hw.read i (by omega), List.getElem?_drop, add_comm]
        have hlen : (xs.drop v._start).length = (ys.drop w._start).length := by
          rw [List.length_drop, List.length_drop]; omega
        refine ⟨lexSign (xs.drop v._start) (ys.drop w._start), ?_, lexSign_range _ _,
          fun hc => absurd hc h1, fun hc => absurd hc h2,
          fun _ i x y hi hx hy hall => ?_, ?_⟩
        · simp only [e1, e2, Option.bind_eq_bind, Option.some_bind]
          exact spec
        · exact lexSign_first _ _ i x y (by rw [← hL i hi]; exact hx)
            (by rw [← hR i hi]; exact hy) (fun j hj => by
              rw [← hL j (by omega), ← hR j (by omega)]
              exact hall j hj)
        · rw [lexSign_zero _ _ hlen]
          constructor
          · intro hc
            exact ⟨heq, fun i hi => by rw [hL i hi, hR i hi, hc]⟩
          · intro hc
            refine List.ext_getElem? (fun i => ?_)
            by_cases hi : i < v.size
            · rw [← hL i hi, ← hR i hi]
              exact hc.2 i hi
            · rw [List.getElem?_eq_none (by rw [List.length_drop]; omega),
                List.getElem?_eq_none (by rw [List.length_drop]; omega)]
  · obtain rfl := hsame rfl
    refine ⟨0, by unfold A.compare; rw [if_pos rfl], Or.inr (Or.inl rfl), fun hc => absurd hc (Nat.lt_irrefl _),
      fun hc => absurd hc (Nat.lt_irrefl _), fun _ i x y _ hx hy _ => ?_, by simp⟩
    rw [hx] at hy
    obtain rfl : x = y := Option.some.inj hy
    exact ⟨fun hc => absurd hc (lt_irrefl x), fun hc => absurd hc (lt_irrefl x)⟩

/-- C25, an instance: the vector `forty` of the pushes 0, ..., 39 compared with
itself through a second header, no two cells being the same. -/
theorem compare_law_witness :
    (Readable forty.1 forty.2 (List.range 40) ∧ forty.2._start ≤ forty.2._end ∧
      (∀ x y : Nat, (fun _ _ => false) x y = true → x = y) ∧ (false = true → forty.2 = forty.2)) ∧
    ∃ c, A.compare (fun _ _ => false) false forty.1 forty.2 forty.2 = some c ∧
      (c = -1 ∨ c = 0 ∨ c = 1) ∧
      (forty.2.size < forty.2.size → c = -1) ∧ (forty.2.size < forty.2.size → c = 1) ∧
      (forty.2.size = forty.2.size → ∀ i x y, i < forty.2.size →
        A.get forty.1 forty.2 i = some x → A.get forty.1 forty.2 i = some y →
        (∀ j, j < i → A.get forty.1 forty.2 j = A.get forty.1 forty.2 j) →
        (x < y → c = -1) ∧ (y < x → c = 1)) ∧
      (c = 0 ↔ forty.2.size = forty.2.size ∧
        ∀ i, i < forty.2.size → A.get forty.1 forty.2 i = A.get forty.1 forty.2 i) :=
  ⟨⟨forty_rep.1.is_readable, forty_size.1, fun _ _ hc => by simp at hc,
      fun hc => absurd hc (by decide)⟩,
    compare_law (fun _ _ => false) false forty.1 forty.2 forty.2 (List.range 40) (List.range 40)
      forty_rep.1.is_readable forty_rep.1.is_readable forty_size.1 forty_size.1
      (fun _ _ hc => by simp at hc) (fun hc => absurd hc (by decide))⟩

/-- C23: for every readable vector `v` (every vector built by push and every
slice of one, aliasing or not) of size below `2^32 - 1`, on a heap that extends
the initial one, every element `x` and every thread id, `v.cons(x)` is not nil,
has size `v.size() + 1`, `get(0) = x` and `get(i + 1) = v.get(i)`, an element, for
every `i < v.size()`; the heap nodes that were there before are unchanged. -/
theorem cons_law (tid : Nat) (htid : tid ≠ NO_EDIT) (h : Heap α) (v : A) (xs : List α) (x : α)
    (f : Frame heap0 h ∅) (hr : Readable h v xs) (hs : v._start ≤ v._end)
    (hsz : v.size + 1 < U32) :
    ∃ h' w, A.cons tid h v x = some (h', some w) ∧ w.size = v.size + 1 ∧
      A.get h' w 0 = some x ∧
      (∀ i, i < v.size → A.get h' w (i + 1) = A.get h v i ∧ ∃ y, A.get h v i = some y) ∧
      Frame h h' ∅ := by
  have hsize := hr.size_eq hs
  have hend := hr.1
  obtain ⟨h1, t, e1, hT, f1, hst⟩ := thaw_empty tid f htid
  obtain ⟨h2, t2, e2, hT2, hst2, f2⟩ := hT.push_above x f1.1 (by simp [U32])
  have f02 : Frame h h2 ∅ := f1.below f2
  obtain ⟨h3, t3, e3, f03, hT3, hst3⟩ :=
    tpushAll_spec (s := v._start) (e := v._end) hr f02 hT2 hs (le_of_eq hend)
      (by simp only [List.nil_append, List.length_singleton]; omega)
  obtain ⟨h4, w, e4, hP, f4, hs4, he4⟩ := hT3.to_persistent
  have hw0 : w._start = 0 := hs4.trans (hst3.trans (hst2.trans hst))
  have hr' := hP.is_readable
  have hlen : ((xs.drop v._start).take (v._end - v._start)).length = v._end - v._start := by
    rw [List.length_take, List.length_drop]; omega
  have hsw := hr'.size_eq (by rw [hw0]; exact Nat.zero_le _)
  simp only [List.nil_append, List.length_append, List.length_singleton, hlen, hw0] at hsw
  refine ⟨h4, w, ?_, by rw [hsw, hsize]; omega, ?_, fun i hi => ?_, f03.below f4⟩
  · have e2' : tpush h1 t (Obj.value x) = some ⟨h2, t2, true⟩ := e2
    simp only [A.cons, ArrayImp.cons, e1, e2', e3, Option.bind_eq_bind, Option.some_bind]
    exact e4
  · rw [hr'.read 0 (by rw [hw0]; simp), hw0]
    simp
  · have hi' : i + v._start < xs.length := by omega
    rw [hr'.read (i + 1) (by rw [hw0]; simp [hlen]; omega), hw0, hr.read i hi']
    refine ⟨?_, _, List.getElem?_eq_getElem hi'⟩
    simp only [List.nil_append, Nat.add_zero, List.singleton_append, List.getElem?_cons_succ]
    rw [List.getElem?_take_of_lt (by omega), List.getElem?_drop, add_comm]

/-- C23, an instance: the vector `forty` of the pushes 0, ..., 39 and the
element 99. -/
theorem cons_law_witness :
    (7 ≠ NO_EDIT ∧ Frame heap0 forty.1 ∅ ∧ Readable forty.1 forty.2 (List.range 40) ∧
      forty.2._start ≤ forty.2._end ∧ forty.2.size + 1 < U32) ∧
    ∃ h' w, A.cons 7 forty.1 forty.2 99 = some (h', some w) ∧ w.size = forty.2.size + 1 ∧
      A.get h' w 0 = some 99 ∧
      (∀ i, i < forty.2.size → A.get h' w (i + 1) = A.get forty.1 forty.2 i ∧
        ∃ y, A.get forty.1 forty.2 i = some y) ∧
      Frame forty.1 h' ∅ :=
  have h1 : forty.2.size + 1 < U32 := by rw [forty_size.2]; decide
  ⟨⟨by decide, forty_frame, forty_rep.1.is_readable, forty_size.1, h1⟩,
    cons_law 7 (by decide) forty.1 forty.2 (List.range 40) 99 forty_frame
      forty_rep.1.is_readable forty_size.1 h1⟩

/-- C23 fails at size `2^32 - 1`: `v` is the vector of `2^32 - 1` pushes of the
value 0. `v.cons(9)` pushes 9 and then the elements of `v` onto a transient of
the empty vector; the last push wraps `_end` around to 0, and the result has
size 0, not `2^32`, and reads no element at index 0, where 9 should be. -/
theorem cons_wraps_at_two_pow_32 :
    ∃ h v h' w, A.pushAll (heap0 : Heap Nat) A.empty (List.replicate 4294967295 0) = some (h, v) ∧
      v.size = 4294967295 ∧ A.cons 7 h v 9 = some (h', some w) ∧ w.size = 0 ∧
      A.get h' w 0 = none := by
  obtain ⟨h, v, e, hp, f, hs⟩ := PRep.pushAll [] (List.replicate 4294967295 (0 : Nat))
    PRep.empty rfl (by rw [List.nil_append, List.length_replicate]; decide)
  rw [List.nil_append] at hp
  have hr := hp.is_readable
  have hlen : (List.replicate 4294967295 (0 : Nat)).length = 4294967295 :=
    List.length_replicate _ _
  have hend : v._end = 4294967295 := by rw [hr.1, hlen]
  have hsz : v.size = 4294967295 := by rw [A.size, hend, hs]; rfl
  obtain ⟨h1, t, e1, hT, f1, hst⟩ := thaw_empty 7 f (by decide)
  obtain ⟨h2, t2, e2, hT2, hs2, f2⟩ := hT.push_above 9 f1.1 (by simp [U32])
  have f02 : Frame h h2 ∅ := f1.below f2
  obtain ⟨it, ei, hit⟩ := ItAt.of_create (hr.extend f02) (le_of_eq hlen.symm) 0
  obtain ⟨h3, t3, h4, w, e3, e4, hsw, hew, hget⟩ :=
    tpushAllF_wrap hr 4294967295 (le_of_eq hlen.symm) 4294967294 0 4294967296 h2 t2 ([] ++ [9]) it
      (by decide) (by decide) f02 hT2 (by decide) (hit.restrict hr (le_of_eq hlen.symm) f02)
  have hw0 : w._start = 0 := hsw.trans (hs2.trans hst)
  refine ⟨h, v, h4, w, e, hsz, ?_, by rw [A.size, hew, hw0]; rfl, hget 0⟩
  have e2' : tpush h1 t (Obj.value 9) = some ⟨h2, t2, true⟩ := e2
  simp only [A.cons, ArrayImp.cons, e1, e2', tpushAll, hs, hend, ei,
    show sub32 4294967295 0 + 1 = 4294967296 from rfl, e3, Option.bind_eq_bind,
    Option.some_bind]
  exact e4

/-- C30, evaluated at a failing input: the vector of 33 pushes, then `pop`,
`push(77)`, `pop`, all persistent. The first `pop` leaves `EMPTY_NODE`, a node of
length 0, as the root; the push copies only `length` slots of it and loses the
leaf; the second `pop` takes as its new tail the node of index 31, which the walk
no longer finds: the resulting vector has `_end = 32` and `tailoff = 0`, so its
tail should have length 32, but its tail pointer is null and there is no tail
node. -/
theorem tail_missing_after_pop_push_pop :
    (do
      let (h1, v0) ← A.pushAll (heap0 : Heap Nat) A.empty (List.range 33)
      let (h2, v) ← A.pop h1 v0
      let (h3, w) ← A.push h2 v 77
      let (h4, u) ← A.pop h3 w
      some (u._end, tailoff u, u._tail, (tail h4 u).map (fun n => n.length))) =
      some (32, 0, none, none) := by
  decide!

/-- C31, evaluated at a failing input: `v` is the result of `pop` on the vector of
the 33 pushes 0, ..., 32, and `w = v.push(77)`. The root of `v` is `EMPTY_NODE`,
whose length is 0, not `BRANCHES`; the root of `w`, a `copyAssign` of it, has
length 0 too, and its slot 0 is nil although `tailoff` of `w` is 32: the walk for
index 0 ends at a null leaf, and the unchecked `getValue(0)` dereferences it. -/
theorem trie_walk_meets_nil_after_pop_and_push :
    (do
      let (h1, v0) ← A.pushAll (heap0 : Heap Nat) A.empty (List.range 33)
      let (h2, v) ← A.pop h1 v0
      let r ← root h2 v
      let (h3, w) ← A.push h2 v 77
      let rw ← root h3 w
      some ([some v._root, uncheckedSlotsFor h3 w 0], [r.length, rw.length, tailoff w],
        [rw.slot 0, getValue h3 w 0, getValue h3 w 32])) =
      some ([some (some EMPTY_NODE), some none], [0, 0, 32],
        [some Obj.null, none, some (Obj.value 77)]) := by
  decide!

/-- C36, evaluated at a failing input: a transient `t` of the empty vector made by
thread 7 gets the 33 pushes 0, ..., 32 and is frozen into `v`. The root of `v` has
the edit token `NO_EDIT`, but the leaf in slot 0 of the root, the former tail of
`t`, still has the token 7. For a later transient `u` of `v` made by thread 7
the leaf is editable as it is: `ensureEditable(u, leaf)` returns the leaf itself
and allocates nothing. -/
theorem freeze_leaves_edit_token_in_leaf :
    (do
      let (h1, t) ← A.asTransient 7 (heap0 : Heap Nat) A.empty
      let (h2, t2) ← TA.pushAll h1 t (List.range 33)
      let (h3, ov) ← TA.makePersistent h2 t2
      let v ← ov
      let r ← root h3 v
      let s ← r.slot 0
      let p ← s.toN
      let leaf ← deref h3 p
      let (h4, u) ← A.asTransient 7 h3 v
      let (h5, q) ← ensureEditable h4 u p
      some ([r.edit, leaf.edit], [p, some q], [h4.length, h5.length])) =
      some ([NO_EDIT, 7], [some 3, some 3], [8, 8]) := by
  decide!

/-- C37, evaluated at a failing input: `s` is the aliasing slice `[1 2 3].slice(1)`,
of size 2 with the elements 2, 3. For each of `push(9)`, `pop()` and `set(0, 5)`
the persistent operation on `s` gives `w` and the same operation on a
transient of `s`, frozen afterwards, gives `u`. The sizes and elements differ:
`push` gives 1 2 3 9 against 2 3 9, `pop` gives 1 2 against 2, and `set` gives
1 5 3 against 5 3. -/
theorem persistent_and_transient_differ_on_slice :
    (do
      let (h, ov) ← A.create 7 (heap0 : Heap Nat) [1, 2, 3]
      let v ← ov
      let (h1, os) ← A.slice 7 h v 1 END
      let s ← os
      let (h2, w) ← A.push h1 s 9
      let (h3, t) ← A.asTransient 8 h2 s
      let r ← TA.push h3 t 9
      let (h4, ou) ← TA.makePersistent r.heap r.hdr
      let u ← ou
      some ([s.size, w.size, u.size], [A.toList h4 s, A.toList h4 w, A.toList h4 u])) =
      some ([2, 4, 3], [[some 2, some 3], [some 1, some 2, some 3, some 9],
        [some 2, some 3, some 9]]) ∧
    (do
      let (h, ov) ← A.create 7 (heap0 : Heap Nat) [1, 2, 3]
      let v ← ov
      let (h1, os) ← A.slice 7 h v 1 END
      let s ← os
      let (h2, w) ← A.pop h1 s
      let (h3, t) ← A.asTransient 8 h2 s
      let r ← TA.pop h3 t
      let (h4, ou) ← TA.makePersistent r.heap r.hdr
      let u ← ou
      some ([s.size, w.size, u.size], [A.toList h4 s, A.toList h4 w, A.toList h4 u])) =
      some ([2, 2, 1], [[some 2, some 3], [some 1, some 2], [some 2]]) ∧
    (do
      let (h, ov) ← A.create 7 (heap0 : Heap Nat) [1, 2, 3]
      let v ← ov
      let (h1, os) ← A.slice 7 h v 1 END
      let s ← os
      let (h2, ow) ← A.set h1 s 0 5
      let w ← ow
      let (h3, t) ← A.asTransient 8 h2 s
      let r ← TA.set h3 t 0 5
      let (h4, ou) ← TA.makePersistent r.heap r.hdr
      let u ← ou
      some ([s.size, w.size, u.size], [A.toList h4 s, A.toList h4 w, A.toList h4 u])) =
      some ([2, 3, 2], [[some 2, some 3], [some 1, some 5, some 3], [some 5, some 3]]) := by
  refine ⟨?_, ?_, ?_⟩ <;> decide!

/-- C39, evaluated at a failing input: for the values 1 and 2, `a <= b` on
`Value<T>` is false and `a >= b` is true, while `1 <= 2` holds and `1 >= 2` does
not; the other four operators agree with the ordering of `T`. -/
theorem value_le_and_ge_are_swapped :
    [Value.lt (⟨1⟩ : Value Nat) ⟨2⟩, Value.gt (⟨1⟩ : Value Nat) ⟨2⟩,
      Value.le (⟨1⟩ : Value Nat) ⟨2⟩, Value.ge (⟨1⟩ : Value Nat) ⟨2⟩,
      Value.eq (⟨1⟩ : Value Nat) ⟨2⟩, Value.ne (⟨1⟩ : Value Nat) ⟨2⟩] =
      [true, false, false, true, false, true] ∧
    [decide ((1 : Nat) < 2), decide ((1 : Nat) > 2), decide ((1 : Nat) ≤ 2),
      decide ((1 : Nat) ≥ 2), decide ((1 : Nat) = 2), decide ((1 : Nat) ≠ 2)] =
      [true, false, true, false, false, true] := by
  constructor <;> decide

/-- C40, evaluated at two failing inputs. First: `n` is `EMPTY_NODE`, of length 0,
and the index is 0: `n.copyAssign(0, obj, e)` has nil in slot 0, the copy of
`n` with slot 0 set to `obj` has `obj` there. Second: `n` is a tail node of length
1 that holds the value 10, and the index is 1: the `copyAssign` has nil in slot
1, the copy with slot 1 set has the value 11. In both cases the index is not below
the length of the node, and the loop of `copyAssign` never reaches it. -/
theorem copy_assign_skips_index_at_or_above_length :
    (do
      let n ← (heap0 : Heap Nat)[EMPTY_NODE]?
      let m ← (n.copy n.length 7).setSlot 0 (Obj.node 5)
      some ([n.length, (n.copyAssign 0 (Obj.node 5) 7).length, m.length],
        [(n.copyAssign 0 (Obj.node 5) 7).slot 0, m.slot 0])) =
      some ([0, 0, 0], [some Obj.null, some (Obj.node 5)]) ∧
    (do
      let n ← (N.create 1 NO_EDIT : N Nat).setSlot 0 (Obj.value 10)
      let m ← (n.copy n.length 7).setSlot 1 (Obj.value 11)
      some ([n.length, (n.copyAssign 1 (Obj.value 11) 7).length, m.length],
        [(n.copyAssign 1 (Obj.value 11) 7).slot 0, m.slot 0,
          (n.copyAssign 1 (Obj.value 11) 7).slot 1, m.slot 1])) =
      some ([1, 1, 1], [some (Obj.value 10), some (Obj.value 10), some Obj.null,
        some (Obj.value 11)]) := by
  constructor <;> decide!

/-- C32: for every `uint32` value of `_end`: `tailoff` is 0 when `_end` is 0; when
`_end` is positive, `tailoff` is a multiple of `BRANCHES` and is below `_end`,
the difference `_end - tailoff` (which the `uint32` subtraction of the source
computes without wrapping) is at least 1 and at most `BRANCHES` and equals
`(_end - 1) mod BRANCHES + 1`, and an index `i < _end` is at or above `tailoff`
exactly when it is in the last block of `BRANCHES` indices, the one of
`_end - 1`; for such an index the three lookups `uncheckedSlotsFor`,
`checkedSlotsFor` and `editableSlotsFor` return the tail node. -/
theorem tailoff_arithmetic (a : A) (hlt : a._end < U32) :
    (a._end = 0 → tailoff a = 0) ∧
    (0 < a._end →
      BRANCHES ∣ tailoff a ∧ tailoff a < a._end ∧ 1 ≤ a._end - tailoff a ∧
      a._end - tailoff a ≤ BRANCHES ∧ sub32 a._end (tailoff a) = a._end - tailoff a ∧
      a._end - tailoff a = (a._end - 1) % BRANCHES + 1 ∧
      (∀ i, i < a._end → (tailoff a ≤ i ↔ i / BRANCHES = (a._end - 1) / BRANCHES)) ∧
      ∀ (h : Heap α) (i : Nat) (tn : N α), tail h a = some tn → tailoff a ≤ i →
        uncheckedSlotsFor h a i = some a._tail ∧ checkedSlotsFor h a i = some a._tail ∧
        (editableSlotsFor h a i).map (fun r => some r.2) = some a._tail) := by
  have ht := tailoff_eq a hlt
  refine ⟨fun h0 => by rw [ht, h0]; rfl, fun hpos => ?_⟩
  have hsub : sub32 a._end (tailoff a) = a._end - tailoff a :=
    sub32_eq (tailoff_spec a hlt).2.1 hlt
  refine ⟨?_, ?_, ?_, ?_, hsub, ?_, ?_, ?_⟩
  · rw [ht, BRANCHES_eq]; split <;> omega
  · rw [ht]; split <;> omega
  · rw [ht]; split <;> omega
  · rw [ht, BRANCHES_eq]; split <;> omega
  · rw [ht, BRANCHES_eq]; split <;> omega
  · intro i hi
    rw [ht, BRANCHES_eq]; split <;> omega
  · intro h i tn htn hi
    refine ⟨?_, ?_, ?_⟩
    · unfold uncheckedSlotsFor
      rw [if_pos hi, htn]; rfl
    · unfold checkedSlotsFor
      rw [if_pos hi, htn]; rfl
    · unfold editableSlotsFor
      rw [if_pos hi, htn]
      unfold tail deref at htn
      cases hp : a._tail with
      | none => rw [hp] at htn; simp at htn
      | some p => rfl

/-- C32, an instance: a header with `_end = 40`. -/
theorem tailoff_arithmetic_witness :
    (40 : Nat) < U32 ∧
    ((40 : Nat) = 0 → tailoff ⟨0, 40, BITS, none, none⟩ = 0) ∧
    (0 < (40 : Nat) →
      BRANCHES ∣ tailoff ⟨0, 40, BITS, none, none⟩ ∧ tailoff ⟨0, 40, BITS, none, none⟩ < 40 ∧
      1 ≤ 40 - tailoff ⟨0, 40, BITS, none, none⟩ ∧
      40 - tailoff ⟨0, 40, BITS, none, none⟩ ≤ BRANCHES ∧
      sub32 40 (tailoff ⟨0, 40, BITS, none, none⟩) = 40 - tailoff ⟨0, 40, BITS, none, none⟩ ∧
      40 - tailoff ⟨0, 40, BITS, none, none⟩ = (40 - 1) % BRANCHES + 1 ∧
      (∀ i, i < 40 →
        (tailoff ⟨0, 40, BITS, none, none⟩ ≤ i ↔ i / BRANCHES = (40 - 1) / BRANCHES)) ∧
      ∀ (h : Heap Nat) (i : Nat) (tn : N Nat), tail h ⟨0, 40, BITS, none, none⟩ = some tn →
        tailoff ⟨0, 40, BITS, none, none⟩ ≤ i →
        uncheckedSlotsFor h ⟨0, 40, BITS, none, none⟩ i = some none ∧
        checkedSlotsFor h ⟨0, 40, BITS, none, none⟩ i = some none ∧
        (editableSlotsFor h ⟨0, 40, BITS, none, none⟩ i).map (fun r => some r.2) = some none) :=
  ⟨by decide, tailoff_arithmetic ⟨0, 40, BITS, none, none⟩ (by decide)⟩

/-- C33: let the tail of `a` be full (`_end` a positive multiple of `BRANCHES`).
If `a` is a represented persistent vector, so that its trie of height
`shift/BITS + 1` holds the elements `[0, _end - BRANCHES)`, the test
`(_end >> BITS) > (1 << shift)` holds exactly when
`_end - BRANCHES = BRANCHES ^ (shift/BITS + 1)`, and when it holds `push` returns
a vector whose shift is `shift + BITS` and whose root has the old root in slot
0. The same for an editable transient and `tpush`, which returns the transient
itself. -/
theorem root_overflow_test (h : Heap α) (a : A) (xs : List α) (obj : Obj α)
    (hpos : 0 < a._end) (hfull : a._end % BRANCHES = 0) :
    (PRep h a xs →
      ((a._end >>> BITS > 1 <<< a._shift) ↔
        a._end - BRANCHES = BRANCHES ^ (a._shift / BITS + 1)) ∧
      ((a._end >>> BITS > 1 <<< a._shift) →
        ∃ h' a' rn, ArrayImp.push h a obj = some (h', a') ∧ a'._shift = a._shift + BITS ∧
          root h' a' = some rn ∧ rn.slot 0 = some (Obj.ofN a._root))) ∧
    (TRep h a xs →
      ((a._end >>> BITS > 1 <<< a._shift) ↔
        a._end - BRANCHES = BRANCHES ^ (a._shift / BITS + 1)) ∧
      ((a._end >>> BITS > 1 <<< a._shift) →
        ∃ r rn, tpush h a obj = some r ∧ r.self = true ∧ r.hdr._shift = a._shift + BITS ∧
          root r.heap r.hdr = some rn ∧ rn.slot 0 = some (Obj.ofN a._root))) := by
  have key : ∀ {k rp tp : Nat} {tn : N α} {S : Set Nat}, Rep h a xs k rp tp tn S →
      a._end < U32 ∧ tailoff a + 32 = a._end ∧ ¬ sub32 a._end (tailoff a) < BRANCHES ∧
      ¬ 31 ≤ a._shift ∧ add32 a._shift BITS = a._shift + BITS ∧
      ((a._end >>> BITS > 1 <<< a._shift) ↔
        a._end - BRANCHES = BRANCHES ^ (a._shift / BITS + 1)) := by
    intro k rp tp tn S r
    have hU : a._end < U32 := by rw [r.hend]; exact r.hlt
    have ht := tailoff_eq a hU
    rw [BRANCHES_eq] at hfull
    have hfl : tailoff a + 32 = a._end := by rw [ht]; split <;> omega
    have hm32 : 32 ∣ tailoff a := by rw [ht]; split <;> omega
    have hsl := r.shift_lt
    have hdiv : a._shift / BITS + 1 = k + 1 + 1 := by
      rw [r.hshift, Nat.mul_div_cancel_left _ (by decide : 0 < BITS)]
    refine ⟨hU, hfl, ?_, by rw [r.hshift]; omega, ?_, ?_⟩
    · rw [sub32_eq (by omega) hU, BRANCHES_eq]; omega
    · rw [r.hshift, add32_level hsl]
      simp only [BITS_eq]; omega
    · have hovf := overflow_iff hfl hm32 r.hcap
      rw [hdiv, BRANCHES_eq, r.hshift, hovf]
      omega
  constructor
  · rintro ⟨k, rp, tp, tn, S, r, -⟩
    obtain ⟨hU, hfl, hcond, hguard, hadd, hiff⟩ := key r
    refine ⟨hiff, fun hov => ?_⟩
    obtain ⟨rn, hrn, -⟩ := r.hsub
    obtain ⟨h2, np, e1, -⟩ := newPathF_total rn.edit h.length (k + 1) (BITS * (k + 1) + 1)
      (h ++ [tn.copy tn.length rn.edit]) (by simp only [BITS_eq]; omega)
      (by have := r.shift_lt; omega)
    have hroot0 := N.setSlot_eq (N.create BRANCHES rn.edit : N α) 0 (Obj.node rp)
      (by simp [N.create, BRANCHES_eq])
    have hroot1 := N.setSlot_eq
      (⟨rn.edit, BRANCHES, (List.replicate BRANCHES Obj.null).set 0 (Obj.node rp)⟩ : N α) 1
      (Obj.node np) (by simp [BRANCHES_eq])
    have hnt := N.setSlot_eq (N.create 1 tn.edit) 0 obj (by simp [N.create, BRANCHES_eq])
    refine ⟨h2 ++ [(⟨rn.edit, BRANCHES, ((List.replicate BRANCHES Obj.null).set 0
        (Obj.node rp)).set 1 (Obj.node np)⟩ : N α)] ++
        [(⟨tn.edit, 1, (List.replicate BRANCHES Obj.null).set 0 obj⟩ : N α)],
      ⟨0, add32 a._end 1, a._shift + BITS, some h2.length, some (h2.length + 1)⟩,
      ⟨rn.edit, BRANCHES, ((List.replicate BRANCHES Obj.null).set 0
        (Obj.node rp)).set 1 (Obj.node np)⟩, ?_, rfl, ?_, ?_⟩
    · unfold ArrayImp.push
      rw [if_neg hcond]
      simp only [ArrayImp.tail, ArrayImp.root, r.htail, r.hroot, deref, r.htn, hrn,
        Option.bind_eq_bind, Option.some_bind, alloc]
      rw [if_neg hguard, if_pos hov]
      unfold newPath
      rw [r.hshift, e1]
      simp only [Option.some_bind, Obj.ofN, hroot0, hroot1, hnt]
      rw [← r.hshift, hadd]
      simp [N.create, hroot1]
    · simp only [ArrayImp.root, deref]
      exact (get_append_two h2 _ _).1
    · rw [r.hroot]
      simp [N.slot, Obj.ofN, BRANCHES_eq]
  · rintro ⟨k, rp, tp, tn, S, r, htl, htv, -, rn, hrn, hed⟩
    obtain ⟨hU, hfl, hcond, hguard, hadd, hiff⟩ := key r
    refine ⟨hiff, fun hov => ?_⟩
    have hnt := N.setSlot_eq (N.create BRANCHES rn.edit) 0 obj (by simp [N.create, BRANCHES_eq])
    obtain ⟨h2, np, e1, -⟩ := newPathF_total rn.edit tp (k + 1) (BITS * (k + 1) + 1)
      (h ++ [(⟨(N.create BRANCHES rn.edit : N α).edit, (N.create BRANCHES rn.edit : N α).length,
        (N.create BRANCHES rn.edit : N α)._v.set 0 obj⟩ : N α)])
      (by simp only [BITS_eq]; omega) (by have := r.shift_lt; omega)
    have hroot0 := N.setSlot_eq (N.create BRANCHES rn.edit : N α) 0 (Obj.node rp)
      (by simp [N.create, BRANCHES_eq])
    have hroot1 := N.setSlot_eq
      (⟨rn.edit, BRANCHES, (List.replicate BRANCHES Obj.null).set 0 (Obj.node rp)⟩ : N α) 1
      (Obj.node np) (by simp [BRANCHES_eq])
    refine ⟨⟨h2 ++ [(⟨rn.edit, BRANCHES, ((List.replicate BRANCHES Obj.null).set 0
        (Obj.node rp)).set 1 (Obj.node np)⟩ : N α)],
      ⟨a._start, add32 a._end 1, a._shift + BITS, some h2.length, some h.length⟩, true⟩,
      ⟨rn.edit, BRANCHES, ((List.replicate BRANCHES Obj.null).set 0
        (Obj.node rp)).set 1 (Obj.node np)⟩, ?_, rfl, rfl, ?_, ?_⟩
    · unfold tpush
      have hedit : isEditable h a = some true := by
        simp only [isEditable, ArrayImp.root, r.hroot, deref, hrn, Option.bind_eq_bind,
          Option.some_bind]
        simpa using hed
      simp only [hedit, Option.bind_eq_bind, Option.some_bind, Bool.not_true, Bool.false_eq_true,
        if_false]
      rw [if_neg hcond]
      simp only [ArrayImp.tail, ArrayImp.root, r.htail, r.hroot, deref, r.htn, hrn,
        Option.bind_eq_bind, Option.some_bind, alloc, hnt]
      rw [if_neg hguard, if_pos hov]
      unfold newPath
      rw [r.hshift, e1]
      simp only [Option.some_bind, Obj.ofN, hroot0, hroot1]
      rw [← r.hshift, hadd]
      simp [N.create, hroot1]
    · simp only [ArrayImp.root, deref]
      exact get_append_new h2 _
    · rw [r.hroot]
      simp [N.slot, Obj.ofN, BRANCHES_eq]

/-- C33, an instance: the vector `full1056` of the pushes 0, ..., 1055, whose tail
is full and whose trie of height 2 holds 1024 elements. -/
theorem root_overflow_test_witness :
    (0 < full1056.2._end ∧ full1056.2._end % BRANCHES = 0) ∧
    (PRep full1056.1 full1056.2 (List.range 1056) →
      ((full1056.2._end >>> BITS > 1 <<< full1056.2._shift) ↔
        full1056.2._end - BRANCHES = BRANCHES ^ (full1056.2._shift / BITS + 1)) ∧
      ((full1056.2._end >>> BITS > 1 <<< full1056.2._shift) →
        ∃ h' a' rn, ArrayImp.push full1056.1 full1056.2 (Obj.value 7) = some (h', a') ∧
          a'._shift = full1056.2._shift + BITS ∧
          root h' a' = some rn ∧ rn.slot 0 = some (Obj.ofN full1056.2._root))) ∧
    (TRep full1056.1 full1056.2 (List.range 1056) →
      ((full1056.2._end >>> BITS > 1 <<< full1056.2._shift) ↔
        full1056.2._end - BRANCHES = BRANCHES ^ (full1056.2._shift / BITS + 1)) ∧
      ((full1056.2._end >>> BITS > 1 <<< full1056.2._shift) →
        ∃ r rn, tpush full1056.1 full1056.2 (Obj.value 7) = some r ∧ r.self = true ∧
          r.hdr._shift = full1056.2._shift + BITS ∧
          root r.heap r.hdr = some rn ∧ rn.slot 0 = some (Obj.ofN full1056.2._root))) :=
  have h1 : 0 < full1056.2._end := by rw [full1056_rep.2]; decide
  have h2 : full1056.2._end % BRANCHES = 0 := by rw [full1056_rep.2]; decide
  ⟨⟨h1, h2⟩, root_overflow_test full1056.1 full1056.2 (List.range 1056) (Obj.value 7) h1 h2⟩

/-- C38: for all readable vectors `v`, `w` in one heap, over a linearly ordered
element type, `v.compare(w)` returns a value `c` and `w.compare(v)` returns `-c`;
`c` is 0 when `w` is `v` itself, and `c` is 0 when `w` is another vector of the
same size with `w.get(i) = v.get(i)` for every `i` below the size. `same` is the
outcome of the address comparison of the two headers, which can hold only for
one and the same vector, and `cellEq` that of the address comparison of two
value cells, which can hold only for equal values; in the call `w.compare(v)`
the cells are compared in the other order. -/
theorem compare_antisymmetric [LinearOrder α] (cellEq : α → α → Bool) (same : Bool)
    (h : Heap α) (v w : A) (xs ys : List α) (hv : Readable h v xs) (hw : Readable h w ys)
    (hsv : v._start ≤ v._end) (hsw : w._start ≤ w._end)
    (hcell : ∀ x y, cellEq x y = true → x = y) (hsame : same = true → v = w) :
    ∃ c, A.compare cellEq same h v w = some c ∧
      A.compare (fun x y => cellEq y x) same h w v = some (-c) ∧
      (same = true → c = 0) ∧
      ((v.size = w.size ∧ ∀ i, i < v.size → A.get h v i = A.get h w i) → c = 0) := by
  cases same
  · have e1 := compare_eval cellEq hv hw hsv hsw hcell
    have e2 := compare_eval (fun x y => cellEq y x) hw hv hsw hsv
      (fun x y hc => (hcell y x hc).symm)
    have szv := hv.size_eq hsv
    have szw := hw.size_eq hsw
    refine ⟨_, e1, ?_, fun hc => absurd hc (by decide), ?_⟩
    · rw [e2]
      by_cases h1 : v.size < w.size
      · rw [if_neg (by omega), if_pos h1, if_pos h1]
        rfl
      · by_cases h2 : w.size < v.size
        · rw [if_pos h2, if_neg h1, if_pos h2]
        · rw [if_neg h2, if_neg h1, if_neg h1, if_neg h2, lexSign_swap]
    · rintro ⟨heq, hall⟩
      rw [if_neg (by omega), if_neg (by omega)]
      have hlen : (xs.drop v._start).length = (ys.drop w._start).length := by
        rw [List.length_drop, List.length_drop]; omega
      rw [lexSign_zero _ _ hlen]
      refine List.ext_getElem? (fun i => ?_)
      by_cases hi : i < v.size
      · have hL : A.get h v i = (xs.drop v._start)[i]? := by
          rw [hv.read i (by omega), List.getElem?_drop, add_comm]
        have hR : A.get h w i = (ys.drop w._start)[i]? := by
          rw [hw.read i (by omega), List.getElem?_drop, add_comm]
        rw [← hL, ← hR]
        exact hall i hi
      · rw [List.getElem?_eq_none (by rw [List.length_drop]; omega),
          List.getElem?_eq_none (by rw [List.length_drop]; omega)]
  · obtain rfl := hsame rfl
    refine ⟨0, by unfold A.compare; rw [if_pos rfl], by unfold A.compare; rw [if_pos rfl]; rfl,
      fun _ => rfl, fun _ => rfl⟩

/-- C38, an instance: the vector `forty` of the pushes 0, ..., 39 compared with
itself through a second header, no two cells being the same. -/
theorem compare_antisymmetric_witness :
    (Readable forty.1 forty.2 (List.range 40) ∧ forty.2._start ≤ forty.2._end ∧
      (∀ x y : Nat, (fun _ _ => false) x y = true → x = y) ∧ (false = true → forty.2 = forty.2)) ∧
    ∃ c, A.compare (fun _ _ => false) false forty.1 forty.2 forty.2 = some c ∧
      A.compare (fun x y => (fun _ _ => false) y x) false forty.1 forty.2 forty.2 = some (-c) ∧
      (false = true → c = 0) ∧
      ((forty.2.size = forty.2.size ∧
        ∀ i, i < forty.2.size → A.get forty.1 forty.2 i = A.get forty.1 forty.2 i) → c = 0) :=
  ⟨⟨forty_rep.1.is_readable, forty_size.1, fun _ _ hc => by simp at hc,
      fun hc => absurd hc (by decide)⟩,
    compare_antisymmetric (fun _ _ => false) false forty.1 forty.2 forty.2 (List.range 40)
      (List.range 40) forty_rep.1.is_readable forty_rep.1.is_readable forty_size.1 forty_size.1
      (fun _ _ hc => by simp at hc) (fun hc => absurd hc (by decide))⟩

/-- C34: every header `a` that the public operations hand out (the static `EMPTY`,
and whatever `push`, `pop`, `set`, `slice`, `without`, `cons`, `splice`, `concat`,
`create`, `asTransient`, `makePersistent` and the transient `push`, `set`, `pop`
return, in any heap, on headers handed out before) has `_shift = BITS * (k + 1)`
for some `k`, below 31. For such a shift each decrement `level - BITS` on the way
from `_shift` down to 0 is exact, without wrapping. Each of the recursions
`newPath`, `doAssoc`, `tdoAssoc` and of the loops of `checkedSlotsFor`,
`uncheckedSlotsFor`, `editableSlotsFor`, started at a level `BITS * j` that is at
most `_shift` and run with any fuel above `j`, in any heap and on any arguments,
comes back before the fuel is used up: its outcome is a result or undefined
behaviour of the source (a null or mistyped pointer met on the way), never "out
of fuel"; the model of the operations gives that outcome, and gives with any
fuel above `j` what it gives with fuel `j + 1`: one call per level, none beyond
level 0. The same holds for `pushTail`, `tpushTail`, `popTail` and `tpopTail`,
which stop at level `BITS`, started at a level `BITS * (j + 1)` that is at most
`_shift`. The operations start these recursions at `_shift`, or at
`_shift - BITS` for `newPath` below `pushTail`, with fuel `level + 1`. -/
theorem shift_invariant_and_termination (a : A) (hr : Reachable α a) :
    ∃ k, a._shift = BITS * (k + 1) ∧ a._shift < 31 ∧
      (∀ j, j ≤ k → sub32 (BITS * (j + 1)) BITS = BITS * j) ∧
      (∀ j fuel, j ≤ k + 1 → j < fuel →
        (∀ (edit node : Nat) (h : Heap α),
          newPathR edit node fuel h (BITS * j) ≠ Res.outOfFuel ∧
          newPathF edit node fuel h (BITS * j) =
            (newPathR edit node fuel h (BITS * j)).toOption ∧
          newPathF edit node fuel h (BITS * j) = newPathF edit node (j + 1) h (BITS * j)) ∧
        (∀ (i : Nat) (obj : Obj α) (h : Heap α) (node : N α),
          doAssocR i obj fuel h (BITS * j) node ≠ Res.outOfFuel ∧
          doAssocF i obj fuel h (BITS * j) node =
            (doAssocR i obj fuel h (BITS * j) node).toOption ∧
          doAssocF i obj fuel h (BITS * j) node = doAssocF i obj (j + 1) h (BITS * j) node) ∧
        (∀ (t : TA) (i : Nat) (val : Obj α) (h : Heap α) (node : Ptr),
          tdoAssocR t i val fuel h (BITS * j) node ≠ Res.outOfFuel ∧
          tdoAssocF t i val fuel h (BITS * j) node =
            (tdoAssocR t i val fuel h (BITS * j) node).toOption ∧
          tdoAssocF t i val fuel h (BITS * j) node =
            tdoAssocF t i val (j + 1) h (BITS * j) node) ∧
        (∀ (i : Nat) (h : Heap α) (node : Nat),
          checkedSlotsForR i fuel h (BITS * j) node ≠ Res.outOfFuel ∧
          checkedSlotsForF i fuel h (BITS * j) node =
            (checkedSlotsForR i fuel h (BITS * j) node).toOption ∧
          checkedSlotsForF i fuel h (BITS * j) node =
            checkedSlotsForF i (j + 1) h (BITS * j) node) ∧
        (∀ (i : Nat) (h : Heap α) (node : Ptr),
          uncheckedSlotsForR i fuel h (BITS * j) node ≠ Res.outOfFuel ∧
          uncheckedSlotsForF i fuel h (BITS * j) node =
            (uncheckedSlotsForR i fuel h (BITS * j) node).toOption ∧
          uncheckedSlotsForF i fuel h (BITS * j) node =
            uncheckedSlotsForF i (j + 1) h (BITS * j) node) ∧
        (∀ (t : TA) (i : Nat) (h : Heap α) (node : Nat),
          editableSlotsForR t i fuel h (BITS * j) node ≠ Res.outOfFuel ∧
          editableSlotsForF t i fuel h (BITS * j) node =
            (editableSlotsForR t i fuel h (BITS * j) node).toOption ∧
          editableSlotsForF t i fuel h (BITS * j) node =
            editableSlotsForF t i (j + 1) h (BITS * j) node)) ∧
      (∀ j fuel, j ≤ k → j < fuel →
        (∀ (v : A) (tailNode : Nat) (h : Heap α) (parentNode : N α),
          pushTailR v tailNode fuel h (BITS * (j + 1)) parentNode ≠ Res.outOfFuel ∧
          pushTailF v tailNode fuel h (BITS * (j + 1)) parentNode =
            (pushTailR v tailNode fuel h (BITS * (j + 1)) parentNode).toOption ∧
          pushTailF v tailNode fuel h (BITS * (j + 1)) parentNode =
            pushTailF v tailNode (j + 1) h (BITS * (j + 1)) parentNode) ∧
        (∀ (t : TA) (tailNode : Nat) (h : Heap α) (parentNode : Ptr),
          tpushTailR t tailNode fuel h (BITS * (j + 1)) parentNode ≠ Res.outOfFuel ∧
          tpushTailF t tailNode fuel h (BITS * (j + 1)) parentNode =
            (tpushTailR t tailNode fuel h (BITS * (j + 1)) parentNode).toOption ∧
          tpushTailF t tailNode fuel h (BITS * (j + 1)) parentNode =
            tpushTailF t tailNode (j + 1) h (BITS * (j + 1)) parentNode) ∧
        (∀ (v : A) (h : Heap α) (node : N α),
          popTailR v fuel h (BITS * (j + 1)) node ≠ Res.outOfFuel ∧
          popTailF v fuel h (BITS * (j + 1)) node =
            (popTailR v fuel h (BITS * (j + 1)) node).toOption ∧
          popTailF v fuel h (BITS * (j + 1)) node = popTailF v (j + 1) h (BITS * (j + 1)) node) ∧
        (∀ (t : TA) (h : Heap α) (node : Ptr),
          tpopTailR t fuel h (BITS * (j + 1)) node ≠ Res.outOfFuel ∧
          tpopTailF t fuel h (BITS * (j + 1)) node =
            (tpopTailR t fuel h (BITS * (j + 1)) node).toOption ∧
          tpopTailF t fuel h (BITS * (j + 1)) node =
            tpopTailF t (j + 1) h (BITS * (j + 1)) node)) := by
  obtain ⟨⟨k, hk⟩, h31, -⟩ := hr.shiftOk
  have hb : ∀ j, j ≤ k + 1 → BITS * j < U32 := fun j hj => by
    rw [hk] at h31
    unfold U32
    simp only [BITS_eq] at *
    omega
  refine ⟨k, hk, h31, fun j hj => sub32_step (hb (j + 1) (by omega)),
    fun j fuel hj hf => ⟨fun edit node h => ⟨newPathR_back edit node j fuel h hf (hb j hj),
        newPathF_eq edit node fuel h _, newPathF_fuel edit node j fuel h hf (hb j hj)⟩,
      fun i obj h node => ⟨doAssocR_back i obj j fuel h node hf (hb j hj),
        doAssocF_eq i obj fuel h _ node, doAssocF_fuel i obj j fuel h node hf (hb j hj)⟩,
      fun t i val h node => ⟨tdoAssocR_back t i val j fuel h node hf (hb j hj),
        tdoAssocF_eq t i val fuel h _ node, tdoAssocF_fuel t i val j fuel h node hf (hb j hj)⟩,
      fun i h node => ⟨checkedSlotsForR_back i j fuel h node hf (hb j hj),
        checkedSlotsForF_eq i fuel h _ node, checkedSlotsForF_fuel i j fuel h node hf (hb j hj)⟩,
      fun i h node => ⟨uncheckedSlotsForR_back i j fuel h node hf (hb j hj),
        uncheckedSlotsForF_eq i fuel h _ node,
        uncheckedSlotsForF_fuel i j fuel h node hf (hb j hj)⟩,
      fun t i h node => ⟨editableSlotsForR_back t i j fuel h node hf (hb j hj),
        editableSlotsForF_eq t i fuel h _ node,
        editableSlotsForF_fuel t i j fuel h node hf (hb j hj)⟩⟩,
    fun j fuel hj hf => ⟨fun v tl h p => ⟨pushTailR_back v tl j fuel h p hf (hb (j + 1) (by omega)),
        pushTailF_eq v tl fuel h _ p, pushTailF_fuel v tl j fuel h p hf (hb (j + 1) (by omega))⟩,
      fun t tl h p => ⟨tpushTailR_back t tl j fuel h p hf (hb (j + 1) (by omega)),
        tpushTailF_eq t tl fuel h _ p, tpushTailF_fuel t tl j fuel h p hf (hb (j + 1) (by omega))⟩,
      fun v h node => ⟨popTailR_back v j fuel h node hf (hb (j + 1) (by omega)),
        popTailF_eq v fuel h _ node, popTailF_fuel v j fuel h node hf (hb (j + 1) (by omega))⟩,
      fun t h node => ⟨tpopTailR_back t j fuel h node hf (hb (j + 1) (by omega)),
        tpopTailF_eq t fuel h _ node,
        tpopTailF_fuel t j fuel h node hf (hb (j + 1) (by omega))⟩⟩⟩

/-- C34, an instance: the vector `big1057` of the pushes 0, ..., 1056, which the
public operations hand out after 1057 calls of `push` and whose shift is 10, so
that the recursions on it run over two levels. -/
theorem shift_invariant_and_termination_witness :
    Reachable Nat big1057.2 ∧ big1057.2._shift = 10 ∧
    ∃ k, big1057.2._shift = BITS * (k + 1) ∧ big1057.2._shift < 31 ∧
      (∀ j, j ≤ k → sub32 (BITS * (j + 1)) BITS = BITS * j) ∧
      (∀ j fuel, j ≤ k + 1 → j < fuel →
        (∀ (edit node : Nat) (h : Heap Nat),
          newPathR edit node fuel h (BITS * j) ≠ Res.outOfFuel ∧
          newPathF edit node fuel h (BITS * j) =
            (newPathR edit node fuel h (BITS * j)).toOption ∧
          newPathF edit node fuel h (BITS * j) = newPathF edit node (j + 1) h (BITS * j)) ∧
        (∀ (i : Nat) (obj : Obj Nat) (h : Heap Nat) (node : N Nat),
          doAssocR i obj fuel h (BITS * j) node ≠ Res.outOfFuel ∧
          doAssocF i obj fuel h (BITS * j) node =
            (doAssocR i obj fuel h (BITS * j) node).toOption ∧
          doAssocF i obj fuel h (BITS * j) node = doAssocF i obj (j + 1) h (BITS * j) node) ∧
        (∀ (t : TA) (i : Nat) (val : Obj Nat) (h : Heap Nat) (node : Ptr),
          tdoAssocR t i val fuel h (BITS * j) node ≠ Res.outOfFuel ∧
          tdoAssocF t i val fuel h (BITS * j) node =
            (tdoAssocR t i val fuel h (BITS * j) node).toOption ∧
          tdoAssocF t i val fuel h (BITS * j) node =
            tdoAssocF t i val (j + 1) h (BITS * j) node) ∧
        (∀ (i : Nat) (h : Heap Nat) (node : Nat),
          checkedSlotsForR i fuel h (BITS * j) node ≠ Res.outOfFuel ∧
          checkedSlotsForF i fuel h (BITS * j) node =
            (checkedSlotsForR i fuel h (BITS * j) node).toOption ∧
          checkedSlotsForF i fuel h (BITS * j) node =
            checkedSlotsForF i (j + 1) h (BITS * j) node) ∧
        (∀ (i : Nat) (h : Heap Nat) (node : Ptr),
          uncheckedSlotsForR i fuel h (BITS * j) node ≠ Res.outOfFuel ∧
          uncheckedSlotsForF i fuel h (BITS * j) node =
            (uncheckedSlotsForR i fuel h (BITS * j) node).toOption ∧
          uncheckedSlotsForF i fuel h (BITS * j) node =
            uncheckedSlotsForF i (j + 1) h (BITS * j) node) ∧
        (∀ (t : TA) (i : Nat) (h : Heap Nat) (node : Nat),
          editableSlotsForR t i fuel h (BITS * j) node ≠ Res.outOfFuel ∧
          editableSlotsForF t i fuel h (BITS * j) node =
            (editableSlotsForR t i fuel h (BITS * j) node).toOption ∧
          editableSlotsForF t i fuel h (BITS * j) node =
            editableSlotsForF t i (j + 1) h (BITS * j) node)) ∧
      (∀ j fuel, j ≤ k → j < fuel →
        (∀ (v : A) (tailNode : Nat) (h : Heap Nat) (parentNode : N Nat),
          pushTailR v tailNode fuel h (BITS * (j + 1)) parentNode ≠ Res.outOfFuel ∧
          pushTailF v tailNode fuel h (BITS * (j + 1)) parentNode =
            (pushTailR v tailNode fuel h (BITS * (j + 1)) parentNode).toOption ∧
          pushTailF v tailNode fuel h (BITS * (j + 1)) parentNode =
            pushTailF v tailNode (j + 1) h (BITS * (j + 1)) parentNode) ∧
        (∀ (t : TA) (tailNode : Nat) (h : Heap Nat) (parentNode : Ptr),
          tpushTailR t tailNode fuel h (BITS * (j + 1)) parentNode ≠ Res.outOfFuel ∧
          tpushTailF t tailNode fuel h (BITS * (j + 1)) parentNode =
            (tpushTailR t tailNode fuel h (BITS * (j + 1)) parentNode).toOption ∧
          tpushTailF t tailNode fuel h (BITS * (j + 1)) parentNode =
            tpushTailF t tailNode (j + 1) h (BITS * (j + 1)) parentNode) ∧
        (∀ (v : A) (h : Heap Nat) (node : N Nat),
          popTailR v fuel h (BITS * (j + 1)) node ≠ Res.outOfFuel ∧
          popTailF v fuel h (BITS * (j + 1)) node =
            (popTailR v fuel h (BITS * (j + 1)) node).toOption ∧
          popTailF v fuel h (BITS * (j + 1)) node = popTailF v (j + 1) h (BITS * (j + 1)) node) ∧
        (∀ (t : TA) (h : Heap Nat) (node : Ptr),
          tpopTailR t fuel h (BITS * (j + 1)) node ≠ Res.outOfFuel ∧
          tpopTailF t fuel h (BITS * (j + 1)) node =
            (tpopTailR t fuel h (BITS * (j + 1)) node).toOption ∧
          tpopTailF t fuel h (BITS * (j + 1)) node =
            tpopTailF t (j + 1) h (BITS * (j + 1)) node)) :=
  have hr : Reachable Nat big1057.2 := Reachable.of_pushes_only (List.range 1057) Reachable.empty
    big1057_rep.1
  ⟨hr, big1057_rep.2.2.2.2.2.2, shift_invariant_and_termination big1057.2 hr⟩

/-- C35, as amended: for every vector `a` reachable from the empty vector through
persistent `push` and `pop`, with `push` never applied to a vector of
`2 ^ 32 - 1` elements, the shift of `a` is the shift of the vector built by
`_end` pushes from the empty vector (whatever the elements pushed); and a `pop`
on `a` that returns `a'`, while the shift of `a` is above `BITS` and the trie of
`a'` holds no more than the first child of the root of `a` has room for
(`tailoff(a') <= BRANCHES ^ (shift/BITS)`), gives `a'` the shift
`shift - BITS` and as its root the node in slot 0 of the root of `a`. -/
theorem minimal_height (h : Heap α) (a : A) (hr : PushPop α h a) :
    (∀ xs : List α, xs.length = a._end →
      ∃ hs w, A.pushAll heap0 A.empty xs = some (hs, w) ∧ w._end = a._end ∧
        w._shift = a._shift) ∧
    (∀ h' a', A.pop h a = some (h', a') → BITS < a._shift →
      tailoff a' ≤ BRANCHES ^ (a._shift / BITS) →
      a'._shift = a._shift - BITS ∧
      ∃ rn s0, root h a = some rn ∧ rn.slot 0 = some s0 ∧ s0.toN = some a'._root) := by
  have hm := hr.minimal
  constructor
  · intro xs hxs
    obtain ⟨hst, hU, k, hsh, hcap, hmin, -⟩ := hm
    obtain ⟨hs, w, e, hp, -, -⟩ := PRep.pushAll [] xs (PRep.empty (α := α)) rfl
      (by rw [List.nil_append, hxs]; exact hU)
    rw [List.nil_append] at hp
    obtain ⟨k2, rp, tp, tn, S, r, -⟩ := hp
    have hwe : w._end = a._end := by rw [r.hend, hxs]
    have hwt : tailoff w = toff a._end := by
      rw [tailoff_toff w (by rw [hwe]; exact hU), hwe]
    have hk : k2 = k := height_unique (by rw [← hwt]; exact r.hcap)
      (fun hk => by rw [← hwt]; exact r.hmin hk) hcap hmin
    exact ⟨hs, w, e, hwe, by rw [r.hshift, hsh, hk]⟩
  · intro h' a' e hb hle
    unfold A.pop at e
    by_cases c : a.size ≠ 0
    · rw [if_pos c] at e
      have hne : a._end ≠ 0 := fun hc => c (by rw [A.size, hm.1, hc]; rfl)
      obtain ⟨hm', hend, hcol⟩ := pop_minimal hm hne e
      have hend' : a'._end = a._end - 1 := hend
      rw [tailoff_toff a' hm'.2.1, hend', BRANCHES_eq] at hle
      exact hcol hb hle
    · rw [if_neg c] at e
      cases e
      exfalso
      obtain ⟨hst, hU, k, hsh, hcap, hmin, -⟩ := hm
      have hz : a._end = 0 := by
        by_contra hz
        apply c
        rw [A.size, hst, sub32_eq (Nat.zero_le _) hU]
        exact hz
      have hk : 0 < k := by rw [hsh] at hb; simp only [BITS_eq] at hb; omega
      have := hmin hk
      rw [hz] at this
      have h0 : toff 0 = 0 := rfl
      omega

/-- C35, an instance of the amended statement: the vector `big1057` of the pushes
0, ..., 1056. It is reached through 1057 calls of `push`, its shift is 10, and
its `pop` returns a vector whose trie holds the 1024 elements that the first
child of the root has room for: that `pop` lowers the shift to 5 and takes the
first child of the root as the new root. -/
theorem minimal_height_witness :
    PushPop Nat big1057.1 big1057.2 ∧ big1057.2._end = 1057 ∧ big1057.2._shift = 10 ∧
    (∃ h' a', A.pop big1057.1 big1057.2 = some (h', a') ∧ BITS < big1057.2._shift ∧
      tailoff a' ≤ BRANCHES ^ (big1057.2._shift / BITS) ∧ a'._shift = 5 ∧
      ∃ rn s0, root big1057.1 big1057.2 = some rn ∧ rn.slot 0 = some s0 ∧
        s0.toN = some a'._root) ∧
    (∀ xs : List Nat, xs.length = big1057.2._end →
      ∃ hs w, A.pushAll heap0 A.empty xs = some (hs, w) ∧ w._end = big1057.2._end ∧
        w._shift = big1057.2._shift) ∧
    (∀ h' a', A.pop big1057.1 big1057.2 = some (h', a') → BITS < big1057.2._shift →
      tailoff a' ≤ BRANCHES ^ (big1057.2._shift / BITS) →
      a'._shift = big1057.2._shift - BITS ∧
      ∃ rn s0, root big1057.1 big1057.2 = some rn ∧ rn.slot 0 = some s0 ∧
        s0.toN = some a'._root) := by
  obtain ⟨-, hp, hs, f, hr, hend, hsh⟩ := big1057_rep
  have hm := minimal_height big1057.1 big1057.2 hr
  have hrange : List.range 1057 = List.range 1056 ++ [1056] := List.range_succ 1056
  rw [hrange] at hp
  obtain ⟨h', a', e, hp', -, -⟩ := pop_step (Or.inl hp) hs f
  have hend' : a'._end = 1056 := by
    have := (readable_of_rep hp').1
    rw [this, List.length_range]
  have ht : tailoff a' = 1024 := by
    rw [tailoff_toff a' (by rw [hend']; decide), hend']
    rfl
  have hb : BITS < big1057.2._shift := by rw [hsh]; decide
  have hle : tailoff a' ≤ BRANCHES ^ (big1057.2._shift / BITS) := by
    rw [ht, hsh]
    decide
  obtain ⟨hs', hroot⟩ := hm.2 h' a' e hb hle
  exact ⟨hr, hend, hsh, ⟨h', a', e, hb, hle, by rw [hs', hsh]; rfl, hroot⟩, hm⟩

/-- C35 fails without the bound: the vector `v` of `2 ^ 32` pushes (here of the
value 0) is reachable through `push`, its `_end` has wrapped around to 0 and its
shift is 30, while the vector built by `_end = 0` pushes from the empty vector
is the empty vector, whose shift is 5. -/
theorem shift_after_wrap_is_not_minimal :
    ∃ h v, A.pushAll (heap0 : Heap Nat) A.empty (List.replicate 4294967296 0) = some (h, v) ∧
      v._end = 0 ∧ v._shift = 30 ∧
      A.pushAll (heap0 : Heap Nat) A.empty (List.replicate v._end 0) = some (heap0, A.empty) ∧
      A.empty._shift = 5 := by
  have hrep : List.replicate 4294967296 (0 : Nat) = List.replicate 4294967295 0 ++ [0] :=
    List.replicate_succ' 4294967295 0
  obtain ⟨h, v, e, hp, -, hs⟩ := PRep.pushAll [] (List.replicate 4294967295 (0 : Nat))
    PRep.empty rfl (by rw [List.nil_append, List.length_replicate]; decide)
  rw [List.nil_append] at hp
  obtain ⟨h', v', e', hend, hshift⟩ := hp.push_wrap_shift 0 (List.length_replicate _ _)
  refine ⟨h', v', ?_, hend, hshift, ?_, rfl⟩
  · rw [hrep, A.pushAll_append, e]
    exact e'
  · rw [hend]
    rfl

/-- C8, evaluated at a failing input. The vector `u` is made by the pushes of
0, ..., 32, then `pop`, `asTransient` (thread 7), `push(77)` and
`makePersistent`: it has size 33 and `get` reads 0, ..., 31, 77. Its root is the
copy of `EMPTY_NODE`, of length 0, in whose slot 0 the transient push stored the
leaf. `w = u.asTransient().makePersistent()` is not nil and has size 33, but
`createTransient` copies `root->length = 0` slots of that root: `w` has no leaf,
`w.get(i)` meets a null pointer for every `i < 32`, and only `w.get(32)`, which
is in the tail, is read. -/
theorem freeze_of_transient_loses_leaf :
    (do
      let (h1, v) ← A.pushAll (heap0 : Heap Nat) A.empty (List.range 33)
      let (h2, p) ← A.pop h1 v
      let (h3, t) ← A.asTransient 7 h2 p
      let r ← TA.push h3 t 77
      let (h4, ou) ← TA.makePersistent r.heap r.hdr
      let u ← ou
      let (h5, t2) ← A.asTransient 7 h4 u
      let (h6, ow) ← TA.makePersistent h5 t2
      let w ← ow
      some (A.toList h4 u, A.toList h6 w, [u.size, w.size])) =
      some ((List.range 32).map some ++ [some 77], List.replicate 32 none ++ [some 77],
        [33, 33]) := by
  decide!

/-- C12, evaluated at a failing input. With `u` as above (the pushes of
0, ..., 32, `pop`, `asTransient`, `push(77)`, `makePersistent`), the transient
`t = u.asTransient()` is editable and has size 33, its last element is alone in
the tail, and its root, the copy of `root->length = 0` slots of the root of `u`,
has no leaf. `t.pop()` has to refill the tail from the trie: `editableSlotsFor`
reads the null slot 0 of the root and `ensureEditable` dereferences it. -/
theorem transient_pop_dereferences_null :
    (do
      let (h1, v) ← A.pushAll (heap0 : Heap Nat) A.empty (List.range 33)
      let (h2, p) ← A.pop h1 v
      let (h3, t) ← A.asTransient 7 h2 p
      let r ← TA.push h3 t 77
      let (h4, ou) ← TA.makePersistent r.heap r.hdr
      let u ← ou
      let (h5, t2) ← A.asTransient 7 h4 u
      some (isEditable h5 t2, A.size t2, TA.get h5 t2 32, TA.pop h5 t2)) =
      some (some true, 33, some 77, none) := by
  decide!

/-- C21, evaluated at two failing inputs. First, the empty sequence:
`[1 2 3 4 5].splice(0, 3, [])` takes the remainder `b = slice(a, 3, 5)`, a
header of its own, and `pushAllFn(b, next)` returns `b.ptr()` unchanged; when the
local `ref<A> b` goes out of scope the header is freed, and the caller receives
a dangling pointer. Second, the vector `u` of size 33 made by the pushes of
0, ..., 32, `pop`, `asTransient`, `push(77)`, `makePersistent`, whose elements
are 0, ..., 31, 77: the remainder of `u.splice(0, 1, [5])` shares the root of
`u`, of length 0, and the transient of `pushAllFn` copies none of its slots: the
result has size 33, but `get(0)`, ..., `get(30)` meet a null pointer, where the
claim has `u.get(1) = 1`, ..., `u.get(31) = 31`. -/
theorem prefix_splice_fails :
    (do
      let (h, v) ← A.pushAll (heap0 : Heap Nat) A.empty [1, 2, 3, 4, 5]
      some (A.splice 7 h v 0 3 [])) = some none ∧
    (do
      let (h1, v) ← A.pushAll (heap0 : Heap Nat) A.empty (List.range 33)
      let (h2, p) ← A.pop h1 v
      let (h3, t) ← A.asTransient 7 h2 p
      let r ← TA.push h3 t 77
      let (h4, ou) ← TA.makePersistent r.heap r.hdr
      let u ← ou
      let (h5, ow) ← A.splice 7 h4 u 0 1 [5]
      let w ← ow
      some (A.toList h5 w, [A.get h4 u 1, A.get h4 u 31, A.get h4 u 32], w.size)) =
      some (List.replicate 31 none ++ [some 77, some 5], [some 1, some 31, some 77], 33) := by
  constructor <;> decide!

end immutable
